import Mathlib

/-!
# go-tilt: the TiltVM execution core and the proof-of-work sealer

A shallow embedding of `core/vm` (instructions.go, tiltvm.go, interpreter.go, common.go)
and of `consensus/tilthash` (sealer.go, tilthash.go), and theorems about it.  Go's
`*big.Int` is `Int`, `uint64` is `Nat` reduced modulo `2^64` where the code can wrap, a Go
`error` is an `Option` of `VMError` or `DumpError` (`none` is `nil`), and a Go panic is
`Option.none` of the whole operation.  What the engine asks of the file system is kept as
a list of events.
-/

namespace GoTilt

/-! ## Word arithmetic (common/math) -/

/-- Modelled from the spec: `math.U256` of common/math/big.go, whose file is not among the
sources.  The spec says every result is "reduced modulo 2^256"; on a `big.Int` that is the
two's-complement mask `x & (2^256 - 1)`, i.e. the non-negative remainder. -/
def U256 (x : Int) : Int := x % 2 ^ 256

/-- Modelled from the spec: `math.S256` of common/math/big.go, whose file is not among the
sources.  "Signed operations reinterpret as two's-complement": a word below `2^255` is
itself, any other word `x` is `x - 2^256`. -/
def S256 (x : Int) : Int := if x < 2 ^ 255 then x else x - 2 ^ 256

/-! ## Operand stack (stack.go) -/

/-- Modelled from the spec: the operand `Stack` of stack.go, whose file is not among the
sources: an "ordered sequence of Words" with push/pop.  The head of `data` is the top of
the stack. -/
structure Stack where
  data : List Int
deriving DecidableEq, Repr

/-- Modelled from the spec: `Stack.push` of stack.go (not among the sources). -/
def Stack.push (st : Stack) (d : Int) : Stack := ⟨d :: st.data⟩

/-- Modelled from the spec: `Stack.pop` of stack.go (not among the sources).  Popping an
empty stack indexes the slice out of range, a Go panic: `none`. -/
def Stack.pop (st : Stack) : Option (Int × Stack) :=
  match st.data with
  | [] => none
  | d :: rest => some (d, ⟨rest⟩)

/-! ## Arithmetic instructions (instructions.go)

Each execution function returns `(nil, nil)`; the embedding returns the stack it leaves. -/

/-- `opAdd` of instructions.go:32. -/
def opAdd (stack : Stack) : Option Stack := do
  let (x, stack) ← stack.pop
  let (y, stack) ← stack.pop
  pure (stack.push (U256 (x + y)))

/-- `opSub` of instructions.go:41. -/
def opSub (stack : Stack) : Option Stack := do
  let (x, stack) ← stack.pop
  let (y, stack) ← stack.pop
  pure (stack.push (U256 (x - y)))

/-- `opMul` of instructions.go:50. -/
def opMul (stack : Stack) : Option Stack := do
  let (x, stack) ← stack.pop
  let (y, stack) ← stack.pop
  pure (stack.push (U256 (x * y)))

/-- `opDiv` of instructions.go:59.  `big.Int.Div` is Euclidean division, which is `/` on
`Int`. -/
def opDiv (stack : Stack) : Option Stack := do
  let (x, stack) ← stack.pop
  let (y, stack) ← stack.pop
  if y.sign ≠ 0 then
    pure (stack.push (U256 (x / y)))
  else
    pure (stack.push 0)

/-- `opSdiv` of instructions.go:72.  The sign `n` is taken from the product `x * y`. -/
def opSdiv (stack : Stack) : Option Stack := do
  let (x, stack) ← stack.pop
  let (y, stack) ← stack.pop
  let x := S256 x
  let y := S256 y
  if y.sign = 0 then
    pure (stack.push 0)
  else
    let n : Int := if (x * y).sign < 0 then -1 else 1
    let res := |x| / |y|
    let res := res * n
    pure (stack.push (U256 res))

/-- `opMod` of instructions.go:94.  `big.Int.Mod` is the Euclidean modulus, which is `%`
on `Int`. -/
def opMod (stack : Stack) : Option Stack := do
  let (x, stack) ← stack.pop
  let (y, stack) ← stack.pop
  if y.sign = 0 then
    pure (stack.push 0)
  else
    pure (stack.push (U256 (x % y)))

/-- `opSmod` of instructions.go:105.  The sign `n` is taken from the dividend `x`. -/
def opSmod (stack : Stack) : Option Stack := do
  let (x, stack) ← stack.pop
  let (y, stack) ← stack.pop
  let x := S256 x
  let y := S256 y
  if y.sign = 0 then
    pure (stack.push 0)
  else
    let n : Int := if x.sign < 0 then -1 else 1
    let res := |x| % |y|
    let res := res * n
    pure (stack.push (U256 res))

/-! ## Frames, state and environment (contract.go, interface.go, tiltvm.go) -/

/-- A `common.Address`, a 160-bit identifier; `common.Address{}` is `0`. -/
abbrev Address := Nat

/-- A `common.Hash`, a 256-bit digest. -/
abbrev Hash := Nat

/-- A Go `[]byte`; the `nil` slice is `[]`. -/
abbrev Bytes := List UInt8

/-- Modelled from the spec: the error values of errors.go, whose file is not among the
sources.  The constructors are the error kinds of the spec's error table, under the names
tiltvm.go and interpreter.go use where they name them; `other` stands for any further
error value (a Go `error` is an open type). -/
inductive VMError
  | ErrOutOfGas
  | ErrCodeStoreOutOfGas
  | ErrDepth
  | ErrInsufficientBalance
  | errGasUintOverflow
  | errMaxCodeSizeExceeded
  | invalidOpcode (op : Nat)
  | invalidJumpdest (pos : Int)
  | stackUnderflow
  | stackOverflow
  | other (tag : Nat)
deriving DecidableEq, Repr

/-- Modelled from the spec: `params.CallCreateDepth` of params/protocol_params.go, whose
file is not among the sources; the spec gives the depth limit as 1024. -/
def CallCreateDepth : Nat := 1024

/-- Modelled from the spec: the `Contract` frame of contract.go, whose file is not among
the sources: caller address, self, input, code, code hash, optional code address, value
(`none` is a nil `*big.Int`), remaining gas, and the delegate mark. -/
structure Contract where
  CallerAddress : Address
  self : Address
  Code : Bytes
  CodeHash : Hash
  CodeAddr : Option Address
  Input : Bytes
  Gas : Nat
  value : Option Int
  DelegateCall : Bool
deriving DecidableEq, Repr

/-- Modelled from the spec: a `ContractRef` of contract.go (not among the sources): either
an `AccountRef` or the `*Contract` of the calling frame. -/
inductive ContractRef
  | account (addr : Address)
  | contract (c : Contract)
deriving DecidableEq, Repr

/-- Modelled from the spec: `ContractRef.Address()`. -/
def ContractRef.Address : ContractRef → Address
  | .account addr => addr
  | .contract c => c.self

/-- Modelled from the spec: `NewContract(caller, self, value, gas)` "returns a frame with
code empty". -/
def NewContract (caller : ContractRef) (object : Address) (value : Option Int) (gas : Nat) :
    Contract :=
  { CallerAddress := caller.Address, self := object, Code := [], CodeHash := 0,
    CodeAddr := none, Input := [], Gas := gas, value := value, DelegateCall := false }

/-- Modelled from the spec: `Contract.SetCallCode(addr, codeHash, code)` "installs code". -/
def Contract.SetCallCode (c : Contract) (addr : Address) (hash : Hash) (code : Bytes) :
    Contract :=
  { c with Code := code, CodeHash := hash, CodeAddr := some addr }

/-- Modelled from the spec: `Contract.UseGas(n)` "deducts `n` if `remaining ≥ n` and
returns true, else leaves gas unchanged and returns false". -/
def Contract.UseGas (c : Contract) (gas : Nat) : Bool × Contract :=
  if c.Gas < gas then (false, c) else (true, { c with Gas := c.Gas - gas })

/-- Modelled from the spec: `Contract.AsDelegate()` "marks the frame so `CALLER`/`CALLVALUE`
return the caller's caller and caller's value".  The frame's caller reference is passed in;
a caller that is not a frame has no caller of its own (`none`). -/
def Contract.AsDelegate (c : Contract) (caller : ContractRef) : Option Contract :=
  match caller with
  | .account _ => none
  | .contract parent =>
    some { c with DelegateCall := true, CallerAddress := parent.CallerAddress,
                  value := parent.value }

/-- Modelled from the spec: the `StateDB` capability set of interface.go (not among the
sources), restricted to what tiltvm.go calls, over an implementation state `σ`.  A query
returns its answer, a mutation the next state; `Snapshot` returns the identifier and the
next state. -/
structure StateDBOps (σ : Type) where
  CreateAccount : σ → Address → σ
  GetNonce : σ → Address → Nat
  SetNonce : σ → Address → Nat → σ
  GetCodeHash : σ → Address → Hash
  GetCode : σ → Address → Bytes
  SetCode : σ → Address → Bytes → σ
  Exist : σ → Address → Bool
  RevertToSnapshot : σ → Int → σ
  Snapshot : σ → Int × σ

/-- What a `TiltVM` is built from and never changes: the `StateDB` implementation, the
`Context` functions `CanTransfer` and `Transfer`, `vmConfig.NoRecursion`, and the parts the
code takes from packages that are not among the sources: `crypto.CreateAddress`,
`crypto.Keccak256Hash`, membership in `PrecompiledContracts`, and the constants
`params.MaxCodeSize`, `params.CreateDataGas` and `params.CallStipend`. -/
structure Env (σ : Type) where
  db : StateDBOps σ
  CanTransfer : σ → Address → Int → Bool
  Transfer : σ → Address → Address → Int → σ
  NoRecursion : Bool
  CreateAddress : Address → Nat → Address
  Keccak256Hash : Bytes → Hash
  isPrecompiled : Address → Bool
  MaxCodeSize : Nat
  CreateDataGas : Nat
  CallStipend : Nat

/-- The mutable part of `TiltVM` (tiltvm.go:61): the state behind `StateDB` and `depth`. -/
structure TiltVM (σ : Type) where
  StateDB : σ
  depth : Int

/-- What `Interpreter.Run` leaves: `(ret, err)`, the frame (whose `Gas` the run spends) and
the environment. -/
structure RunOut (σ : Type) where
  ret : Bytes
  err : Option VMError
  contract : Contract
  vm : TiltVM σ

/-- The part of `Interpreter.Run` after `depth++`: precompile dispatch, the empty-code
return and the loop over the jump table (jump_table.go is not among the sources). -/
abbrev RunBody (σ : Type) := TiltVM σ → Contract → Bytes → RunOut σ

/-- `Interpreter.Run` of interpreter.go:83: `depth++` on entry (line 84), the deferred
`depth--` on every return (line 85), and the body in between. -/
def Interpreter.Run {σ : Type} (body : RunBody σ) (vm : TiltVM σ) (contract : Contract)
    (input : Bytes) : RunOut σ :=
  let vm := { vm with depth := vm.depth + 1 }
  let out := body vm contract input
  { out with vm := { out.vm with depth := out.vm.depth - 1 } }

/-- What `Call`, `CallCode` and `DelegateCall` return, `(ret, leftOverGas, err)`, and the
environment they leave. -/
structure CallResult (σ : Type) where
  ret : Bytes
  leftOverGas : Nat
  err : Option VMError
  vm : TiltVM σ

/-- What `Create` returns, `(ret, contractAddr, leftOverGas, err)`, and the environment it
leaves. -/
structure CreateResult (σ : Type) where
  ret : Bytes
  contractAddr : Address
  leftOverGas : Nat
  err : Option VMError
  vm : TiltVM σ

/-- `TiltVM.Call` of tiltvm.go:104. -/
def Call {σ : Type} (env : Env σ) (body : RunBody σ) (vm : TiltVM σ) (caller : ContractRef)
    (addr : Address) (input : Bytes) (gas : Nat) (value : Int) : CallResult σ :=
  if env.NoRecursion ∧ vm.depth > 0 then
    ⟨[], gas, none, vm⟩
  else if vm.depth > (CallCreateDepth : Int) then
    ⟨[], gas, some .ErrDepth, vm⟩
  else if ¬ env.CanTransfer vm.StateDB caller.Address value then
    ⟨[], gas, some .ErrInsufficientBalance, vm⟩
  else
    let to_ := addr
    let snap := env.db.Snapshot vm.StateDB
    let snapshot := snap.1
    let db := snap.2
    if ¬ env.db.Exist db addr ∧ (env.isPrecompiled addr = false ∧ value.sign = 0) then
      ⟨[], gas, none, { vm with StateDB := db }⟩
    else
      let db := if ¬ env.db.Exist db addr then env.db.CreateAccount db addr else db
      let db := env.Transfer db caller.Address to_ value
      let contract := NewContract caller to_ (some value) gas
      let contract :=
        contract.SetCallCode addr (env.db.GetCodeHash db addr) (env.db.GetCode db addr)
      let out := Interpreter.Run body { vm with StateDB := db } contract input
      if out.err ≠ none then
        let contract := (out.contract.UseGas out.contract.Gas).2
        let db := env.db.RevertToSnapshot out.vm.StateDB snapshot
        ⟨out.ret, contract.Gas, out.err, { out.vm with StateDB := db }⟩
      else
        ⟨out.ret, out.contract.Gas, out.err, out.vm⟩

/-- `TiltVM.CallCode` of tiltvm.go:154. -/
def CallCode {σ : Type} (env : Env σ) (body : RunBody σ) (vm : TiltVM σ)
    (caller : ContractRef) (addr : Address) (input : Bytes) (gas : Nat) (value : Int) :
    CallResult σ :=
  if env.NoRecursion ∧ vm.depth > 0 then
    ⟨[], gas, none, vm⟩
  else if vm.depth > (CallCreateDepth : Int) then
    ⟨[], gas, some .ErrDepth, vm⟩
  else if ¬ env.CanTransfer vm.StateDB caller.Address value then
    ⟨[], gas, some .ErrInsufficientBalance, vm⟩
  else
    let snap := env.db.Snapshot vm.StateDB
    let snapshot := snap.1
    let db := snap.2
    let to_ := caller.Address
    let contract := NewContract caller to_ (some value) gas
    let contract :=
      contract.SetCallCode addr (env.db.GetCodeHash db addr) (env.db.GetCode db addr)
    let out := Interpreter.Run body { vm with StateDB := db } contract input
    if out.err ≠ none then
      let contract := (out.contract.UseGas out.contract.Gas).2
      let db := env.db.RevertToSnapshot out.vm.StateDB snapshot
      ⟨out.ret, contract.Gas, out.err, { out.vm with StateDB := db }⟩
    else
      ⟨out.ret, out.contract.Gas, out.err, out.vm⟩

/-- `TiltVM.DelegateCall` of tiltvm.go:193.  `none` is the panic of `AsDelegate` on a caller
that is not a frame. -/
def DelegateCall {σ : Type} (env : Env σ) (body : RunBody σ) (vm : TiltVM σ)
    (caller : ContractRef) (addr : Address) (input : Bytes) (gas : Nat) :
    Option (CallResult σ) :=
  if env.NoRecursion ∧ vm.depth > 0 then
    some ⟨[], gas, none, vm⟩
  else if vm.depth > (CallCreateDepth : Int) then
    some ⟨[], gas, some .ErrDepth, vm⟩
  else
    let snap := env.db.Snapshot vm.StateDB
    let snapshot := snap.1
    let db := snap.2
    let to_ := caller.Address
    match (NewContract caller to_ none gas).AsDelegate caller with
    | none => none
    | some contract =>
      let contract :=
        contract.SetCallCode addr (env.db.GetCodeHash db addr) (env.db.GetCode db addr)
      let out := Interpreter.Run body { vm with StateDB := db } contract input
      if out.err ≠ none then
        let contract := (out.contract.UseGas out.contract.Gas).2
        let db := env.db.RevertToSnapshot out.vm.StateDB snapshot
        some ⟨out.ret, contract.Gas, out.err, { out.vm with StateDB := db }⟩
      else
        some ⟨out.ret, out.contract.Gas, out.err, out.vm⟩

/-- `TiltVM.Create` of tiltvm.go:224.  `nonce + 1` and `uint64(len(ret)) * CreateDataGas`
are `uint64` arithmetic. -/
def Create {σ : Type} (env : Env σ) (body : RunBody σ) (vm : TiltVM σ) (caller : ContractRef)
    (code : Bytes) (gas : Nat) (value : Int) : CreateResult σ :=
  if env.NoRecursion ∧ vm.depth > 0 then
    ⟨[], 0, gas, none, vm⟩
  else if vm.depth > (CallCreateDepth : Int) then
    ⟨[], 0, gas, some .ErrDepth, vm⟩
  else if ¬ env.CanTransfer vm.StateDB caller.Address value then
    ⟨[], 0, gas, some .ErrInsufficientBalance, vm⟩
  else
    let nonce := env.db.GetNonce vm.StateDB caller.Address
    let db := env.db.SetNonce vm.StateDB caller.Address ((nonce + 1) % 2 ^ 64)
    let snap := env.db.Snapshot db
    let snapshot := snap.1
    let db := snap.2
    let contractAddr := env.CreateAddress caller.Address nonce
    let db := env.db.CreateAccount db contractAddr
    let db := env.db.SetNonce db contractAddr 1
    let db := env.Transfer db caller.Address contractAddr value
    let contract := NewContract caller contractAddr (some value) gas
    let contract := contract.SetCallCode contractAddr (env.Keccak256Hash code) code
    let out := Interpreter.Run body { vm with StateDB := db } contract []
    let maxCodeSizeExceeded : Bool := out.ret.length > env.MaxCodeSize
    let after : Option VMError × Contract × σ :=
      if out.err = none ∧ maxCodeSizeExceeded = false then
        let createDataGas := (out.ret.length * env.CreateDataGas) % 2 ^ 64
        let used := out.contract.UseGas createDataGas
        if used.1 = true then
          (none, used.2, env.db.SetCode out.vm.StateDB contractAddr out.ret)
        else
          (some .ErrCodeStoreOutOfGas, used.2, out.vm.StateDB)
      else
        (out.err, out.contract, out.vm.StateDB)
    let err := after.1
    let contract := after.2.1
    let db := after.2.2
    if maxCodeSizeExceeded = true ∨ (err ≠ none ∧ err ≠ some .ErrCodeStoreOutOfGas) then
      ⟨[], contractAddr, 0, err,
        { out.vm with StateDB := env.db.RevertToSnapshot db snapshot }⟩
    else
      let ret := if err ≠ none then [] else out.ret
      ⟨ret, contractAddr, contract.Gas, err, { out.vm with StateDB := db }⟩

/-! ## The CALL instruction (instructions.go) -/

/-- Go's `big.Int.Uint64`: the low 64 bits of the magnitude. -/
def Uint64 (x : Int) : Nat := x.natAbs % 2 ^ 64

/-- Go's `big.Int.Int64`: the low 64 bits of the magnitude read as an `int64`, negated
(with wrap-around) for a negative `x`. -/
def Int64 (x : Int) : Int :=
  let u : Int := ((x.natAbs % 2 ^ 64 : Nat) : Int)
  let v : Int := if u < 2 ^ 63 then u else u - 2 ^ 64
  if x < 0 then (if v = -(2 ^ 63) then v else -v) else v

/-- Modelled from the spec: `common.BigToAddress` of common/types.go (not among the
sources): an address is the "low 160 bits" of a word. -/
def BigToAddress (b : Int) : Address := (b % 2 ^ 160).toNat

/-- Modelled from the spec: the operations of `Memory` (memory.go is not among the
sources) that instructions.go and interpreter.go use, over an implementation state `μ`:
`Get(offset, size)`, `Set(offset, size, value)`, `NewMemory()` and `Resize(size)`. -/
structure MemoryOps (μ : Type) where
  Get : μ → Int → Int → Bytes
  Set : μ → Nat → Nat → Bytes → μ
  NewMemory : μ
  Resize : μ → Nat → μ

/-- What an execution function leaves when it returns `(nil, nil)`: the stack, the memory,
the calling frame and the environment. -/
structure OpOut (σ μ : Type) where
  stack : Stack
  memory : μ
  contract : Contract
  vm : TiltVM σ

/-- `opCall` of instructions.go:570.  `gas += params.CallStipend` and
`contract.Gas += returnGas` are `uint64` arithmetic. -/
def opCall {σ μ : Type} (env : Env σ) (mem : MemoryOps μ) (body : RunBody σ)
    (vm : TiltVM σ) (contract : Contract) (memory : μ) (stack : Stack) :
    Option (OpOut σ μ) := do
  let (gas, stack) ← stack.pop
  let gas := Uint64 gas
  let (addr, stack) ← stack.pop
  let (value, stack) ← stack.pop
  let value := U256 value
  let (inOffset, stack) ← stack.pop
  let (inSize, stack) ← stack.pop
  let (retOffset, stack) ← stack.pop
  let (retSize, stack) ← stack.pop
  let address := BigToAddress addr
  let args := mem.Get memory (Int64 inOffset) (Int64 inSize)
  let gas := if value.sign ≠ 0 then (gas + env.CallStipend) % 2 ^ 64 else gas
  let r := Call env body vm (.contract contract) address args gas value
  let stack := if r.err ≠ none then stack.push 0 else stack.push 1
  let memory :=
    if r.err ≠ none then memory else mem.Set memory (Uint64 retOffset) (Uint64 retSize) r.ret
  let contract := { contract with Gas := (contract.Gas + r.leftOverGas) % 2 ^ 64 }
  pure ⟨stack, memory, contract, r.vm⟩

/-! ## The depth counter -/

/-- The two events that change `TiltVM.depth`: a frame is entered (a `Call`, `CallCode`,
`DelegateCall` or `Create` has passed its depth guard and `Interpreter.Run` executes
`depth++`, interpreter.go:84) and a frame is left (the deferred `depth--`,
interpreter.go:85). -/
inductive FrameEvent
  | enter
  | leave
deriving DecidableEq, Repr

/-- One event on the depth counter.  `enter` is possible when the guard
`depth > CallCreateDepth` (tiltvm.go:111, 161, 200, 231) does not reject the call, `leave`
when a frame is open; `none` means the event does not happen. -/
def depthStep (depth : Int) : FrameEvent → Option Int
  | .enter => if depth > (CallCreateDepth : Int) then none else some (depth + 1)
  | .leave => if depth > 0 then some (depth - 1) else none

/-- The depth counter after a sequence of events, from the given depth. -/
def depthAfter (depth : Int) : List FrameEvent → Option Int
  | [] => some depth
  | e :: es => (depthStep depth e).bind (fun d => depthAfter d es)

/-! ## More instructions (instructions.go) -/

/-- `opSignExtend` of instructions.go:136.  `bit` is `uint64` arithmetic; `mask` is
`2^bit - 1`, whose `Not` is `-2^bit`; `Or`, `And` and `Bit` are the two's-complement
operations of `big.Int`. -/
def opSignExtend (stack : Stack) : Option Stack := do
  let (back, stack) ← stack.pop
  if back < 31 then
    let bit := (Uint64 back * 8 + 7) % 2 ^ 64
    let (num, stack) ← stack.pop
    let mask : Int := 2 ^ bit - 1
    let num := if num.testBit bit then Int.lor num (Int.lnot mask) else Int.land num mask
    pure (stack.push (U256 num))
  else
    pure stack

/-- `opBlockhash` of instructions.go:411.  `BlockNumber` and `GetHash` are the fields of
the `Context`; `Hash.Big()` is the number the hash stands for. -/
def opBlockhash (BlockNumber : Int) (GetHash : Nat → Hash) (stack : Stack) :
    Option Stack := do
  let (num, stack) ← stack.pop
  let n := BlockNumber - 257
  if num > n ∧ num < BlockNumber then
    pure (stack.push ((GetHash (Uint64 num) : Nat) : Int))
  else
    pure (stack.push 0)

/-- What `opJump` and `opJumpi` leave: `(ret, err)`, the program counter and the stack. -/
structure JumpOut where
  ret : Bytes
  err : Option VMError
  pc : Nat
  stack : Stack
deriving DecidableEq, Repr

/-- `opJump` of instructions.go:496.  `has` is `contract.jumpdests.has` (analysis.go is
not among the sources). -/
def opJump (has : Hash → Bytes → Int → Bool) (pc : Nat) (contract : Contract)
    (stack : Stack) : Option JumpOut := do
  let (pos, stack) ← stack.pop
  if ¬ has contract.CodeHash contract.Code pos then
    pure ⟨[], some (.invalidJumpdest pos), pc, stack⟩
  else
    pure ⟨[], none, Uint64 pos, stack⟩

/-- `opJumpi` of instructions.go:506.  `*pc++` is `uint64` arithmetic. -/
def opJumpi (has : Hash → Bytes → Int → Bool) (pc : Nat) (contract : Contract)
    (stack : Stack) : Option JumpOut := do
  let (pos, stack) ← stack.pop
  let (cond, stack) ← stack.pop
  if cond.sign ≠ 0 then
    if ¬ has contract.CodeHash contract.Code pos then
      pure ⟨[], some (.invalidJumpdest pos), pc, stack⟩
    else
      pure ⟨[], none, Uint64 pos, stack⟩
  else
    pure ⟨[], none, (pc + 1) % 2 ^ 64, stack⟩

/-- `opCreate` of instructions.go:541.  `gas -= gas / 64` cannot wrap;
`contract.Gas += returnGas` is `uint64` arithmetic; `addr.Big()` is the number the address
stands for. -/
def opCreate {σ μ : Type} (env : Env σ) (mem : MemoryOps μ) (body : RunBody σ)
    (vm : TiltVM σ) (contract : Contract) (memory : μ) (stack : Stack) :
    Option (OpOut σ μ) := do
  let (value, stack) ← stack.pop
  let (offset, stack) ← stack.pop
  let (size, stack) ← stack.pop
  let input := mem.Get memory (Int64 offset) (Int64 size)
  let gas := contract.Gas
  let gas := gas - gas / 64
  let contract := (contract.UseGas gas).2
  let r := Create env body vm (.contract contract) input gas value
  let stack :=
    if r.err = some .ErrCodeStoreOutOfGas then stack.push 0
    else if r.err ≠ none ∧ r.err ≠ some .ErrCodeStoreOutOfGas then stack.push 0
    else stack.push ((r.contractAddr : Nat) : Int)
  let contract := { contract with Gas := (contract.Gas + r.leftOverGas) % 2 ^ 64 }
  pure ⟨stack, memory, contract, r.vm⟩

/-! ## Helpers of common.go -/

/-- Modelled from the spec: `math.BigMin` of common/math/big.go (not among the sources):
the smaller of two integers. -/
def BigMin (x y : Int) : Int := if x > y then y else x

/-- Modelled from the spec: `common.RightPadBytes` of common/bytes.go (not among the
sources): the slice itself when it has `l` bytes or more, else the slice followed by zero
bytes up to `l` bytes; `getData` is documented to pad "up to size with zero's". -/
def RightPadBytes (slice : Bytes) (l : Int) : Bytes :=
  if l ≤ (slice.length : Int) then slice
  else slice ++ List.replicate (l.toNat - slice.length) 0

/-- Go's conversion `int(u)` of a `uint64`. -/
def intOfUint64 (u : Nat) : Int := if u < 2 ^ 63 then (u : Int) else (u : Int) - 2 ^ 64

/-- `getData` of common.go:35.  `none` is the panic of a slice expression out of range. -/
def getData (data : Bytes) (start size : Int) : Option Bytes :=
  let dlen : Int := (data.length : Int)
  let s := BigMin start dlen
  let e := BigMin (s + size) dlen
  if Uint64 s ≤ Uint64 e ∧ Uint64 e ≤ data.length then
    some (RightPadBytes ((data.drop (Uint64 s)).take (Uint64 e - Uint64 s))
      (intOfUint64 (Uint64 size)))
  else
    none

/-- Go's `big.Int.BitLen`: the length of the magnitude in bits. -/
def BitLen (v : Int) : Nat := Nat.size v.natAbs

/-- `bigUint64` of common.go:45. -/
def bigUint64 (v : Int) : Nat × Bool := (Uint64 v, decide (BitLen v > 64))

/-- Go's `math.MaxUint64`. -/
def MaxUint64 : Nat := 2 ^ 64 - 1

/-- `toWordSize` of common.go:52. -/
def toWordSize (size : Nat) : Nat :=
  if size > MaxUint64 - 31 then MaxUint64 / 32 + 1 else (size + 31) / 32

/-- Modelled from the spec: `math.SafeMul` of common/math/integer.go (not among the
sources): the `uint64` product and whether it overflowed ("reject on 64-bit overflow"). -/
def SafeMul (x y : Nat) : Nat × Bool :=
  if x = 0 ∨ y = 0 then (0, false) else ((x * y) % 2 ^ 64, decide (y > MaxUint64 / x))

/-! ## The interpreter loop (interpreter.go) -/

/-- Modelled from the spec: `Contract.GetOp` of contract.go (not among the sources): the
byte of the code at `n`, "out-of-range as STOP", whose opcode is 0. -/
def Contract.GetOp (c : Contract) (n : Nat) : Nat := (c.Code.getD n 0).toNat

/-- What an execution function leaves: `(ret, err)` and everything it has pointers to, the
program counter, the environment, the frame, the memory and the stack. -/
structure ExecOut (σ μ : Type) where
  ret : Bytes
  err : Option VMError
  pc : Nat
  vm : TiltVM σ
  contract : Contract
  memory : μ
  stack : Stack

/-- Modelled from the spec: an entry of the jump table (jump_table.go is not among the
sources), with the fields the spec lists: `execute`, `gasCost` (the gas table is part of
it) returning `(cost, err)`, `validateStack`, `memorySize` (`none` is nil), `valid`,
`halts`, `jumps`, `writes`, `returns`. -/
structure operation (σ μ : Type) where
  execute : Nat → TiltVM σ → Contract → μ → Stack → ExecOut σ μ
  gasCost : TiltVM σ → Contract → Stack → μ → Nat → Nat × Option VMError
  validateStack : Stack → Option VMError
  memorySize : Option (Stack → Int)
  valid : Bool
  halts : Bool
  jumps : Bool
  writes : Bool
  returns : Bool

/-- What `Interpreter.Run` reads from the `Interpreter` and the packages that are not among
the sources: `cfg.JumpTable` by opcode, `cfg.DisableGasMetering`, and
`RunPrecompiledContract` (contracts.go) by the precompiled address, returning `(ret, err)`
and the frame it charged.  `cfg.Tracer`, which observes only, is left out. -/
structure Interpreter (σ μ : Type) where
  JumpTable : Nat → operation σ μ
  DisableGasMetering : Bool
  RunPrecompiledContract : Address → Bytes → Contract → Bytes × Option VMError × Contract

/-- The variables of the main loop of `Interpreter.Run` (interpreter.go:103-111) and what
they point to: `pc`, `mem`, `stack`, the frame and the environment. -/
structure RunState (σ μ : Type) where
  pc : Nat
  mem : μ
  stack : Stack
  contract : Contract
  vm : TiltVM σ

/-- The block of `Interpreter.Run` that computes `memorySize` (interpreter.go:149-162):
`0` for an operation without a memory-size function, else the required size rounded up to
words, or `errGasUintOverflow`. -/
def Interpreter.memorySize {σ μ : Type} (operation : operation σ μ) (stack : Stack) :
    Except VMError Nat :=
  match operation.memorySize with
  | none => .ok 0
  | some f =>
    let sized := bigUint64 (f stack)
    if sized.2 = true then .error .errGasUintOverflow
    else
      let mul := SafeMul (toWordSize sized.1) 32
      if mul.2 = true then .error .errGasUintOverflow else .ok mul.1

/-- How one iteration of the main loop ends: `Run` returns `(ret, err)`, or the loop goes
on; either way with the state the iteration leaves. -/
inductive StepResult (σ μ : Type)
  | done (ret : Bytes) (err : Option VMError) (s : RunState σ μ)
  | next (s : RunState σ μ)

/-- One iteration of the main loop of `Interpreter.Run`, after the test of the abort flag
(interpreter.go:132-196). -/
def Interpreter.step {σ μ : Type} (I : Interpreter σ μ) (mem : MemoryOps μ)
    (s : RunState σ μ) : StepResult σ μ :=
  let op := s.contract.GetOp s.pc
  let operation := I.JumpTable op
  if operation.valid = false then
    .done [] (some (.invalidOpcode op)) s
  else
    match operation.validateStack s.stack with
    | some err => .done [] (some err) s
    | none =>
      match Interpreter.memorySize operation s.stack with
      | .error err => .done [] (some err) s
      | .ok memorySize =>
        let charged : Option Contract :=
          if I.DisableGasMetering = false then
            let gas := operation.gasCost s.vm s.contract s.stack s.mem memorySize
            let used := s.contract.UseGas gas.1
            if gas.2 ≠ none ∨ used.1 = false then none else some used.2
          else
            some s.contract
        match charged with
        | none => .done [] (some .ErrOutOfGas) s
        | some contract =>
          let memory := if memorySize > 0 then mem.Resize s.mem memorySize else s.mem
          let r := operation.execute s.pc s.vm contract memory s.stack
          let s1 : RunState σ μ := ⟨r.pc, r.memory, r.stack, r.contract, r.vm⟩
          if r.err ≠ none then .done [] r.err s1
          else if operation.halts = true then .done r.ret none s1
          else if operation.jumps = false then .next { s1 with pc := (r.pc + 1) % 2 ^ 64 }
          else .next s1

/-- The main loop of `Interpreter.Run` (interpreter.go:131-198).  `abort k` is the value
`atomic.LoadInt32(&abort)` reads when the loop condition is evaluated for the `k`-th time
(another thread may set the flag at any moment); `none` means the fuel ran out. -/
def Interpreter.loop {σ μ : Type} (I : Interpreter σ μ) (mem : MemoryOps μ)
    (abort : Nat → Int) :
    Nat → Nat → RunState σ μ → Option (Bytes × Option VMError × RunState σ μ)
  | 0, _, _ => none
  | fuel + 1, k, s =>
    if abort k = 0 then
      match I.step mem s with
      | .done ret err s1 => some (ret, err, s1)
      | .next s1 => Interpreter.loop I mem abort fuel (k + 1) s1
    else
      some ([], none, s)

/-- `Interpreter.Run` after `depth++` (interpreter.go:87-199): the precompiled contracts,
the return for a frame without code, and the main loop on a new memory and stack. -/
def Interpreter.body {σ μ : Type} (I : Interpreter σ μ) (env : Env σ) (mem : MemoryOps μ)
    (abort : Nat → Int) (fuel : Nat) (vm : TiltVM σ) (contract : Contract) (input : Bytes) :
    Option (RunOut σ) :=
  match contract.CodeAddr.filter env.isPrecompiled with
  | some a =>
    let r := I.RunPrecompiledContract a input contract
    some ⟨r.1, r.2.1, r.2.2, vm⟩
  | none =>
    if contract.Code.length = 0 then
      some ⟨[], none, contract, vm⟩
    else
      let contract := { contract with Input := input }
      (Interpreter.loop I mem abort fuel 0 ⟨0, mem.NewMemory, ⟨[]⟩, contract, vm⟩).map
        (fun r => ⟨r.1, r.2.1, r.2.2.contract, r.2.2.vm⟩)

/-- `Interpreter.Run` of interpreter.go:83 with its loop: `depth++`, the body, and the
deferred `depth--`. -/
def Interpreter.RunFuel {σ μ : Type} (I : Interpreter σ μ) (env : Env σ)
    (mem : MemoryOps μ) (abort : Nat → Int) (fuel : Nat) (vm : TiltVM σ)
    (contract : Contract) (input : Bytes) : Option (RunOut σ) :=
  let vm := { vm with depth := vm.depth + 1 }
  (Interpreter.body I env mem abort fuel vm contract input).map
    (fun out => { out with vm := { out.vm with depth := out.vm.depth - 1 } })

/-! ## The proof-of-work sealer (consensus/tilthash) -/

/-- Go's `big.Int.Exp(x, y, m)`: `1` for `y ≤ 0`, else `x ^ y`, reduced modulo `|m|` unless
`m` is zero. -/
def bigExp (x y m : Int) : Int :=
  if y ≤ 0 then 1 else if m = 0 then x ^ y.toNat else (x ^ y.toNat) % |m|

/-- `maxUint256` of tilthash.go:45. -/
def maxUint256 : Int := bigExp 2 256 0

/-- Go's `big.Int.SetBytes`: the big-endian unsigned value of the bytes. -/
def SetBytes (b : Bytes) : Int := b.foldl (fun acc x => acc * 256 + (x.toNat : Int)) 0

/-- Modelled from the spec: a `types.Header` (core/types is not among the sources): the
fields `mine` reads and writes, the nonce being the `uint64` that `types.EncodeNonce`
encodes, and the other fields together as `rest`. -/
structure Header (ρ : Type) where
  Difficulty : Int
  Number : Int
  Nonce : Nat
  MixDigest : Hash
  rest : ρ
deriving DecidableEq, Repr

/-- Modelled from the spec: a `types.Block` (core/types is not among the sources): its
header and the rest of it; `WithSeal` replaces the header. -/
structure Block (ρ β : Type) where
  header : Header ρ
  body : β
deriving DecidableEq, Repr

/-- What `mine` takes from code that is not among the sources: `Header.HashNoNonce`
(core/types), `hashimotoFull` (algorithm.go) returning `(digest, result)`,
`common.BytesToHash`, and the dataset that `Tilthash.dataset` returns for a block number. -/
structure Miner (ρ D : Type) where
  HashNoNonce : Header ρ → Bytes
  hashimotoFull : D → Bytes → Nat → Bytes × Bytes
  BytesToHash : Bytes → Hash
  dataset : Nat → D

/-- How `mine` ends: aborted in the loop, or with a nonce found and the sealed block sent
on `found`, or found and discarded because `abort` won the final `select`. -/
inductive MineEnd (ρ β : Type)
  | aborted
  | found (block : Block ρ β)
  | discarded
deriving DecidableEq, Repr

/-- What `mine` leaves: how it ended and the values passed to `hashrate.Mark`, oldest
first. -/
structure MineOut (ρ β : Type) where
  ending : MineEnd ρ β
  marks : List Int
deriving DecidableEq, Repr

/-- The search target of `mine` (sealer.go:100): `maxUint256 / Difficulty`; `none` is the
panic of `big.Int.Div` by zero. -/
def mineTarget (Difficulty : Int) : Option Int :=
  if Difficulty = 0 then none else some (maxUint256 / Difficulty)

/-- The search loop of `mine` (sealer.go:110-148).  `abort k` tells whether the `abort`
channel is closed when the `select` of the `k`-th iteration polls it, `abortAtSend` whether
`abort` wins the final `select`; `nonce++` is `uint64` arithmetic; `none` means the fuel ran
out. -/
def mineLoop {ρ β D : Type} (M : Miner ρ D) (block : Block ρ β) (header : Header ρ)
    (hash : Bytes) (target : Int) (dataset : D) (abort : Nat → Bool) (abortAtSend : Bool) :
    Nat → Nat → Int → Nat → List Int → Option (MineOut ρ β)
  | 0, _, _, _, _ => none
  | fuel + 1, k, attempts, nonce, marks =>
    if abort k = true then
      some ⟨.aborted, marks ++ [attempts]⟩
    else
      let attempts := attempts + 1
      let marked := decide (attempts % 2 ^ 15 = 0)
      let marks := if marked = true then marks ++ [attempts] else marks
      let attempts := if marked = true then 0 else attempts
      let r := M.hashimotoFull dataset hash nonce
      if SetBytes r.2 ≤ target then
        let header := { header with Nonce := nonce, MixDigest := M.BytesToHash r.1 }
        if abortAtSend = true then some ⟨.discarded, marks⟩
        else some ⟨.found { block with header := header }, marks⟩
      else
        mineLoop M block header hash target dataset abort abortAtSend fuel (k + 1) attempts
          ((nonce + 1) % 2 ^ 64) marks

/-- `Tilthash.mine` of sealer.go:95, from the start nonce `seed`. -/
def mine {ρ β D : Type} (M : Miner ρ D) (block : Block ρ β) (seed : Nat)
    (abort : Nat → Bool) (abortAtSend : Bool) (fuel : Nat) : Option (MineOut ρ β) :=
  let header := block.header
  let hash := M.HashNoNonce header
  match mineTarget header.Difficulty with
  | none => none
  | some target =>
    let number := Uint64 header.Number
    let dataset := M.dataset number
    mineLoop M block header hash target dataset abort abortAtSend fuel 0 0 seed []

/-! ## Signed comparison (instructions.go) -/

/-- `opSlt` of instructions.go:186.  Both operands are read through `math.S256` when they
are popped, and the comparison applies `math.S256` to `y` once more. -/
def opSlt (stack : Stack) : Option Stack := do
  let (x, stack) ← stack.pop
  let (y, stack) ← stack.pop
  let x := S256 x
  let y := S256 y
  if x < S256 y then pure (stack.push 1) else pure (stack.push 0)

/-- `opSgt` of instructions.go:198. -/
def opSgt (stack : Stack) : Option Stack := do
  let (x, stack) ← stack.pop
  let (y, stack) ← stack.pop
  let x := S256 x
  let y := S256 y
  if x > y then pure (stack.push 1) else pure (stack.push 0)

/-! ## Cache and dataset dumps (consensus/tilthash/tilthash.go)

Packages `os`, `path/filepath`, `math/rand` and `mmap-go` are outside the repository.  A
call into them is recorded as an `FsEvent`, and what the call answers is given by a
`Host`, which may look at every event before it. -/

/-- An `*os.File`. -/
abbrev File := Nat

/-- A Go `error` of the dump code: `ErrInvalidDumpMagic` (tilthash.go:41) or an error
handed up from the operating system. -/
inductive DumpError
  | ErrInvalidDumpMagic
  | os (code : Nat)
deriving DecidableEq, Repr

/-- An `mmap.MMap`: the mapped bytes, with the address that tells two mappings apart. -/
structure MMap where
  addr : Nat
  data : Bytes
deriving DecidableEq, Repr

/-- One call into the operating system, or a write through a writable mapping. -/
inductive FsEvent
  | OpenFile (path : String)
  | Map (file : File) (write : Bool)
  | Unmap (mem : MMap)
  | Close (file : File)
  | MkdirAll (dir : String)
  | Create (path : String)
  | Truncate (file : File) (size : Int)
  | Store (mem : MMap) (buffer : List Nat)
  | Rename (oldpath newpath : String)
  | Remove (path : String)
deriving DecidableEq, Repr

/-- The machine the engine runs on: its byte order, the answers of its file system (each
may depend on the events so far), its random source, and the path functions. -/
structure Host where
  isLittleEndian : Bool
  OpenFile : List FsEvent → String → Except DumpError File
  Map : List FsEvent → File → Bool → Except DumpError MMap
  Unmap : List FsEvent → MMap → Option DumpError
  Close : List FsEvent → File → Option DumpError
  MkdirAll : List FsEvent → String → Option DumpError
  Create : List FsEvent → String → Except DumpError File
  Truncate : List FsEvent → File → Int → Option DumpError
  Rename : List FsEvent → String → String → Option DumpError
  randInt : List FsEvent → Nat
  Join : String → String → String
  Dir : String → String

/-- The constants and functions of algorithm.go, which is not among the sources:
`epochLength`, `cacheSize`, `datasetSize`, `seedHash`, and the two generators.  A generator
writes the words of the buffer it is handed: `generateCache n epoch seed i` is the word it
writes at index `i` of a buffer of `n` words. -/
structure Algorithm where
  epochLength : Nat
  cacheSize : Nat → Nat
  datasetSize : Nat → Nat
  seedHash : Nat → Bytes
  generateCache : Nat → Nat → Bytes → Nat → Nat
  generateDataset : Nat → Nat → List Nat → Nat → Nat

/-- Go's `int` and `int64` arithmetic: a result wraps to 64 bits. -/
def wrapInt (x : Int) : Int := (x + 2 ^ 63) % 2 ^ 64 - 2 ^ 63

/-- `algorithmRevision` of tilthash.go:51. -/
def algorithmRevision : Nat := 23

/-- `dumpMagic` of tilthash.go:54. -/
def dumpMagic : List Nat := [0xbaddcafe, 0xfee1dead]

/-- Go's `make([]uint32, n)`. -/
def make (n : Nat) : List Nat := List.replicate n 0

/-- A generator at work on `buffer`: every word is overwritten, the length stays. -/
def fill (buffer : List Nat) (word : Nat → Nat) : List Nat :=
  (List.range buffer.length).map word

/-- Go's `copy(dst, src)`: the first `min (len dst) (len src)` words of `dst` are
overwritten. -/
def copy (dst src : List Nat) : List Nat :=
  src.take dst.length ++ dst.drop src.length

/-- The `[]uint32` that `memoryMapFile` lays over mapped bytes (tilthash.go:97): four
bytes a word in the byte order of the host, `Len / 4` words. -/
def wordsOf (littleEndian : Bool) : Bytes → List Nat
  | a :: b :: c :: d :: rest =>
    (if littleEndian then a.toNat + 256 * (b.toNat + 256 * (c.toNat + 256 * d.toNat))
      else d.toNat + 256 * (c.toNat + 256 * (b.toNat + 256 * a.toNat)))
      :: wordsOf littleEndian rest
  | _ => []

/-- The four results of `memoryMap` and `memoryMapAndGenerate`, with the events so far. -/
structure MapOut where
  trace : List FsEvent
  file : Option File
  mem : Option MMap
  buffer : List Nat
  err : Option DumpError
deriving DecidableEq, Repr

/-- `memoryMapFile` of tilthash.go:86. -/
def memoryMapFile (H : Host) (t : List FsEvent) (file : File) (write : Bool) :
    List FsEvent × Except DumpError (MMap × List Nat) :=
  match H.Map t file write with
  | .error err => (t ++ [.Map file write], .error err)
  | .ok mem => (t ++ [.Map file write], .ok (mem, wordsOf H.isLittleEndian mem.data))

/-- The loop `for i, magic := range dumpMagic` of `memoryMap` (tilthash.go:75), from index
`i` on: `some true` when every word matches, `some false` at the first word that differs,
and `none` when `buffer[i]` is out of range, a Go panic. -/
def magicLoop (buffer : List Nat) : Nat → List Nat → Option Bool
  | _, [] => some true
  | i, magic :: rest =>
    match buffer.get? i with
    | none => none
    | some word => if word ≠ magic then some false else magicLoop buffer (i + 1) rest

/-- `memoryMap` of tilthash.go:65.  After the loop the buffer has the two header words, so
`buffer[len(dumpMagic):]` is in range. -/
def memoryMap (H : Host) (t : List FsEvent) (path : String) : Option MapOut :=
  match H.OpenFile t path with
  | .error err => some ⟨t ++ [.OpenFile path], none, none, [], some err⟩
  | .ok file =>
    match memoryMapFile H (t ++ [.OpenFile path]) file false with
    | (t, .error err) => some ⟨t ++ [.Close file], none, none, [], some err⟩
    | (t, .ok (mem, buffer)) =>
      match magicLoop buffer 0 dumpMagic with
      | none => none
      | some false =>
        some ⟨t ++ [.Unmap mem, .Close file], none, none, [], some .ErrInvalidDumpMagic⟩
      | some true => some ⟨t, some file, some mem, buffer.drop dumpMagic.length, none⟩

/-- `memoryMapAndGenerate` of tilthash.go:107.  `buffer[len(dumpMagic):]` on a mapping of
fewer than two words is a Go panic. -/
def memoryMapAndGenerate (H : Host) (t : List FsEvent) (path : String) (size : Nat)
    (generator : List Nat → List Nat) : Option MapOut :=
  match H.MkdirAll t (H.Dir path) with
  | some err => some ⟨t ++ [.MkdirAll (H.Dir path)], none, none, [], some err⟩
  | none =>
    let t := t ++ [.MkdirAll (H.Dir path)]
    let temp := path ++ "." ++ toString (H.randInt t)
    match H.Create t temp with
    | .error err => some ⟨t ++ [.Create temp], none, none, [], some err⟩
    | .ok dump =>
      let t := t ++ [.Create temp]
      let length := wrapInt ((dumpMagic.length : Int) * 4 + intOfUint64 size)
      match H.Truncate t dump length with
      | some err => some ⟨t ++ [.Truncate dump length], none, none, [], some err⟩
      | none =>
        match memoryMapFile H (t ++ [.Truncate dump length]) dump true with
        | (t, .error err) => some ⟨t ++ [.Close dump], none, none, [], some err⟩
        | (t, .ok (mem, buffer)) =>
          if buffer.length < dumpMagic.length then none
          else
            let buffer := copy buffer dumpMagic
            let data := generator (buffer.drop dumpMagic.length)
            let t := t ++ [.Store mem (buffer.take dumpMagic.length ++ data)]
            match H.Unmap t mem with
            | some err => some ⟨t ++ [.Unmap mem], none, none, [], some err⟩
            | none =>
              let t := t ++ [.Unmap mem]
              match H.Close t dump with
              | some err => some ⟨t ++ [.Close dump], none, none, [], some err⟩
              | none =>
                let t := t ++ [.Close dump]
                match H.Rename t temp path with
                | some err => some ⟨t ++ [.Rename temp path], none, none, [], some err⟩
                | none => memoryMap H (t ++ [.Rename temp path]) path

set_option linter.dupNamespace false in
/-- The Go type `cache` (tilthash.go:146).  `used` is the time stamp, `once` tells whether
the `sync.Once` has fired. -/
structure cache where
  epoch : Nat
  dump : Option File := none
  mmap : Option MMap := none
  cache : List Nat := []
  used : Int := 0
  once : Bool := false
deriving DecidableEq, Repr

set_option linter.dupNamespace false in
/-- The Go type `dataset` (tilthash.go:223). -/
structure dataset where
  epoch : Nat
  dump : Option File := none
  mmap : Option MMap := none
  dataset : List Nat := []
  used : Int := 0
  once : Bool := false
deriving DecidableEq, Repr

/-- Go's `fmt.Sprintf("%x", b)` of a byte slice: two lower-case hexadecimal digits a
byte. -/
def hex (b : Bytes) : String :=
  String.join (b.map fun x =>
    String.mk [Nat.digitChar (x.toNat / 16), Nat.digitChar (x.toNat % 16)])

/-- The file name `fmt.Sprintf("cache-R%d-%x%s", algorithmRevision, seed[:8], endian)`
(tilthash.go:181) under `dir`, and the same with `full` (tilthash.go:265), for the epoch
`ep`. -/
def dumpPath (A : Algorithm) (H : Host) (kind : String) (dir : String) (ep : Nat) : String :=
  let seed := A.seedHash ((ep * A.epochLength + 1) % 2 ^ 64)
  let endian := if !H.isLittleEndian then ".be" else ""
  H.Join dir (kind ++ "-R" ++ toString algorithmRevision ++ "-" ++ hex (seed.take 8) ++ endian)

/-- The loop `for ep := ...; ep >= 0; ep--` that closes both `generate` functions
(tilthash.go:202, 289), at a counter `ep >= 0`: the calls `os.Remove(path)` it makes. -/
def removeFrom (A : Algorithm) (H : Host) (kind : String) (dir : String) :
    Nat → List FsEvent
  | 0 => [.Remove (dumpPath A H kind dir 0)]
  | ep + 1 => .Remove (dumpPath A H kind dir (ep + 1)) :: removeFrom A H kind dir ep

/-- The same loop from its start `ep := int(epoch) - limit`. -/
def removeOld (A : Algorithm) (H : Host) (kind : String) (dir : String) (epoch : Nat)
    (limit : Int) : List FsEvent :=
  let ep := wrapInt (intOfUint64 epoch - limit)
  if ep ≥ 0 then removeFrom A H kind dir ep.toNat else []

/-- `cache.generate` of tilthash.go:159.  The body runs once (`c.once.Do`). -/
def cache.generate (A : Algorithm) (H : Host) (t : List FsEvent) (c : GoTilt.cache)
    (dir : String) (limit : Int) (test : Bool) : Option (List FsEvent × GoTilt.cache) :=
  if c.once then some (t, c)
  else
    let c := { c with once := true }
    if test then
      let seed := A.seedHash ((c.epoch * A.epochLength + 1) % 2 ^ 64)
      let words := fill (make (1024 / 4)) (A.generateCache (1024 / 4) c.epoch seed)
      some (t, { c with cache := words })
    else
      let size := A.cacheSize ((c.epoch * A.epochLength + 1) % 2 ^ 64)
      let seed := A.seedHash ((c.epoch * A.epochLength + 1) % 2 ^ 64)
      if dir = "" then
        let words := fill (make (size / 4)) (A.generateCache (size / 4) c.epoch seed)
        some (t, { c with cache := words })
      else
        let path := dumpPath A H "cache" dir c.epoch
        match memoryMap H t path with
        | none => none
        | some r =>
          let c := { c with dump := r.file, mmap := r.mem, cache := r.buffer }
          if r.err = none then some (r.trace, c)
          else
            match memoryMapAndGenerate H r.trace path size
                (fun buffer => fill buffer (A.generateCache buffer.length c.epoch seed)) with
            | none => none
            | some r =>
              let c := { c with dump := r.file, mmap := r.mem, cache := r.buffer }
              let words := fill (make (size / 4)) (A.generateCache (size / 4) c.epoch seed)
              let c := if r.err ≠ none then { c with cache := words } else c
              some (r.trace ++ removeOld A H "cache" dir c.epoch limit, c)

/-- `cache.release` of tilthash.go:211. -/
def cache.release (t : List FsEvent) (c : GoTilt.cache) : List FsEvent × GoTilt.cache :=
  let unmapped : List FsEvent × GoTilt.cache := match c.mmap with
    | some mem => (t ++ [FsEvent.Unmap mem], { c with mmap := none })
    | none => (t, c)
  match unmapped.2.dump with
  | some file => (unmapped.1 ++ [FsEvent.Close file], { unmapped.2 with dump := none })
  | none => unmapped

/-- `dataset.generate` of tilthash.go:236.  The block under `if dir == ""` does not return:
the code below it runs for every directory. -/
def dataset.generate (A : Algorithm) (H : Host) (t : List FsEvent) (d : GoTilt.dataset)
    (dir : String) (limit : Int) (test : Bool) : Option (List FsEvent × GoTilt.dataset) :=
  if d.once then some (t, d)
  else
    let d := { d with once := true }
    if test then
      let seed := A.seedHash ((d.epoch * A.epochLength + 1) % 2 ^ 64)
      let cache := fill (make (1024 / 4)) (A.generateCache (1024 / 4) d.epoch seed)
      let words := fill (make (32 * 1024 / 4)) (A.generateDataset (32 * 1024 / 4) d.epoch cache)
      some (t, { d with dataset := words })
    else
      let csize := A.cacheSize ((d.epoch * A.epochLength + 1) % 2 ^ 64)
      let dsize := A.datasetSize ((d.epoch * A.epochLength + 1) % 2 ^ 64)
      let seed := A.seedHash ((d.epoch * A.epochLength + 1) % 2 ^ 64)
      let d := if dir = "" then
          let cache := fill (make (csize / 4)) (A.generateCache (csize / 4) d.epoch seed)
          let words := fill (make (dsize / 4)) (A.generateDataset (dsize / 4) d.epoch cache)
          { d with dataset := words }
        else d
      let path := dumpPath A H "full" dir d.epoch
      match memoryMap H t path with
      | none => none
      | some r =>
        let d := { d with dump := r.file, mmap := r.mem, dataset := r.buffer }
        if r.err = none then some (r.trace, d)
        else
          let cache := fill (make (csize / 4)) (A.generateCache (csize / 4) d.epoch seed)
          match memoryMapAndGenerate H r.trace path dsize
              (fun buffer => fill buffer (A.generateDataset buffer.length d.epoch cache)) with
          | none => none
          | some r =>
            let d := { d with dump := r.file, mmap := r.mem, dataset := r.buffer }
            let words := fill (make (dsize / 2)) (A.generateDataset (dsize / 2) d.epoch cache)
            let d := if r.err ≠ none then { d with dataset := words } else d
            some (r.trace ++ removeOld A H "full" dir d.epoch limit, d)

/-- `dataset.release` of tilthash.go:298. -/
def dataset.release (t : List FsEvent) (d : GoTilt.dataset) :
    List FsEvent × GoTilt.dataset :=
  let unmapped : List FsEvent × GoTilt.dataset := match d.mmap with
    | some mem => (t ++ [FsEvent.Unmap mem], { d with mmap := none })
    | none => (t, d)
  match unmapped.2.dump with
  | some file => (unmapped.1 ++ [FsEvent.Close file], { unmapped.2 with dump := none })
  | none => unmapped

/-- The paths of the calls `os.Remove` among the events `t`, in their order. -/
def removed (t : List FsEvent) : List String :=
  t.filterMap fun e =>
    match e with
    | .Remove path => some path
    | _ => none

/-! ## The engine and its in-memory caches (tilthash.go)

A Go `map[uint64]*T` is the list of its entries, each key once.  The order in which a
`range` statement visits the entries is not fixed by Go: it is a parameter `order`. -/

/-- The entry `m[k]` of a Go map, `none` for `nil`. -/
def mapGet {α : Type} (m : List (Nat × α)) (k : Nat) : Option α := m.lookup k

/-- Go's `delete(m, k)`. -/
def mapDelete {α : Type} (m : List (Nat × α)) (k : Nat) : List (Nat × α) :=
  m.filter fun kv => kv.1 != k

/-- Go's `m[k] = v`. -/
def mapSet {α : Type} (m : List (Nat × α)) (k : Nat) (v : α) : List (Nat × α) :=
  if (m.lookup k).isSome then m.map fun kv => if kv.1 = k then (k, v) else kv
  else m ++ [(k, v)]

/-- The engine `Tilthash` (tilthash.go:325), with the fields that `New`, `cache`, `dataset`,
`Threads` and `SetThreads` read or write.  `shared` points into a heap of engines. -/
structure Tilthash where
  cachedir : String := ""
  cachesinmem : Int := 0
  cachesondisk : Int := 0
  dagdir : String := ""
  dagsinmem : Int := 0
  dagsondisk : Int := 0
  caches : List (Nat × cache) := []
  fcache : Option cache := none
  datasets : List (Nat × dataset) := []
  fdataset : Option dataset := none
  threads : Int := 0
  tester : Bool := false
  shared : Option Nat := none
deriving DecidableEq, Repr

/-- `New` of tilthash.go:356. -/
def New (cachedir : String) (cachesinmem cachesondisk : Int) (dagdir : String)
    (dagsinmem dagsondisk : Int) : Tilthash :=
  let cachesinmem := if cachesinmem ≤ 0 then 1 else cachesinmem
  { cachedir := cachedir, cachesinmem := cachesinmem, cachesondisk := cachesondisk,
    dagdir := dagdir, dagsinmem := dagsinmem, dagsondisk := dagsondisk,
    caches := [], datasets := [] }

/-- `NewTester` of tilthash.go:383. -/
def NewTester : Tilthash := { cachesinmem := 1, caches := [], datasets := [], tester := true }

/-- `sharedTilthash` of tilthash.go:48. -/
def sharedTilthash : Tilthash := New "" 3 0 "" 1 0

/-- The inner loop `for _, cache := range tilthash.caches` of tilthash.go:441 and 503 over
the entries in the order they are visited: the entry to evict. -/
def pickEvict {α : Type} (used : α → Int) (entries : List (Nat × α)) : Option α :=
  entries.foldl (fun evict kv =>
    match evict with
    | none => some kv.2
    | some e => if used e > used kv.2 then some kv.2 else some e) none

/-- What the eviction loop has done: the events, the map, and the `log.Trace` lines
"Evicted ..." with their epoch and time stamp. -/
structure EvictOut (α : Type) where
  trace : List FsEvent
  entries : List (Nat × α)
  evicted : List (Nat × Int)

/-- The eviction loop `for len(m) > 0 && len(m) >= limit` of tilthash.go:439 and 501, the
same code for caches and datasets.  `none` when the fuel runs out, or when `evict` is
still `nil` after the inner loop, a Go panic. -/
def evictLoop {α : Type} (order : List (Nat × α) → List (Nat × α)) (epoch : α → Nat)
    (used : α → Int) (release : List FsEvent → α → List FsEvent × α) (limit : Int) :
    Nat → EvictOut α → Option (EvictOut α)
  | fuel, s =>
    if s.entries.length > 0 ∧ (s.entries.length : Int) ≥ limit then
      match fuel with
      | 0 => none
      | fuel + 1 =>
        match pickEvict used (order s.entries) with
        | none => none
        | some evict =>
          let released := release s.trace evict
          evictLoop order epoch used release limit fuel
            ⟨released.1, mapDelete s.entries (epoch evict),
              s.evicted ++ [(epoch released.2, used released.2)]⟩
    else some s

/-- What `Tilthash.cache` and `Tilthash.dataset` have when they give up the lock: the
events, the engine, the evictions logged, and the pointers `current` and `future`. -/
structure Locked (α : Type) where
  trace : List FsEvent
  tilthash : Tilthash
  evicted : List (Nat × Int)
  current : α
  future : Option α

/-- The results of `Tilthash.cache` and `Tilthash.dataset`: the events, the engine, the
evictions logged, and the words returned. -/
structure LookupOut where
  trace : List FsEvent
  tilthash : Tilthash
  evicted : List (Nat × Int)
  ret : List Nat

/-- `Tilthash.cache` of tilthash.go:430 while it holds the lock (lines 434 to 473), for
`epoch := block / epochLength`; `now` is the reading of `time.Now()`.  `current` is a
pointer into the map: the time stamp set through it is set in the map. -/
def Tilthash.cacheLocked (order : List (Nat × GoTilt.cache) → List (Nat × GoTilt.cache))
    (fuel : Nat) (t : List FsEvent) (tilthash : Tilthash) (epoch : Nat) (now : Int) :
    Option (Locked GoTilt.cache) :=
  match mapGet tilthash.caches epoch with
  | some current => some ⟨t, tilthash, [], current, none⟩
  | none =>
    match evictLoop order (fun c => c.epoch) (fun c => c.used) (fun t c => c.release t)
        tilthash.cachesinmem fuel ⟨t, tilthash.caches, []⟩ with
    | none => none
    | some s =>
      let used : GoTilt.cache × Option GoTilt.cache :=
        match tilthash.fcache with
        | some f => if f.epoch = epoch then (f, none) else ({ epoch := epoch }, some f)
        | none => ({ epoch := epoch }, none)
      let current := { used.1 with used := now }
      let caches := mapSet s.entries epoch current
      let future : GoTilt.cache := { epoch := (epoch + 1) % 2 ^ 64 }
      match used.2 with
      | none =>
        some ⟨s.trace, { tilthash with caches := caches, fcache := some future }, s.evicted,
          current, some future⟩
      | some f =>
        if f.epoch ≤ epoch then
          some ⟨(f.release s.trace).1, { tilthash with caches := caches, fcache := some future },
            s.evicted, current, some future⟩
        else some ⟨s.trace, { tilthash with caches := caches, fcache := some f }, s.evicted,
          current, none⟩

/-- `Tilthash.cache` of tilthash.go:430.  `now1` and `now2` are the two readings of
`time.Now()`.  What `generate` does to `current` and to `future` is done to the entry of
the map and to the future slot, which they point to; the goroutine
`go future.generate(...)` is run to its end where it is started. -/
def Tilthash.cache (A : Algorithm) (H : Host)
    (order : List (Nat × GoTilt.cache) → List (Nat × GoTilt.cache)) (fuel : Nat)
    (t : List FsEvent) (tilthash : Tilthash) (block : Nat) (now1 now2 : Int) :
    Option LookupOut :=
  let epoch := block / A.epochLength
  match Tilthash.cacheLocked order fuel t tilthash epoch now1 with
  | none => none
  | some l =>
    match l.current.generate A H l.trace l.tilthash.cachedir l.tilthash.cachesondisk
        l.tilthash.tester with
    | none => none
    | some g =>
      let current := { g.2 with used := now2 }
      let tilthash := { l.tilthash with caches := mapSet l.tilthash.caches epoch current }
      match l.future with
      | none => some ⟨g.1, tilthash, l.evicted, current.cache⟩
      | some future =>
        match future.generate A H g.1 tilthash.cachedir tilthash.cachesondisk
            tilthash.tester with
        | none => none
        | some f => some ⟨f.1, { tilthash with fcache := some f.2 }, l.evicted, current.cache⟩

/-- `Tilthash.dataset` of tilthash.go:492 while it holds the lock (lines 496 to 536).  A
future dataset for `epoch` is not taken over: a new `dataset` of its epoch is made
(tilthash.go:516). -/
def Tilthash.datasetLocked
    (order : List (Nat × GoTilt.dataset) → List (Nat × GoTilt.dataset))
    (fuel : Nat) (t : List FsEvent) (tilthash : Tilthash) (epoch : Nat) (now : Int) :
    Option (Locked GoTilt.dataset) :=
  match mapGet tilthash.datasets epoch with
  | some current => some ⟨t, tilthash, [], current, none⟩
  | none =>
    match evictLoop order (fun d => d.epoch) (fun d => d.used) (fun t d => d.release t)
        tilthash.dagsinmem fuel ⟨t, tilthash.datasets, []⟩ with
    | none => none
    | some s =>
      let used : GoTilt.dataset × Option GoTilt.dataset :=
        match tilthash.fdataset with
        | some f =>
          if f.epoch = epoch then ({ epoch := f.epoch }, none) else ({ epoch := epoch }, some f)
        | none => ({ epoch := epoch }, none)
      let current := { used.1 with used := now }
      let datasets := mapSet s.entries epoch current
      let future : GoTilt.dataset := { epoch := (epoch + 1) % 2 ^ 64 }
      match used.2 with
      | none =>
        some ⟨s.trace, { tilthash with datasets := datasets, fdataset := some future },
          s.evicted, current, some future⟩
      | some f =>
        if f.epoch ≤ epoch then
          some ⟨(f.release s.trace).1,
            { tilthash with datasets := datasets, fdataset := some future },
            s.evicted, current, some future⟩
        else some ⟨s.trace, { tilthash with datasets := datasets, fdataset := some f },
          s.evicted, current, none⟩

/-- `Tilthash.dataset` of tilthash.go:492, modelled as `Tilthash.cache` is. -/
def Tilthash.dataset (A : Algorithm) (H : Host)
    (order : List (Nat × GoTilt.dataset) → List (Nat × GoTilt.dataset)) (fuel : Nat)
    (t : List FsEvent) (tilthash : Tilthash) (block : Nat) (now1 now2 : Int) :
    Option LookupOut :=
  let epoch := block / A.epochLength
  match Tilthash.datasetLocked order fuel t tilthash epoch now1 with
  | none => none
  | some l =>
    match l.current.generate A H l.trace l.tilthash.dagdir l.tilthash.dagsondisk
        l.tilthash.tester with
    | none => none
    | some g =>
      let current := { g.2 with used := now2 }
      let tilthash := { l.tilthash with datasets := mapSet l.tilthash.datasets epoch current }
      match l.future with
      | none => some ⟨g.1, tilthash, l.evicted, current.dataset⟩
      | some future =>
        match future.generate A H g.1 tilthash.dagdir tilthash.dagsondisk
            tilthash.tester with
        | none => none
        | some f =>
          some ⟨f.1, { tilthash with fdataset := some f.2 }, l.evicted, current.dataset⟩

/-- One call of a sequence: the block asked for and the two readings of the clock. -/
structure Lookup where
  block : Nat
  now1 : Int
  now2 : Int

/-- A sequence of calls `cache(block)` on one engine, one after the other. -/
def Tilthash.cacheCalls (A : Algorithm) (H : Host)
    (order : List (Nat × GoTilt.cache) → List (Nat × GoTilt.cache)) (fuel : Nat) :
    List FsEvent → Tilthash → List Lookup → Option (List FsEvent × Tilthash)
  | t, tilthash, [] => some (t, tilthash)
  | t, tilthash, call :: calls =>
    match Tilthash.cache A H order fuel t tilthash call.block call.now1 call.now2 with
    | none => none
    | some out => Tilthash.cacheCalls A H order fuel out.trace out.tilthash calls

/-- A sequence of calls `dataset(block)` on one engine, one after the other. -/
def Tilthash.datasetCalls (A : Algorithm) (H : Host)
    (order : List (Nat × GoTilt.dataset) → List (Nat × GoTilt.dataset)) (fuel : Nat) :
    List FsEvent → Tilthash → List Lookup → Option (List FsEvent × Tilthash)
  | t, tilthash, [] => some (t, tilthash)
  | t, tilthash, call :: calls =>
    match Tilthash.dataset A H order fuel t tilthash call.block call.now1 call.now2 with
    | none => none
    | some out => Tilthash.datasetCalls A H order fuel out.trace out.tilthash calls

/-- `NewShared` of tilthash.go:423; `sharedTilthash` is where the shared engine lives. -/
def NewShared (sharedTilthash : Nat) : Tilthash := { shared := some sharedTilthash }

/-- `Tilthash.Threads` of tilthash.go:554, of the engine at `p` of the heap. -/
def Tilthash.Threads (heap : Nat → Tilthash) (p : Nat) : Int := (heap p).threads

/-- `Tilthash.SetThreads` of tilthash.go:566, on the engine at `p` of the heap.  A shared
engine hands the call to the engine it points to, holding its own lock: `none` when the
fuel runs out, as it does when the pointers run in a circle and the locks never come free.
The send on `update` does not block and changes no field. -/
def Tilthash.SetThreads (heap : Nat → Tilthash) (threads : Int) :
    Nat → Nat → Option (Nat → Tilthash)
  | 0, _ => none
  | fuel + 1, p =>
    match (heap p).shared with
    | some shared => Tilthash.SetThreads heap threads fuel shared
    | none => some (Function.update heap p { heap p with threads := threads })

/-! ## Modular arithmetic, PUSH and the call instructions (instructions.go) -/

/-- `opAddmod` of instructions.go:268.  The sum is taken in `big.Int`, without a bound. -/
def opAddmod (stack : Stack) : Option Stack := do
  let (x, stack) ← stack.pop
  let (y, stack) ← stack.pop
  let (z, stack) ← stack.pop
  if z > 0 then
    let add := x + y
    let add := add % z
    pure (stack.push (U256 add))
  else
    pure (stack.push 0)

/-- `opMulmod` of instructions.go:281.  The product is taken in `big.Int`, without a
bound. -/
def opMulmod (stack : Stack) : Option Stack := do
  let (x, stack) ← stack.pop
  let (y, stack) ← stack.pop
  let (z, stack) ← stack.pop
  if z > 0 then
    let mul := x * y
    let mul := mul % z
    pure (stack.push (U256 mul))
  else
    pure (stack.push 0)

/-- `makePush(size, bsize)` of instructions.go:704: the execution function of a PUSH.
`*pc + 1` and `*pc += size` are `uint64` arithmetic; it returns what `opJump` returns,
`(nil, nil)` with the program counter and the stack. -/
def makePush (size : Nat) (bsize : Int) (pc : Nat) (contract : Contract) (stack : Stack) :
    Option JumpOut := do
  let byts ← getData contract.Code (((pc + 1) % 2 ^ 64 : Nat) : Int) bsize
  pure ⟨[], none, (pc + size) % 2 ^ 64, stack.push (SetBytes byts)⟩

/-- `opCallCode` of instructions.go:603: `opCall` with `tiltvm.CallCode` in the place of
`tiltvm.Call`. -/
def opCallCode {σ μ : Type} (env : Env σ) (mem : MemoryOps μ) (body : RunBody σ)
    (vm : TiltVM σ) (contract : Contract) (memory : μ) (stack : Stack) :
    Option (OpOut σ μ) := do
  let (gas, stack) ← stack.pop
  let gas := Uint64 gas
  let (addr, stack) ← stack.pop
  let (value, stack) ← stack.pop
  let value := U256 value
  let (inOffset, stack) ← stack.pop
  let (inSize, stack) ← stack.pop
  let (retOffset, stack) ← stack.pop
  let (retSize, stack) ← stack.pop
  let address := BigToAddress addr
  let args := mem.Get memory (Int64 inOffset) (Int64 inSize)
  let gas := if value.sign ≠ 0 then (gas + env.CallStipend) % 2 ^ 64 else gas
  let r := CallCode env body vm (.contract contract) address args gas value
  let stack := if r.err ≠ none then stack.push 0 else stack.push 1
  let memory :=
    if r.err ≠ none then memory else mem.Set memory (Uint64 retOffset) (Uint64 retSize) r.ret
  let contract := { contract with Gas := (contract.Gas + r.leftOverGas) % 2 ^ 64 }
  pure ⟨stack, memory, contract, r.vm⟩

/-- `opDelegateCall` of instructions.go:637: six operands, no value and no stipend. -/
def opDelegateCall {σ μ : Type} (env : Env σ) (mem : MemoryOps μ) (body : RunBody σ)
    (vm : TiltVM σ) (contract : Contract) (memory : μ) (stack : Stack) :
    Option (OpOut σ μ) := do
  let (gas, stack) ← stack.pop
  let gas := Uint64 gas
  let (to_, stack) ← stack.pop
  let (inOffset, stack) ← stack.pop
  let (inSize, stack) ← stack.pop
  let (outOffset, stack) ← stack.pop
  let (outSize, stack) ← stack.pop
  let toAddr := BigToAddress to_
  let args := mem.Get memory (Int64 inOffset) (Int64 inSize)
  let r ← DelegateCall env body vm (.contract contract) toAddr args gas
  let stack := if r.err ≠ none then stack.push 0 else stack.push 1
  let memory :=
    if r.err ≠ none then memory else mem.Set memory (Uint64 outOffset) (Uint64 outSize) r.ret
  let contract := { contract with Gas := (contract.Gas + r.leftOverGas) % 2 ^ 64 }
  pure ⟨stack, memory, contract, r.vm⟩

/-! ## Stand-alone generation, and the eviction order (tilthash.go) -/

/-- `MakeCache` of tilthash.go:310: the events of `generate` and `release` on a cache of the
epoch `block/epochLength + 1` (`uint64` arithmetic), with the limit `math.MaxInt32`. -/
def MakeCache (A : Algorithm) (H : Host) (t : List FsEvent) (block : Nat) (dir : String) :
    Option (List FsEvent) :=
  let c : GoTilt.cache := { epoch := (block / A.epochLength + 1) % 2 ^ 64 }
  match c.generate A H t dir (2 ^ 31 - 1) false with
  | none => none
  | some g => some (g.2.release g.1).1

/-- `MakeDataset` of tilthash.go:317. -/
def MakeDataset (A : Algorithm) (H : Host) (t : List FsEvent) (block : Nat) (dir : String) :
    Option (List FsEvent) :=
  let d : GoTilt.dataset := { epoch := (block / A.epochLength + 1) % 2 ^ 64 }
  match d.generate A H t dir (2 ^ 31 - 1) false with
  | none => none
  | some g => some (g.2.release g.1).1

/-- The eviction order in the words of the specification, "evict LRU (by `used`)": the
entries of the log are removed from the map `m` one at a time, each is an entry of the
map at its moment and no entry then present has an earlier time stamp, and `m2` is what
is left. -/
def evictsLeastRecentlyUsed {α : Type} (used : α → Int) :
    List (Nat × α) → List (Nat × Int) → List (Nat × α) → Prop
  | m, [], m2 => m2 = m
  | m, (ep, u) :: log, m2 =>
    (∃ c, (ep, c) ∈ m ∧ used c = u ∧ ∀ kv ∈ m, u ≤ used kv.2)
    ∧ (mapDelete m ep).length + 1 = m.length
    ∧ evictsLeastRecentlyUsed used (mapDelete m ep) log m2

/-! ## A concrete state, to evaluate the operations -/

/-- An account of `MemDB`. -/
structure Account where
  Nonce : Nat
  Balance : Int
  Code : Bytes
deriving DecidableEq, Repr

/-- Modelled from the spec: a `StateDB` implementation (core/state is not among the
sources): a table of accounts, and the tables saved by `Snapshot`, whose identifiers are
their positions. -/
structure MemDB where
  accounts : List (Address × Account)
  snapshots : List (List (Address × Account))
deriving DecidableEq, Repr

/-- The account at `a`, the empty account when there is none. -/
def MemDB.get (db : MemDB) (a : Address) : Account :=
  (db.accounts.lookup a).getD ⟨0, 0, []⟩

/-- Replaces the account at `a`. -/
def MemDB.put (db : MemDB) (a : Address) (acc : Account) : MemDB :=
  { db with accounts := (a, acc) :: db.accounts.filter (fun p => p.1 ≠ a) }

/-- Modelled from the spec: the `StateDB` operations on `MemDB`; `RevertToSnapshot(s)`
restores the table saved as `s` and forgets the later snapshots. -/
def memOps : StateDBOps MemDB where
  CreateAccount db a := db.put a ⟨0, (db.get a).Balance, []⟩
  GetNonce db a := (db.get a).Nonce
  SetNonce db a n := db.put a { db.get a with Nonce := n }
  GetCodeHash db a := (db.get a).Code.length
  GetCode db a := (db.get a).Code
  SetCode db a code := db.put a { db.get a with Code := code }
  Exist db a := (db.accounts.lookup a).isSome
  RevertToSnapshot db s :=
    match db.snapshots.get? s.toNat with
    | some saved => ⟨saved, db.snapshots.take s.toNat⟩
    | none => db
  Snapshot db := ((db.snapshots.length : Int), { db with snapshots := db.snapshots ++ [db.accounts] })

/-- An environment over `MemDB`: transfers move balance, recursion is allowed, no address
is precompiled, `MaxCodeSize` is 4 bytes, `CreateDataGas` is 200 and `CallStipend` 2300;
the two hash functions are stand-ins. -/
def memEnv : Env MemDB where
  db := memOps
  CanTransfer db a v := decide (v ≤ (db.get a).Balance)
  Transfer db a b v :=
    let db := db.put a { db.get a with Balance := (db.get a).Balance - v }
    db.put b { db.get b with Balance := (db.get b).Balance + v }
  NoRecursion := false
  CreateAddress a n := 1000 * (a + 1) + n
  Keccak256Hash code := code.length
  isPrecompiled _ := false
  MaxCodeSize := 4
  CreateDataGas := 200
  CallStipend := 2300

/-- A state with one account, at address 7, with nonce 5 and balance 100. -/
def memDB0 : MemDB := ⟨[(7, ⟨5, 100, []⟩)], []⟩

/-- A run body that spends `used` gas (all of it when the frame has less) and returns
`ret` and `err`, leaving the state as it is. -/
def constBody (ret : Bytes) (err : Option VMError) (used : Nat) : RunBody MemDB :=
  fun vm contract _ => ⟨ret, err, (contract.UseGas (min used contract.Gas)).2, vm⟩

/-- A run body that returns no bytes and no error and leaves, as the frame's remaining gas,
the depth it runs at. -/
def depthProbe : RunBody MemDB :=
  fun vm contract _ => ⟨[], none, { contract with Gas := vm.depth.toNat }, vm⟩

/-- Modelled from the spec: a `Memory` implementation (memory.go is not among the
sources): a byte vector, read with zero padding and grown on write. -/
def listMem : MemoryOps (List UInt8) where
  Get m offset size :=
    let got := (m.drop offset.toNat).take size.toNat
    got ++ List.replicate (size.toNat - got.length) 0
  Set m offset size value :=
    let grown := m ++ List.replicate (offset + size - m.length) 0
    grown.take offset ++ (value.take size ++ (grown.drop offset).drop (value.take size).length)
  NewMemory := []
  Resize m size := m ++ List.replicate (size - m.length) 0

/-- A fresh environment over `memDB0`, at depth 0. -/
def memVM0 : TiltVM MemDB := ⟨memDB0, 0⟩

/-- A frame of the account at address 7, called by address 1, holding 5000 gas. -/
def memFrame : Contract :=
  { CallerAddress := 1, self := 7, Code := [], CodeHash := 0, CodeAddr := some 7,
    Input := [], Gas := 5000, value := some 0, DelegateCall := false }

/-- A jump table over `MemDB` and `listMem`, to evaluate the loop: opcode 0 halts at no
cost (STOP), opcode 1 adds the two top words for 3 gas and needs two words on the stack,
opcode 82 pops two words for 3 gas and needs the memory to reach the top word plus 32
bytes, and no other opcode is valid. -/
def demoTable : Nat → operation MemDB (List UInt8) := fun op =>
  let keep : Nat → TiltVM MemDB → Contract → List UInt8 → Stack →
      ExecOut MemDB (List UInt8) :=
    fun pc vm contract memory stack => ⟨[], none, pc, vm, contract, memory, stack⟩
  let need2 : Stack → Option VMError :=
    fun stack => if stack.data.length < 2 then some .stackUnderflow else none
  if op = 0 then
    ⟨keep, fun _ _ _ _ _ => (0, none), fun _ => none, none, true, true, false, false, false⟩
  else if op = 1 then
    ⟨fun pc vm contract memory stack =>
        ⟨[], none, pc, vm, contract, memory, (opAdd stack).getD stack⟩,
      fun _ _ _ _ _ => (3, none), need2, none, true, false, false, false, false⟩
  else if op = 82 then
    ⟨fun pc vm contract memory stack =>
        ⟨[], none, pc, vm, contract, memory, ⟨stack.data.drop 2⟩⟩,
      fun _ _ _ _ _ => (3, none), need2, some (fun stack => stack.data.headD 0 + 32),
      true, false, false, true, false⟩
  else
    ⟨keep, fun _ _ _ _ _ => (0, none), fun _ => none, none, false, false, false, false, false⟩

/-- An interpreter over `demoTable`, with gas metering and no precompiled contract. -/
def demoInterp : Interpreter MemDB (List UInt8) where
  JumpTable := demoTable
  DisableGasMetering := false
  RunPrecompiledContract _ _ contract := ([], none, contract)

/-- A loop state at `pc = 0` over `memDB0` for the code, stack and gas given. -/
def demoState (code : Bytes) (stack : List Int) (gas : Nat) : RunState MemDB (List UInt8) :=
  ⟨0, [], ⟨stack⟩, { memFrame with Code := code, Gas := gas }, memVM0⟩

/-- A jump-destination analysis: the positions of the code that hold the byte `0x5b`. -/
def demoHas : Hash → Bytes → Int → Bool := fun _ code p =>
  decide (0 ≤ p ∧ p < (code.length : Int)) && (code.getD p.toNat 0 == 0x5b)

/-- A miner whose hash functions are stand-ins: the result of a nonce is the one byte
`(dataset + 37 * nonce + len(hash)) mod 256`, its digest the byte `nonce mod 256`. -/
def demoMiner : Miner Nat Nat where
  HashNoNonce h := [UInt8.ofNat h.rest]
  hashimotoFull ds hash nonce :=
    ([UInt8.ofNat (nonce % 256)], [UInt8.ofNat ((ds + nonce * 37 + hash.length) % 256)])
  BytesToHash b := (SetBytes b).toNat
  dataset n := n

/-- A block of number 5 and difficulty `2^250`, whose target is 64. -/
def demoBlock : Block Nat String := ⟨⟨2 ^ 250, 5, 0, 0, 9⟩, "body"⟩

/-- A small algorithm: epochs of ten blocks, caches of 8 bytes, datasets of 16 bytes, and
the epoch number in every byte of the seed. -/
def demoAlgorithm : Algorithm where
  epochLength := 10
  cacheSize := fun _ => 8
  datasetSize := fun _ => 16
  seedHash := fun block => List.replicate 32 (UInt8.ofNat (block / 10))
  generateCache := fun _ epoch _ i => epoch + i
  generateDataset := fun _ epoch cache i => epoch + cache.length + i

/-- A little-endian host with the files `files` on a disk that cannot be written: a file
is opened by its position in the list. -/
def readOnlyHost (files : List (String × Bytes)) : Host where
  isLittleEndian := true
  OpenFile := fun _ path =>
    if (files.lookup path).isSome then .ok ((files.map Prod.fst).indexOf path)
    else .error (.os 2)
  Map := fun _ file _ =>
    match files.get? file with
    | some f => .ok ⟨4096 * file, f.2⟩
    | none => .error (.os 9)
  Unmap := fun _ _ => none
  Close := fun _ _ => none
  MkdirAll := fun _ _ => some (.os 30)
  Create := fun _ _ => .error (.os 30)
  Truncate := fun _ _ _ => some (.os 30)
  Rename := fun _ _ _ => some (.os 30)
  randInt := fun _ => 7
  Join := fun dir name => if dir = "" then name else dir ++ "/" ++ name
  Dir := fun _ => "."

/-- The bytes of a list of words, least significant byte first. -/
def bytesOf (words : List Nat) : Bytes :=
  words.flatMap fun w =>
    [UInt8.ofNat w, UInt8.ofNat (w / 256), UInt8.ofNat (w / 65536), UInt8.ofNat (w / 16777216)]

/-- The size the file was last truncated to, in the events `t`. -/
def lastTruncate (t : List FsEvent) : Int :=
  t.foldl (fun size e => match e with
    | .Truncate _ n => n
    | _ => size) 0

/-- The words last written through a mapping, in the events `t`. -/
def lastStore (t : List FsEvent) : List Nat :=
  t.foldl (fun words e => match e with
    | .Store _ buffer => buffer
    | _ => words) []

/-- A little-endian host with an empty disk that can be written: a path can be opened once
a file has been renamed to it, a writable mapping shows as many zero bytes as the file was
truncated to, and a read-only mapping shows the words last stored. -/
def diskHost : Host where
  isLittleEndian := true
  OpenFile := fun t path =>
    if t.any (fun e => match e with
      | .Rename _ newpath => newpath == path
      | _ => false) then .ok 3
    else .error (.os 2)
  Map := fun t _ write =>
    if write then .ok ⟨4096, List.replicate (lastTruncate t).toNat 0⟩
    else .ok ⟨8192, bytesOf (lastStore t)⟩
  Unmap := fun _ _ => none
  Close := fun _ _ => none
  MkdirAll := fun _ _ => none
  Create := fun _ _ => .ok 4
  Truncate := fun _ _ _ => none
  Rename := fun _ _ _ => none
  randInt := fun _ => 7
  Join := fun dir name => if dir = "" then name else dir ++ "/" ++ name
  Dir := fun _ => "."

/-- A heap with the shared engine `sharedTilthash` at 0, and at every other place an engine
made by `NewShared`. -/
def sharedHeap : Nat → Tilthash := fun p => if p = 0 then sharedTilthash else NewShared 0

/-- A jump table with JUMPI at `0x57` (cost 10, two words needed, flagged `jumps`) and
PUSH1 to PUSH32 at `0x60` to `0x7f` (cost 3, room for a word needed) beside the entries of
`demoTable`; `has` is the jump-destination analysis. -/
def pushTable (has : Hash → Bytes → Int → Bool) : Nat → operation MemDB (List UInt8) :=
  fun op =>
  let lift : (Nat → Contract → Stack → Option JumpOut) → Nat → TiltVM MemDB → Contract →
      List UInt8 → Stack → ExecOut MemDB (List UInt8) :=
    fun f pc vm contract memory stack =>
      match f pc contract stack with
      | some j => ⟨j.ret, j.err, j.pc, vm, contract, memory, j.stack⟩
      | none => ⟨[], none, pc, vm, contract, memory, stack⟩
  if op = 0x57 then
    ⟨lift (opJumpi has), fun _ _ _ _ _ => (10, none),
      fun stack => if stack.data.length < 2 then some .stackUnderflow else none,
      none, true, false, true, false, false⟩
  else if 0x60 ≤ op ∧ op ≤ 0x7f then
    ⟨lift (makePush (op - 0x5f) ((op - 0x5f : Nat) : Int)), fun _ _ _ _ _ => (3, none),
      fun stack => if stack.data.length ≥ 1024 then some .stackOverflow else none,
      none, true, false, false, false, false⟩
  else demoTable op

/-- An interpreter over `pushTable`, with gas metering. -/
def pushInterp (has : Hash → Bytes → Int → Bool) : Interpreter MemDB (List UInt8) where
  JumpTable := pushTable has
  DisableGasMetering := false
  RunPrecompiledContract _ _ contract := ([], none, contract)

/-- A tester engine that keeps two caches in memory and holds those of the epochs 0 and 1,
the first last used at the time 5 and the second at the time 3. -/
def lruEngine : Tilthash :=
  { cachesinmem := 2, tester := true,
    caches := [(0, ⟨0, none, none, [1], 5, true⟩), (1, ⟨1, none, none, [2], 3, true⟩)] }

/-- An engine with empty maps, working in the directory `d`, whose future slots hold a
cache and a dataset of the epoch 2, both generated and mapped. -/
def futureEngine : Tilthash :=
  { cachedir := "d", cachesinmem := 1, cachesondisk := 5, dagdir := "d", dagsinmem := 1,
    dagsondisk := 5,
    fcache := some ⟨2, some 3, some ⟨4096, []⟩, [7, 8], 0, true⟩,
    fdataset := some ⟨2, some 5, some ⟨8192, []⟩, [7, 8, 9, 10], 0, true⟩ }

/-! ## Helper lemmas -/

theorem sign_lt_zero_iff (a : Int) : a.sign < 0 ↔ a < 0 := by
  rw [← not_le, Int.sign_nonneg, not_le]

theorem S256_eq_zero_iff (y : Int) (h0 : 0 ≤ y) (h1 : y < 2 ^ 256) : S256 y = 0 ↔ y = 0 := by
  unfold S256
  split_ifs with h
  · rfl
  · constructor
    · intro e; omega
    · intro e; subst e; norm_num at h

theorem U256_of_word (w : Int) (h0 : 0 ≤ w) (h1 : w < 2 ^ 256) : U256 w = w :=
  Int.emod_eq_of_lt h0 h1

/-- The quotient `opSdiv` forms from the absolute values and the sign of the product. -/
theorem sdiv_core (a b : Int) :
    |a| / |b| * (if (a * b).sign < 0 then -1 else 1)
      = if (a < 0 ∧ 0 < b) ∨ (0 < a ∧ b < 0) then -(|a| / |b|) else |a| / |b| := by
  have hiff : (a * b).sign < 0 ↔ ((a < 0 ∧ 0 < b) ∨ (0 < a ∧ b < 0)) := by
    rw [sign_lt_zero_iff, mul_neg_iff]
    tauto
  by_cases h : (a < 0 ∧ 0 < b) ∨ (0 < a ∧ b < 0)
  · rw [if_pos (hiff.mpr h), if_pos h]; ring
  · rw [if_neg (fun c => h (hiff.mp c)), if_neg h]; ring

/-- The same quotient is the truncated (round-toward-zero) signed quotient. -/
theorem sdiv_core_tdiv (a b : Int) :
    (if (a < 0 ∧ 0 < b) ∨ (0 < a ∧ b < 0) then -(|a| / |b|) else |a| / |b|) = a.tdiv b := by
  rcases le_or_lt 0 a with ha | ha <;> rcases le_or_lt 0 b with hb | hb
  · rw [if_neg (by omega), abs_of_nonneg ha, abs_of_nonneg hb, Int.tdiv_eq_ediv ha hb]
  · have hb2 : 0 ≤ -b := by omega
    rcases eq_or_lt_of_le ha with h0 | hpos
    · subst h0; simp
    · rw [if_pos (Or.inr ⟨hpos, hb⟩), abs_of_nonneg ha, abs_of_neg hb,
        ← Int.tdiv_eq_ediv ha hb2, Int.tdiv_neg, neg_neg]
  · have ha2 : 0 ≤ -a := by omega
    rcases eq_or_lt_of_le hb with h0 | hpos
    · subst h0; simp
    · rw [if_pos (Or.inl ⟨ha, hpos⟩), abs_of_neg ha, abs_of_nonneg hb,
        ← Int.tdiv_eq_ediv ha2 hb, Int.neg_tdiv, neg_neg]
  · have ha2 : 0 ≤ -a := by omega
    have hb2 : 0 ≤ -b := by omega
    rw [if_neg (by omega), abs_of_neg ha, abs_of_neg hb, ← Int.tdiv_eq_ediv ha2 hb2,
      Int.neg_tdiv_neg]

theorem UseGas_all (c : Contract) : (c.UseGas c.Gas).2.Gas = 0 := by
  simp [Contract.UseGas]

/-- What `Create` returns once its guards have passed, in terms of the run of the init
code: the outcomes of tiltvm.go:256-288. -/
theorem Create_after_run {σ : Type} (env : Env σ) (body : RunBody σ)
    (vm : TiltVM σ) (caller : ContractRef) (code : Bytes) (gas : Nat) (value : Int)
    (hrec : ¬ (env.NoRecursion = true ∧ vm.depth > 0))
    (hdepth : ¬ vm.depth > 1024)
    (hcan : env.CanTransfer vm.StateDB caller.Address value = true) :
    let nonce := env.db.GetNonce vm.StateDB caller.Address
    let snap := env.db.Snapshot
      (env.db.SetNonce vm.StateDB caller.Address ((nonce + 1) % 2 ^ 64))
    let contractAddr := env.CreateAddress caller.Address nonce
    let db1 := env.db.SetNonce (env.db.CreateAccount snap.2 contractAddr) contractAddr 1
    let db2 := env.Transfer db1 caller.Address contractAddr value
    let frame := (NewContract caller contractAddr (some value) gas).SetCallCode
      contractAddr (env.Keccak256Hash code) code
    let out := Interpreter.Run body ⟨db2, vm.depth⟩ frame []
    let createDataGas := (out.ret.length * env.CreateDataGas) % 2 ^ 64
    Create env body vm caller code gas value =
      if out.ret.length > env.MaxCodeSize ∨
          (out.err ≠ none ∧ out.err ≠ some .ErrCodeStoreOutOfGas) then
        ⟨[], contractAddr, 0, out.err,
          { out.vm with StateDB := env.db.RevertToSnapshot out.vm.StateDB snap.1 }⟩
      else if out.err = some .ErrCodeStoreOutOfGas then
        ⟨[], contractAddr, out.contract.Gas, out.err, out.vm⟩
      else if out.contract.Gas < createDataGas then
        ⟨[], contractAddr, out.contract.Gas, some .ErrCodeStoreOutOfGas, out.vm⟩
      else
        ⟨out.ret, contractAddr, out.contract.Gas - createDataGas, none,
          { out.vm with StateDB := env.db.SetCode out.vm.StateDB contractAddr out.ret }⟩ := by
  intro nonce snap contractAddr db1 db2 frame out createDataGas
  have hd2 : ¬ vm.depth > ((CallCreateDepth : Nat) : Int) := by
    simpa [CallCreateDepth] using hdepth
  have h1 : ¬ (env.CanTransfer vm.StateDB caller.Address value = false) := by simp [hcan]
  have hc : Create env body vm caller code gas value =
      (let maxCodeSizeExceeded : Bool := out.ret.length > env.MaxCodeSize
       let after : Option VMError × Contract × σ :=
        if out.err = none ∧ maxCodeSizeExceeded = false then
          let used := out.contract.UseGas createDataGas
          if used.1 = true then
            (none, used.2, env.db.SetCode out.vm.StateDB contractAddr out.ret)
          else
            (some .ErrCodeStoreOutOfGas, used.2, out.vm.StateDB)
        else
          (out.err, out.contract, out.vm.StateDB)
       if maxCodeSizeExceeded = true
          ∨ (after.1 ≠ none ∧ after.1 ≠ some .ErrCodeStoreOutOfGas) then
        ⟨[], contractAddr, 0, after.1,
          { out.vm with StateDB := env.db.RevertToSnapshot after.2.2 snap.1 }⟩
       else
        ⟨if after.1 ≠ none then [] else out.ret, contractAddr, after.2.1.Gas, after.1,
          { out.vm with StateDB := after.2.2 }⟩) := by
    simp only [createDataGas, out, frame, db2, db1, contractAddr, snap, nonce, Create,
      Bool.not_eq_true, if_neg hrec, if_neg hd2, if_neg h1]
  rw [hc]
  clear_value out
  simp only [Contract.UseGas]
  rcases hout : out.err with _ | e
  · by_cases hm : out.ret.length > env.MaxCodeSize
    · simp [hm]
    · by_cases hg : out.contract.Gas < createDataGas
      · simp [hm, hg]
      · simp [hm, hg]
  · by_cases hm : out.ret.length > env.MaxCodeSize
    · simp [hm]
    · by_cases he : e = VMError.ErrCodeStoreOutOfGas
      · subst he
        simp [hm]
      · simp [hm, he]

theorem depthAfter_bounds (events : List FrameEvent) :
    ∀ (d0 d : Int), 0 ≤ d0 → d0 ≤ 1025 → depthAfter d0 events = some d → 0 ≤ d ∧ d ≤ 1025 := by
  induction events with
  | nil =>
    intro d0 d h0 h1 h
    simp only [depthAfter, Option.some.injEq] at h
    subst h
    exact ⟨h0, h1⟩
  | cons e es ih =>
    intro d0 d h0 h1 h
    cases e with
    | enter =>
      simp only [depthAfter, depthStep, CallCreateDepth] at h
      split_ifs at h with hg
      · simp at h
      · simp only [Option.some_bind] at h
        push_cast at hg
        exact ih (d0 + 1) d (by omega) (by omega) h
    | leave =>
      simp only [depthAfter, depthStep] at h
      split_ifs at h with hg
      · simp only [Option.some_bind] at h
        exact ih (d0 - 1) d (by omega) (by omega) h
      · simp at h

theorem depthAfter_enters (n : Nat) :
    ∀ d : Int, 0 ≤ d → d + n ≤ 1025 →
      depthAfter d (List.replicate n FrameEvent.enter) = some (d + n) := by
  induction n with
  | zero => intro d _ _; simp [depthAfter]
  | succ k ih =>
    intro d h0 h1
    have hg : ¬ d > ((CallCreateDepth : Nat) : Int) := by
      simp only [CallCreateDepth]; push_cast at h1 ⊢; omega
    simp only [List.replicate_succ, depthAfter, depthStep, if_neg hg, Option.some_bind]
    rw [ih (d + 1) (by omega) (by push_cast at h1 ⊢; omega)]
    push_cast
    congr 1
    ring

/-- `Interpreter.Run` at a depth of at most 1024 runs the body at a depth of at most 1025. -/
theorem Run_congr_below {σ : Type} (body body2 : RunBody σ)
    (hbody : ∀ (v : TiltVM σ) (c : Contract) (i : Bytes),
      v.depth ≤ 1025 → body v c i = body2 v c i)
    (db : σ) (d : Int) (c : Contract) (i : Bytes) (hd : ¬ d > 1024) :
    Interpreter.Run body ⟨db, d⟩ c i = Interpreter.Run body2 ⟨db, d⟩ c i := by
  simp only [Interpreter.Run]
  rw [hbody _ _ _ (by show d + 1 ≤ 1025; omega)]

/-- The four operations run the body of their frame at depths of at most 1025 only: bodies
that agree there give the same results. -/
theorem calls_congr_below {σ : Type} (env : Env σ) (body body2 : RunBody σ)
    (hbody : ∀ (v : TiltVM σ) (c : Contract) (i : Bytes),
      v.depth ≤ 1025 → body v c i = body2 v c i)
    (vm : TiltVM σ) (caller : ContractRef)
        (addr : Address) (input code : Bytes) (gas : Nat) (value : Int) :
          Call env body vm caller addr input gas value
            = Call env body2 vm caller addr input gas value
        ∧ CallCode env body vm caller addr input gas value
            = CallCode env body2 vm caller addr input gas value
        ∧ DelegateCall env body vm caller addr input gas
            = DelegateCall env body2 vm caller addr input gas
        ∧ Create env body vm caller code gas value
            = Create env body2 vm caller code gas value := by
  by_cases hd : vm.depth > ((CallCreateDepth : Nat) : Int)
  · by_cases hr : env.NoRecursion = true ∧ vm.depth > 0
    · simp only [Call, CallCode, DelegateCall, Create, if_pos hr, and_self]
    · simp only [Call, CallCode, DelegateCall, Create, if_neg hr, if_pos hd, and_self]
  · have hd1 : ¬ vm.depth > 1024 := by simpa [CallCreateDepth] using hd
    have hrun := fun db c i => Run_congr_below body body2 hbody db vm.depth c i hd1
    simp only [Call, CallCode, DelegateCall, Create, hrun, and_self]

/-- `Uint64` of a value that fits is the value. -/
theorem Uint64_of_lt (x : Int) (h0 : 0 ≤ x) (h1 : x < 2 ^ 64) : ((Uint64 x : Nat) : Int) = x := by
  unfold Uint64
  have h2 : x.natAbs < 2 ^ 64 := by omega
  rw [Nat.mod_eq_of_lt h2]
  omega

theorem Uint64_toNat_of_lt (x : Int) (h0 : 0 ≤ x) (h1 : x < 2 ^ 64) : Uint64 x = x.toNat := by
  have := Uint64_of_lt x h0 h1
  omega

theorem Uint64_natCast (n : Nat) (h : n < 2 ^ 64) : Uint64 (n : Int) = n := by
  unfold Uint64
  rw [Int.natAbs_ofNat, Nat.mod_eq_of_lt h]

/-- `getData` on natural numbers: the slice inside the data, then zeros. -/
theorem getData_nat (data : Bytes) (st sz : Nat) (hs : sz < 2 ^ 63)
    (hlen : data.length < 2 ^ 63) :
    getData data (st : Int) (sz : Int)
      = some ((data.drop (min st data.length)).take
            (min (min st data.length + sz) data.length - min st data.length)
          ++ List.replicate
            (sz - (min (min st data.length + sz) data.length - min st data.length)) 0) := by
  have hs1 : BigMin (st : Int) (data.length : Int) = ((min st data.length : Nat) : Int) := by
    unfold BigMin
    split_ifs with h <;> omega
  have he1 : BigMin (((min st data.length : Nat) : Int) + (sz : Int)) (data.length : Int)
      = ((min (min st data.length + sz) data.length : Nat) : Int) := by
    unfold BigMin
    split_ifs with h <;> omega
  have hu1 : Uint64 ((min st data.length : Nat) : Int) = min st data.length :=
    Uint64_natCast _ (by omega)
  have hu2 : Uint64 ((min (min st data.length + sz) data.length : Nat) : Int)
      = min (min st data.length + sz) data.length := Uint64_natCast _ (by omega)
  have hu3 : Uint64 (sz : Int) = sz := Uint64_natCast _ (by omega)
  have hi : intOfUint64 sz = (sz : Int) := by
    unfold intOfUint64; rw [if_pos hs]
  have hcond : min st data.length ≤ min (min st data.length + sz) data.length
      ∧ min (min st data.length + sz) data.length ≤ data.length := by omega
  simp only [getData, hs1, he1, hu1, hu2, hu3, hi, if_pos hcond]
  congr 1
  have hl : ((data.drop (min st data.length)).take
      (min (min st data.length + sz) data.length - min st data.length)).length
        = min (min st data.length + sz) data.length - min st data.length := by
    rw [List.length_take, List.length_drop]; omega
  unfold RightPadBytes
  rw [hl]
  split_ifs with h
  · have : sz - (min (min st data.length + sz) data.length - min st data.length) = 0 := by omega
    rw [this]; simp
  · simp

theorem UseGas_self (c : Contract) (g : Nat) : (c.UseGas g).2.self = c.self := by
  unfold Contract.UseGas
  split_ifs <;> rfl

/-- An invalid opcode ends the run before anything else (interpreter.go:139). -/
theorem step_invalid {σ μ : Type} (I : Interpreter σ μ) (mem : MemoryOps μ) (s : RunState σ μ)
    (h : (I.JumpTable (s.contract.GetOp s.pc)).valid = false) :
    I.step mem s = .done [] (some (.invalidOpcode (s.contract.GetOp s.pc))) s := by
  simp only [Interpreter.step, if_pos h]

/-- A failed stack validation ends the run (interpreter.go:145). -/
theorem step_validation {σ μ : Type} (I : Interpreter σ μ) (mem : MemoryOps μ)
    (s : RunState σ μ) (e : VMError)
    (h : (I.JumpTable (s.contract.GetOp s.pc)).valid = true)
    (hv : (I.JumpTable (s.contract.GetOp s.pc)).validateStack s.stack = some e) :
    I.step mem s = .done [] (some e) s := by
  have h' : ¬ (I.JumpTable (s.contract.GetOp s.pc)).valid = false := by simp [h]
  simp only [Interpreter.step, if_neg h', hv]

/-- An overflowing memory size ends the run (interpreter.go:154, 159). -/
theorem step_memory_overflow {σ μ : Type} (I : Interpreter σ μ) (mem : MemoryOps μ)
    (s : RunState σ μ) (e : VMError)
    (h : (I.JumpTable (s.contract.GetOp s.pc)).valid = true)
    (hv : (I.JumpTable (s.contract.GetOp s.pc)).validateStack s.stack = none)
    (hm : Interpreter.memorySize (I.JumpTable (s.contract.GetOp s.pc)) s.stack = .error e) :
    I.step mem s = .done [] (some e) s := by
  have h' : ¬ (I.JumpTable (s.contract.GetOp s.pc)).valid = false := by simp [h]
  simp only [Interpreter.step, if_neg h', hv, hm]

/-- A gas-cost error or a cost above the remaining gas ends the run (interpreter.go:168). -/
theorem step_out_of_gas {σ μ : Type} (I : Interpreter σ μ) (mem : MemoryOps μ)
    (s : RunState σ μ) (m : Nat)
    (h : (I.JumpTable (s.contract.GetOp s.pc)).valid = true)
    (hv : (I.JumpTable (s.contract.GetOp s.pc)).validateStack s.stack = none)
    (hm : Interpreter.memorySize (I.JumpTable (s.contract.GetOp s.pc)) s.stack = .ok m)
    (hmeter : I.DisableGasMetering = false)
    (hgas : ((I.JumpTable (s.contract.GetOp s.pc)).gasCost s.vm s.contract s.stack s.mem m).2
        ≠ none
      ∨ s.contract.Gas
        < ((I.JumpTable (s.contract.GetOp s.pc)).gasCost s.vm s.contract s.stack s.mem m).1) :
    I.step mem s = .done [] (some .ErrOutOfGas) s := by
  have h' : ¬ (I.JumpTable (s.contract.GetOp s.pc)).valid = false := by simp [h]
  have hc : ((I.JumpTable (s.contract.GetOp s.pc)).gasCost s.vm s.contract s.stack s.mem m).2
        ≠ none
      ∨ (s.contract.UseGas
        ((I.JumpTable (s.contract.GetOp s.pc)).gasCost s.vm s.contract s.stack s.mem m).1).1
          = false := by
    rcases hgas with hg | hg
    · exact Or.inl hg
    · right
      simp [Contract.UseGas, hg]
  simp only [Interpreter.step, if_neg h', hv, hm, hmeter, if_pos hc, if_true]

theorem toWordSize_eq (s : Nat) (hs : s < 2 ^ 64) : toWordSize s = (s + 31) / 32 := by
  unfold toWordSize MaxUint64
  split_ifs with h
  · omega
  · rfl

theorem BitLen_gt_64_iff (v : Int) : BitLen v > 64 ↔ 2 ^ 64 ≤ v.natAbs := by
  unfold BitLen
  rw [gt_iff_lt, ← not_le, Nat.size_le, not_lt]

theorem memorySize_unfold {σ μ : Type} (operation : operation σ μ) (stack : Stack)
    (f : Stack → Int) (hf : operation.memorySize = some f) :
    Interpreter.memorySize operation stack
      = if BitLen (f stack) > 64 then .error .errGasUintOverflow
        else if (SafeMul (toWordSize (Uint64 (f stack))) 32).2 = true
          then .error .errGasUintOverflow
          else .ok (SafeMul (toWordSize (Uint64 (f stack))) 32).1 := by
  simp only [Interpreter.memorySize, hf, bigUint64, decide_eq_true_eq]

/-- The memory size of a step, for a required size `f stack ≥ 0`. -/
theorem memorySize_spec {σ μ : Type} (operation : operation σ μ) (stack : Stack)
    (f : Stack → Int) (hf : operation.memorySize = some f) (h0 : 0 ≤ f stack) :
    (f stack > 2 ^ 64 - 32 →
      Interpreter.memorySize operation stack = .error .errGasUintOverflow)
    ∧ (f stack ≤ 2 ^ 64 - 32 →
      Interpreter.memorySize operation stack = .ok (32 * (((f stack).toNat + 31) / 32))) := by
  obtain ⟨n, hn⟩ : ∃ n : Nat, f stack = (n : Int) := ⟨(f stack).toNat, by omega⟩
  have hnat : (f stack).natAbs = n := by omega
  have htn : (f stack).toNat = n := by omega
  rw [memorySize_unfold operation stack f hf]
  constructor
  · intro hgt
    by_cases hbig : 2 ^ 64 ≤ n
    · have hb : BitLen (f stack) > 64 := (BitLen_gt_64_iff _).mpr (by omega)
      rw [if_pos hb]
    · have hb : ¬ BitLen (f stack) > 64 := fun c => hbig (by
        have := (BitLen_gt_64_iff _).mp c; omega)
      have hu : Uint64 (f stack) = n := by
        unfold Uint64; rw [hnat]; exact Nat.mod_eq_of_lt (by omega)
      have hw : toWordSize n = 2 ^ 59 := by
        unfold toWordSize MaxUint64
        rw [if_pos (by omega)]
        norm_num
      have hs : (SafeMul (2 ^ 59) 32).2 = true := by
        unfold SafeMul MaxUint64
        norm_num
      rw [if_neg hb, hu, hw, if_pos hs]
  · intro hle
    have hn64 : n < 2 ^ 64 := by omega
    have hb : ¬ BitLen (f stack) > 64 := fun c => by
      have := (BitLen_gt_64_iff _).mp c; omega
    have hu : Uint64 (f stack) = n := by
      unfold Uint64; rw [hnat]; exact Nat.mod_eq_of_lt hn64
    have hw : toWordSize n = (n + 31) / 32 := toWordSize_eq n hn64
    have hwle : (n + 31) / 32 * 32 ≤ 2 ^ 64 - 32 := by omega
    have hs : SafeMul ((n + 31) / 32) 32 = (32 * ((n + 31) / 32), false) := by
      unfold SafeMul MaxUint64
      by_cases hz : (n + 31) / 32 = 0
      · simp [hz]
      · have hpos : 0 < (n + 31) / 32 := Nat.pos_of_ne_zero hz
        have hdiv : 32 ≤ (2 ^ 64 - 1) / ((n + 31) / 32) := by
          rw [Nat.le_div_iff_mul_le hpos]
          omega
        have hmod : (n + 31) / 32 * 32 % 2 ^ 64 = 32 * ((n + 31) / 32) := by
          rw [Nat.mod_eq_of_lt (by omega)]; ring
        have hnot : ¬ (32 > (2 ^ 64 - 1) / ((n + 31) / 32)) := by omega
        have hor : ¬ ((n + 31) / 32 = 0 ∨ 32 = 0) := by omega
        rw [if_neg hor, hmod]
        simp only [decide_eq_false hnot]
    rw [if_neg hb, hu, hw, hs, htn]
    simp

/-- With the abort flag set the loop returns `(nil, nil)` at once. -/
theorem loop_abort {σ μ : Type} (I : Interpreter σ μ) (mem : MemoryOps μ)
    (abort : Nat → Int) (fuel k : Nat) (s : RunState σ μ) (h : abort k ≠ 0) :
    Interpreter.loop I mem abort (fuel + 1) k s = some ([], none, s) := by
  simp only [Interpreter.loop, if_neg h]

/-- Without abort and with enough fuel, the search loop ends at the first nonce that meets
the target. -/
theorem mineLoop_finds {ρ β D : Type} (M : Miner ρ D) (block : Block ρ β) (header : Header ρ)
    (hash : Bytes) (target : Int) (dataset : D) (k : Nat) :
    ∀ (fuel j : Nat) (attempts : Int) (nonce : Nat) (marks : List Int),
      nonce < 2 ^ 64 →
      (∀ i, i < k → ¬ SetBytes (M.hashimotoFull dataset hash ((nonce + i) % 2 ^ 64)).2 ≤ target) →
      SetBytes (M.hashimotoFull dataset hash ((nonce + k) % 2 ^ 64)).2 ≤ target →
      k < fuel →
      (mineLoop M block header hash target dataset (fun _ => false) false fuel j attempts
          nonce marks).map (fun o => o.ending)
        = some (.found { block with header :=
            { header with
              Nonce := (nonce + k) % 2 ^ 64
              MixDigest :=
                M.BytesToHash (M.hashimotoFull dataset hash ((nonce + k) % 2 ^ 64)).1 } }) := by
  induction k with
  | zero =>
    intro fuel j attempts nonce marks hn _ hok hfuel
    obtain ⟨f, rfl⟩ : ∃ f, fuel = f + 1 := ⟨fuel - 1, by omega⟩
    have e : (nonce + 0) % 2 ^ 64 = nonce := by
      rw [Nat.add_zero, Nat.mod_eq_of_lt hn]
    rw [e] at hok ⊢
    simp [mineLoop, hok]
  | succ k ih =>
    intro fuel j attempts nonce marks hn hnot hok hfuel
    obtain ⟨f, rfl⟩ : ∃ f, fuel = f + 1 := ⟨fuel - 1, by omega⟩
    have h0 : ¬ SetBytes (M.hashimotoFull dataset hash nonce).2 ≤ target := by
      have := hnot 0 (by omega)
      rwa [Nat.add_zero, Nat.mod_eq_of_lt hn] at this
    have e : ∀ i, ((nonce + 1) % 2 ^ 64 + i) % 2 ^ 64 = (nonce + (i + 1)) % 2 ^ 64 := by
      intro i; omega
    have hrec := ih f (j + 1)
      (if decide ((attempts + 1) % 2 ^ 15 = 0) = true then 0 else attempts + 1)
      ((nonce + 1) % 2 ^ 64)
      (if decide ((attempts + 1) % 2 ^ 15 = 0) = true then marks ++ [attempts + 1] else marks)
      (Nat.mod_lt _ (by norm_num))
      (fun i hi => by rw [e i]; exact hnot (i + 1) (by omega))
      (by rw [e k]; exact hok) (by omega)
    rw [e k] at hrec
    rw [← hrec]
    simp only [mineLoop, Bool.false_eq_true, if_false, if_neg h0]

/-- Without abort, whatever the search loop returns is the first nonce that meets the
target. -/
theorem mineLoop_found_is_first {ρ β D : Type} (M : Miner ρ D) (block : Block ρ β)
    (header : Header ρ) (hash : Bytes) (target : Int) (dataset : D) (fuel : Nat) :
    ∀ (j : Nat) (attempts : Int) (nonce : Nat) (marks : List Int) (out : MineOut ρ β),
      nonce < 2 ^ 64 →
      mineLoop M block header hash target dataset (fun _ => false) false fuel j attempts
          nonce marks = some out →
      ∃ k, k < fuel
        ∧ (∀ i, i < k →
            ¬ SetBytes (M.hashimotoFull dataset hash ((nonce + i) % 2 ^ 64)).2 ≤ target)
        ∧ SetBytes (M.hashimotoFull dataset hash ((nonce + k) % 2 ^ 64)).2 ≤ target
        ∧ out.ending = .found { block with header :=
            { header with
              Nonce := (nonce + k) % 2 ^ 64
              MixDigest :=
                M.BytesToHash (M.hashimotoFull dataset hash ((nonce + k) % 2 ^ 64)).1 } } := by
  induction fuel with
  | zero =>
    intro j attempts nonce marks out _ h
    simp [mineLoop] at h
  | succ f ih =>
    intro j attempts nonce marks out hn h
    have e0 : (nonce + 0) % 2 ^ 64 = nonce := by
      rw [Nat.add_zero, Nat.mod_eq_of_lt hn]
    by_cases hok : SetBytes (M.hashimotoFull dataset hash nonce).2 ≤ target
    · refine ⟨0, by omega, fun i hi => by omega, by rw [e0]; exact hok, ?_⟩
      simp only [mineLoop, Bool.false_eq_true, if_false, if_pos hok, Option.some.injEq] at h
      rw [← h, e0]
    · simp only [mineLoop, Bool.false_eq_true, if_false, if_neg hok] at h
      obtain ⟨k, hk, hnot, hhit, hend⟩ := ih _ _ _ _ out (Nat.mod_lt _ (by norm_num)) h
      have e : ∀ i, ((nonce + 1) % 2 ^ 64 + i) % 2 ^ 64 = (nonce + (i + 1)) % 2 ^ 64 := by
        intro i; omega
      refine ⟨k + 1, by omega, ?_, by rw [← e k]; exact hhit, by rw [← e k]; exact hend⟩
      intro i hi
      rcases Nat.eq_zero_or_pos i with h0 | hpos
      · subst h0; rw [e0]; exact hok
      · obtain ⟨i', rfl⟩ : ∃ i', i = i' + 1 := ⟨i - 1, by omega⟩
        rw [← e i']; exact hnot i' (by omega)

/-- The positions `demoHas` accepts are inside the code. -/
theorem demoHas_inside (h : Hash) (code : Bytes) (p : Int) (hp : demoHas h code p = true) :
    0 ≤ p ∧ p < (code.length : Int) := by
  unfold demoHas at hp
  simp only [Bool.and_eq_true, decide_eq_true_eq] at hp
  exact hp.1

/-- The signed reading of a word is the integer of `[-2^255, 2^255)` congruent to it. -/
theorem S256_range (x : Int) (h0 : 0 ≤ x) (h1 : x < 2 ^ 256) :
    -2 ^ 255 ≤ S256 x ∧ S256 x < 2 ^ 255 ∧ (S256 x - x) % 2 ^ 256 = 0 := by
  unfold S256
  split_ifs with h
  · refine ⟨by omega, h, by simp⟩
  · refine ⟨by omega, by omega, ?_⟩
    have : x - 2 ^ 256 - x = (-1) * 2 ^ 256 := by ring
    rw [this, Int.mul_emod_left]

/-- Reading a signed value once more does not change it. -/
theorem S256_idem (y : Int) (h1 : y < 2 ^ 256) : S256 (S256 y) = S256 y := by
  by_cases h : y < 2 ^ 255
  · unfold S256
    rw [if_pos h, if_pos h]
  · have h2 : y - 2 ^ 256 < 2 ^ 255 := by omega
    unfold S256
    rw [if_neg h, if_pos h2]

/-- A generator leaves the length of the buffer as it is. -/
theorem fill_length (buffer : List Nat) (word : Nat → Nat) :
    (fill buffer word).length = buffer.length := by
  simp [fill]

/-- `make([]uint32, n)` has `n` words. -/
theorem make_length (n : Nat) : (make n).length = n := by
  simp [make]

/-- The removed paths of two runs of events, one after the other. -/
theorem removed_append (s t : List FsEvent) : removed (s ++ t) = removed s ++ removed t := by
  simp [removed]

/-- What `memoryMap` does once the file is open and mapped, by the outcome of the loop
over the magic words. -/
theorem memoryMap_mapped (H : Host) (t : List FsEvent) (path : String) (file : File)
    (mem : MMap) (hopen : H.OpenFile t path = .ok file)
    (hmap : H.Map (t ++ [.OpenFile path]) file false = .ok mem) :
    memoryMap H t path
      = match magicLoop (wordsOf H.isLittleEndian mem.data) 0 dumpMagic with
        | none => none
        | some false =>
          some ⟨t ++ [.OpenFile path, .Map file false] ++ [.Unmap mem, .Close file],
            none, none, [], some .ErrInvalidDumpMagic⟩
        | some true =>
          some ⟨t ++ [.OpenFile path, .Map file false], some file, some mem,
            (wordsOf H.isLittleEndian mem.data).drop dumpMagic.length, none⟩ := by
  simp only [memoryMap, hopen, memoryMapFile, hmap, List.append_assoc, List.singleton_append]

/-- `memoryMap` first opens the file, and removes nothing. -/
theorem memoryMap_trace (H : Host) (t : List FsEvent) (path : String) (r : MapOut)
    (h : memoryMap H t path = some r) :
    ∃ evs, r.trace = t ++ FsEvent.OpenFile path :: evs ∧ removed evs = [] := by
  cases hO : H.OpenFile t path with
  | error e =>
    simp only [memoryMap, hO, Option.some.injEq] at h
    subst h
    exact ⟨[], by simp, rfl⟩
  | ok file =>
    cases hM : H.Map (t ++ [.OpenFile path]) file false with
    | error e =>
      simp only [memoryMap, hO, memoryMapFile, hM, Option.some.injEq] at h
      subst h
      exact ⟨[.Map file false, .Close file], by simp, rfl⟩
    | ok mem =>
      rw [memoryMap_mapped H t path file mem hO hM] at h
      cases hL : magicLoop (wordsOf H.isLittleEndian mem.data) 0 dumpMagic with
      | none => rw [hL] at h; cases h
      | some b =>
        rw [hL] at h
        cases b
        · simp only [Option.some.injEq] at h
          subst h
          exact ⟨[.Map file false, .Unmap mem, .Close file], by simp, rfl⟩
        · simp only [Option.some.injEq] at h
          subst h
          exact ⟨[.Map file false], by simp, rfl⟩

/-- `memoryMapFile` records the one call it makes. -/
theorem memoryMapFile_trace (H : Host) (t : List FsEvent) (file : File) (write : Bool) :
    (memoryMapFile H t file write).1 = t ++ [.Map file write] := by
  unfold memoryMapFile
  split <;> rfl

/-- `memoryMapAndGenerate` adds to the events it is given, and removes nothing. -/
theorem memoryMapAndGenerate_trace (H : Host) (t : List FsEvent) (path : String)
    (size : Nat) (generator : List Nat → List Nat) (r : MapOut)
    (h : memoryMapAndGenerate H t path size generator = some r) :
    ∃ evs, r.trace = t ++ evs ∧ removed evs = [] := by
  unfold memoryMapAndGenerate at h
  cases hD : H.MkdirAll t (H.Dir path) with
  | some e =>
    simp only [hD, Option.some.injEq] at h
    subst h
    exact ⟨_, rfl, rfl⟩
  | none =>
    simp only [hD] at h
    cases hC : H.Create (t ++ [.MkdirAll (H.Dir path)])
        (path ++ "." ++ toString (H.randInt (t ++ [.MkdirAll (H.Dir path)]))) with
    | error e =>
      simp only [hC, Option.some.injEq] at h
      subst h
      exact ⟨_, List.append_assoc _ _ _, rfl⟩
    | ok dump =>
      simp only [hC] at h
      split at h
      · simp only [Option.some.injEq] at h
        subst h
        exact ⟨_, by simp only [List.append_assoc]; rfl, by rfl⟩
      · split at h
        · rename_i t1 err hF
          have h1 := memoryMapFile_trace H
            (t ++ [.MkdirAll (H.Dir path)] ++ [FsEvent.Create
              (path ++ "." ++ toString (H.randInt (t ++ [.MkdirAll (H.Dir path)])))]
              ++ [FsEvent.Truncate dump (wrapInt ((dumpMagic.length : Int) * 4
                + intOfUint64 size))]) dump true
          rw [hF] at h1
          simp only at h1
          subst h1
          simp only [Option.some.injEq] at h
          subst h
          exact ⟨_, by simp only [List.append_assoc]; rfl, by rfl⟩
        · rename_i t1 mem buffer hF
          have h1 := memoryMapFile_trace H
            (t ++ [.MkdirAll (H.Dir path)] ++ [FsEvent.Create
              (path ++ "." ++ toString (H.randInt (t ++ [.MkdirAll (H.Dir path)])))]
              ++ [FsEvent.Truncate dump (wrapInt ((dumpMagic.length : Int) * 4
                + intOfUint64 size))]) dump true
          rw [hF] at h1
          simp only at h1
          subst h1
          split at h
          · cases h
          · split at h
            · simp only [Option.some.injEq] at h
              subst h
              exact ⟨_, by simp only [List.append_assoc]; rfl, by rfl⟩
            · split at h
              · simp only [Option.some.injEq] at h
                subst h
                exact ⟨_, by simp only [List.append_assoc]; rfl, by rfl⟩
              · split at h
                · simp only [Option.some.injEq] at h
                  subst h
                  exact ⟨_, by simp only [List.append_assoc]; rfl, by rfl⟩
                · obtain ⟨evs, he, hr⟩ := memoryMap_trace H _ path r h
                  refine ⟨_, by rw [he]; simp only [List.append_assoc]; rfl, ?_⟩
                  have hr2 : removed (FsEvent.OpenFile path :: evs) = [] := by
                    simpa [removed] using hr
                  simp only [removed_append, hr2]
                  rfl

/-- `cache.generate` on a directory whose dump cannot be loaded: after
`memoryMapAndGenerate` it keeps what that returned, or on an error fills `size / 4` words
in memory, and then removes old dumps. -/
theorem cache_generate_disk (A : Algorithm) (H : Host) (t : List FsEvent) (c : cache)
    (dir : String) (limit : Int) (r1 r2 : MapOut) (hc : c.once = false) (hdir : dir ≠ "")
    (h1 : memoryMap H t (dumpPath A H "cache" dir c.epoch) = some r1) (he1 : r1.err ≠ none)
    (h2 : memoryMapAndGenerate H r1.trace (dumpPath A H "cache" dir c.epoch)
        (A.cacheSize ((c.epoch * A.epochLength + 1) % 2 ^ 64))
        (fun buffer => fill buffer (A.generateCache buffer.length c.epoch
          (A.seedHash ((c.epoch * A.epochLength + 1) % 2 ^ 64)))) = some r2) :
    cache.generate A H t c dir limit false
      = some (r2.trace ++ removeOld A H "cache" dir c.epoch limit,
          { c with
            once := true, dump := r2.file, mmap := r2.mem,
            cache := if r2.err ≠ none then
                fill (make (A.cacheSize ((c.epoch * A.epochLength + 1) % 2 ^ 64) / 4))
                  (A.generateCache (A.cacheSize ((c.epoch * A.epochLength + 1) % 2 ^ 64) / 4)
                    c.epoch (A.seedHash ((c.epoch * A.epochLength + 1) % 2 ^ 64)))
              else r2.buffer }) := by
  simp only [cache.generate, hc, if_neg hdir, h1, if_neg he1, h2, Bool.false_eq_true, if_false]
  by_cases he2 : r2.err = none
  · simp [he2]
  · simp [he2]

/-- `dataset.generate` when the dump cannot be loaded: after `memoryMapAndGenerate` it
keeps what that returned, or on an error fills `dsize / 2` words in memory, and then
removes old dumps.  The directory may be empty. -/
theorem dataset_generate_disk (A : Algorithm) (H : Host) (t : List FsEvent) (d : dataset)
    (dir : String) (limit : Int) (r1 r2 : MapOut) (hd : d.once = false)
    (h1 : memoryMap H t (dumpPath A H "full" dir d.epoch) = some r1) (he1 : r1.err ≠ none)
    (h2 : memoryMapAndGenerate H r1.trace (dumpPath A H "full" dir d.epoch)
        (A.datasetSize ((d.epoch * A.epochLength + 1) % 2 ^ 64))
        (fun buffer => fill buffer (A.generateDataset buffer.length d.epoch
          (fill (make (A.cacheSize ((d.epoch * A.epochLength + 1) % 2 ^ 64) / 4))
            (A.generateCache (A.cacheSize ((d.epoch * A.epochLength + 1) % 2 ^ 64) / 4)
              d.epoch (A.seedHash ((d.epoch * A.epochLength + 1) % 2 ^ 64)))))) = some r2) :
    dataset.generate A H t d dir limit false
      = some (r2.trace ++ removeOld A H "full" dir d.epoch limit,
          { d with
            once := true, dump := r2.file, mmap := r2.mem,
            dataset := if r2.err ≠ none then
                fill (make (A.datasetSize ((d.epoch * A.epochLength + 1) % 2 ^ 64) / 2))
                  (A.generateDataset
                    (A.datasetSize ((d.epoch * A.epochLength + 1) % 2 ^ 64) / 2) d.epoch
                    (fill (make (A.cacheSize ((d.epoch * A.epochLength + 1) % 2 ^ 64) / 4))
                      (A.generateCache
                        (A.cacheSize ((d.epoch * A.epochLength + 1) % 2 ^ 64) / 4)
                        d.epoch (A.seedHash ((d.epoch * A.epochLength + 1) % 2 ^ 64)))))
              else r2.buffer }) := by
  by_cases hdir : dir = ""
  · subst hdir
    simp only [dataset.generate, hd, if_true, h1, if_neg he1, h2, Bool.false_eq_true,
      if_false]
    by_cases he2 : r2.err = none
    · simp [he2]
    · simp [he2]
  · simp only [dataset.generate, hd, if_neg hdir, h1, if_neg he1, h2, Bool.false_eq_true,
      if_false]
    by_cases he2 : r2.err = none
    · simp [he2]
    · simp [he2]

/-- The paths the removal loop removes from the counter `n` down: those of the epochs
`n, n - 1, ..., 0`. -/
theorem removed_removeFrom (A : Algorithm) (H : Host) (kind dir : String) (n : Nat) :
    removed (removeFrom A H kind dir n)
      = (List.range (n + 1)).reverse.map (dumpPath A H kind dir) := by
  induction n with
  | zero => rfl
  | succ n ih =>
    rw [removeFrom, List.range_succ, List.reverse_append]
    simp only [List.reverse_cons, List.reverse_nil, List.nil_append, List.singleton_append,
      List.map_cons]
    rw [← ih]
    rfl

/-- An `int` difference of an epoch and a limit that both fit does not wrap. -/
theorem wrapInt_sub (epoch : Nat) (limit : Int) (hE : epoch < 2 ^ 63) (hL0 : 0 ≤ limit)
    (hL : limit < 2 ^ 63) : wrapInt (intOfUint64 epoch - limit) = (epoch : Int) - limit := by
  have h1 : intOfUint64 epoch = (epoch : Int) := by
    unfold intOfUint64
    rw [if_pos hE]
  have hE2 : (epoch : Int) < 2 ^ 63 := by exact_mod_cast hE
  rw [h1]
  unfold wrapInt
  have h2 : ((epoch : Int) - limit + 2 ^ 63) % 2 ^ 64 = (epoch : Int) - limit + 2 ^ 63 := by
    apply Int.emod_eq_of_lt <;> omega
  rw [h2]
  ring

/-- The whole removal loop removes the dumps of the epochs `epoch - limit` down to `0`,
none when `limit` exceeds `epoch`. -/
theorem removed_removeOld (A : Algorithm) (H : Host) (kind dir : String) (epoch : Nat)
    (limit : Int) (hE : epoch < 2 ^ 63) (hL0 : 0 ≤ limit) (hL : limit < 2 ^ 63) :
    removed (removeOld A H kind dir epoch limit)
      = (List.range ((epoch : Int) - limit + 1).toNat).reverse.map
          (dumpPath A H kind dir) := by
  unfold removeOld
  simp only [wrapInt_sub epoch limit hE hL0 hL]
  by_cases h : (epoch : Int) - limit ≥ 0
  · rw [if_pos h, removed_removeFrom]
    congr 3
    omega
  · rw [if_neg h]
    have : ((epoch : Int) - limit + 1).toNat = 0 := by omega
    rw [this]
    rfl

/-- `cache.release` in one step: the events it adds and the record it leaves. -/
theorem cache_release_eq (t : List FsEvent) (c : cache) :
    c.release t = (t ++ c.mmap.toList.map FsEvent.Unmap ++ c.dump.toList.map FsEvent.Close,
      { c with mmap := none, dump := none }) := by
  obtain ⟨epoch, dump, mmap, words, used, once⟩ := c
  cases dump <;> cases mmap <;> simp [cache.release]

/-- `dataset.release` in one step: the events it adds and the record it leaves. -/
theorem dataset_release_eq (t : List FsEvent) (d : dataset) :
    d.release t = (t ++ d.mmap.toList.map FsEvent.Unmap ++ d.dump.toList.map FsEvent.Close,
      { d with mmap := none, dump := none }) := by
  obtain ⟨epoch, dump, mmap, words, used, once⟩ := d
  cases dump <;> cases mmap <;> simp [dataset.release]

/-- A key has no entry exactly when no entry of the map sits under it. -/
theorem mapGet_eq_none_iff {α : Type} (m : List (Nat × α)) (k : Nat) :
    mapGet m k = none ↔ ∀ kv ∈ m, kv.1 ≠ k := by
  induction m with
  | nil => simp [mapGet]
  | cons kv rest ih =>
    obtain ⟨j, v⟩ := kv
    unfold mapGet at ih ⊢
    by_cases h : k = j
    · subst h
      simp [List.lookup]
    · have h2 : (k == j) = false := by simpa using h
      simp only [List.lookup, h2, ih, List.mem_cons, forall_eq_or_imp]
      constructor
      · intro hr
        exact ⟨fun c => h c.symm, hr⟩
      · intro hr
        exact hr.2

/-- Setting a key that has no entry adds one entry. -/
theorem mapSet_length_of_none {α : Type} (m : List (Nat × α)) (k : Nat) (v : α)
    (h : mapGet m k = none) : (mapSet m k v).length = m.length + 1 := by
  unfold mapGet at h
  simp [mapSet, h]

/-- Setting a key that has an entry keeps the number of entries. -/
theorem mapSet_length_of_some {α : Type} (m : List (Nat × α)) (k : Nat) (v x : α)
    (h : mapGet m k = some x) : (mapSet m k v).length = m.length := by
  unfold mapGet at h
  simp [mapSet, h]

/-- Setting a key adds at most one entry. -/
theorem mapSet_length_le {α : Type} (m : List (Nat × α)) (k : Nat) (v : α) :
    (mapSet m k v).length ≤ m.length + 1 := by
  unfold mapSet
  split_ifs <;> simp

/-- After the entry of a key has been replaced, the key has the new entry. -/
theorem lookup_map_replace {α : Type} (k : Nat) (v : α) (m : List (Nat × α))
    (h : (List.lookup k m).isSome = true) :
    List.lookup k (m.map fun kv => if kv.1 = k then (k, v) else kv) = some v := by
  induction m with
  | nil => simp at h
  | cons kv rest ih =>
    obtain ⟨j, w⟩ := kv
    by_cases hj : j = k
    · have hf : (if (j, w).1 = k then (k, v) else (j, w)) = (k, v) := if_pos hj
      rw [List.map_cons, hf]
      simp [List.lookup]
    · have hf : (if (j, w).1 = k then (k, v) else (j, w)) = (j, w) := if_neg hj
      have h2 : (k == j) = false := by simpa using fun c => hj c.symm
      rw [List.map_cons, hf]
      simp only [List.lookup, h2] at h ⊢
      exact ih h

/-- After an entry has been added under a new key, the key has it. -/
theorem lookup_append_new {α : Type} (k : Nat) (v : α) (m : List (Nat × α))
    (h : List.lookup k m = none) : List.lookup k (m ++ [(k, v)]) = some v := by
  induction m with
  | nil => simp [List.lookup]
  | cons kv rest ih =>
    obtain ⟨j, w⟩ := kv
    by_cases hj : k = j
    · subst hj
      simp [List.lookup] at h
    · have h2 : (k == j) = false := by simpa using hj
      simp only [List.lookup, h2] at h
      simp only [List.cons_append, List.lookup, h2]
      exact ih h

/-- After `m[k] = v` the entry of `k` is `v`. -/
theorem mapGet_mapSet {α : Type} (m : List (Nat × α)) (k : Nat) (v : α) :
    mapGet (mapSet m k v) k = some v := by
  unfold mapSet mapGet
  split_ifs with h
  · exact lookup_map_replace k v m h
  · exact lookup_append_new k v m (by
      cases hl : List.lookup k m with
      | none => rfl
      | some x => rw [hl] at h; simp at h)

/-- Every key of the map after `m[k] = v` is `k` or a key of `m`, and the entry is `v` or
an entry of `m`. -/
theorem mem_mapSet {α : Type} (m : List (Nat × α)) (k : Nat) (v : α) (kv : Nat × α)
    (h : kv ∈ mapSet m k v) : kv = (k, v) ∨ kv ∈ m := by
  unfold mapSet at h
  split_ifs at h
  · rw [List.mem_map] at h
    obtain ⟨a, ha, rfl⟩ := h
    split_ifs
    · exact Or.inl rfl
    · exact Or.inr ha
  · rw [List.mem_append, List.mem_singleton] at h
    exact h.symm

/-- `delete(m, k)` leaves part of the map. -/
theorem mapDelete_sublist {α : Type} (m : List (Nat × α)) (k : Nat) :
    (mapDelete m k).Sublist m := List.filter_sublist m

/-- The inner loop started with a candidate ends with that candidate or an entry. -/
theorem pick_foldl {α : Type} (used : α → Int) (entries : List (Nat × α)) (a : α) :
    ∃ x, entries.foldl (fun evict kv =>
        match evict with
        | none => some kv.2
        | some e => if used e > used kv.2 then some kv.2 else some e) (some a) = some x
      ∧ (x = a ∨ ∃ kv ∈ entries, kv.2 = x) := by
  induction entries generalizing a with
  | nil => exact ⟨a, rfl, Or.inl rfl⟩
  | cons kv rest ih =>
    simp only [List.foldl_cons]
    by_cases h : used a > used kv.2
    · simp only [if_pos h]
      obtain ⟨x, hx, hm⟩ := ih kv.2
      refine ⟨x, hx, Or.inr ?_⟩
      rcases hm with rfl | ⟨kv2, hkv2, rfl⟩
      · exact ⟨kv, List.mem_cons_self _ _, rfl⟩
      · exact ⟨kv2, List.mem_cons_of_mem _ hkv2, rfl⟩
    · simp only [if_neg h]
      obtain ⟨x, hx, hm⟩ := ih a
      refine ⟨x, hx, ?_⟩
      rcases hm with rfl | ⟨kv2, hkv2, rfl⟩
      · exact Or.inl rfl
      · exact Or.inr ⟨kv2, List.mem_cons_of_mem _ hkv2, rfl⟩

/-- On a map that is not empty the inner loop picks one of its entries. -/
theorem pickEvict_mem {α : Type} (used : α → Int) (entries : List (Nat × α))
    (h : entries ≠ []) : ∃ kv ∈ entries, pickEvict used entries = some kv.2 := by
  cases entries with
  | nil => exact absurd rfl h
  | cons kv rest =>
    unfold pickEvict
    simp only [List.foldl_cons]
    obtain ⟨x, hx, hm⟩ := pick_foldl used rest kv.2
    rcases hm with rfl | ⟨kv2, hkv2, rfl⟩
    · exact ⟨kv, List.mem_cons_self _ _, hx⟩
    · exact ⟨kv2, List.mem_cons_of_mem _ hkv2, hx⟩

/-- When the eviction loop returns, what is left is part of the map it began with, and
is empty or has fewer entries than the limit. -/
theorem evictLoop_spec {α : Type} (order : List (Nat × α) → List (Nat × α))
    (epoch : α → Nat) (used : α → Int) (release : List FsEvent → α → List FsEvent × α)
    (limit : Int) (fuel : Nat) (s s2 : EvictOut α)
    (h : evictLoop order epoch used release limit fuel s = some s2) :
    s2.entries.Sublist s.entries
      ∧ (s2.entries.length = 0 ∨ (s2.entries.length : Int) < limit) := by
  have hexit : ∀ s : EvictOut α,
      ¬ (s.entries.length > 0 ∧ (s.entries.length : Int) ≥ limit) →
      (s.entries.length = 0 ∨ (s.entries.length : Int) < limit) := by
    intro s hc
    by_contra hn
    push_neg at hn
    exact hc ⟨Nat.pos_of_ne_zero hn.1, hn.2⟩
  induction fuel generalizing s with
  | zero =>
    unfold evictLoop at h
    by_cases hc : s.entries.length > 0 ∧ (s.entries.length : Int) ≥ limit
    · rw [if_pos hc] at h
      cases h
    · rw [if_neg hc] at h
      cases h
      exact ⟨List.Sublist.refl _, hexit _ hc⟩
  | succ fuel ih =>
    unfold evictLoop at h
    by_cases hc : s.entries.length > 0 ∧ (s.entries.length : Int) ≥ limit
    · rw [if_pos hc] at h
      simp only at h
      split at h
      · cases h
      · obtain ⟨hs, hl⟩ := ih _ h
        exact ⟨hs.trans (mapDelete_sublist _ _), hl⟩
    · rw [if_neg hc] at h
      cases h
      exact ⟨List.Sublist.refl _, hexit _ hc⟩

/-- Fuel for as many rounds as the map has entries is enough for the eviction loop, when
every entry sits under the key its `epoch` field names and `range` visits the entries of
the map. -/
theorem evictLoop_total {α : Type} (order : List (Nat × α) → List (Nat × α))
    (epoch : α → Nat) (used : α → Int) (release : List FsEvent → α → List FsEvent × α)
    (limit : Int) (horder : ∀ m, (order m).Perm m) (fuel : Nat) (s : EvictOut α)
    (hkey : ∀ kv ∈ s.entries, epoch kv.2 = kv.1) (hfuel : s.entries.length ≤ fuel) :
    ∃ s2, evictLoop order epoch used release limit fuel s = some s2 := by
  induction fuel generalizing s with
  | zero =>
    unfold evictLoop
    have : ¬ (s.entries.length > 0 ∧ (s.entries.length : Int) ≥ limit) := by
      intro hc
      omega
    rw [if_neg this]
    exact ⟨s, rfl⟩
  | succ fuel ih =>
    unfold evictLoop
    split_ifs with hc
    · have hne : order s.entries ≠ [] := by
        intro he
        have := (horder s.entries).length_eq
        rw [he] at this
        simp only [List.length_nil] at this
        omega
      obtain ⟨kv, hkv, hp⟩ := pickEvict_mem used (order s.entries) hne
      simp only [hp]
      apply ih
      · intro kv2 hkv2
        exact hkey kv2 ((mapDelete_sublist _ _).subset hkv2)
      · have hmem : kv ∈ s.entries := (horder s.entries).mem_iff.mp hkv
        have hlt : (mapDelete s.entries (epoch kv.2)).length < s.entries.length := by
          unfold mapDelete
          rw [List.length_filter_lt_length_iff_exists]
          exact ⟨kv, hmem, by simp [hkey kv hmem]⟩
        simp only
        omega
    · exact ⟨s, rfl⟩

/-- The entry found under a key is an entry of the map. -/
theorem mapGet_mem {α : Type} (m : List (Nat × α)) (k : Nat) (v : α)
    (h : mapGet m k = some v) : (k, v) ∈ m := by
  induction m with
  | nil => simp [mapGet] at h
  | cons kv rest ih =>
    obtain ⟨j, w⟩ := kv
    unfold mapGet at h ih
    by_cases hj : k = j
    · subst hj
      simp only [List.lookup, beq_self_eq_true, Option.some.injEq] at h
      subst h
      exact List.mem_cons_self _ _
    · have h2 : (k == j) = false := by simpa using hj
      simp only [List.lookup, h2] at h
      exact List.mem_cons_of_mem _ (ih h)

/-- `cache.generate` leaves the epoch of the cache alone. -/
theorem cache_generate_epoch (A : Algorithm) (H : Host) (t : List FsEvent) (c : cache)
    (dir : String) (limit : Int) (test : Bool) (g : List FsEvent × cache)
    (h : c.generate A H t dir limit test = some g) : g.2.epoch = c.epoch := by
  unfold cache.generate at h
  split_ifs at h with h1 h2 h3
  · cases h; rfl
  · cases h; rfl
  · cases h; rfl
  · simp only at h
    split at h
    · cases h
    · split_ifs at h
      · cases h; rfl
      · split at h
        · cases h
        · cases h
          simp only
          split_ifs <;> rfl

/-- `dataset.generate` leaves the epoch of the dataset alone. -/
theorem dataset_generate_epoch (A : Algorithm) (H : Host) (t : List FsEvent) (d : dataset)
    (dir : String) (limit : Int) (test : Bool) (g : List FsEvent × dataset)
    (h : d.generate A H t dir limit test = some g) : g.2.epoch = d.epoch := by
  by_cases h1 : d.once = true
  · simp only [dataset.generate, h1, if_true, Option.some.injEq] at h
    subst h
    rfl
  · cases test
    · unfold dataset.generate at h
      rw [if_neg h1] at h
      simp only [Bool.false_eq_true, if_false] at h
      by_cases hdir : dir = ""
      · subst hdir
        simp only [if_true] at h
        split at h
        · cases h
        · split_ifs at h
          · cases h; rfl
          · split at h
            · cases h
            · cases h
              simp only
              split_ifs <;> rfl
      · simp only [if_neg hdir] at h
        split at h
        · cases h
        · split_ifs at h
          · cases h; rfl
          · split at h
            · cases h
            · cases h
              simp only
              split_ifs <;> rfl
    · have ho : d.once = false := by simpa using h1
      simp only [dataset.generate, ho, Bool.false_eq_true, if_true, if_false,
        Option.some.injEq] at h
      subst h
      rfl

/-- In test mode, and with an empty directory, `cache.generate` returns. -/
theorem cache_generate_total (A : Algorithm) (H : Host) (t : List FsEvent) (c : cache)
    (dir : String) (limit : Int) (test : Bool) (h : test = true ∨ dir = "") :
    ∃ g, c.generate A H t dir limit test = some g := by
  unfold cache.generate
  split_ifs with h1 h2 h3
  · exact ⟨_, rfl⟩
  · exact ⟨_, rfl⟩
  · exact ⟨_, rfl⟩
  · rcases h with h | h
    · exact absurd h h2
    · exact absurd h h3

/-- In test mode `dataset.generate` returns. -/
theorem dataset_generate_total (A : Algorithm) (H : Host) (t : List FsEvent) (d : dataset)
    (dir : String) (limit : Int) : ∃ g, d.generate A H t dir limit true = some g := by
  cases ho : d.once
  · exact ⟨_, by simp only [dataset.generate, ho, Bool.false_eq_true, if_true, if_false]; rfl⟩
  · exact ⟨_, by simp only [dataset.generate, ho, if_true]; rfl⟩

/-- What holds when `cache` gives up the lock: the settings are the ones it began with,
every cache still sits under the key of its epoch, the map has at most
`max cachesinmem 1` entries, and `current` is the entry of `epoch` and is for it. -/
theorem cacheLocked_inv (order : List (Nat × cache) → List (Nat × cache)) (fuel : Nat)
    (t : List FsEvent) (e : Tilthash) (epoch : Nat) (now : Int) (l : Locked cache)
    (hkey : ∀ kv ∈ e.caches, kv.2.epoch = kv.1)
    (hlen : (e.caches.length : Int) ≤ max e.cachesinmem 1)
    (h : Tilthash.cacheLocked order fuel t e epoch now = some l) :
    (l.tilthash.cachesinmem = e.cachesinmem ∧ l.tilthash.cachedir = e.cachedir
      ∧ l.tilthash.cachesondisk = e.cachesondisk ∧ l.tilthash.tester = e.tester)
    ∧ (∀ kv ∈ l.tilthash.caches, kv.2.epoch = kv.1)
    ∧ (l.tilthash.caches.length : Int) ≤ max e.cachesinmem 1
    ∧ mapGet l.tilthash.caches epoch = some l.current
    ∧ l.current.epoch = epoch := by
  unfold Tilthash.cacheLocked at h
  cases hg : mapGet e.caches epoch with
  | some current =>
    simp only [hg, Option.some.injEq] at h
    subst h
    exact ⟨⟨rfl, rfl, rfl, rfl⟩, hkey, hlen, hg, hkey _ (mapGet_mem _ _ _ hg)⟩
  | none =>
    simp only [hg] at h
    split at h
    · cases h
    · rename_i s hs
      obtain ⟨hsub, hexit⟩ := evictLoop_spec _ _ _ _ _ _ _ _ hs
      simp only at hsub
      have habs : mapGet s.entries epoch = none := by
        rw [mapGet_eq_none_iff] at hg ⊢
        exact fun kv hkv => hg kv (hsub.subset hkv)
      have hskey : ∀ kv ∈ s.entries, kv.2.epoch = kv.1 :=
        fun kv hkv => hkey kv (hsub.subset hkv)
      have hbound : ∀ c : cache,
          ((mapSet s.entries epoch c).length : Int) ≤ max e.cachesinmem 1 := by
        intro c
        rw [mapSet_length_of_none _ _ _ habs]
        rcases hexit with h0 | h1
        · rw [h0]
          exact le_max_right _ _
        · push_cast
          exact le_trans (by omega) (le_max_left _ _)
      have hnew : ∀ c : cache, c.epoch = epoch →
          ∀ kv ∈ mapSet s.entries epoch c, kv.2.epoch = kv.1 := by
        intro c hc kv hkv
        rcases mem_mapSet _ _ _ _ hkv with rfl | hm
        · exact hc
        · exact hskey kv hm
      cases hf : e.fcache with
      | none =>
        simp only [hf, Option.some.injEq] at h
        subst h
        exact ⟨⟨rfl, rfl, rfl, rfl⟩, hnew _ rfl, hbound _, mapGet_mapSet _ _ _, rfl⟩
      | some f =>
        simp only [hf] at h
        by_cases hfe : f.epoch = epoch
        · simp only [if_pos hfe, Option.some.injEq] at h
          subst h
          exact ⟨⟨rfl, rfl, rfl, rfl⟩, hnew _ hfe, hbound _, mapGet_mapSet _ _ _, hfe⟩
        · simp only [if_neg hfe] at h
          split_ifs at h
          · simp only [Option.some.injEq] at h
            subst h
            exact ⟨⟨rfl, rfl, rfl, rfl⟩, hnew _ rfl, hbound _, mapGet_mapSet _ _ _, rfl⟩
          · simp only [Option.some.injEq] at h
            subst h
            exact ⟨⟨rfl, rfl, rfl, rfl⟩, hnew _ rfl, hbound _, mapGet_mapSet _ _ _, rfl⟩

/-- With fuel for as many rounds as the map has entries, `cache` comes to give up the
lock. -/
theorem cacheLocked_total (order : List (Nat × cache) → List (Nat × cache)) (fuel : Nat)
    (t : List FsEvent) (e : Tilthash) (epoch : Nat) (now : Int)
    (horder : ∀ m, (order m).Perm m) (hkey : ∀ kv ∈ e.caches, kv.2.epoch = kv.1)
    (hfuel : e.caches.length ≤ fuel) :
    ∃ l, Tilthash.cacheLocked order fuel t e epoch now = some l := by
  unfold Tilthash.cacheLocked
  cases hg : mapGet e.caches epoch with
  | some current => exact ⟨_, rfl⟩
  | none =>
    obtain ⟨s, hs⟩ := evictLoop_total order (fun c => c.epoch) (fun c => c.used)
      (fun t c => c.release t) e.cachesinmem horder fuel ⟨t, e.caches, []⟩ hkey hfuel
    simp only [hs]
    cases hf : e.fcache with
    | none => exact ⟨_, rfl⟩
    | some f =>
      simp only
      by_cases hfe : f.epoch = epoch
      · simp only [if_pos hfe]
        exact ⟨_, rfl⟩
      · simp only [if_neg hfe]
        split_ifs
        · exact ⟨_, rfl⟩
        · exact ⟨_, rfl⟩

/-- One call `cache(block)` keeps the settings, keeps every cache under the key of its
epoch, keeps the map within `max cachesinmem 1` entries, and leaves an entry for the epoch
of the block. -/
theorem cache_inv (A : Algorithm) (H : Host)
    (order : List (Nat × cache) → List (Nat × cache)) (fuel : Nat) (t : List FsEvent)
    (e : Tilthash) (block : Nat) (now1 now2 : Int) (out : LookupOut)
    (hkey : ∀ kv ∈ e.caches, kv.2.epoch = kv.1)
    (hlen : (e.caches.length : Int) ≤ max e.cachesinmem 1)
    (h : Tilthash.cache A H order fuel t e block now1 now2 = some out) :
    (out.tilthash.cachesinmem = e.cachesinmem ∧ out.tilthash.cachedir = e.cachedir
      ∧ out.tilthash.cachesondisk = e.cachesondisk ∧ out.tilthash.tester = e.tester)
    ∧ (∀ kv ∈ out.tilthash.caches, kv.2.epoch = kv.1)
    ∧ (out.tilthash.caches.length : Int) ≤ max e.cachesinmem 1
    ∧ (mapGet out.tilthash.caches (block / A.epochLength)).isSome = true := by
  unfold Tilthash.cache at h
  simp only at h
  split at h
  · cases h
  · rename_i l hl
    obtain ⟨hcfg, hk, hb, hcur, hep⟩ := cacheLocked_inv _ _ _ _ _ _ _ hkey hlen hl
    split at h
    · cases h
    · rename_i g hgen
      have hge := cache_generate_epoch _ _ _ _ _ _ _ _ hgen
      have hk2 : ∀ kv ∈ mapSet l.tilthash.caches (block / A.epochLength)
          { g.2 with used := now2 }, kv.2.epoch = kv.1 := by
        intro kv hkv
        rcases mem_mapSet _ _ _ _ hkv with rfl | hm
        · exact hge.trans hep
        · exact hk kv hm
      have hb2 : ((mapSet l.tilthash.caches (block / A.epochLength)
          { g.2 with used := now2 }).length : Int) ≤ max e.cachesinmem 1 := by
        rw [mapSet_length_of_some _ _ _ _ hcur]
        exact hb
      have hin : (mapGet (mapSet l.tilthash.caches (block / A.epochLength)
          { g.2 with used := now2 }) (block / A.epochLength)).isSome = true := by
        rw [mapGet_mapSet]
        rfl
      split at h
      · simp only [Option.some.injEq] at h
        subst h
        exact ⟨hcfg, hk2, hb2, hin⟩
      · split at h
        · cases h
        · simp only [Option.some.injEq] at h
          subst h
          exact ⟨hcfg, hk2, hb2, hin⟩

/-- A call `cache(block)` returns when the engine is a tester or keeps its caches in
memory only, given fuel for as many rounds as the map has entries. -/
theorem cache_total (A : Algorithm) (H : Host)
    (order : List (Nat × cache) → List (Nat × cache)) (fuel : Nat) (t : List FsEvent)
    (e : Tilthash) (block : Nat) (now1 now2 : Int)
    (horder : ∀ m, (order m).Perm m) (hkey : ∀ kv ∈ e.caches, kv.2.epoch = kv.1)
    (hfuel : e.caches.length ≤ fuel) (hmem : e.tester = true ∨ e.cachedir = "") :
    ∃ out, Tilthash.cache A H order fuel t e block now1 now2 = some out := by
  obtain ⟨l, hl⟩ := cacheLocked_total order fuel t e (block / A.epochLength) now1 horder
    hkey hfuel
  have hcfg : l.tilthash.cachedir = e.cachedir ∧ l.tilthash.tester = e.tester := by
    unfold Tilthash.cacheLocked at hl
    split at hl
    · cases hl
      exact ⟨rfl, rfl⟩
    · split at hl
      · cases hl
      · simp only at hl
        split at hl
        · cases hl
          exact ⟨rfl, rfl⟩
        · split_ifs at hl <;> cases hl <;> exact ⟨rfl, rfl⟩
  have hmem2 : l.tilthash.tester = true ∨ l.tilthash.cachedir = "" := by
    rw [hcfg.1, hcfg.2]
    exact hmem
  obtain ⟨g, hg⟩ := cache_generate_total A H l.trace l.current l.tilthash.cachedir
    l.tilthash.cachesondisk l.tilthash.tester hmem2
  unfold Tilthash.cache
  simp only [hl, hg]
  cases hfut : l.future with
  | none => exact ⟨_, rfl⟩
  | some future =>
    simp only
    obtain ⟨f, hf⟩ := cache_generate_total A H g.1 future l.tilthash.cachedir
      l.tilthash.cachesondisk l.tilthash.tester hmem2
    simp only [hf]
    exact ⟨_, rfl⟩

/-- What holds when `dataset` gives up the lock: the settings are the ones it began with,
every dataset still sits under the key of its epoch, the map has at most
`max dagsinmem 1` entries, and `current` is the entry of `epoch` and is for it. -/
theorem datasetLocked_inv (order : List (Nat × dataset) → List (Nat × dataset)) (fuel : Nat)
    (t : List FsEvent) (e : Tilthash) (epoch : Nat) (now : Int) (l : Locked dataset)
    (hkey : ∀ kv ∈ e.datasets, kv.2.epoch = kv.1)
    (hlen : (e.datasets.length : Int) ≤ max e.dagsinmem 1)
    (h : Tilthash.datasetLocked order fuel t e epoch now = some l) :
    (l.tilthash.dagsinmem = e.dagsinmem ∧ l.tilthash.dagdir = e.dagdir
      ∧ l.tilthash.dagsondisk = e.dagsondisk ∧ l.tilthash.tester = e.tester)
    ∧ (∀ kv ∈ l.tilthash.datasets, kv.2.epoch = kv.1)
    ∧ (l.tilthash.datasets.length : Int) ≤ max e.dagsinmem 1
    ∧ mapGet l.tilthash.datasets epoch = some l.current
    ∧ l.current.epoch = epoch := by
  unfold Tilthash.datasetLocked at h
  cases hg : mapGet e.datasets epoch with
  | some current =>
    simp only [hg, Option.some.injEq] at h
    subst h
    exact ⟨⟨rfl, rfl, rfl, rfl⟩, hkey, hlen, hg, hkey _ (mapGet_mem _ _ _ hg)⟩
  | none =>
    simp only [hg] at h
    split at h
    · cases h
    · rename_i s hs
      obtain ⟨hsub, hexit⟩ := evictLoop_spec _ _ _ _ _ _ _ _ hs
      simp only at hsub
      have habs : mapGet s.entries epoch = none := by
        rw [mapGet_eq_none_iff] at hg ⊢
        exact fun kv hkv => hg kv (hsub.subset hkv)
      have hskey : ∀ kv ∈ s.entries, kv.2.epoch = kv.1 :=
        fun kv hkv => hkey kv (hsub.subset hkv)
      have hbound : ∀ c : dataset,
          ((mapSet s.entries epoch c).length : Int) ≤ max e.dagsinmem 1 := by
        intro c
        rw [mapSet_length_of_none _ _ _ habs]
        rcases hexit with h0 | h1
        · rw [h0]
          exact le_max_right _ _
        · push_cast
          exact le_trans (by omega) (le_max_left _ _)
      have hnew : ∀ c : dataset, c.epoch = epoch →
          ∀ kv ∈ mapSet s.entries epoch c, kv.2.epoch = kv.1 := by
        intro c hc kv hkv
        rcases mem_mapSet _ _ _ _ hkv with rfl | hm
        · exact hc
        · exact hskey kv hm
      cases hf : e.fdataset with
      | none =>
        simp only [hf, Option.some.injEq] at h
        subst h
        exact ⟨⟨rfl, rfl, rfl, rfl⟩, hnew _ rfl, hbound _, mapGet_mapSet _ _ _, rfl⟩
      | some f =>
        simp only [hf] at h
        by_cases hfe : f.epoch = epoch
        · simp only [if_pos hfe, Option.some.injEq] at h
          subst h
          exact ⟨⟨rfl, rfl, rfl, rfl⟩, hnew _ hfe, hbound _, mapGet_mapSet _ _ _, hfe⟩
        · simp only [if_neg hfe] at h
          split_ifs at h
          · simp only [Option.some.injEq] at h
            subst h
            exact ⟨⟨rfl, rfl, rfl, rfl⟩, hnew _ rfl, hbound _, mapGet_mapSet _ _ _, rfl⟩
          · simp only [Option.some.injEq] at h
            subst h
            exact ⟨⟨rfl, rfl, rfl, rfl⟩, hnew _ rfl, hbound _, mapGet_mapSet _ _ _, rfl⟩

/-- With fuel for as many rounds as the map has entries, `dataset` comes to give up the
lock. -/
theorem datasetLocked_total (order : List (Nat × dataset) → List (Nat × dataset)) (fuel : Nat)
    (t : List FsEvent) (e : Tilthash) (epoch : Nat) (now : Int)
    (horder : ∀ m, (order m).Perm m) (hkey : ∀ kv ∈ e.datasets, kv.2.epoch = kv.1)
    (hfuel : e.datasets.length ≤ fuel) :
    ∃ l, Tilthash.datasetLocked order fuel t e epoch now = some l := by
  unfold Tilthash.datasetLocked
  cases hg : mapGet e.datasets epoch with
  | some current => exact ⟨_, rfl⟩
  | none =>
    obtain ⟨s, hs⟩ := evictLoop_total order (fun c => c.epoch) (fun c => c.used)
      (fun t c => c.release t) e.dagsinmem horder fuel ⟨t, e.datasets, []⟩ hkey hfuel
    simp only [hs]
    cases hf : e.fdataset with
    | none => exact ⟨_, rfl⟩
    | some f =>
      simp only
      by_cases hfe : f.epoch = epoch
      · simp only [if_pos hfe]
        exact ⟨_, rfl⟩
      · simp only [if_neg hfe]
        split_ifs
        · exact ⟨_, rfl⟩
        · exact ⟨_, rfl⟩

/-- One call `dataset(block)` keeps the settings, keeps every dataset under the key of its
epoch, keeps the map within `max dagsinmem 1` entries, and leaves an entry for the epoch
of the block. -/
theorem dataset_inv (A : Algorithm) (H : Host)
    (order : List (Nat × dataset) → List (Nat × dataset)) (fuel : Nat) (t : List FsEvent)
    (e : Tilthash) (block : Nat) (now1 now2 : Int) (out : LookupOut)
    (hkey : ∀ kv ∈ e.datasets, kv.2.epoch = kv.1)
    (hlen : (e.datasets.length : Int) ≤ max e.dagsinmem 1)
    (h : Tilthash.dataset A H order fuel t e block now1 now2 = some out) :
    (out.tilthash.dagsinmem = e.dagsinmem ∧ out.tilthash.dagdir = e.dagdir
      ∧ out.tilthash.dagsondisk = e.dagsondisk ∧ out.tilthash.tester = e.tester)
    ∧ (∀ kv ∈ out.tilthash.datasets, kv.2.epoch = kv.1)
    ∧ (out.tilthash.datasets.length : Int) ≤ max e.dagsinmem 1
    ∧ (mapGet out.tilthash.datasets (block / A.epochLength)).isSome = true := by
  unfold Tilthash.dataset at h
  simp only at h
  split at h
  · cases h
  · rename_i l hl
    obtain ⟨hcfg, hk, hb, hcur, hep⟩ := datasetLocked_inv _ _ _ _ _ _ _ hkey hlen hl
    split at h
    · cases h
    · rename_i g hgen
      have hge := dataset_generate_epoch _ _ _ _ _ _ _ _ hgen
      have hk2 : ∀ kv ∈ mapSet l.tilthash.datasets (block / A.epochLength)
          { g.2 with used := now2 }, kv.2.epoch = kv.1 := by
        intro kv hkv
        rcases mem_mapSet _ _ _ _ hkv with rfl | hm
        · exact hge.trans hep
        · exact hk kv hm
      have hb2 : ((mapSet l.tilthash.datasets (block / A.epochLength)
          { g.2 with used := now2 }).length : Int) ≤ max e.dagsinmem 1 := by
        rw [mapSet_length_of_some _ _ _ _ hcur]
        exact hb
      have hin : (mapGet (mapSet l.tilthash.datasets (block / A.epochLength)
          { g.2 with used := now2 }) (block / A.epochLength)).isSome = true := by
        rw [mapGet_mapSet]
        rfl
      split at h
      · simp only [Option.some.injEq] at h
        subst h
        exact ⟨hcfg, hk2, hb2, hin⟩
      · split at h
        · cases h
        · simp only [Option.some.injEq] at h
          subst h
          exact ⟨hcfg, hk2, hb2, hin⟩

/-- A call `dataset(block)` returns when the engine is a tester, given fuel for as many
rounds as the map has entries. -/
theorem dataset_total (A : Algorithm) (H : Host)
    (order : List (Nat × dataset) → List (Nat × dataset)) (fuel : Nat) (t : List FsEvent)
    (e : Tilthash) (block : Nat) (now1 now2 : Int)
    (horder : ∀ m, (order m).Perm m) (hkey : ∀ kv ∈ e.datasets, kv.2.epoch = kv.1)
    (hfuel : e.datasets.length ≤ fuel) (hmem : e.tester = true) :
    ∃ out, Tilthash.dataset A H order fuel t e block now1 now2 = some out := by
  obtain ⟨l, hl⟩ := datasetLocked_total order fuel t e (block / A.epochLength) now1 horder
    hkey hfuel
  have hcfg : l.tilthash.dagdir = e.dagdir ∧ l.tilthash.tester = e.tester := by
    unfold Tilthash.datasetLocked at hl
    split at hl
    · cases hl
      exact ⟨rfl, rfl⟩
    · split at hl
      · cases hl
      · simp only at hl
        split at hl
        · cases hl
          exact ⟨rfl, rfl⟩
        · split_ifs at hl <;> cases hl <;> exact ⟨rfl, rfl⟩
  have hmem2 : l.tilthash.tester = true := by
    rw [hcfg.2]
    exact hmem
  obtain ⟨g, hg⟩ := dataset_generate_total A H l.trace l.current l.tilthash.dagdir
    l.tilthash.dagsondisk
  rw [← hmem2] at hg
  unfold Tilthash.dataset
  simp only [hl, hg]
  cases hfut : l.future with
  | none => exact ⟨_, rfl⟩
  | some future =>
    simp only
    obtain ⟨f, hf⟩ := dataset_generate_total A H g.1 future l.tilthash.dagdir
      l.tilthash.dagsondisk
    rw [← hmem2] at hf
    simp only [hf]
    exact ⟨_, rfl⟩

/-- A sequence of calls that ends with `call` is the calls before it, and then `call`. -/
theorem cacheCalls_append (A : Algorithm) (H : Host)
    (order : List (Nat × cache) → List (Nat × cache)) (fuel : Nat) (calls : List Lookup)
    (call : Lookup) (t : List FsEvent) (e : Tilthash) :
    Tilthash.cacheCalls A H order fuel t e (calls ++ [call])
      = match Tilthash.cacheCalls A H order fuel t e calls with
        | none => none
        | some r =>
          match Tilthash.cache A H order fuel r.1 r.2 call.block call.now1 call.now2 with
          | none => none
          | some out => some (out.trace, out.tilthash) := by
  induction calls generalizing t e with
  | nil =>
    simp only [List.nil_append, Tilthash.cacheCalls]
  | cons c rest ih =>
    simp only [List.cons_append, Tilthash.cacheCalls]
    cases Tilthash.cache A H order fuel t e c.block c.now1 c.now2 with
    | none => rfl
    | some out => exact ih out.trace out.tilthash

/-- A sequence of calls `cache(block)` keeps what one call keeps. -/
theorem cacheCalls_inv (A : Algorithm) (H : Host)
    (order : List (Nat × cache) → List (Nat × cache)) (fuel : Nat) (calls : List Lookup)
    (t : List FsEvent) (e : Tilthash) (r : List FsEvent × Tilthash)
    (hkey : ∀ kv ∈ e.caches, kv.2.epoch = kv.1)
    (hlen : (e.caches.length : Int) ≤ max e.cachesinmem 1)
    (h : Tilthash.cacheCalls A H order fuel t e calls = some r) :
    (r.2.cachesinmem = e.cachesinmem ∧ r.2.cachedir = e.cachedir ∧ r.2.tester = e.tester)
    ∧ (∀ kv ∈ r.2.caches, kv.2.epoch = kv.1)
    ∧ (r.2.caches.length : Int) ≤ max e.cachesinmem 1 := by
  induction calls generalizing t e with
  | nil =>
    simp only [Tilthash.cacheCalls, Option.some.injEq] at h
    subst h
    exact ⟨⟨rfl, rfl, rfl⟩, hkey, hlen⟩
  | cons c rest ih =>
    simp only [Tilthash.cacheCalls] at h
    split at h
    · cases h
    · rename_i out hout
      obtain ⟨hcfg, hk, hb, _⟩ := cache_inv A H order fuel t e _ _ _ out hkey hlen hout
      have hb2 : (out.tilthash.caches.length : Int) ≤ max out.tilthash.cachesinmem 1 := by
        rw [hcfg.1]
        exact hb
      obtain ⟨hcfg2, hk2, hl2⟩ := ih out.trace out.tilthash hk hb2 h
      refine ⟨⟨hcfg2.1.trans hcfg.1, hcfg2.2.1.trans hcfg.2.1, hcfg2.2.2.trans hcfg.2.2.2⟩,
        hk2, ?_⟩
      rw [← hcfg.1]
      exact hl2

/-- A sequence of calls `cache(block)` returns when the engine is a tester or keeps its
caches in memory only, given fuel for `max cachesinmem 1` rounds. -/
theorem cacheCalls_total (A : Algorithm) (H : Host)
    (order : List (Nat × cache) → List (Nat × cache)) (fuel : Nat) (calls : List Lookup)
    (t : List FsEvent) (e : Tilthash) (horder : ∀ m, (order m).Perm m)
    (hkey : ∀ kv ∈ e.caches, kv.2.epoch = kv.1)
    (hlen : (e.caches.length : Int) ≤ max e.cachesinmem 1)
    (hfuel : max e.cachesinmem 1 ≤ (fuel : Int)) (hmem : e.tester = true ∨ e.cachedir = "") :
    ∃ r, Tilthash.cacheCalls A H order fuel t e calls = some r := by
  induction calls generalizing t e with
  | nil => exact ⟨_, rfl⟩
  | cons c rest ih =>
    have hf : e.caches.length ≤ fuel := by
      have := le_trans hlen hfuel
      exact_mod_cast this
    obtain ⟨out, hout⟩ := cache_total A H order fuel t e c.block c.now1 c.now2 horder hkey
      hf hmem
    obtain ⟨hcfg, hk, hb, _⟩ := cache_inv A H order fuel t e _ _ _ out hkey hlen hout
    simp only [Tilthash.cacheCalls, hout]
    apply ih
    · exact hk
    · rw [hcfg.1]
      exact hb
    · rw [hcfg.1]
      exact hfuel
    · rw [hcfg.2.2.2, hcfg.2.1]
      exact hmem

/-- A sequence of calls that ends with `call` is the calls before it, and then `call`. -/
theorem datasetCalls_append (A : Algorithm) (H : Host)
    (order : List (Nat × dataset) → List (Nat × dataset)) (fuel : Nat) (calls : List Lookup)
    (call : Lookup) (t : List FsEvent) (e : Tilthash) :
    Tilthash.datasetCalls A H order fuel t e (calls ++ [call])
      = match Tilthash.datasetCalls A H order fuel t e calls with
        | none => none
        | some r =>
          match Tilthash.dataset A H order fuel r.1 r.2 call.block call.now1 call.now2 with
          | none => none
          | some out => some (out.trace, out.tilthash) := by
  induction calls generalizing t e with
  | nil =>
    simp only [List.nil_append, Tilthash.datasetCalls]
  | cons c rest ih =>
    simp only [List.cons_append, Tilthash.datasetCalls]
    cases Tilthash.dataset A H order fuel t e c.block c.now1 c.now2 with
    | none => rfl
    | some out => exact ih out.trace out.tilthash

/-- A sequence of calls `dataset(block)` keeps what one call keeps. -/
theorem datasetCalls_inv (A : Algorithm) (H : Host)
    (order : List (Nat × dataset) → List (Nat × dataset)) (fuel : Nat) (calls : List Lookup)
    (t : List FsEvent) (e : Tilthash) (r : List FsEvent × Tilthash)
    (hkey : ∀ kv ∈ e.datasets, kv.2.epoch = kv.1)
    (hlen : (e.datasets.length : Int) ≤ max e.dagsinmem 1)
    (h : Tilthash.datasetCalls A H order fuel t e calls = some r) :
    (r.2.dagsinmem = e.dagsinmem ∧ r.2.dagdir = e.dagdir ∧ r.2.tester = e.tester)
    ∧ (∀ kv ∈ r.2.datasets, kv.2.epoch = kv.1)
    ∧ (r.2.datasets.length : Int) ≤ max e.dagsinmem 1 := by
  induction calls generalizing t e with
  | nil =>
    simp only [Tilthash.datasetCalls, Option.some.injEq] at h
    subst h
    exact ⟨⟨rfl, rfl, rfl⟩, hkey, hlen⟩
  | cons c rest ih =>
    simp only [Tilthash.datasetCalls] at h
    split at h
    · cases h
    · rename_i out hout
      obtain ⟨hcfg, hk, hb, _⟩ := dataset_inv A H order fuel t e _ _ _ out hkey hlen hout
      have hb2 : (out.tilthash.datasets.length : Int) ≤ max out.tilthash.dagsinmem 1 := by
        rw [hcfg.1]
        exact hb
      obtain ⟨hcfg2, hk2, hl2⟩ := ih out.trace out.tilthash hk hb2 h
      refine ⟨⟨hcfg2.1.trans hcfg.1, hcfg2.2.1.trans hcfg.2.1, hcfg2.2.2.trans hcfg.2.2.2⟩,
        hk2, ?_⟩
      rw [← hcfg.1]
      exact hl2

/-- A sequence of calls `dataset(block)` returns when the engine is a tester, given fuel
for `max dagsinmem 1` rounds. -/
theorem datasetCalls_total (A : Algorithm) (H : Host)
    (order : List (Nat × dataset) → List (Nat × dataset)) (fuel : Nat) (calls : List Lookup)
    (t : List FsEvent) (e : Tilthash) (horder : ∀ m, (order m).Perm m)
    (hkey : ∀ kv ∈ e.datasets, kv.2.epoch = kv.1)
    (hlen : (e.datasets.length : Int) ≤ max e.dagsinmem 1)
    (hfuel : max e.dagsinmem 1 ≤ (fuel : Int)) (hmem : e.tester = true) :
    ∃ r, Tilthash.datasetCalls A H order fuel t e calls = some r := by
  induction calls generalizing t e with
  | nil => exact ⟨_, rfl⟩
  | cons c rest ih =>
    have hf : e.datasets.length ≤ fuel := by
      have := le_trans hlen hfuel
      exact_mod_cast this
    obtain ⟨out, hout⟩ := dataset_total A H order fuel t e c.block c.now1 c.now2 horder hkey
      hf hmem
    obtain ⟨hcfg, hk, hb, _⟩ := dataset_inv A H order fuel t e _ _ _ out hkey hlen hout
    simp only [Tilthash.datasetCalls, hout]
    apply ih
    · exact hk
    · rw [hcfg.1]
      exact hb
    · rw [hcfg.1]
      exact hfuel
    · rw [hcfg.2.2.2]
      exact hmem

/-- The dumps `cache.generate` removes when the dump of its epoch cannot be loaded: those
of the epochs `epoch - limit` down to `0`, whatever `memoryMapAndGenerate` returned. -/
theorem cache_generate_removed (A : Algorithm) (H : Host) (t : List FsEvent) (c : cache)
    (dir : String) (limit : Int) (r1 r2 : MapOut) (hc : c.once = false) (hdir : dir ≠ "")
    (h1 : memoryMap H t (dumpPath A H "cache" dir c.epoch) = some r1) (he1 : r1.err ≠ none)
    (h2 : memoryMapAndGenerate H r1.trace (dumpPath A H "cache" dir c.epoch)
        (A.cacheSize ((c.epoch * A.epochLength + 1) % 2 ^ 64))
        (fun buffer => fill buffer (A.generateCache buffer.length c.epoch
          (A.seedHash ((c.epoch * A.epochLength + 1) % 2 ^ 64)))) = some r2)
    (hE : c.epoch < 2 ^ 63) (hL0 : 0 ≤ limit) (hL : limit < 2 ^ 63) :
    ∃ out, cache.generate A H t c dir limit false = some out
      ∧ removed out.1 = removed t
        ++ (List.range ((c.epoch : Int) - limit + 1).toNat).reverse.map
            (dumpPath A H "cache" dir) := by
  refine ⟨_, cache_generate_disk A H t c dir limit r1 r2 hc hdir h1 he1 h2, ?_⟩
  obtain ⟨evs1, ht1, hr1⟩ := memoryMap_trace H t _ r1 h1
  obtain ⟨evs2, ht2, hr2⟩ := memoryMapAndGenerate_trace H _ _ _ _ r2 h2
  have hr : removed r2.trace = removed t := by
    rw [ht2, ht1, removed_append, removed_append, hr2]
    have : removed (FsEvent.OpenFile (dumpPath A H "cache" dir c.epoch) :: evs1) = [] := by
      simpa [removed] using hr1
    rw [this, List.append_nil, List.append_nil]
  simp only [removed_append, hr, removed_removeOld A H "cache" dir c.epoch limit hE hL0 hL]

/-- The dumps `dataset.generate` removes when the dump of its epoch cannot be loaded:
those of the epochs `epoch - limit` down to `0`. -/
theorem dataset_generate_removed (A : Algorithm) (H : Host) (t : List FsEvent) (d : dataset)
    (dir : String) (limit : Int) (r1 r2 : MapOut) (hd : d.once = false)
    (h1 : memoryMap H t (dumpPath A H "full" dir d.epoch) = some r1) (he1 : r1.err ≠ none)
    (h2 : memoryMapAndGenerate H r1.trace (dumpPath A H "full" dir d.epoch)
        (A.datasetSize ((d.epoch * A.epochLength + 1) % 2 ^ 64))
        (fun buffer => fill buffer (A.generateDataset buffer.length d.epoch
          (fill (make (A.cacheSize ((d.epoch * A.epochLength + 1) % 2 ^ 64) / 4))
            (A.generateCache (A.cacheSize ((d.epoch * A.epochLength + 1) % 2 ^ 64) / 4)
              d.epoch (A.seedHash ((d.epoch * A.epochLength + 1) % 2 ^ 64)))))) = some r2)
    (hE : d.epoch < 2 ^ 63) (hL0 : 0 ≤ limit) (hL : limit < 2 ^ 63) :
    ∃ out, dataset.generate A H t d dir limit false = some out
      ∧ removed out.1 = removed t
        ++ (List.range ((d.epoch : Int) - limit + 1).toNat).reverse.map
            (dumpPath A H "full" dir) := by
  refine ⟨_, dataset_generate_disk A H t d dir limit r1 r2 hd h1 he1 h2, ?_⟩
  obtain ⟨evs1, ht1, hr1⟩ := memoryMap_trace H t _ r1 h1
  obtain ⟨evs2, ht2, hr2⟩ := memoryMapAndGenerate_trace H _ _ _ _ r2 h2
  have hr : removed r2.trace = removed t := by
    rw [ht2, ht1, removed_append, removed_append, hr2]
    have : removed (FsEvent.OpenFile (dumpPath A H "full" dir d.epoch) :: evs1) = [] := by
      simpa [removed] using hr1
    rw [this, List.append_nil, List.append_nil]
  simp only [removed_append, hr, removed_removeOld A H "full" dir d.epoch limit hE hL0 hL]

/-- `UseGas` leaves the code of the frame alone. -/
theorem UseGas_Code (c : Contract) (g : Nat) : (c.UseGas g).2.Code = c.Code := by
  unfold Contract.UseGas
  split_ifs <;> rfl

/-- `getData` of `n` bytes from a position inside the code: the bytes at the `n` positions
from `start` on, each zero when it is past the end of the code. -/
theorem getData_immediate (code : Bytes) (start n : Nat) (hn : n < 2 ^ 63)
    (hlen : code.length < 2 ^ 63) (hs : start ≤ code.length) :
    getData code (start : Int) (n : Int)
      = some ((List.range n).map fun i => code.getD (start + i) 0) := by
  rw [getData_nat code start n hn hlen, Nat.min_eq_left hs]
  congr 1
  apply List.ext_getElem?
  intro i
  by_cases hi : i < n
  · rw [List.getElem?_map, List.getElem?_range hi, Option.map_some', List.getD_eq_getElem?_getD]
    by_cases h2 : start + i < code.length
    · have h3 : i < ((code.drop start).take (min (start + n) code.length - start)).length := by
        rw [List.length_take, List.length_drop]
        omega
      rw [List.getElem?_append_left h3, List.getElem?_take_of_lt (by omega),
        List.getElem?_drop, List.getElem?_eq_getElem h2]
      rfl
    · have h3 : ((code.drop start).take (min (start + n) code.length - start)).length ≤ i := by
        rw [List.length_take, List.length_drop]
        omega
      have h4 : code[start + i]? = none := List.getElem?_eq_none (by omega)
      rw [List.getElem?_append_right h3, h4, List.getElem?_replicate_of_lt]
      · rfl
      · rw [List.length_take, List.length_drop]
        omega
  · have h5 : ((List.range n).map fun i => code.getD (start + i) 0)[i]? = none := by
      apply List.getElem?_eq_none
      rw [List.length_map, List.length_range]
      omega
    rw [h5]
    apply List.getElem?_eq_none
    rw [List.length_append, List.length_take, List.length_drop, List.length_replicate]
    omega

/-- Bytes appended on the right shift the big-endian value to the left. -/
theorem SetBytes_append (a b : Bytes) :
    SetBytes (a ++ b) = SetBytes a * 256 ^ b.length + SetBytes b := by
  unfold SetBytes
  rw [List.foldl_append]
  generalize List.foldl (fun acc x => acc * 256 + (x.toNat : Int)) 0 a = v
  induction b generalizing v with
  | nil => simp
  | cons x rest ih =>
    simp only [List.foldl_cons, List.length_cons]
    rw [ih (v * 256 + (x.toNat : Int)), ih (0 * 256 + (x.toNat : Int))]
    ring

/-- Zero bytes have the value zero. -/
theorem SetBytes_zeros (m : Nat) : SetBytes (List.replicate m 0) = 0 := by
  unfold SetBytes
  induction m with
  | zero => rfl
  | succ m ih =>
    rw [List.replicate_succ, List.foldl_cons]
    simpa using ih

/-- An iteration of the main loop on a valid operation without a memory-size function,
whose stack validation passes and whose cost is covered: the operation is executed on the
frame charged, and the program counter is moved on unless the operation ends the run or
is flagged `jumps`. -/
theorem step_execute {σ μ : Type} (I : Interpreter σ μ) (mem : MemoryOps μ)
    (s : RunState σ μ) (cost : Nat)
    (h : (I.JumpTable (s.contract.GetOp s.pc)).valid = true)
    (hv : (I.JumpTable (s.contract.GetOp s.pc)).validateStack s.stack = none)
    (hm : (I.JumpTable (s.contract.GetOp s.pc)).memorySize = none)
    (hcost : (I.JumpTable (s.contract.GetOp s.pc)).gasCost s.vm s.contract s.stack s.mem 0
      = (cost, none))
    (hle : cost ≤ s.contract.Gas) :
    I.step mem s
      = (let operation := I.JumpTable (s.contract.GetOp s.pc)
         let contract := if I.DisableGasMetering = false
           then { s.contract with Gas := s.contract.Gas - cost } else s.contract
         let r := operation.execute s.pc s.vm contract s.mem s.stack
         let s1 : RunState σ μ := ⟨r.pc, r.memory, r.stack, r.contract, r.vm⟩
         if r.err ≠ none then .done [] r.err s1
         else if operation.halts = true then .done r.ret none s1
         else if operation.jumps = false then .next { s1 with pc := (r.pc + 1) % 2 ^ 64 }
         else .next s1) := by
  have h' : ¬ (I.JumpTable (s.contract.GetOp s.pc)).valid = false := by simp [h]
  have hms : Interpreter.memorySize (I.JumpTable (s.contract.GetOp s.pc)) s.stack = .ok 0 := by
    simp only [Interpreter.memorySize, hm]
  have hu : s.contract.UseGas cost = (true, { s.contract with Gas := s.contract.Gas - cost }) := by
    unfold Contract.UseGas
    rw [if_neg (by omega)]
  cases hd : I.DisableGasMetering
  · simp [Interpreter.step, h, hv, hms, hcost, hu, hd]
  · simp [Interpreter.step, h, hv, hms, hd]

/-- The `n` bytes read from `start` on with zero past the end are the bytes the code has
there, followed by zero bytes on the right. -/
theorem immediate_right_padded (code : Bytes) (start n : Nat) :
    ((List.range n).map fun i => code.getD (start + i) 0)
      = (code.drop start).take n
        ++ List.replicate (n - ((code.drop start).take n).length) 0 := by
  apply List.ext_getElem?
  intro i
  by_cases hi : i < n
  · rw [List.getElem?_map, List.getElem?_range hi, Option.map_some', List.getD_eq_getElem?_getD]
    by_cases h2 : start + i < code.length
    · have h3 : i < ((code.drop start).take n).length := by
        rw [List.length_take, List.length_drop]
        omega
      rw [List.getElem?_append_left h3, List.getElem?_take_of_lt hi, List.getElem?_drop,
        List.getElem?_eq_getElem h2]
      rfl
    · have h3 : ((code.drop start).take n).length ≤ i := by
        rw [List.length_take, List.length_drop]
        omega
      have h4 : code[start + i]? = none := List.getElem?_eq_none (by omega)
      rw [List.getElem?_append_right h3, h4, List.getElem?_replicate_of_lt]
      · rfl
      · rw [List.length_take, List.length_drop]
        omega
  · have h5 : ((List.range n).map fun i => code.getD (start + i) 0)[i]? = none := by
      apply List.getElem?_eq_none
      rw [List.length_map, List.length_range]
      omega
    rw [h5]
    symm
    apply List.getElem?_eq_none
    rw [List.length_append, List.length_take, List.length_drop, List.length_replicate]
    omega

/-- `makePush(n, n)` at a position inside the code: the value of the `n` bytes after the
opcode is pushed and the program counter is moved by `n`. -/
theorem makePush_immediate (n pc : Nat) (contract : Contract) (stack : Stack)
    (hn : n ≤ 32) (hpc : pc < contract.Code.length) (hlen : contract.Code.length < 2 ^ 63) :
    makePush n (n : Int) pc contract stack
      = some ⟨[], none, pc + n,
          stack.push (SetBytes ((List.range n).map fun i => contract.Code.getD (pc + 1 + i) 0))⟩ := by
  have h1 : (pc + 1) % 2 ^ 64 = pc + 1 := Nat.mod_eq_of_lt (by omega)
  have h2 : (pc + n) % 2 ^ 64 = pc + n := Nat.mod_eq_of_lt (by omega)
  simp only [makePush, h1, h2, getData_immediate contract.Code (pc + 1) n (by omega) hlen
    (by omega), Option.bind_eq_bind, Option.some_bind, Option.pure_def]

/-- The word `2^256 - 2^b` has the bits `b` to 255. -/
theorem testBit_high_mask (b i : Nat) (hb : b ≤ 256) :
    (2 ^ 256 - 2 ^ b).testBit i = (decide (i < 256) && !decide (i < b)) := by
  have h1 : 2 ^ b - 1 < 2 ^ 256 :=
    lt_of_lt_of_le (Nat.sub_lt (Nat.two_pow_pos b) Nat.one_pos)
      (Nat.pow_le_pow_right (by decide) hb)
  have h2 : 2 ^ 256 - 2 ^ b = 2 ^ 256 - (2 ^ b - 1 + 1) := by
    rw [Nat.sub_add_cancel (Nat.two_pow_pos b)]
  rw [h2, Nat.testBit_two_pow_sub_succ h1, Nat.testBit_two_pow_sub_one]

/-- The remainder of the negative number `-(d + 1)` by a modulus above `d`. -/
theorem negSucc_emod (N d : Nat) (h : d < N) :
    (Int.negSucc d) % (N : Int) = ((N - (d + 1) : Nat) : Int) := by
  rw [Int.negSucc_eq, Nat.cast_sub (by omega)]
  have e : (-((d : Int) + 1)) % (N : Int) = (-((d : Int) + 1) + (N : Int)) % (N : Int) := by
    rw [Int.add_emod_self]
  rw [e, Int.emod_eq_of_lt (by omega) (by omega)]
  push_cast
  ring

/-- What `Or` with the complement of the mask `2^b - 1` leaves of a word, read as a word:
the word with the bits `b` to 255 set. -/
theorem or_not_mask (x b : Nat) (hx : x < 2 ^ 256) (hb : b < 256) :
    U256 (Int.lor (x : Int) (Int.lnot (2 ^ b - 1)))
      = ((x ||| (2 ^ 256 - 2 ^ b) : Nat) : Int) := by
  have hm : ((2 : Int) ^ b - 1) = ((2 ^ b - 1 : Nat) : Int) := by
    rw [Nat.cast_sub (Nat.two_pow_pos b)]
    push_cast
    rfl
  have hd : Nat.ldiff (2 ^ b - 1) x < 2 ^ 256 := by
    apply Nat.lt_pow_two_of_testBit
    intro i hi
    rw [Nat.testBit_ldiff, Nat.testBit_two_pow_sub_one]
    have : ¬ i < b := by omega
    simp [this]
  have hl : Int.lor (x : Int) (Int.lnot ((2 ^ b - 1 : Nat) : Int))
      = Int.negSucc (Nat.ldiff (2 ^ b - 1) x) := rfl
  have hN : ((2 : Int) ^ 256) = ((2 ^ 256 : Nat) : Int) := by
    rw [Nat.cast_pow]
    rfl
  have key : 2 ^ 256 - (Nat.ldiff (2 ^ b - 1) x + 1) = x ||| (2 ^ 256 - 2 ^ b) := by
    apply Nat.eq_of_testBit_eq
    intro i
    rw [Nat.testBit_two_pow_sub_succ hd, Nat.testBit_ldiff, Nat.testBit_two_pow_sub_one,
      Nat.testBit_or, testBit_high_mask b i (le_of_lt hb)]
    by_cases h1 : i < 256
    · by_cases h2 : i < b <;> simp [h1, h2]
    · have hx2 : x.testBit i = false :=
        Nat.testBit_lt_two_pow
          (lt_of_lt_of_le hx (Nat.pow_le_pow_right (by decide) (by omega)))
      simp [h1, hx2]
  rw [hm, hl]
  unfold U256
  rw [hN, negSucc_emod _ _ hd, key]

/-- `opSignExtend` for a byte index below 31, on a word: the word with the bits above the
sign bit `b = 8k + 7` set when the sign bit is set, and with the bits from `b` on cleared
when it is not. -/
theorem opSignExtend_word (k x : Nat) (rest : List Int) (hk : k < 31) (hx : x < 2 ^ 256) :
    opSignExtend ⟨(k : Int) :: (x : Int) :: rest⟩
      = some ⟨((if x.testBit (k * 8 + 7) then x ||| (2 ^ 256 - 2 ^ (k * 8 + 7))
          else x &&& (2 ^ (k * 8 + 7) - 1) : Nat) : Int) :: rest⟩ := by
  have hk1 : (k : Int) < 31 := by exact_mod_cast hk
  have hu : Uint64 (k : Int) = k := Uint64_natCast k (by omega)
  have hb : (k * 8 + 7) % 2 ^ 64 = k * 8 + 7 := Nat.mod_eq_of_lt (by omega)
  have ht : ∀ b : Nat, Int.testBit (x : Int) b = x.testBit b := fun _ => rfl
  have hm : ∀ b : Nat, ((2 : Int) ^ b - 1) = ((2 ^ b - 1 : Nat) : Int) := by
    intro b
    rw [Nat.cast_sub (Nat.two_pow_pos b)]
    push_cast
    rfl
  simp only [opSignExtend, Stack.pop, Stack.push, Option.bind_eq_bind, Option.some_bind,
    if_pos hk1, hu, hb, ht, Option.pure_def]
  by_cases h : x.testBit (k * 8 + 7) = true
  · rw [if_pos h, if_pos h, or_not_mask x (k * 8 + 7) hx (by omega)]
  · rw [if_neg h, if_neg h, hm]
    have hl : Int.land (x : Int) ((2 ^ (k * 8 + 7) - 1 : Nat) : Int)
        = ((x &&& (2 ^ (k * 8 + 7) - 1) : Nat) : Int) := rfl
    rw [hl, U256_of_word _ (Int.natCast_nonneg _)]
    have : x &&& (2 ^ (k * 8 + 7) - 1) < 2 ^ 256 :=
      lt_of_le_of_lt Nat.and_le_left hx
    exact_mod_cast this

/-- The inner loop started with a candidate `a` ends with a candidate that is `a` or an
entry, and is used no later than `a` and than every entry. -/
theorem pick_foldl_min {α : Type} (used : α → Int) (entries : List (Nat × α)) (a x : α)
    (h : entries.foldl (fun evict kv =>
        match evict with
        | none => some kv.2
        | some e => if used e > used kv.2 then some kv.2 else some e) (some a) = some x) :
    (x = a ∨ ∃ kv ∈ entries, kv.2 = x) ∧ used x ≤ used a
      ∧ ∀ kv ∈ entries, used x ≤ used kv.2 := by
  induction entries generalizing a with
  | nil =>
    simp only [List.foldl_nil, Option.some.injEq] at h
    subst h
    exact ⟨Or.inl rfl, le_refl _, fun kv hkv => by cases hkv⟩
  | cons kv rest ih =>
    simp only [List.foldl_cons] at h
    by_cases hc : used a > used kv.2
    · rw [if_pos hc] at h
      obtain ⟨hm, hle, hall⟩ := ih kv.2 h
      refine ⟨Or.inr ?_, by omega, ?_⟩
      · rcases hm with rfl | ⟨kv2, hkv2, rfl⟩
        · exact ⟨kv, List.mem_cons_self _ _, rfl⟩
        · exact ⟨kv2, List.mem_cons_of_mem _ hkv2, rfl⟩
      · intro kv2 hkv2
        rcases List.mem_cons.mp hkv2 with rfl | hin
        · exact hle
        · exact hall kv2 hin
    · rw [if_neg hc] at h
      obtain ⟨hm, hle, hall⟩ := ih a h
      refine ⟨?_, hle, ?_⟩
      · rcases hm with rfl | ⟨kv2, hkv2, rfl⟩
        · exact Or.inl rfl
        · exact Or.inr ⟨kv2, List.mem_cons_of_mem _ hkv2, rfl⟩
      · intro kv2 hkv2
        rcases List.mem_cons.mp hkv2 with rfl | hin
        · omega
        · exact hall kv2 hin

/-- The entry the inner loop picks is one of those it visits, and none of them has an
earlier time stamp. -/
theorem pickEvict_min {α : Type} (used : α → Int) (entries : List (Nat × α)) (x : α)
    (h : pickEvict used entries = some x) :
    (∃ kv ∈ entries, kv.2 = x) ∧ ∀ kv ∈ entries, used x ≤ used kv.2 := by
  cases entries with
  | nil => cases h
  | cons kv rest =>
    unfold pickEvict at h
    simp only [List.foldl_cons] at h
    obtain ⟨hm, hle, hall⟩ := pick_foldl_min used rest kv.2 x h
    constructor
    · rcases hm with rfl | ⟨kv2, hkv2, rfl⟩
      · exact ⟨kv, List.mem_cons_self _ _, rfl⟩
      · exact ⟨kv2, List.mem_cons_of_mem _ hkv2, rfl⟩
    · intro kv2 hkv2
      rcases List.mem_cons.mp hkv2 with rfl | hin
      · exact hle
      · exact hall kv2 hin

/-- In a map, where every key occurs once, `delete(m, k)` of a key that is present removes
one entry. -/
theorem mapDelete_length {α : Type} (m : List (Nat × α)) (k : Nat) (v : α)
    (hnodup : (m.map Prod.fst).Nodup) (hin : (k, v) ∈ m) :
    (mapDelete m k).length + 1 = m.length := by
  induction m with
  | nil => cases hin
  | cons kv rest ih =>
    simp only [List.map_cons, List.nodup_cons] at hnodup
    obtain ⟨hnot, hrest⟩ := hnodup
    unfold mapDelete at ih ⊢
    rcases List.mem_cons.mp hin with heq | hmem
    · subst heq
      have hfil : rest.filter (fun kv => kv.1 != k) = rest := by
        apply List.filter_eq_self.mpr
        intro kv2 hkv2
        have : kv2.1 ≠ k := by
          intro hk
          apply hnot
          rw [List.mem_map]
          exact ⟨kv2, hkv2, hk⟩
        simpa using this
      simp [List.filter_cons, hfil]
    · have hne : kv.1 ≠ k := by
        intro hk
        apply hnot
        rw [List.mem_map]
        exact ⟨(k, v), hmem, hk.symm⟩
      have hb : (kv.1 != k) = true := by simpa using hne
      simp only [List.filter_cons, hb, if_true, List.length_cons]
      rw [ih hrest hmem]

/-- The keys left by `delete(m, k)` are keys of `m`, each still once. -/
theorem mapDelete_nodup {α : Type} (m : List (Nat × α)) (k : Nat)
    (hnodup : (m.map Prod.fst).Nodup) : ((mapDelete m k).map Prod.fst).Nodup :=
  List.Nodup.sublist ((mapDelete_sublist m k).map Prod.fst) hnodup

/-- The eviction loop evicts least recently used first: what it logs is the removals of
entries, one at a time, none of them used later than an entry then present; and it
removes an entry only while the map holds `limit` entries or more.  The map is one where
every entry sits under the key its `epoch` field names, once, `range` visits the entries
of the map, and `release` keeps epoch and time stamp. -/
theorem evictLoop_lru {α : Type} (order : List (Nat × α) → List (Nat × α))
    (epoch : α → Nat) (used : α → Int) (release : List FsEvent → α → List FsEvent × α)
    (limit : Int) (horder : ∀ m, (order m).Perm m)
    (hrel : ∀ t c, epoch (release t c).2 = epoch c ∧ used (release t c).2 = used c)
    (fuel : Nat) (s s2 : EvictOut α)
    (hkey : ∀ kv ∈ s.entries, epoch kv.2 = kv.1)
    (hnodup : (s.entries.map Prod.fst).Nodup)
    (h : evictLoop order epoch used release limit fuel s = some s2) :
    ∃ log, s2.evicted = s.evicted ++ log
      ∧ evictsLeastRecentlyUsed used s.entries log s2.entries
      ∧ (log ≠ [] → (s2.entries.length : Int) + 1 ≥ limit) := by
  induction fuel generalizing s with
  | zero =>
    unfold evictLoop at h
    by_cases hc : s.entries.length > 0 ∧ (s.entries.length : Int) ≥ limit
    · rw [if_pos hc] at h
      cases h
    · rw [if_neg hc] at h
      cases h
      exact ⟨[], (List.append_nil _).symm, rfl, fun hne => absurd rfl hne⟩
  | succ fuel ih =>
    unfold evictLoop at h
    by_cases hc : s.entries.length > 0 ∧ (s.entries.length : Int) ≥ limit
    · rw [if_pos hc] at h
      simp only at h
      split at h
      · cases h
      · rename_i evict hpick
        obtain ⟨⟨kv, hkv, hkv2⟩, hmin⟩ := pickEvict_min used _ evict hpick
        have hin : kv ∈ s.entries := (horder s.entries).mem_iff.mp hkv
        have hk : epoch evict = kv.1 := by
          rw [← hkv2]
          exact hkey kv hin
        have hmem : (epoch evict, evict) ∈ s.entries := by
          rw [hk, ← hkv2]
          exact hin
        have hlen := mapDelete_length s.entries (epoch evict) evict hnodup hmem
        obtain ⟨log, hlog, hlru, hstop⟩ := ih _
          (fun kv2 hkv3 => hkey kv2 ((mapDelete_sublist _ _).subset hkv3))
          (mapDelete_nodup _ _ hnodup) h
        simp only at hlog hlru hstop
        refine ⟨(epoch evict, used evict) :: log, ?_, ?_, fun _ => ?_⟩
        · rw [hlog, (hrel s.trace evict).1, (hrel s.trace evict).2, List.append_assoc]
          rfl
        · exact ⟨⟨evict, hmem, rfl,
            fun kv2 hkv3 => hmin kv2 ((horder s.entries).mem_iff.mpr hkv3)⟩, hlen, hlru⟩
        · cases log with
          | nil =>
            have he : s2.entries = mapDelete s.entries (epoch evict) := hlru
            rw [he]
            have := hc.2
            omega
          | cons x rest => exact hstop (by simp)
    · rw [if_neg hc] at h
      cases h
      exact ⟨[], (List.append_nil _).symm, rfl, fun hne => absurd rfl hne⟩

/-- The keys after `m[k] = v`: those of `m`, and `k` at the end when it is new. -/
theorem mapSet_keys {α : Type} (m : List (Nat × α)) (k : Nat) (v : α) :
    (mapSet m k v).map Prod.fst
      = if (mapGet m k).isSome then m.map Prod.fst else m.map Prod.fst ++ [k] := by
  unfold mapSet mapGet
  by_cases h : (m.lookup k).isSome = true
  · rw [if_pos h, if_pos h, List.map_map]
    apply List.map_congr_left
    intro kv _
    simp only [Function.comp]
    split_ifs with hk
    · exact hk.symm
    · rfl
  · rw [if_neg h, if_neg h, List.map_append]
    rfl

/-- What `cache` has done to the map when it gives up the lock: nothing on a hit; on a
miss the eviction loop has run and the entry of the epoch is new. -/
theorem cacheLocked_evicts (order : List (Nat × cache) → List (Nat × cache)) (fuel : Nat)
    (t : List FsEvent) (e : Tilthash) (epoch : Nat) (now : Int) (l : Locked cache)
    (h : Tilthash.cacheLocked order fuel t e epoch now = some l) :
    (mapGet e.caches epoch ≠ none → l.evicted = [] ∧ l.tilthash.caches = e.caches)
    ∧ (mapGet e.caches epoch = none →
        ∃ s, evictLoop order (fun c => c.epoch) (fun c => c.used) (fun t c => c.release t)
            e.cachesinmem fuel ⟨t, e.caches, []⟩ = some s
          ∧ l.evicted = s.evicted
          ∧ l.tilthash.caches = mapSet s.entries epoch l.current) := by
  unfold Tilthash.cacheLocked at h
  cases hg : mapGet e.caches epoch with
  | some current =>
    simp only [hg, Option.some.injEq] at h
    subst h
    exact ⟨fun _ => ⟨rfl, rfl⟩, fun hn => by cases hn⟩
  | none =>
    simp only [hg] at h
    refine ⟨fun hn => absurd rfl hn, fun _ => ?_⟩
    split at h
    · cases h
    · rename_i s hs
      refine ⟨s, hs, ?_⟩
      cases hf : e.fcache with
      | none =>
        simp only [hf, Option.some.injEq] at h
        subst h
        exact ⟨rfl, rfl⟩
      | some f =>
        simp only [hf] at h
        by_cases hfe : f.epoch = epoch
        · simp only [hfe, if_true, Option.some.injEq] at h
          subst h
          exact ⟨rfl, rfl⟩
        · simp only [hfe, if_false] at h
          split_ifs at h <;> cases h <;> exact ⟨rfl, rfl⟩

/-- A call `cache(block)` evicts what it evicts under the lock, and then only writes the
entry of the epoch of the block. -/
theorem cache_evicted (A : Algorithm) (H : Host)
    (order : List (Nat × cache) → List (Nat × cache)) (fuel : Nat) (t : List FsEvent)
    (e : Tilthash) (block : Nat) (now1 now2 : Int) (out : LookupOut)
    (h : Tilthash.cache A H order fuel t e block now1 now2 = some out) :
    ∃ l c, Tilthash.cacheLocked order fuel t e (block / A.epochLength) now1 = some l
      ∧ out.evicted = l.evicted
      ∧ out.tilthash.caches = mapSet l.tilthash.caches (block / A.epochLength) c := by
  unfold Tilthash.cache at h
  simp only at h
  split at h
  · cases h
  · rename_i l hl
    split at h
    · cases h
    · split at h
      · cases h
        exact ⟨l, _, hl, rfl, rfl⟩
      · split at h
        · cases h
        · cases h
          exact ⟨l, _, hl, rfl, rfl⟩

/-- Under the lock, `cache` leaves a future cache ahead of every key of the map: given
that the engine began with empty maps and no future cache, or with a future cache ahead
of every key, and that `epoch + 1` does not wrap.  The future cache is never replaced by
an earlier one, a hit changes nothing, and a new `future` is the one in the slot. -/
theorem cacheLocked_future (order : List (Nat × cache) → List (Nat × cache)) (fuel : Nat)
    (t : List FsEvent) (e : Tilthash) (epoch : Nat) (now : Int) (l : Locked cache)
    (hb : epoch + 1 < 2 ^ 64)
    (hinv : (e.caches = [] ∧ e.fcache = none)
      ∨ ∃ f, e.fcache = some f ∧ ∀ kv ∈ e.caches, kv.1 < f.epoch)
    (h : Tilthash.cacheLocked order fuel t e epoch now = some l) :
    ∃ f2, l.tilthash.fcache = some f2
      ∧ (∀ kv ∈ l.tilthash.caches, kv.1 < f2.epoch)
      ∧ (∀ f, e.fcache = some f → f.epoch ≤ f2.epoch)
      ∧ epoch < f2.epoch
      ∧ (∀ fut, l.future = some fut → fut = f2)
      ∧ (mapGet e.caches epoch ≠ none → l.tilthash = e ∧ l.future = none) := by
  have hm : (epoch + 1) % 2 ^ 64 = epoch + 1 := Nat.mod_eq_of_lt hb
  unfold Tilthash.cacheLocked at h
  cases hg : mapGet e.caches epoch with
  | some current =>
    simp only [hg, Option.some.injEq] at h
    subst h
    have hin := mapGet_mem _ _ _ hg
    rcases hinv with ⟨h0, -⟩ | ⟨f, hf, hk⟩
    · rw [h0] at hin
      cases hin
    · exact ⟨f, hf, hk, (fun f1 h1 => by rw [hf] at h1; cases h1; exact le_refl _),
        hk _ hin, (fun fut hfut => by cases hfut), fun _ => ⟨rfl, rfl⟩⟩
  | none =>
    simp only [hg] at h
    split at h
    · cases h
    · rename_i s hs
      obtain ⟨hsub, -⟩ := evictLoop_spec _ _ _ _ _ _ _ _ hs
      simp only at hsub
      have hnew : ∀ (c : cache) (b : Nat), epoch < b →
          (∀ kv ∈ e.caches, kv.1 < b) → ∀ kv ∈ mapSet s.entries epoch c, kv.1 < b := by
        intro c b hlt hall kv hkv
        rcases mem_mapSet _ _ _ _ hkv with rfl | hin
        · exact hlt
        · exact hall kv (hsub.subset hin)
      cases hf : e.fcache with
      | none =>
        simp only [hf, Option.some.injEq] at h
        subst h
        have hall : ∀ kv ∈ e.caches, kv.1 < epoch + 1 := by
          rcases hinv with ⟨h0, -⟩ | ⟨f, hf2, -⟩
          · rw [h0]
            intro kv hkv
            cases hkv
          · rw [hf] at hf2
            cases hf2
        refine ⟨{ epoch := (epoch + 1) % 2 ^ 64 }, rfl, ?_, (fun f1 h1 => by cases h1), ?_,
          (fun fut hfut => by cases hfut; rfl), fun hne => absurd rfl hne⟩
        · simp only [hm]
          exact hnew _ _ (Nat.lt_succ_self _) hall
        · simp only [hm]
          exact Nat.lt_succ_self _
      | some f =>
        have hk : ∀ kv ∈ e.caches, kv.1 < f.epoch := by
          rcases hinv with ⟨-, h0⟩ | ⟨f1, hf1, hk⟩
          · rw [hf] at h0
            cases h0
          · rw [hf] at hf1
            cases hf1
            exact hk
        simp only [hf] at h
        by_cases hfe : f.epoch = epoch
        · simp only [hfe, if_true, Option.some.injEq] at h
          subst h
          refine ⟨{ epoch := (epoch + 1) % 2 ^ 64 }, rfl, ?_, ?_, ?_,
            (fun fut hfut => by cases hfut; rfl), fun hne => absurd rfl hne⟩
          · simp only [hm]
            exact hnew _ _ (Nat.lt_succ_self _) (fun kv hkv => by
              have := hk kv hkv
              omega)
          · intro f1 h1
            cases h1
            simp only [hm]
            omega
          · simp only [hm]
            exact Nat.lt_succ_self _
        · simp only [hfe, if_false] at h
          by_cases hle : f.epoch ≤ epoch
          · simp only [hle, if_true, Option.some.injEq] at h
            subst h
            refine ⟨{ epoch := (epoch + 1) % 2 ^ 64 }, rfl, ?_, ?_, ?_,
              (fun fut hfut => by cases hfut; rfl), fun hne => absurd rfl hne⟩
            · simp only [hm]
              exact hnew _ _ (Nat.lt_succ_self _) (fun kv hkv => by
                have := hk kv hkv
                omega)
            · intro f1 h1
              cases h1
              simp only [hm]
              omega
            · simp only [hm]
              exact Nat.lt_succ_self _
          · simp only [hle, if_false, Option.some.injEq] at h
            subst h
            have hlt : epoch < f.epoch := by omega
            exact ⟨f, rfl, hnew _ _ hlt hk, (fun f1 h1 => by cases h1; exact le_refl _), hlt,
              (fun fut hfut => by cases hfut), fun hne => absurd rfl hne⟩

/-- One call `cache(block)` leaves a future cache ahead of every key of the map, and never
an earlier one than it found; on a hit the engine changes in the entry of the block
only. -/
theorem cache_future (A : Algorithm) (H : Host)
    (order : List (Nat × cache) → List (Nat × cache)) (fuel : Nat) (t : List FsEvent)
    (e : Tilthash) (block : Nat) (now1 now2 : Int) (out : LookupOut)
    (hb : block / A.epochLength + 1 < 2 ^ 64)
    (hinv : (e.caches = [] ∧ e.fcache = none)
      ∨ ∃ f, e.fcache = some f ∧ ∀ kv ∈ e.caches, kv.1 < f.epoch)
    (h : Tilthash.cache A H order fuel t e block now1 now2 = some out) :
    ∃ f2, out.tilthash.fcache = some f2
      ∧ (∀ kv ∈ out.tilthash.caches, kv.1 < f2.epoch)
      ∧ (∀ f, e.fcache = some f → f.epoch ≤ f2.epoch)
      ∧ (mapGet e.caches (block / A.epochLength) ≠ none →
          out.tilthash.fcache = e.fcache) := by
  unfold Tilthash.cache at h
  simp only at h
  split at h
  · cases h
  · rename_i l hl
    obtain ⟨f2, hf2, hk, hmono, hlt, hfut, hhit⟩ :=
      cacheLocked_future _ _ _ _ _ _ _ hb hinv hl
    split at h
    · cases h
    · rename_i g hgen
      have hk2 : ∀ (c : cache), ∀ kv ∈ mapSet l.tilthash.caches (block / A.epochLength) c,
          kv.1 < f2.epoch := by
        intro c kv hkv
        rcases mem_mapSet _ _ _ _ hkv with rfl | hin
        · exact hlt
        · exact hk kv hin
      split at h
      · rename_i hnone
        cases h
        refine ⟨f2, hf2, hk2 _, hmono, fun hne => ?_⟩
        show l.tilthash.fcache = e.fcache
        rw [(hhit hne).1]
      · rename_i future hsome
        have hff := hfut future hsome
        split at h
        · cases h
        · rename_i f hfgen
          have hfe := cache_generate_epoch _ _ _ _ _ _ _ _ hfgen
          cases h
          refine ⟨f.2, rfl, ?_, ?_, fun hne => ?_⟩
          · intro kv hkv
            rw [hfe, hff]
            exact hk2 _ kv hkv
          · intro f1 h1
            rw [hfe, hff]
            exact hmono f1 h1
          · rw [(hhit hne).2] at hsome
            cases hsome

/-- Under the lock, `dataset` leaves a future dataset ahead of every key of the map: given
that the engine began with empty maps and no future dataset, or with a future dataset ahead
of every key, and that `epoch + 1` does not wrap.  The future dataset is never replaced by
an earlier one, a hit changes nothing, and a new `future` is the one in the slot. -/
theorem datasetLocked_future (order : List (Nat × dataset) → List (Nat × dataset)) (fuel : Nat)
    (t : List FsEvent) (e : Tilthash) (epoch : Nat) (now : Int) (l : Locked dataset)
    (hb : epoch + 1 < 2 ^ 64)
    (hinv : (e.datasets = [] ∧ e.fdataset = none)
      ∨ ∃ f, e.fdataset = some f ∧ ∀ kv ∈ e.datasets, kv.1 < f.epoch)
    (h : Tilthash.datasetLocked order fuel t e epoch now = some l) :
    ∃ f2, l.tilthash.fdataset = some f2
      ∧ (∀ kv ∈ l.tilthash.datasets, kv.1 < f2.epoch)
      ∧ (∀ f, e.fdataset = some f → f.epoch ≤ f2.epoch)
      ∧ epoch < f2.epoch
      ∧ (∀ fut, l.future = some fut → fut = f2)
      ∧ (mapGet e.datasets epoch ≠ none → l.tilthash = e ∧ l.future = none) := by
  have hm : (epoch + 1) % 2 ^ 64 = epoch + 1 := Nat.mod_eq_of_lt hb
  unfold Tilthash.datasetLocked at h
  cases hg : mapGet e.datasets epoch with
  | some current =>
    simp only [hg, Option.some.injEq] at h
    subst h
    have hin := mapGet_mem _ _ _ hg
    rcases hinv with ⟨h0, -⟩ | ⟨f, hf, hk⟩
    · rw [h0] at hin
      cases hin
    · exact ⟨f, hf, hk, (fun f1 h1 => by rw [hf] at h1; cases h1; exact le_refl _),
        hk _ hin, (fun fut hfut => by cases hfut), fun _ => ⟨rfl, rfl⟩⟩
  | none =>
    simp only [hg] at h
    split at h
    · cases h
    · rename_i s hs
      obtain ⟨hsub, -⟩ := evictLoop_spec _ _ _ _ _ _ _ _ hs
      simp only at hsub
      have hnew : ∀ (c : dataset) (b : Nat), epoch < b →
          (∀ kv ∈ e.datasets, kv.1 < b) → ∀ kv ∈ mapSet s.entries epoch c, kv.1 < b := by
        intro c b hlt hall kv hkv
        rcases mem_mapSet _ _ _ _ hkv with rfl | hin
        · exact hlt
        · exact hall kv (hsub.subset hin)
      cases hf : e.fdataset with
      | none =>
        simp only [hf, Option.some.injEq] at h
        subst h
        have hall : ∀ kv ∈ e.datasets, kv.1 < epoch + 1 := by
          rcases hinv with ⟨h0, -⟩ | ⟨f, hf2, -⟩
          · rw [h0]
            intro kv hkv
            cases hkv
          · rw [hf] at hf2
            cases hf2
        refine ⟨{ epoch := (epoch + 1) % 2 ^ 64 }, rfl, ?_, (fun f1 h1 => by cases h1), ?_,
          (fun fut hfut => by cases hfut; rfl), fun hne => absurd rfl hne⟩
        · simp only [hm]
          exact hnew _ _ (Nat.lt_succ_self _) hall
        · simp only [hm]
          exact Nat.lt_succ_self _
      | some f =>
        have hk : ∀ kv ∈ e.datasets, kv.1 < f.epoch := by
          rcases hinv with ⟨-, h0⟩ | ⟨f1, hf1, hk⟩
          · rw [hf] at h0
            cases h0
          · rw [hf] at hf1
            cases hf1
            exact hk
        simp only [hf] at h
        by_cases hfe : f.epoch = epoch
        · simp only [hfe, if_true, Option.some.injEq] at h
          subst h
          refine ⟨{ epoch := (epoch + 1) % 2 ^ 64 }, rfl, ?_, ?_, ?_,
            (fun fut hfut => by cases hfut; rfl), fun hne => absurd rfl hne⟩
          · simp only [hm]
            exact hnew _ _ (Nat.lt_succ_self _) (fun kv hkv => by
              have := hk kv hkv
              omega)
          · intro f1 h1
            cases h1
            simp only [hm]
            omega
          · simp only [hm]
            exact Nat.lt_succ_self _
        · simp only [hfe, if_false] at h
          by_cases hle : f.epoch ≤ epoch
          · simp only [hle, if_true, Option.some.injEq] at h
            subst h
            refine ⟨{ epoch := (epoch + 1) % 2 ^ 64 }, rfl, ?_, ?_, ?_,
              (fun fut hfut => by cases hfut; rfl), fun hne => absurd rfl hne⟩
            · simp only [hm]
              exact hnew _ _ (Nat.lt_succ_self _) (fun kv hkv => by
                have := hk kv hkv
                omega)
            · intro f1 h1
              cases h1
              simp only [hm]
              omega
            · simp only [hm]
              exact Nat.lt_succ_self _
          · simp only [hle, if_false, Option.some.injEq] at h
            subst h
            have hlt : epoch < f.epoch := by omega
            exact ⟨f, rfl, hnew _ _ hlt hk, (fun f1 h1 => by cases h1; exact le_refl _), hlt,
              (fun fut hfut => by cases hfut), fun hne => absurd rfl hne⟩

/-- One call `dataset(block)` leaves a future dataset ahead of every key of the map, and never
an earlier one than it found; on a hit the engine changes in the entry of the block
only. -/
theorem dataset_future (A : Algorithm) (H : Host)
    (order : List (Nat × dataset) → List (Nat × dataset)) (fuel : Nat) (t : List FsEvent)
    (e : Tilthash) (block : Nat) (now1 now2 : Int) (out : LookupOut)
    (hb : block / A.epochLength + 1 < 2 ^ 64)
    (hinv : (e.datasets = [] ∧ e.fdataset = none)
      ∨ ∃ f, e.fdataset = some f ∧ ∀ kv ∈ e.datasets, kv.1 < f.epoch)
    (h : Tilthash.dataset A H order fuel t e block now1 now2 = some out) :
    ∃ f2, out.tilthash.fdataset = some f2
      ∧ (∀ kv ∈ out.tilthash.datasets, kv.1 < f2.epoch)
      ∧ (∀ f, e.fdataset = some f → f.epoch ≤ f2.epoch)
      ∧ (mapGet e.datasets (block / A.epochLength) ≠ none →
          out.tilthash.fdataset = e.fdataset) := by
  unfold Tilthash.dataset at h
  simp only at h
  split at h
  · cases h
  · rename_i l hl
    obtain ⟨f2, hf2, hk, hmono, hlt, hfut, hhit⟩ :=
      datasetLocked_future _ _ _ _ _ _ _ hb hinv hl
    split at h
    · cases h
    · rename_i g hgen
      have hk2 : ∀ (c : dataset), ∀ kv ∈ mapSet l.tilthash.datasets (block / A.epochLength) c,
          kv.1 < f2.epoch := by
        intro c kv hkv
        rcases mem_mapSet _ _ _ _ hkv with rfl | hin
        · exact hlt
        · exact hk kv hin
      split at h
      · rename_i hnone
        cases h
        refine ⟨f2, hf2, hk2 _, hmono, fun hne => ?_⟩
        show l.tilthash.fdataset = e.fdataset
        rw [(hhit hne).1]
      · rename_i future hsome
        have hff := hfut future hsome
        split at h
        · cases h
        · rename_i f hfgen
          have hfe := dataset_generate_epoch _ _ _ _ _ _ _ _ hfgen
          cases h
          refine ⟨f.2, rfl, ?_, ?_, fun hne => ?_⟩
          · intro kv hkv
            rw [hfe, hff]
            exact hk2 _ kv hkv
          · intro f1 h1
            rw [hfe, hff]
            exact hmono f1 h1
          · rw [(hhit hne).2] at hsome
            cases hsome

/-- With epochs of two blocks or more, the epoch after that of a `uint64` block number is
a `uint64`. -/
theorem epoch_succ_lt (A : Algorithm) (block : Nat) (hb : block < 2 ^ 64)
    (hlen : 2 ≤ A.epochLength) : block / A.epochLength + 1 < 2 ^ 64 := by
  have h2 : block / A.epochLength ≤ block / 2 := Nat.div_le_div_left hlen (by decide)
  omega

/-- A sequence of calls `cache(block)` keeps the future cache ahead of every key of the
map, and never replaces it by an earlier one. -/
theorem cacheCalls_future (A : Algorithm) (H : Host)
    (order : List (Nat × cache) → List (Nat × cache)) (fuel : Nat) (calls : List Lookup)
    (t : List FsEvent) (e : Tilthash) (r : List FsEvent × Tilthash)
    (hb : ∀ c ∈ calls, c.block / A.epochLength + 1 < 2 ^ 64)
    (hinv : (e.caches = [] ∧ e.fcache = none)
      ∨ ∃ f, e.fcache = some f ∧ ∀ kv ∈ e.caches, kv.1 < f.epoch)
    (h : Tilthash.cacheCalls A H order fuel t e calls = some r) :
    ((r.2.caches = [] ∧ r.2.fcache = none)
      ∨ ∃ f, r.2.fcache = some f ∧ ∀ kv ∈ r.2.caches, kv.1 < f.epoch)
    ∧ (∀ f, e.fcache = some f → ∃ f2, r.2.fcache = some f2 ∧ f.epoch ≤ f2.epoch)
    ∧ (calls ≠ [] → ∃ f, r.2.fcache = some f ∧ ∀ kv ∈ r.2.caches, kv.1 < f.epoch) := by
  induction calls generalizing t e with
  | nil =>
    simp only [Tilthash.cacheCalls, Option.some.injEq] at h
    subst h
    exact ⟨hinv, fun f hf => ⟨f, hf, le_refl _⟩, fun hne => absurd rfl hne⟩
  | cons c rest ih =>
    simp only [Tilthash.cacheCalls] at h
    split at h
    · cases h
    · rename_i out hout
      obtain ⟨f2, hf2, hk2, hmono, -⟩ := cache_future A H order fuel t e c.block c.now1
        c.now2 out (hb c (List.mem_cons_self _ _)) hinv hout
      obtain ⟨hinv3, hmono3, -⟩ := ih out.trace out.tilthash
        (fun c2 hc2 => hb c2 (List.mem_cons_of_mem _ hc2)) (Or.inr ⟨f2, hf2, hk2⟩) h
      obtain ⟨f3, hf3, hle3⟩ := hmono3 f2 hf2
      refine ⟨hinv3, fun f hf => ⟨f3, hf3, le_trans (hmono f hf) hle3⟩, fun _ => ?_⟩
      rcases hinv3 with ⟨-, h0⟩ | h1
      · rw [hf3] at h0
        cases h0
      · exact h1

/-- A sequence of calls `dataset(block)` keeps the future dataset ahead of every key of the
map, and never replaces it by an earlier one. -/
theorem datasetCalls_future (A : Algorithm) (H : Host)
    (order : List (Nat × dataset) → List (Nat × dataset)) (fuel : Nat) (calls : List Lookup)
    (t : List FsEvent) (e : Tilthash) (r : List FsEvent × Tilthash)
    (hb : ∀ c ∈ calls, c.block / A.epochLength + 1 < 2 ^ 64)
    (hinv : (e.datasets = [] ∧ e.fdataset = none)
      ∨ ∃ f, e.fdataset = some f ∧ ∀ kv ∈ e.datasets, kv.1 < f.epoch)
    (h : Tilthash.datasetCalls A H order fuel t e calls = some r) :
    ((r.2.datasets = [] ∧ r.2.fdataset = none)
      ∨ ∃ f, r.2.fdataset = some f ∧ ∀ kv ∈ r.2.datasets, kv.1 < f.epoch)
    ∧ (∀ f, e.fdataset = some f → ∃ f2, r.2.fdataset = some f2 ∧ f.epoch ≤ f2.epoch)
    ∧ (calls ≠ [] → ∃ f, r.2.fdataset = some f ∧ ∀ kv ∈ r.2.datasets, kv.1 < f.epoch) := by
  induction calls generalizing t e with
  | nil =>
    simp only [Tilthash.datasetCalls, Option.some.injEq] at h
    subst h
    exact ⟨hinv, fun f hf => ⟨f, hf, le_refl _⟩, fun hne => absurd rfl hne⟩
  | cons c rest ih =>
    simp only [Tilthash.datasetCalls] at h
    split at h
    · cases h
    · rename_i out hout
      obtain ⟨f2, hf2, hk2, hmono, -⟩ := dataset_future A H order fuel t e c.block c.now1
        c.now2 out (hb c (List.mem_cons_self _ _)) hinv hout
      obtain ⟨hinv3, hmono3, -⟩ := ih out.trace out.tilthash
        (fun c2 hc2 => hb c2 (List.mem_cons_of_mem _ hc2)) (Or.inr ⟨f2, hf2, hk2⟩) h
      obtain ⟨f3, hf3, hle3⟩ := hmono3 f2 hf2
      refine ⟨hinv3, fun f hf => ⟨f3, hf3, le_trans (hmono f hf) hle3⟩, fun _ => ?_⟩
      rcases hinv3 with ⟨-, h0⟩ | h1
      · rw [hf3] at h0
        cases h0
      · exact h1

/-- `DelegateCall` by a frame does not panic: `AsDelegate` finds the parent frame. -/
theorem DelegateCall_frame {σ : Type} (env : Env σ) (body : RunBody σ) (vm : TiltVM σ)
    (c : Contract) (addr : Address) (input : Bytes) (gas : Nat) :
    ∃ r, DelegateCall env body vm (.contract c) addr input gas = some r := by
  unfold DelegateCall
  by_cases h1 : env.NoRecursion = true ∧ vm.depth > 0
  · rw [if_pos h1]
    exact ⟨_, rfl⟩
  · rw [if_neg h1]
    by_cases h2 : vm.depth > (CallCreateDepth : Int)
    · rw [if_pos h2]
      exact ⟨_, rfl⟩
    · rw [if_neg h2]
      simp only [Contract.AsDelegate]
      split_ifs
      · exact ⟨_, rfl⟩
      · exact ⟨_, rfl⟩

/-- `cache.generate` only adds events; on a directory, for a cache not yet generated, the
first one opens the dump of its epoch. -/
theorem cache_generate_opens (A : Algorithm) (H : Host) (t : List FsEvent) (c : cache)
    (dir : String) (limit : Int) (test : Bool) (g : List FsEvent × cache)
    (h : c.generate A H t dir limit test = some g) :
    (∃ evs, g.1 = t ++ evs)
    ∧ (c.once = false → test = false → dir ≠ "" →
        ∃ evs, g.1 = t ++ FsEvent.OpenFile (dumpPath A H "cache" dir c.epoch) :: evs) := by
  unfold cache.generate at h
  by_cases h1 : c.once = true
  · rw [if_pos h1] at h
    cases h
    exact ⟨⟨[], by simp⟩, fun hc => by rw [h1] at hc; cases hc⟩
  · rw [if_neg h1] at h
    simp only at h
    by_cases h2 : test = true
    · rw [if_pos h2] at h
      cases h
      exact ⟨⟨[], by simp⟩, fun _ ht => by rw [h2] at ht; cases ht⟩
    · rw [if_neg h2] at h
      by_cases h3 : dir = ""
      · rw [if_pos h3] at h
        cases h
        exact ⟨⟨[], by simp⟩, fun _ _ hd => absurd h3 hd⟩
      · rw [if_neg h3] at h
        have key : ∃ evs, g.1 = t ++ FsEvent.OpenFile (dumpPath A H "cache" dir c.epoch)
            :: evs := by
          split at h
          · cases h
          · rename_i r1 hr1
            obtain ⟨evs1, ht1, -⟩ := memoryMap_trace H t _ r1 hr1
            split_ifs at h
            · cases h
              exact ⟨evs1, ht1⟩
            · split at h
              · cases h
              · rename_i r2 hr2
                obtain ⟨evs2, ht2, -⟩ := memoryMapAndGenerate_trace H _ _ _ _ r2 hr2
                cases h
                exact ⟨_, by simp only [ht2, ht1, List.append_assoc, List.cons_append]; rfl⟩
        refine ⟨?_, fun _ _ _ => key⟩
        obtain ⟨evs, he⟩ := key
        exact ⟨_, he⟩

/-- `dataset.generate` only adds events; for a dataset not yet generated, the first one
opens the dump of its epoch, whatever the directory. -/
theorem dataset_generate_opens (A : Algorithm) (H : Host) (t : List FsEvent) (d : dataset)
    (dir : String) (limit : Int) (test : Bool) (g : List FsEvent × dataset)
    (h : d.generate A H t dir limit test = some g) :
    (∃ evs, g.1 = t ++ evs)
    ∧ (d.once = false → test = false →
        ∃ evs, g.1 = t ++ FsEvent.OpenFile (dumpPath A H "full" dir d.epoch) :: evs) := by
  unfold dataset.generate at h
  by_cases h1 : d.once = true
  · rw [if_pos h1] at h
    cases h
    exact ⟨⟨[], by simp⟩, fun hc => by rw [h1] at hc; cases hc⟩
  · rw [if_neg h1] at h
    simp only at h
    by_cases h2 : test = true
    · rw [if_pos h2] at h
      cases h
      exact ⟨⟨[], by simp⟩, fun _ ht => by rw [h2] at ht; cases ht⟩
    · rw [if_neg h2] at h
      have hep : ∀ x y : dataset, (if dir = "" then x else y).epoch
          = if dir = "" then x.epoch else y.epoch := by
        intro x y
        split_ifs <;> rfl
      have key : ∃ evs, g.1 = t ++ FsEvent.OpenFile (dumpPath A H "full" dir d.epoch)
          :: evs := by
        simp only [hep, ite_self] at h
        split at h
        · cases h
        · rename_i r1 hr1
          obtain ⟨evs1, ht1, -⟩ := memoryMap_trace H t _ r1 hr1
          by_cases he : r1.err = none
          · rw [if_pos he] at h
            cases h
            exact ⟨evs1, ht1⟩
          · rw [if_neg he] at h
            split at h
            · cases h
            · rename_i r2 hr2
              obtain ⟨evs2, ht2, -⟩ := memoryMapAndGenerate_trace H _ _ _ _ r2 hr2
              cases h
              exact ⟨_, by simp only [ht2, ht1, List.append_assoc, List.cons_append]; rfl⟩
      refine ⟨?_, fun _ _ => key⟩
      obtain ⟨evs, he⟩ := key
      exact ⟨_, he⟩

/-- Under the lock, `cache` settles on a cache of the epoch asked for. -/
theorem cacheLocked_current (order : List (Nat × cache) → List (Nat × cache)) (fuel : Nat)
    (t : List FsEvent) (e : Tilthash) (epoch : Nat) (now : Int) (l : Locked cache)
    (hkey : ∀ kv ∈ e.caches, kv.2.epoch = kv.1)
    (h : Tilthash.cacheLocked order fuel t e epoch now = some l) :
    l.current.epoch = epoch := by
  unfold Tilthash.cacheLocked at h
  cases hg : mapGet e.caches epoch with
  | some current =>
    simp only [hg, Option.some.injEq] at h
    subst h
    exact hkey _ (mapGet_mem _ _ _ hg)
  | none =>
    simp only [hg] at h
    split at h
    · cases h
    · cases hf : e.fcache with
      | none =>
        simp only [hf, Option.some.injEq] at h
        subst h
        rfl
      | some f =>
        simp only [hf] at h
        by_cases hfe : f.epoch = epoch
        · simp only [hfe, if_true, Option.some.injEq] at h
          subst h
          rfl
        · simp only [hfe, if_false] at h
          split_ifs at h <;> cases h <;> rfl

/-- A call `cache(block)` leaves, under the key `block / epochLength`, a cache of that
epoch, and returns its words. -/
theorem cache_entry (A : Algorithm) (H : Host)
    (order : List (Nat × cache) → List (Nat × cache)) (fuel : Nat) (t : List FsEvent)
    (e : Tilthash) (block : Nat) (now1 now2 : Int) (out : LookupOut)
    (hkey : ∀ kv ∈ e.caches, kv.2.epoch = kv.1)
    (h : Tilthash.cache A H order fuel t e block now1 now2 = some out) :
    ∃ c, mapGet out.tilthash.caches (block / A.epochLength) = some c
      ∧ c.epoch = block / A.epochLength ∧ out.ret = c.cache := by
  unfold Tilthash.cache at h
  simp only at h
  split at h
  · cases h
  · rename_i l hl
    have hep := cacheLocked_current _ _ _ _ _ _ _ hkey hl
    split at h
    · cases h
    · rename_i g hgen
      have hge := cache_generate_epoch _ _ _ _ _ _ _ _ hgen
      split at h
      · cases h
        exact ⟨_, mapGet_mapSet _ _ _, by simp only [hge, hep], rfl⟩
      · split at h
        · cases h
        · cases h
          exact ⟨_, mapGet_mapSet _ _ _, by simp only [hge, hep], rfl⟩

/-- Under the lock, `dataset` settles on a dataset of the epoch asked for. -/
theorem datasetLocked_current (order : List (Nat × dataset) → List (Nat × dataset)) (fuel : Nat)
    (t : List FsEvent) (e : Tilthash) (epoch : Nat) (now : Int) (l : Locked dataset)
    (hkey : ∀ kv ∈ e.datasets, kv.2.epoch = kv.1)
    (h : Tilthash.datasetLocked order fuel t e epoch now = some l) :
    l.current.epoch = epoch := by
  unfold Tilthash.datasetLocked at h
  cases hg : mapGet e.datasets epoch with
  | some current =>
    simp only [hg, Option.some.injEq] at h
    subst h
    exact hkey _ (mapGet_mem _ _ _ hg)
  | none =>
    simp only [hg] at h
    split at h
    · cases h
    · cases hf : e.fdataset with
      | none =>
        simp only [hf, Option.some.injEq] at h
        subst h
        rfl
      | some f =>
        simp only [hf] at h
        by_cases hfe : f.epoch = epoch
        · simp only [hfe, if_true, Option.some.injEq] at h
          subst h
          rfl
        · simp only [hfe, if_false] at h
          split_ifs at h <;> cases h <;> rfl

/-- A call `dataset(block)` leaves, under the key `block / epochLength`, a dataset of that
epoch, and returns its words. -/
theorem dataset_entry (A : Algorithm) (H : Host)
    (order : List (Nat × dataset) → List (Nat × dataset)) (fuel : Nat) (t : List FsEvent)
    (e : Tilthash) (block : Nat) (now1 now2 : Int) (out : LookupOut)
    (hkey : ∀ kv ∈ e.datasets, kv.2.epoch = kv.1)
    (h : Tilthash.dataset A H order fuel t e block now1 now2 = some out) :
    ∃ c, mapGet out.tilthash.datasets (block / A.epochLength) = some c
      ∧ c.epoch = block / A.epochLength ∧ out.ret = c.dataset := by
  unfold Tilthash.dataset at h
  simp only at h
  split at h
  · cases h
  · rename_i l hl
    have hep := datasetLocked_current _ _ _ _ _ _ _ hkey hl
    split at h
    · cases h
    · rename_i g hgen
      have hge := dataset_generate_epoch _ _ _ _ _ _ _ _ hgen
      split at h
      · cases h
        exact ⟨_, mapGet_mapSet _ _ _, by simp only [hge, hep], rfl⟩
      · split at h
        · cases h
        · cases h
          exact ⟨_, mapGet_mapSet _ _ _, by simp only [hge, hep], rfl⟩

/-! ## Theorems -/

/-- C1, as the code has it: for words `x` (dividend, top of stack) and `y` (divisor) read
as two's-complement integers, `opSdiv` pushes `0` when `y = 0` and otherwise the quotient
of the absolute values carrying the sign of the quotient: negated exactly when `x` and `y`
have opposite signs, and not otherwise.  That is the signed quotient rounded toward zero.
The result is reduced modulo `2^256`. -/
theorem opSdiv_sign_of_quotient (x y : Int) (rest : List Int)
    (hy0 : 0 ≤ y) (hy : y < 2 ^ 256) :
    opSdiv ⟨x :: y :: rest⟩
        = some ⟨(if y = 0 then 0
            else if (S256 x < 0 ∧ 0 < S256 y) ∨ (0 < S256 x ∧ S256 y < 0)
              then U256 (-(|S256 x| / |S256 y|))
              else U256 (|S256 x| / |S256 y|)) :: rest⟩
    ∧ opSdiv ⟨x :: y :: rest⟩
        = some ⟨(if y = 0 then 0 else U256 ((S256 x).tdiv (S256 y))) :: rest⟩ := by
  have hz := S256_eq_zero_iff y hy0 hy
  have key : opSdiv ⟨x :: y :: rest⟩
        = some ⟨(if y = 0 then 0
            else if (S256 x < 0 ∧ 0 < S256 y) ∨ (0 < S256 x ∧ S256 y < 0)
              then U256 (-(|S256 x| / |S256 y|))
              else U256 (|S256 x| / |S256 y|)) :: rest⟩ := by
    by_cases h : y = 0
    · subst h
      have hs : S256 0 = 0 := by simp [S256]
      simp [opSdiv, Stack.pop, Stack.push, hs]
    · have hs : S256 y ≠ 0 := fun c => h (hz.mp c)
      have hc := sdiv_core (S256 x) (S256 y)
      simp only [opSdiv, Stack.pop, Stack.push, Option.bind_eq_bind, Option.some_bind,
        Int.sign_eq_zero_iff_zero, if_neg hs, if_neg h, hc, Option.pure_def]
      split_ifs <;> rfl
  refine ⟨key, ?_⟩
  rw [key]
  by_cases h : y = 0
  · simp [h]
  · simp only [if_neg h]
    rw [← sdiv_core_tdiv]
    split_ifs <;> rfl

/-- C1 at the dividend `x = 2^256 - 7` (that is `-7`) and the divisor `y = 2`. -/
theorem opSdiv_sign_of_quotient_witness :
    ((0 : Int) ≤ 2 ∧ (2 : Int) < 2 ^ 256)
    ∧ (opSdiv ⟨(2 ^ 256 - 7) :: 2 :: [5]⟩
        = some ⟨(if (2 : Int) = 0 then 0
            else if (S256 (2 ^ 256 - 7) < 0 ∧ 0 < S256 2) ∨ (0 < S256 (2 ^ 256 - 7) ∧ S256 2 < 0)
              then U256 (-(|S256 (2 ^ 256 - 7)| / |S256 2|))
              else U256 (|S256 (2 ^ 256 - 7)| / |S256 2|)) :: [5]⟩
      ∧ opSdiv ⟨(2 ^ 256 - 7) :: 2 :: [5]⟩
        = some ⟨(if (2 : Int) = 0 then 0
            else U256 ((S256 (2 ^ 256 - 7)).tdiv (S256 2))) :: [5]⟩) :=
  ⟨⟨by norm_num, by norm_num⟩,
    opSdiv_sign_of_quotient (2 ^ 256 - 7) 2 [5] (by norm_num) (by norm_num)⟩

set_option maxRecDepth 100000 in
/-- C1 fails as stated: with the dividend `x = 6` and the divisor `y = 2^256 - 2` (that is
`-2`) the quotient of the absolute values carrying the sign of the dividend is `3`, while
`opSdiv` pushes `2^256 - 3` (that is `-3`). -/
theorem opSdiv_not_sign_of_dividend :
    U256 ((S256 6).sign * (|S256 6| / |S256 (2 ^ 256 - 2)|)) = 3
    ∧ opSdiv ⟨[6, 2 ^ 256 - 2]⟩ = some ⟨[2 ^ 256 - 3]⟩
    ∧ opSdiv ⟨[6, 2 ^ 256 - 2]⟩
        ≠ some ⟨[U256 ((S256 6).sign * (|S256 6| / |S256 (2 ^ 256 - 2)|))]⟩ := by
  decide

/-- C2: for words `x` (dividend, top of stack) and `y` (divisor) read as two's-complement
integers, `opSmod` pushes `0` when `y = 0` and otherwise `sgn(x) * (|x| mod |y|)` reduced
modulo `2^256`. -/
theorem opSmod_sign_of_dividend (x y : Int) (rest : List Int)
    (hy0 : 0 ≤ y) (hy : y < 2 ^ 256) :
    opSmod ⟨x :: y :: rest⟩
      = some ⟨(if y = 0 then 0
          else U256 ((S256 x).sign * (|S256 x| % |S256 y|))) :: rest⟩ := by
  have hz := S256_eq_zero_iff y hy0 hy
  by_cases h : y = 0
  · subst h
    have hs : S256 0 = 0 := by simp [S256]
    simp [opSmod, Stack.pop, Stack.push, hs]
  · have hs : S256 y ≠ 0 := fun c => h (hz.mp c)
    have hc : |S256 x| % |S256 y| * (if (S256 x).sign < 0 then -1 else 1)
        = (S256 x).sign * (|S256 x| % |S256 y|) := by
      rcases lt_trichotomy (S256 x) 0 with hn | he | hp
      · rw [if_pos ((sign_lt_zero_iff _).mpr hn), Int.sign_eq_neg_one_of_neg hn]; ring
      · rw [he]; simp
      · rw [if_neg (by rw [sign_lt_zero_iff]; omega), Int.sign_eq_one_of_pos hp]; ring
    simp only [opSmod, Stack.pop, Stack.push, Option.bind_eq_bind, Option.some_bind,
      Int.sign_eq_zero_iff_zero, if_neg hs, if_neg h, hc, Option.pure_def]

/-- C2 at the dividend `x = 2^256 - 7` (that is `-7`) and the divisor `y = 2`. -/
theorem opSmod_sign_of_dividend_witness :
    ((0 : Int) ≤ 2 ∧ (2 : Int) < 2 ^ 256)
    ∧ opSmod ⟨(2 ^ 256 - 7) :: 2 :: [5]⟩
      = some ⟨(if (2 : Int) = 0 then 0
          else U256 ((S256 (2 ^ 256 - 7)).sign
            * (|S256 (2 ^ 256 - 7)| % |S256 2|))) :: [5]⟩ :=
  ⟨⟨by norm_num, by norm_num⟩,
    opSmod_sign_of_dividend (2 ^ 256 - 7) 2 [5] (by norm_num) (by norm_num)⟩


/-- C3: for words `x` (top of stack) and `y`, `opAdd`, `opSub` and `opMul` push the sum,
difference and product reduced modulo `2^256`, `opDiv` pushes `floor(x / y)` and `opMod`
pushes `x mod y`, both pushing `0` when `y = 0`; each replaces exactly the two operands by
one word, which lies in `[0, 2^256)`. -/
theorem arith_ops_mod_word (x y : Nat) (rest : List Int)
    (hx : x < 2 ^ 256) (hy : y < 2 ^ 256) :
    (opAdd ⟨(x : Int) :: (y : Int) :: rest⟩
        = some ⟨(((x + y) % 2 ^ 256 : Nat) : Int) :: rest⟩
      ∧ (x + y) % 2 ^ 256 < 2 ^ 256)
    ∧ (opSub ⟨(x : Int) :: (y : Int) :: rest⟩
        = some ⟨((x : Int) - (y : Int)) % 2 ^ 256 :: rest⟩
      ∧ 0 ≤ ((x : Int) - (y : Int)) % 2 ^ 256
      ∧ ((x : Int) - (y : Int)) % 2 ^ 256 < 2 ^ 256)
    ∧ (opMul ⟨(x : Int) :: (y : Int) :: rest⟩
        = some ⟨(((x * y) % 2 ^ 256 : Nat) : Int) :: rest⟩
      ∧ (x * y) % 2 ^ 256 < 2 ^ 256)
    ∧ (opDiv ⟨(x : Int) :: (y : Int) :: rest⟩
        = some ⟨((if y = 0 then 0 else x / y : Nat) : Int) :: rest⟩
      ∧ (if y = 0 then 0 else x / y) < 2 ^ 256)
    ∧ (opMod ⟨(x : Int) :: (y : Int) :: rest⟩
        = some ⟨((if y = 0 then 0 else x % y : Nat) : Int) :: rest⟩
      ∧ (if y = 0 then 0 else x % y) < 2 ^ 256) := by
  have hp : (0 : Nat) < 2 ^ 256 := by positivity
  refine ⟨⟨?_, Nat.mod_lt _ hp⟩, ⟨?_, ?_, ?_⟩, ⟨?_, Nat.mod_lt _ hp⟩, ⟨?_, ?_⟩, ⟨?_, ?_⟩⟩
  · simp [opAdd, Stack.pop, Stack.push, U256]
  · simp [opSub, Stack.pop, Stack.push, U256]
  · exact Int.emod_nonneg _ (by norm_num)
  · exact Int.emod_lt_of_pos _ (by norm_num)
  · simp [opMul, Stack.pop, Stack.push, U256]
  · by_cases h : y = 0
    · subst h
      simp [opDiv, Stack.pop, Stack.push]
    · have hq : ((x / y : Nat) : Int) < 2 ^ 256 := by
        have : x / y ≤ x := Nat.div_le_self x y
        have : x / y < 2 ^ 256 := lt_of_le_of_lt this hx
        exact_mod_cast this
      have hq0 : (0 : Int) ≤ ((x / y : Nat) : Int) := Int.ofNat_nonneg _
      have hu := U256_of_word _ hq0 hq
      push_cast at hu
      simp [opDiv, Stack.pop, Stack.push, h, hu]
  · split_ifs with h
    · exact hp
    · exact lt_of_le_of_lt (Nat.div_le_self x y) hx
  · by_cases h : y = 0
    · subst h
      simp [opMod, Stack.pop, Stack.push]
    · have hr : x % y < 2 ^ 256 :=
        lt_trans (Nat.mod_lt x (Nat.pos_of_ne_zero h)) hy
      have hq : ((x % y : Nat) : Int) < 2 ^ 256 := by exact_mod_cast hr
      have hu := U256_of_word _ (Int.ofNat_nonneg _) hq
      push_cast at hu
      simp [opMod, Stack.pop, Stack.push, h, hu]
  · split_ifs with h
    · exact hp
    · exact lt_trans (Nat.mod_lt x (Nat.pos_of_ne_zero h)) hy

/-- C3 at the words `x = 2^256 - 1`, `y = 2`, over the stack `[x, y, 9]`. -/
theorem arith_ops_mod_word_witness :
    (2 ^ 256 - 1 < 2 ^ 256 ∧ 2 < 2 ^ 256)
    ∧ (opAdd ⟨((2 ^ 256 - 1 : Nat) : Int) :: ((2 : Nat) : Int) :: [9]⟩
        = some ⟨(((2 ^ 256 - 1 + 2) % 2 ^ 256 : Nat) : Int) :: [9]⟩
      ∧ (2 ^ 256 - 1 + 2) % 2 ^ 256 < 2 ^ 256)
    ∧ (opSub ⟨((2 ^ 256 - 1 : Nat) : Int) :: ((2 : Nat) : Int) :: [9]⟩
        = some ⟨(((2 ^ 256 - 1 : Nat) : Int) - ((2 : Nat) : Int)) % 2 ^ 256 :: [9]⟩
      ∧ 0 ≤ (((2 ^ 256 - 1 : Nat) : Int) - ((2 : Nat) : Int)) % 2 ^ 256
      ∧ (((2 ^ 256 - 1 : Nat) : Int) - ((2 : Nat) : Int)) % 2 ^ 256 < 2 ^ 256)
    ∧ (opMul ⟨((2 ^ 256 - 1 : Nat) : Int) :: ((2 : Nat) : Int) :: [9]⟩
        = some ⟨((((2 ^ 256 - 1) * 2) % 2 ^ 256 : Nat) : Int) :: [9]⟩
      ∧ ((2 ^ 256 - 1) * 2) % 2 ^ 256 < 2 ^ 256)
    ∧ (opDiv ⟨((2 ^ 256 - 1 : Nat) : Int) :: ((2 : Nat) : Int) :: [9]⟩
        = some ⟨((if 2 = 0 then 0 else (2 ^ 256 - 1) / 2 : Nat) : Int) :: [9]⟩
      ∧ (if 2 = 0 then 0 else (2 ^ 256 - 1) / 2) < 2 ^ 256)
    ∧ (opMod ⟨((2 ^ 256 - 1 : Nat) : Int) :: ((2 : Nat) : Int) :: [9]⟩
        = some ⟨((if 2 = 0 then 0 else (2 ^ 256 - 1) % 2 : Nat) : Int) :: [9]⟩
      ∧ (if 2 = 0 then 0 else (2 ^ 256 - 1) % 2) < 2 ^ 256) :=
  ⟨⟨by norm_num, by norm_num⟩,
    arith_ops_mod_word (2 ^ 256 - 1) 2 [9] (by norm_num) (by norm_num)⟩

/-- C4: when `Call`, `CallCode` or `DelegateCall` has passed its guards and runs the callee
frame, an error of the run is returned with leftover gas `0` and the state reverted, by
`RevertToSnapshot`, to the snapshot taken at entry; without an error nothing is reverted
and the leftover gas is the frame's remaining gas.  `Create` likewise returns the error of
the run of the init code with leftover gas `0` and the state reverted to its snapshot;
`ErrCodeStoreOutOfGas` is set apart, which no run returns: `Create` alone assigns it, after
the run (tiltvm.go:267). -/
theorem run_error_reverts_and_consumes {σ : Type} (env : Env σ) (body : RunBody σ)
    (vm : TiltVM σ) (caller : ContractRef) (addr : Address) (input code : Bytes)
    (gas : Nat) (value : Int)
    (hrec : ¬ (env.NoRecursion = true ∧ vm.depth > 0))
    (hdepth : ¬ vm.depth > 1024) :
    (env.CanTransfer vm.StateDB caller.Address value = true →
      ¬ (env.db.Exist (env.db.Snapshot vm.StateDB).2 addr = false
          ∧ env.isPrecompiled addr = false ∧ value = 0) →
      let snap := env.db.Snapshot vm.StateDB
      let db1 := if env.db.Exist snap.2 addr = false
        then env.db.CreateAccount snap.2 addr else snap.2
      let db2 := env.Transfer db1 caller.Address addr value
      let frame := (NewContract caller addr (some value) gas).SetCallCode addr
        (env.db.GetCodeHash db2 addr) (env.db.GetCode db2 addr)
      let out := Interpreter.Run body ⟨db2, vm.depth⟩ frame input
      let r := Call env body vm caller addr input gas value
      r.err = out.err
      ∧ (out.err ≠ none → r.leftOverGas = 0
          ∧ r.vm.StateDB = env.db.RevertToSnapshot out.vm.StateDB snap.1)
      ∧ (out.err = none → r.leftOverGas = out.contract.Gas
          ∧ r.vm.StateDB = out.vm.StateDB))
    ∧ (env.CanTransfer vm.StateDB caller.Address value = true →
      let snap := env.db.Snapshot vm.StateDB
      let frame := (NewContract caller caller.Address (some value) gas).SetCallCode addr
        (env.db.GetCodeHash snap.2 addr) (env.db.GetCode snap.2 addr)
      let out := Interpreter.Run body ⟨snap.2, vm.depth⟩ frame input
      let r := CallCode env body vm caller addr input gas value
      r.err = out.err
      ∧ (out.err ≠ none → r.leftOverGas = 0
          ∧ r.vm.StateDB = env.db.RevertToSnapshot out.vm.StateDB snap.1)
      ∧ (out.err = none → r.leftOverGas = out.contract.Gas
          ∧ r.vm.StateDB = out.vm.StateDB))
    ∧ (∀ delegate : Contract,
      (NewContract caller caller.Address none gas).AsDelegate caller = some delegate →
      let snap := env.db.Snapshot vm.StateDB
      let frame := delegate.SetCallCode addr
        (env.db.GetCodeHash snap.2 addr) (env.db.GetCode snap.2 addr)
      let out := Interpreter.Run body ⟨snap.2, vm.depth⟩ frame input
      ∃ r, DelegateCall env body vm caller addr input gas = some r
      ∧ r.err = out.err
      ∧ (out.err ≠ none → r.leftOverGas = 0
          ∧ r.vm.StateDB = env.db.RevertToSnapshot out.vm.StateDB snap.1)
      ∧ (out.err = none → r.leftOverGas = out.contract.Gas
          ∧ r.vm.StateDB = out.vm.StateDB))
    ∧ (env.CanTransfer vm.StateDB caller.Address value = true →
      let nonce := env.db.GetNonce vm.StateDB caller.Address
      let snap := env.db.Snapshot
        (env.db.SetNonce vm.StateDB caller.Address ((nonce + 1) % 2 ^ 64))
      let contractAddr := env.CreateAddress caller.Address nonce
      let db1 := env.db.SetNonce (env.db.CreateAccount snap.2 contractAddr) contractAddr 1
      let db2 := env.Transfer db1 caller.Address contractAddr value
      let frame := (NewContract caller contractAddr (some value) gas).SetCallCode
        contractAddr (env.Keccak256Hash code) code
      let out := Interpreter.Run body ⟨db2, vm.depth⟩ frame []
      let r := Create env body vm caller code gas value
      ∀ e, out.err = some e → e ≠ .ErrCodeStoreOutOfGas →
        r.err = some e ∧ r.leftOverGas = 0
        ∧ r.vm.StateDB = env.db.RevertToSnapshot out.vm.StateDB snap.1) := by
  have hd2 : ¬ vm.depth > ((CallCreateDepth : Nat) : Int) := by
    simpa [CallCreateDepth] using hdepth
  refine ⟨?_, ?_, ?_, ?_⟩
  · intro hcan hshort snap db1 db2 frame out r
    have h1 : ¬ (env.CanTransfer vm.StateDB caller.Address value = false) := by simp [hcan]
    have h2 : ¬ (env.db.Exist (env.db.Snapshot vm.StateDB).2 addr = false
        ∧ (env.isPrecompiled addr = false ∧ value.sign = 0)) := by
      simpa [Int.sign_eq_zero_iff_zero] using hshort
    have hr : r = (if out.err ≠ none then
          ⟨out.ret, (out.contract.UseGas out.contract.Gas).2.Gas, out.err,
            { out.vm with StateDB := env.db.RevertToSnapshot out.vm.StateDB snap.1 }⟩
        else ⟨out.ret, out.contract.Gas, out.err, out.vm⟩) := by
      simp only [r, out, frame, db2, db1, snap, Call, Bool.not_eq_true, if_neg hrec,
        if_neg hd2, if_neg h1, if_neg h2]
    rw [hr]
    by_cases he : out.err = none
    · simp [he]
    · simp [he, UseGas_all]
  · intro hcan snap frame out r
    have h1 : ¬ (env.CanTransfer vm.StateDB caller.Address value = false) := by simp [hcan]
    have hr : r = (if out.err ≠ none then
          ⟨out.ret, (out.contract.UseGas out.contract.Gas).2.Gas, out.err,
            { out.vm with StateDB := env.db.RevertToSnapshot out.vm.StateDB snap.1 }⟩
        else ⟨out.ret, out.contract.Gas, out.err, out.vm⟩) := by
      simp only [r, out, frame, snap, CallCode, Bool.not_eq_true, if_neg hrec, if_neg hd2,
        if_neg h1]
    rw [hr]
    by_cases he : out.err = none
    · simp [he]
    · simp [he, UseGas_all]
  · intro delegate hdel snap frame out
    have hr : DelegateCall env body vm caller addr input gas = some (if out.err ≠ none then
          ⟨out.ret, (out.contract.UseGas out.contract.Gas).2.Gas, out.err,
            { out.vm with StateDB := env.db.RevertToSnapshot out.vm.StateDB snap.1 }⟩
        else ⟨out.ret, out.contract.Gas, out.err, out.vm⟩) := by
      simp only [out, frame, snap, DelegateCall, if_neg hrec, if_neg hd2, hdel]
      split_ifs <;> rfl
    refine ⟨_, hr, ?_⟩
    by_cases he : out.err = none
    · simp [he]
    · simp [he, UseGas_all]
  · intro hcan nonce snap contractAddr db1 db2 frame out r e he hne
    have h1 : ¬ (env.CanTransfer vm.StateDB caller.Address value = false) := by simp [hcan]
    have hr : r = ⟨[], contractAddr, 0, out.err,
        { out.vm with StateDB := env.db.RevertToSnapshot out.vm.StateDB snap.1 }⟩ := by
      have hn : ¬ (out.err = none ∧ decide (out.ret.length > env.MaxCodeSize) = false) := by
        simp [he]
      have hc : decide (out.ret.length > env.MaxCodeSize) = true
          ∨ (out.err ≠ none ∧ out.err ≠ some VMError.ErrCodeStoreOutOfGas) := by
        right; simp [he, hne]
      simp only [out, frame, db2, db1, contractAddr, snap, nonce] at hn hc
      simp only [r, out, frame, db2, db1, contractAddr, snap, nonce, Create,
        Bool.not_eq_true, if_neg hrec, if_neg hd2, if_neg h1, if_neg hn, if_pos hc]
    rw [hr]
    exact ⟨he, rfl, rfl⟩

/-- C4 at a frame of address 7 calling address 9 (and creating) with 1000 gas and value 3
over `memDB0`, the run failing with `ErrOutOfGas`: the guards pass, the transfer is
possible, the caller is a frame, and each operation returns the error with no gas left. -/
theorem run_error_reverts_and_consumes_witness :
    (¬ (memEnv.NoRecursion = true ∧ memVM0.depth > 0) ∧ ¬ memVM0.depth > 1024)
    ∧ (memEnv.CanTransfer memVM0.StateDB (ContractRef.contract memFrame).Address 3 = true
      ∧ ((NewContract (ContractRef.contract memFrame) 7 none 1000).AsDelegate
          (ContractRef.contract memFrame)).isSome = true
      ∧ (Call memEnv (constBody [] (some .ErrOutOfGas) 10) memVM0
          (ContractRef.contract memFrame) 9 [] 1000 3).err = some .ErrOutOfGas
      ∧ (Call memEnv (constBody [] (some .ErrOutOfGas) 10) memVM0
          (ContractRef.contract memFrame) 9 [] 1000 3).leftOverGas = 0
      ∧ (Call memEnv (constBody [] (some .ErrOutOfGas) 10) memVM0
          (ContractRef.contract memFrame) 9 [] 1000 3).vm.StateDB = memDB0
      ∧ (Create memEnv (constBody [] (some .ErrOutOfGas) 10) memVM0
          (ContractRef.contract memFrame) [] 1000 3).leftOverGas = 0)
    ∧ ((memEnv.CanTransfer memVM0.StateDB (ContractRef.contract memFrame).Address (3 : Int) = true →
        ¬ (memEnv.db.Exist (memEnv.db.Snapshot memVM0.StateDB).2 (9 : Address) = false
            ∧ memEnv.isPrecompiled (9 : Address) = false ∧ (3 : Int) = 0) →
        let snap := memEnv.db.Snapshot memVM0.StateDB
        let db1 := if memEnv.db.Exist snap.2 (9 : Address) = false
          then memEnv.db.CreateAccount snap.2 (9 : Address) else snap.2
        let db2 := memEnv.Transfer db1 (ContractRef.contract memFrame).Address (9 : Address) (3 : Int)
        let frame := (NewContract (ContractRef.contract memFrame) (9 : Address) (some (3 : Int)) (1000 : Nat)).SetCallCode (9 : Address)
          (memEnv.db.GetCodeHash db2 (9 : Address)) (memEnv.db.GetCode db2 (9 : Address))
        let out := Interpreter.Run (constBody [] (some .ErrOutOfGas) 10) ⟨db2, memVM0.depth⟩ frame ([] : Bytes)
        let r := Call memEnv (constBody [] (some .ErrOutOfGas) 10) memVM0 (ContractRef.contract memFrame) (9 : Address) ([] : Bytes) (1000 : Nat) (3 : Int)
        r.err = out.err
        ∧ (out.err ≠ none → r.leftOverGas = 0
            ∧ r.vm.StateDB = memEnv.db.RevertToSnapshot out.vm.StateDB snap.1)
        ∧ (out.err = none → r.leftOverGas = out.contract.Gas
            ∧ r.vm.StateDB = out.vm.StateDB))
      ∧ (memEnv.CanTransfer memVM0.StateDB (ContractRef.contract memFrame).Address (3 : Int) = true →
        let snap := memEnv.db.Snapshot memVM0.StateDB
        let frame := (NewContract (ContractRef.contract memFrame) (ContractRef.contract memFrame).Address (some (3 : Int)) (1000 : Nat)).SetCallCode (9 : Address)
          (memEnv.db.GetCodeHash snap.2 (9 : Address)) (memEnv.db.GetCode snap.2 (9 : Address))
        let out := Interpreter.Run (constBody [] (some .ErrOutOfGas) 10) ⟨snap.2, memVM0.depth⟩ frame ([] : Bytes)
        let r := CallCode memEnv (constBody [] (some .ErrOutOfGas) 10) memVM0 (ContractRef.contract memFrame) (9 : Address) ([] : Bytes) (1000 : Nat) (3 : Int)
        r.err = out.err
        ∧ (out.err ≠ none → r.leftOverGas = 0
            ∧ r.vm.StateDB = memEnv.db.RevertToSnapshot out.vm.StateDB snap.1)
        ∧ (out.err = none → r.leftOverGas = out.contract.Gas
            ∧ r.vm.StateDB = out.vm.StateDB))
      ∧ (∀ delegate : Contract,
        (NewContract (ContractRef.contract memFrame) (ContractRef.contract memFrame).Address none (1000 : Nat)).AsDelegate (ContractRef.contract memFrame) = some delegate →
        let snap := memEnv.db.Snapshot memVM0.StateDB
        let frame := delegate.SetCallCode (9 : Address)
          (memEnv.db.GetCodeHash snap.2 (9 : Address)) (memEnv.db.GetCode snap.2 (9 : Address))
        let out := Interpreter.Run (constBody [] (some .ErrOutOfGas) 10) ⟨snap.2, memVM0.depth⟩ frame ([] : Bytes)
        ∃ r, DelegateCall memEnv (constBody [] (some .ErrOutOfGas) 10) memVM0 (ContractRef.contract memFrame) (9 : Address) ([] : Bytes) (1000 : Nat) = some r
        ∧ r.err = out.err
        ∧ (out.err ≠ none → r.leftOverGas = 0
            ∧ r.vm.StateDB = memEnv.db.RevertToSnapshot out.vm.StateDB snap.1)
        ∧ (out.err = none → r.leftOverGas = out.contract.Gas
            ∧ r.vm.StateDB = out.vm.StateDB))
      ∧ (memEnv.CanTransfer memVM0.StateDB (ContractRef.contract memFrame).Address (3 : Int) = true →
        let nonce := memEnv.db.GetNonce memVM0.StateDB (ContractRef.contract memFrame).Address
        let snap := memEnv.db.Snapshot
          (memEnv.db.SetNonce memVM0.StateDB (ContractRef.contract memFrame).Address ((nonce + 1) % 2 ^ 64))
        let contractAddr := memEnv.CreateAddress (ContractRef.contract memFrame).Address nonce
        let db1 := memEnv.db.SetNonce (memEnv.db.CreateAccount snap.2 contractAddr) contractAddr 1
        let db2 := memEnv.Transfer db1 (ContractRef.contract memFrame).Address contractAddr (3 : Int)
        let frame := (NewContract (ContractRef.contract memFrame) contractAddr (some (3 : Int)) (1000 : Nat)).SetCallCode
          contractAddr (memEnv.Keccak256Hash ([] : Bytes)) ([] : Bytes)
        let out := Interpreter.Run (constBody [] (some .ErrOutOfGas) 10) ⟨db2, memVM0.depth⟩ frame []
        let r := Create memEnv (constBody [] (some .ErrOutOfGas) 10) memVM0 (ContractRef.contract memFrame) ([] : Bytes) (1000 : Nat) (3 : Int)
        ∀ e, out.err = some e → e ≠ .ErrCodeStoreOutOfGas →
          r.err = some e ∧ r.leftOverGas = 0
          ∧ r.vm.StateDB = memEnv.db.RevertToSnapshot out.vm.StateDB snap.1)) :=
  ⟨⟨by decide, by decide⟩,
    ⟨by decide, by decide, by decide, by decide, by decide, by decide⟩,
    run_error_reverts_and_consumes memEnv (constBody [] (some .ErrOutOfGas) 10) memVM0
      (ContractRef.contract memFrame) 9 [] [] 1000 3 (by decide) (by decide)⟩

/-- C5: `Call`, `CallCode`, `DelegateCall` and `Create` check `NoRecursion` with
`depth > 0` first, then `depth > 1024`, then (not `DelegateCall`) `CanTransfer(caller,
value)`.  A rejected invocation returns no bytes, the supplied gas, and respectively a nil
error, `ErrDepth` or `ErrInsufficientBalance`; it leaves the environment (the `StateDB`
state and the depth) as it was and does not depend on the run body, which is not run.
`DelegateCall` does not consult `CanTransfer`. -/
theorem guards_reject_in_order {σ : Type} (env : Env σ) (body : RunBody σ) (vm : TiltVM σ)
    (caller : ContractRef) (addr : Address) (input code : Bytes) (gas : Nat) (value : Int) :
    (env.NoRecursion = true ∧ vm.depth > 0 →
        Call env body vm caller addr input gas value = ⟨[], gas, none, vm⟩
      ∧ CallCode env body vm caller addr input gas value = ⟨[], gas, none, vm⟩
      ∧ DelegateCall env body vm caller addr input gas = some ⟨[], gas, none, vm⟩
      ∧ Create env body vm caller code gas value = ⟨[], 0, gas, none, vm⟩)
    ∧ (¬ (env.NoRecursion = true ∧ vm.depth > 0) → vm.depth > 1024 →
        Call env body vm caller addr input gas value = ⟨[], gas, some .ErrDepth, vm⟩
      ∧ CallCode env body vm caller addr input gas value = ⟨[], gas, some .ErrDepth, vm⟩
      ∧ DelegateCall env body vm caller addr input gas = some ⟨[], gas, some .ErrDepth, vm⟩
      ∧ Create env body vm caller code gas value = ⟨[], 0, gas, some .ErrDepth, vm⟩)
    ∧ (¬ (env.NoRecursion = true ∧ vm.depth > 0) → ¬ vm.depth > 1024 →
        env.CanTransfer vm.StateDB caller.Address value = false →
        Call env body vm caller addr input gas value
          = ⟨[], gas, some .ErrInsufficientBalance, vm⟩
      ∧ CallCode env body vm caller addr input gas value
          = ⟨[], gas, some .ErrInsufficientBalance, vm⟩
      ∧ Create env body vm caller code gas value
          = ⟨[], 0, gas, some .ErrInsufficientBalance, vm⟩)
    ∧ (∀ can : σ → Address → Int → Bool,
        DelegateCall { env with CanTransfer := can } body vm caller addr input gas
          = DelegateCall env body vm caller addr input gas) := by
  refine ⟨fun h => ?_, fun h hd => ?_, fun h hd hc => ?_, fun _ => rfl⟩
  · simp only [Call, CallCode, DelegateCall, Create, if_pos h, and_self]
  · have hd2 : vm.depth > ((CallCreateDepth : Nat) : Int) := by simpa [CallCreateDepth] using hd
    simp only [Call, CallCode, DelegateCall, Create, if_neg h, if_pos hd2, and_self]
  · have hd2 : ¬ vm.depth > ((CallCreateDepth : Nat) : Int) := by simpa [CallCreateDepth] using hd
    have hc2 : ¬ (env.CanTransfer vm.StateDB caller.Address value = true) := by simp [hc]
    simp only [Call, CallCode, Create, if_neg h, if_neg hd2, if_pos hc2, and_self]

/-- C5 over `memDB0`: with `NoRecursion` at depth 1 the four operations return the gas
and a nil error; at depth 1025 they fail with `ErrDepth`; at depth 0 with value 1000, more
than the caller's balance of 100, `Call`, `CallCode` and `Create` fail with
`ErrInsufficientBalance`.  The state is `memDB0` throughout. -/
theorem guards_reject_in_order_witness :
    (Call { memEnv with NoRecursion := true } depthProbe ⟨memDB0, 1⟩ (.account 7) 9 [] 1000 0
        = ⟨[], 1000, none, ⟨memDB0, 1⟩⟩
      ∧ CallCode { memEnv with NoRecursion := true } depthProbe ⟨memDB0, 1⟩ (.account 7) 9 []
          1000 0 = ⟨[], 1000, none, ⟨memDB0, 1⟩⟩
      ∧ DelegateCall { memEnv with NoRecursion := true } depthProbe ⟨memDB0, 1⟩ (.account 7) 9
          [] 1000 = some ⟨[], 1000, none, ⟨memDB0, 1⟩⟩
      ∧ Create { memEnv with NoRecursion := true } depthProbe ⟨memDB0, 1⟩ (.account 7) [] 1000
          0 = ⟨[], 0, 1000, none, ⟨memDB0, 1⟩⟩)
    ∧ (Call memEnv depthProbe ⟨memDB0, 1025⟩ (.account 7) 9 [] 1000 0
        = ⟨[], 1000, some .ErrDepth, ⟨memDB0, 1025⟩⟩
      ∧ CallCode memEnv depthProbe ⟨memDB0, 1025⟩ (.account 7) 9 [] 1000 0
        = ⟨[], 1000, some .ErrDepth, ⟨memDB0, 1025⟩⟩
      ∧ DelegateCall memEnv depthProbe ⟨memDB0, 1025⟩ (.account 7) 9 [] 1000
        = some ⟨[], 1000, some .ErrDepth, ⟨memDB0, 1025⟩⟩
      ∧ Create memEnv depthProbe ⟨memDB0, 1025⟩ (.account 7) [] 1000 0
        = ⟨[], 0, 1000, some .ErrDepth, ⟨memDB0, 1025⟩⟩)
    ∧ (Call memEnv depthProbe memVM0 (.account 7) 9 [] 1000 1000
        = ⟨[], 1000, some .ErrInsufficientBalance, memVM0⟩
      ∧ CallCode memEnv depthProbe memVM0 (.account 7) 9 [] 1000 1000
        = ⟨[], 1000, some .ErrInsufficientBalance, memVM0⟩
      ∧ Create memEnv depthProbe memVM0 (.account 7) [] 1000 1000
        = ⟨[], 0, 1000, some .ErrInsufficientBalance, memVM0⟩) :=
  ⟨(guards_reject_in_order { memEnv with NoRecursion := true } depthProbe ⟨memDB0, 1⟩
      (.account 7) 9 [] [] 1000 0).1 ⟨rfl, by decide⟩,
    (guards_reject_in_order memEnv depthProbe ⟨memDB0, 1025⟩ (.account 7) 9 [] [] 1000
      0).2.1 (by decide) (by decide),
    (guards_reject_in_order memEnv depthProbe memVM0 (.account 7) 9 [] [] 1000 1000).2.2.1
      (by decide) (by decide) (by decide)⟩

/-- C6, as the code has it: from a fresh `TiltVM` (depth 0), through any sequence of
frames entered and left, the depth counter stays within `0 .. 1025`.  A call issued while
1024 frames are open passes the guard `depth > 1024` and its frame runs at depth 1025; a
call issued while 1025 frames are open opens no frame: unless `NoRecursion` answers first,
`Call`, `CallCode`, `DelegateCall` and `Create` fail with `ErrDepth`, returning the gas and
leaving the environment as it was.  At any depth, the four operations run the body of
their frame at depths of at most 1025 only: their results are the same for two bodies that
agree at every depth up to 1025. -/
theorem depth_never_exceeds_1025 :
    (∀ (events : List FrameEvent) (d : Int),
        depthAfter 0 events = some d → 0 ≤ d ∧ d ≤ 1025)
    ∧ depthStep 1024 .enter = some 1025
    ∧ depthStep 1025 .enter = none
    ∧ (∀ (σ : Type) (env : Env σ) (body : RunBody σ) (vm : TiltVM σ) (caller : ContractRef)
        (addr : Address) (input code : Bytes) (gas : Nat) (value : Int),
        env.NoRecursion = false → vm.depth = 1025 →
          Call env body vm caller addr input gas value = ⟨[], gas, some .ErrDepth, vm⟩
        ∧ CallCode env body vm caller addr input gas value = ⟨[], gas, some .ErrDepth, vm⟩
        ∧ DelegateCall env body vm caller addr input gas = some ⟨[], gas, some .ErrDepth, vm⟩
        ∧ Create env body vm caller code gas value = ⟨[], 0, gas, some .ErrDepth, vm⟩)
    ∧ (∀ (σ : Type) (env : Env σ) (body body2 : RunBody σ),
        (∀ (v : TiltVM σ) (c : Contract) (i : Bytes),
          v.depth ≤ 1025 → body v c i = body2 v c i) →
        ∀ (vm : TiltVM σ) (caller : ContractRef) (addr : Address) (input code : Bytes)
          (gas : Nat) (value : Int),
          Call env body vm caller addr input gas value
            = Call env body2 vm caller addr input gas value
        ∧ CallCode env body vm caller addr input gas value
            = CallCode env body2 vm caller addr input gas value
        ∧ DelegateCall env body vm caller addr input gas
            = DelegateCall env body2 vm caller addr input gas
        ∧ Create env body vm caller code gas value
            = Create env body2 vm caller code gas value) := by
  refine ⟨fun events d h => depthAfter_bounds events 0 d le_rfl (by norm_num) h, by decide,
    by decide, ?_, fun σ env body body2 hbody vm caller addr input code gas value =>
      calls_congr_below env body body2 hbody vm caller addr input code gas value⟩
  intro σ env body vm caller addr input code gas value hno hd
  have h : ¬ (env.NoRecursion = true ∧ vm.depth > 0) := by simp [hno]
  have hd2 : vm.depth > ((CallCreateDepth : Nat) : Int) := by
    rw [hd]; decide
  simp only [Call, CallCode, DelegateCall, Create, if_neg h, if_pos hd2, and_self]

/-- C6 fails as stated: 1025 frames entered one inside the other from a fresh `TiltVM`
all pass the depth guard and leave the depth counter at 1025, above 1024; and a `Call`
issued at depth 1024 over `memDB0` does not fail with `ErrDepth`: it returns no error, and
its frame ran at depth 1025, which `depthProbe` reports as the leftover gas. -/
theorem depth_reaches_1025 :
    depthAfter 0 (List.replicate 1025 FrameEvent.enter) = some 1025
    ∧ (1025 : Int) > 1024
    ∧ (Call memEnv depthProbe ⟨memDB0, 1024⟩ (.account 7) 7 [] 1000 0).err = none
    ∧ (Call memEnv depthProbe ⟨memDB0, 1024⟩ (.account 7) 7 [] 1000 0).err
        ≠ some .ErrDepth
    ∧ (Call memEnv depthProbe ⟨memDB0, 1024⟩ (.account 7) 7 [] 1000 0).leftOverGas
        = 1025 := by
  refine ⟨?_, by decide, by decide, by decide, by decide⟩
  rw [depthAfter_enters 1025 0 le_rfl (by norm_num)]
  norm_num

/-- C7: a `Call` that passes the guards with value `0` to an address that does not exist
in the `StateDB` and is not precompiled returns `(nil, gas, nil)` with the full supplied
gas; the state it leaves is the one `Snapshot` left (no `CreateAccount`, no `Transfer`) and
the result does not depend on the run body, which is not run.  The CALL instruction that
makes such a call pushes `1` and adds the forwarded gas back to the calling frame. -/
theorem call_absent_account_short_circuit {σ μ : Type} (env : Env σ) (mem : MemoryOps μ)
    (body : RunBody σ) (vm : TiltVM σ)
    (hrec : ¬ (env.NoRecursion = true ∧ vm.depth > 0))
    (hdepth : ¬ vm.depth > 1024) :
    (∀ (caller : ContractRef) (addr : Address) (input : Bytes) (gas : Nat),
      env.CanTransfer vm.StateDB caller.Address 0 = true →
      env.db.Exist (env.db.Snapshot vm.StateDB).2 addr = false →
      env.isPrecompiled addr = false →
      Call env body vm caller addr input gas 0
        = ⟨[], gas, none, { vm with StateDB := (env.db.Snapshot vm.StateDB).2 }⟩)
    ∧ (∀ (contract : Contract) (memory : μ)
        (gas addr value inOffset inSize retOffset retSize : Int) (rest : List Int),
      U256 value = 0 →
      env.CanTransfer vm.StateDB contract.self 0 = true →
      env.db.Exist (env.db.Snapshot vm.StateDB).2 (BigToAddress addr) = false →
      env.isPrecompiled (BigToAddress addr) = false →
      opCall env mem body vm contract memory
          ⟨gas :: addr :: value :: inOffset :: inSize :: retOffset :: retSize :: rest⟩
        = some ⟨⟨1 :: rest⟩,
            mem.Set memory (Uint64 retOffset) (Uint64 retSize) [],
            { contract with Gas := (contract.Gas + Uint64 gas) % 2 ^ 64 },
            { vm with StateDB := (env.db.Snapshot vm.StateDB).2 }⟩) := by
  have hd2 : ¬ vm.depth > ((CallCreateDepth : Nat) : Int) := by
    simpa [CallCreateDepth] using hdepth
  have key : ∀ (caller : ContractRef) (addr : Address) (input : Bytes) (gas : Nat),
      env.CanTransfer vm.StateDB caller.Address 0 = true →
      env.db.Exist (env.db.Snapshot vm.StateDB).2 addr = false →
      env.isPrecompiled addr = false →
      Call env body vm caller addr input gas 0
        = ⟨[], gas, none, { vm with StateDB := (env.db.Snapshot vm.StateDB).2 }⟩ := by
    intro c a i g hcan hex hpre
    have h1 : ¬ ¬ (env.CanTransfer vm.StateDB c.Address 0 = true) := by simp [hcan]
    have h2 : ¬ (env.db.Exist (env.db.Snapshot vm.StateDB).2 a = true)
        ∧ (env.isPrecompiled a = false ∧ (0 : Int).sign = 0) := by
      simp [hex, hpre]
    simp only [Call, if_neg hrec, if_neg hd2, if_neg h1, if_pos h2]
  refine ⟨key, ?_⟩
  intro contract memory gas addr value inOffset inSize retOffset retSize rest hv hcan hex hpre
  have hk := fun i g => key (.contract contract) (BigToAddress addr) i g hcan hex hpre
  simp only [opCall, Stack.pop, Stack.push, Option.bind_eq_bind, Option.some_bind, hv,
    Int.sign_zero, ne_eq, not_true_eq_false, if_false, hk, Option.pure_def]

set_option maxRecDepth 100000 in
/-- C7 over `memDB0`, where address 9 does not exist: the guards pass at depth 0, and the
CALL instruction of the frame at address 7, forwarding 1000 gas with value 0 to address 9
over the stack `[1000, 9, 0, 0, 0, 0, 0, 42]`, leaves the stack `[1, 42]` and 6000 gas. -/
theorem call_absent_account_short_circuit_witness :
    (¬ (memEnv.NoRecursion = true ∧ memVM0.depth > 0) ∧ ¬ memVM0.depth > 1024)
    ∧ (opCall memEnv listMem depthProbe memVM0 memFrame []
          ⟨[1000, 9, 0, 0, 0, 0, 0, 42]⟩).map (fun o => (o.stack, o.contract.Gas))
        = some (⟨[1, 42]⟩, 6000)
    ∧ ((∀ (caller : ContractRef) (addr : Address) (input : Bytes) (gas : Nat),
      memEnv.CanTransfer memVM0.StateDB caller.Address 0 = true →
      memEnv.db.Exist (memEnv.db.Snapshot memVM0.StateDB).2 addr = false →
      memEnv.isPrecompiled addr = false →
      Call memEnv depthProbe memVM0 caller addr input gas 0
        = ⟨[], gas, none, { memVM0 with StateDB := (memEnv.db.Snapshot memVM0.StateDB).2 }⟩)
    ∧ (∀ (contract : Contract) (memory : (List UInt8))
        (gas addr value inOffset inSize retOffset retSize : Int) (rest : List Int),
      U256 value = 0 →
      memEnv.CanTransfer memVM0.StateDB contract.self 0 = true →
      memEnv.db.Exist (memEnv.db.Snapshot memVM0.StateDB).2 (BigToAddress addr) = false →
      memEnv.isPrecompiled (BigToAddress addr) = false →
      opCall memEnv listMem depthProbe memVM0 contract memory
          ⟨gas :: addr :: value :: inOffset :: inSize :: retOffset :: retSize :: rest⟩
        = some ⟨⟨1 :: rest⟩,
            listMem.Set memory (Uint64 retOffset) (Uint64 retSize) [],
            { contract with Gas := (contract.Gas + Uint64 gas) % 2 ^ 64 },
            { memVM0 with StateDB := (memEnv.db.Snapshot memVM0.StateDB).2 }⟩)) :=
  ⟨⟨by decide, by decide⟩,
    by
      rw [(call_absent_account_short_circuit memEnv listMem depthProbe memVM0 (by decide)
        (by decide)).2 memFrame [] 1000 9 0 0 0 0 0 [42] (by decide) (by decide)
        (by decide) (by decide)]
      decide,
    call_absent_account_short_circuit memEnv listMem depthProbe memVM0 (by decide)
      (by decide)⟩

/-- C8: a `Create` that passes the guards runs the init code on the state in which the
caller's nonce has been set to `n + 1` (`uint64` arithmetic, `n` its nonce before), the
account at `CreateAddress(caller, n)` has been created and its nonce set to `1`, and the
value transferred.  When that run returns no error and `ret` with
`len(ret) ≤ MaxCodeSize`, and the frame still holds at least `len(ret) * CreateDataGas`
gas, `Create` returns that address, a nil error and `ret`, stores `ret` as the account's
code on the state the run left, and the leftover gas is the frame's remaining gas minus
`len(ret) * CreateDataGas`. -/
theorem Create_success {σ : Type} (env : Env σ) (body : RunBody σ)
    (vm : TiltVM σ) (caller : ContractRef) (code : Bytes) (gas : Nat) (value : Int)
    (hrec : ¬ (env.NoRecursion = true ∧ vm.depth > 0))
    (hdepth : ¬ vm.depth > 1024)
    (hcan : env.CanTransfer vm.StateDB caller.Address value = true) :
    let n := env.db.GetNonce vm.StateDB caller.Address
    let snap := env.db.Snapshot
      (env.db.SetNonce vm.StateDB caller.Address ((n + 1) % 2 ^ 64))
    let contractAddr := env.CreateAddress caller.Address n
    let db1 := env.db.SetNonce (env.db.CreateAccount snap.2 contractAddr) contractAddr 1
    let db2 := env.Transfer db1 caller.Address contractAddr value
    let frame := (NewContract caller contractAddr (some value) gas).SetCallCode
      contractAddr (env.Keccak256Hash code) code
    let out := Interpreter.Run body ⟨db2, vm.depth⟩ frame []
    let r := Create env body vm caller code gas value
    out.err = none → out.ret.length ≤ env.MaxCodeSize →
    out.contract.Gas < 2 ^ 64 → out.ret.length * env.CreateDataGas ≤ out.contract.Gas →
      r.contractAddr = env.CreateAddress caller.Address n
      ∧ r.err = none
      ∧ r.ret = out.ret
      ∧ r.leftOverGas = out.contract.Gas - out.ret.length * env.CreateDataGas
      ∧ r.vm.StateDB = env.db.SetCode out.vm.StateDB contractAddr out.ret := by
  intro n snap contractAddr db1 db2 frame out r he hm hlt hg
  have h := Create_after_run env body vm caller code gas value hrec hdepth hcan
  simp only [] at h
  have hr : r = _ := h
  have hmod : (out.ret.length * env.CreateDataGas) % 2 ^ 64
      = out.ret.length * env.CreateDataGas := Nat.mod_eq_of_lt (by omega)
  have hm2 : ¬ (out.ret.length > env.MaxCodeSize ∨
      (out.err ≠ none ∧ out.err ≠ some VMError.ErrCodeStoreOutOfGas)) := by
    simp [he]; omega
  have h3 : ¬ (out.err = some VMError.ErrCodeStoreOutOfGas) := by simp [he]
  have h4 : ¬ (out.contract.Gas < (out.ret.length * env.CreateDataGas) % 2 ^ 64) := by
    rw [hmod]; omega
  rw [hr, if_neg hm2, if_neg h3, if_neg h4, hmod]
  exact ⟨rfl, rfl, rfl, rfl, rfl⟩

/-- C8 over `memDB0`, the account at address 7 (nonce 5) creating with 1000 gas and value
3, the init code spending 10 gas and returning 2 bytes: the new address is that of nonce
5, the leftover gas is `990 - 2 * 200`, the caller's nonce is 6, the new account's nonce
is 1 and its code is the 2 bytes. -/
theorem Create_success_witness :
    (¬ (memEnv.NoRecursion = true ∧ memVM0.depth > 0) ∧ ¬ memVM0.depth > 1024
      ∧ memEnv.CanTransfer memVM0.StateDB (ContractRef.account 7).Address (3 : Int) = true)
    ∧ ((Create memEnv (constBody [1, 2] none 10) memVM0 (ContractRef.account 7) [] 1000 3).contractAddr = memEnv.CreateAddress 7 5
      ∧ (Create memEnv (constBody [1, 2] none 10) memVM0 (ContractRef.account 7) [] 1000 3).err = none
      ∧ (Create memEnv (constBody [1, 2] none 10) memVM0 (ContractRef.account 7) [] 1000 3).leftOverGas = 590
      ∧ memOps.GetNonce (Create memEnv (constBody [1, 2] none 10) memVM0 (ContractRef.account 7) [] 1000 3).vm.StateDB 7 = 6
      ∧ memOps.GetNonce (Create memEnv (constBody [1, 2] none 10) memVM0 (ContractRef.account 7) [] 1000 3).vm.StateDB (memEnv.CreateAddress 7 5) = 1
      ∧ memOps.GetCode (Create memEnv (constBody [1, 2] none 10) memVM0 (ContractRef.account 7) [] 1000 3).vm.StateDB (memEnv.CreateAddress 7 5) = [1, 2])
    ∧ (let n := memEnv.db.GetNonce memVM0.StateDB (ContractRef.account 7).Address
    let snap := memEnv.db.Snapshot
      (memEnv.db.SetNonce memVM0.StateDB (ContractRef.account 7).Address ((n + 1) % 2 ^ 64))
    let contractAddr := memEnv.CreateAddress (ContractRef.account 7).Address n
    let db1 := memEnv.db.SetNonce (memEnv.db.CreateAccount snap.2 contractAddr) contractAddr 1
    let db2 := memEnv.Transfer db1 (ContractRef.account 7).Address contractAddr (3 : Int)
    let frame := (NewContract (ContractRef.account 7) contractAddr (some (3 : Int)) (1000 : Nat)).SetCallCode
      contractAddr (memEnv.Keccak256Hash ([] : Bytes)) ([] : Bytes)
    let out := Interpreter.Run (constBody [1, 2] none 10) ⟨db2, memVM0.depth⟩ frame []
    let r := Create memEnv (constBody [1, 2] none 10) memVM0 (ContractRef.account 7) ([] : Bytes) (1000 : Nat) (3 : Int)
    out.err = none → out.ret.length ≤ memEnv.MaxCodeSize →
    out.contract.Gas < 2 ^ 64 → out.ret.length * memEnv.CreateDataGas ≤ out.contract.Gas →
      r.contractAddr = memEnv.CreateAddress (ContractRef.account 7).Address n
      ∧ r.err = none
      ∧ r.ret = out.ret
      ∧ r.leftOverGas = out.contract.Gas - out.ret.length * memEnv.CreateDataGas
      ∧ r.vm.StateDB = memEnv.db.SetCode out.vm.StateDB contractAddr out.ret) :=
  ⟨⟨by decide, by decide, by decide⟩,
    ⟨by decide, by decide, by decide, by decide, by decide, by decide⟩,
    Create_success memEnv (constBody [1, 2] none 10) memVM0 (ContractRef.account 7) [] 1000 3
      (by decide) (by decide) (by decide)⟩

/-- C9, what the code does: when the init code of a `Create` runs without error but
returns more than `MaxCodeSize` bytes, `Create` reverts the state to its snapshot and
returns no bytes and no gas, but the error it returns is nil: no max-code-size-exceeded
error is assigned. -/
theorem Create_oversized_code_nil_error {σ : Type} (env : Env σ) (body : RunBody σ)
    (vm : TiltVM σ) (caller : ContractRef) (code : Bytes) (gas : Nat) (value : Int)
    (hrec : ¬ (env.NoRecursion = true ∧ vm.depth > 0))
    (hdepth : ¬ vm.depth > 1024)
    (hcan : env.CanTransfer vm.StateDB caller.Address value = true) :
    let n := env.db.GetNonce vm.StateDB caller.Address
    let snap := env.db.Snapshot
      (env.db.SetNonce vm.StateDB caller.Address ((n + 1) % 2 ^ 64))
    let contractAddr := env.CreateAddress caller.Address n
    let db1 := env.db.SetNonce (env.db.CreateAccount snap.2 contractAddr) contractAddr 1
    let db2 := env.Transfer db1 caller.Address contractAddr value
    let frame := (NewContract caller contractAddr (some value) gas).SetCallCode
      contractAddr (env.Keccak256Hash code) code
    let out := Interpreter.Run body ⟨db2, vm.depth⟩ frame []
    let r := Create env body vm caller code gas value
    out.err = none → out.ret.length > env.MaxCodeSize →
      r.err = none
      ∧ r.ret = []
      ∧ r.leftOverGas = 0
      ∧ r.vm.StateDB = env.db.RevertToSnapshot out.vm.StateDB snap.1 := by
  intro n snap contractAddr db1 db2 frame out r he hm
  have h := Create_after_run env body vm caller code gas value hrec hdepth hcan
  simp only [] at h
  have hr : r = _ := h
  rw [hr, if_pos (Or.inl hm)]
  exact ⟨he, rfl, rfl, rfl⟩

/-- C9 over `memDB0` with `MaxCodeSize = 4`: the init code returns 5 bytes without error,
and `Create` returns a nil error, not `errMaxCodeSizeExceeded`. -/
theorem Create_oversized_code_nil_error_witness :
    (¬ (memEnv.NoRecursion = true ∧ memVM0.depth > 0) ∧ ¬ memVM0.depth > 1024
      ∧ memEnv.CanTransfer memVM0.StateDB (ContractRef.account 7).Address (3 : Int) = true)
    ∧ ((Create memEnv (constBody [1, 2, 3, 4, 5] none 10) memVM0 (ContractRef.account 7) [] 1000 3).err = none
      ∧ (Create memEnv (constBody [1, 2, 3, 4, 5] none 10) memVM0 (ContractRef.account 7) [] 1000 3).err ≠ some .errMaxCodeSizeExceeded
      ∧ (Create memEnv (constBody [1, 2, 3, 4, 5] none 10) memVM0 (ContractRef.account 7) [] 1000 3).leftOverGas = 0
      ∧ memOps.Exist (Create memEnv (constBody [1, 2, 3, 4, 5] none 10) memVM0 (ContractRef.account 7) [] 1000 3).vm.StateDB (memEnv.CreateAddress 7 5) = false)
    ∧ (let n := memEnv.db.GetNonce memVM0.StateDB (ContractRef.account 7).Address
    let snap := memEnv.db.Snapshot
      (memEnv.db.SetNonce memVM0.StateDB (ContractRef.account 7).Address ((n + 1) % 2 ^ 64))
    let contractAddr := memEnv.CreateAddress (ContractRef.account 7).Address n
    let db1 := memEnv.db.SetNonce (memEnv.db.CreateAccount snap.2 contractAddr) contractAddr 1
    let db2 := memEnv.Transfer db1 (ContractRef.account 7).Address contractAddr (3 : Int)
    let frame := (NewContract (ContractRef.account 7) contractAddr (some (3 : Int)) (1000 : Nat)).SetCallCode
      contractAddr (memEnv.Keccak256Hash ([] : Bytes)) ([] : Bytes)
    let out := Interpreter.Run (constBody [1, 2, 3, 4, 5] none 10) ⟨db2, memVM0.depth⟩ frame []
    let r := Create memEnv (constBody [1, 2, 3, 4, 5] none 10) memVM0 (ContractRef.account 7) ([] : Bytes) (1000 : Nat) (3 : Int)
    out.err = none → out.ret.length > memEnv.MaxCodeSize →
      r.err = none
      ∧ r.ret = []
      ∧ r.leftOverGas = 0
      ∧ r.vm.StateDB = memEnv.db.RevertToSnapshot out.vm.StateDB snap.1) :=
  ⟨⟨by decide, by decide, by decide⟩,
    ⟨by decide, by decide, by decide, by decide⟩,
    Create_oversized_code_nil_error memEnv (constBody [1, 2, 3, 4, 5] none 10) memVM0
      (ContractRef.account 7) [] 1000 3 (by decide) (by decide) (by decide)⟩

/-- C10, what the code does: when the init code of a `Create` succeeds with
`len(ret) ≤ MaxCodeSize` but the frame holds less than `len(ret) * CreateDataGas` gas,
`Create` reports `ErrCodeStoreOutOfGas`, returns no bytes and stores no code, but it does
not revert to the snapshot (the state is the one the run left) and the leftover gas is the
frame's remaining gas, none of which is consumed: the condition of the revert branch
leaves this error out (tiltvm.go:275), where the comments above it (tiltvm.go:258-261,
271-273) say that the error is handled by that branch, which reverts and consumes the
gas.  (`MaxCodeSize * CreateDataGas` fits in a `uint64`.) -/
theorem Create_code_store_out_of_gas {σ : Type} (env : Env σ) (body : RunBody σ)
    (vm : TiltVM σ) (caller : ContractRef) (code : Bytes) (gas : Nat) (value : Int)
    (hrec : ¬ (env.NoRecursion = true ∧ vm.depth > 0))
    (hdepth : ¬ vm.depth > 1024)
    (hcan : env.CanTransfer vm.StateDB caller.Address value = true)
    (hparams : env.MaxCodeSize * env.CreateDataGas < 2 ^ 64) :
    let n := env.db.GetNonce vm.StateDB caller.Address
    let snap := env.db.Snapshot
      (env.db.SetNonce vm.StateDB caller.Address ((n + 1) % 2 ^ 64))
    let contractAddr := env.CreateAddress caller.Address n
    let db1 := env.db.SetNonce (env.db.CreateAccount snap.2 contractAddr) contractAddr 1
    let db2 := env.Transfer db1 caller.Address contractAddr value
    let frame := (NewContract caller contractAddr (some value) gas).SetCallCode
      contractAddr (env.Keccak256Hash code) code
    let out := Interpreter.Run body ⟨db2, vm.depth⟩ frame []
    let r := Create env body vm caller code gas value
    out.err = none → out.ret.length ≤ env.MaxCodeSize →
    out.contract.Gas < out.ret.length * env.CreateDataGas →
      r.err = some .ErrCodeStoreOutOfGas
      ∧ r.ret = []
      ∧ r.leftOverGas = out.contract.Gas
      ∧ r.vm.StateDB = out.vm.StateDB := by
  intro n snap contractAddr db1 db2 frame out r he hm hg
  have h := Create_after_run env body vm caller code gas value hrec hdepth hcan
  simp only [] at h
  have hr : r = _ := h
  have hle : out.ret.length * env.CreateDataGas ≤ env.MaxCodeSize * env.CreateDataGas :=
    Nat.mul_le_mul_right _ hm
  have hmod : (out.ret.length * env.CreateDataGas) % 2 ^ 64
      = out.ret.length * env.CreateDataGas := Nat.mod_eq_of_lt (by omega)
  have hm2 : ¬ (out.ret.length > env.MaxCodeSize ∨
      (out.err ≠ none ∧ out.err ≠ some VMError.ErrCodeStoreOutOfGas)) := by
    simp [he]; omega
  have h3 : ¬ (out.err = some VMError.ErrCodeStoreOutOfGas) := by simp [he]
  have h4 : out.contract.Gas < (out.ret.length * env.CreateDataGas) % 2 ^ 64 := by
    rw [hmod]; exact hg
  rw [hr, if_neg hm2, if_neg h3, if_pos h4]
  exact ⟨rfl, rfl, rfl, rfl⟩

/-- C10 over `memDB0` with `CreateDataGas = 200`: the init code spends 300 of 1000 gas and
returns 4 bytes, whose storage would cost 800. -/
theorem Create_code_store_out_of_gas_witness :
    (¬ (memEnv.NoRecursion = true ∧ memVM0.depth > 0) ∧ ¬ memVM0.depth > 1024
      ∧ memEnv.CanTransfer memVM0.StateDB (ContractRef.account 7).Address (3 : Int) = true)
    ∧ memEnv.MaxCodeSize * memEnv.CreateDataGas < 2 ^ 64
    ∧ (let n := memEnv.db.GetNonce memVM0.StateDB (ContractRef.account 7).Address
    let snap := memEnv.db.Snapshot
      (memEnv.db.SetNonce memVM0.StateDB (ContractRef.account 7).Address ((n + 1) % 2 ^ 64))
    let contractAddr := memEnv.CreateAddress (ContractRef.account 7).Address n
    let db1 := memEnv.db.SetNonce (memEnv.db.CreateAccount snap.2 contractAddr) contractAddr 1
    let db2 := memEnv.Transfer db1 (ContractRef.account 7).Address contractAddr (3 : Int)
    let frame := (NewContract (ContractRef.account 7) contractAddr (some (3 : Int)) (1000 : Nat)).SetCallCode
      contractAddr (memEnv.Keccak256Hash ([] : Bytes)) ([] : Bytes)
    let out := Interpreter.Run (constBody [1, 2, 3, 4] none 300) ⟨db2, memVM0.depth⟩ frame []
    let r := Create memEnv (constBody [1, 2, 3, 4] none 300) memVM0 (ContractRef.account 7) ([] : Bytes) (1000 : Nat) (3 : Int)
    out.err = none → out.ret.length ≤ memEnv.MaxCodeSize →
    out.contract.Gas < out.ret.length * memEnv.CreateDataGas →
      r.err = some .ErrCodeStoreOutOfGas
      ∧ r.ret = []
      ∧ r.leftOverGas = out.contract.Gas
      ∧ r.vm.StateDB = out.vm.StateDB) :=
  ⟨⟨by decide, by decide, by decide⟩, by decide,
    Create_code_store_out_of_gas memEnv (constBody [1, 2, 3, 4] none 300) memVM0
      (ContractRef.account 7) [] 1000 3 (by decide) (by decide) (by decide) (by decide)⟩

/-- C10 on a failing input: over `memDB0` the init code spends 300 of 1000 gas and returns
4 bytes (`MaxCodeSize = 4`), whose storage would cost 800.  `Create` reports
`ErrCodeStoreOutOfGas`, but the leftover gas is 700, not 0, and the state is not reverted
to the snapshot: the created account at `CreateAddress(7, 5)` still exists, with the
transferred balance of 3. -/
theorem Create_code_store_out_of_gas_keeps_gas_and_state :
    (Create memEnv (constBody [1, 2, 3, 4] none 300) memVM0 (ContractRef.account 7) [] 1000 3).err = some .ErrCodeStoreOutOfGas
    ∧ (Create memEnv (constBody [1, 2, 3, 4] none 300) memVM0 (ContractRef.account 7) [] 1000 3).leftOverGas = 700
    ∧ (Create memEnv (constBody [1, 2, 3, 4] none 300) memVM0 (ContractRef.account 7) [] 1000 3).leftOverGas ≠ 0
    ∧ memOps.Exist (Create memEnv (constBody [1, 2, 3, 4] none 300) memVM0 (ContractRef.account 7) [] 1000 3).vm.StateDB (memEnv.CreateAddress 7 5) = true
    ∧ (Create memEnv (constBody [1, 2, 3, 4] none 300) memVM0 (ContractRef.account 7) [] 1000 3).vm.StateDB ≠ memOps.RevertToSnapshot (Create memEnv (constBody [1, 2, 3, 4] none 300) memVM0 (ContractRef.account 7) [] 1000 3).vm.StateDB 0 := by
  decide

/-- C11, as the code has it: when the init code of the `Create` issued by the CREATE
instruction succeeds with `len(ret) ≤ MaxCodeSize` but its frame holds less than
`len(ret) * CreateDataGas` gas, `Create` reports `ErrCodeStoreOutOfGas` for the new
address, and `opCreate` pushes `0`, not that address.  It adds the gas that frame has left
back to the calling frame (`uint64` addition to what the frame kept, a 64th of its gas),
and the state is the one the run left: no code is stored.  (`MaxCodeSize * CreateDataGas`
fits in a `uint64`.) -/
theorem opCreate_code_store_out_of_gas {σ μ : Type} (env : Env σ) (mem : MemoryOps μ)
    (body : RunBody σ) (vm : TiltVM σ) (contract : Contract) (memory : μ)
    (value offset size : Int) (rest : List Int)
    (hrec : ¬ (env.NoRecursion = true ∧ vm.depth > 0))
    (hdepth : ¬ vm.depth > 1024)
    (hcan : env.CanTransfer vm.StateDB contract.self value = true)
    (hparams : env.MaxCodeSize * env.CreateDataGas < 2 ^ 64) :
    let gas := contract.Gas - contract.Gas / 64
    let caller := ContractRef.contract (contract.UseGas gas).2
    let input := mem.Get memory (Int64 offset) (Int64 size)
    let n := env.db.GetNonce vm.StateDB contract.self
    let snap := env.db.Snapshot (env.db.SetNonce vm.StateDB contract.self ((n + 1) % 2 ^ 64))
    let contractAddr := env.CreateAddress contract.self n
    let db1 := env.db.SetNonce (env.db.CreateAccount snap.2 contractAddr) contractAddr 1
    let db2 := env.Transfer db1 contract.self contractAddr value
    let frame := (NewContract caller contractAddr (some value) gas).SetCallCode
      contractAddr (env.Keccak256Hash input) input
    let out := Interpreter.Run body ⟨db2, vm.depth⟩ frame []
    out.err = none → out.ret.length ≤ env.MaxCodeSize →
    out.contract.Gas < out.ret.length * env.CreateDataGas →
      (Create env body vm caller input gas value).err = some .ErrCodeStoreOutOfGas
      ∧ (Create env body vm caller input gas value).contractAddr = contractAddr
      ∧ opCreate env mem body vm contract memory ⟨value :: offset :: size :: rest⟩
        = some ⟨⟨0 :: rest⟩, memory,
            { (contract.UseGas gas).2 with
              Gas := ((contract.UseGas gas).2.Gas + out.contract.Gas) % 2 ^ 64 },
            out.vm⟩ := by
  intro gas caller input n snap contractAddr db1 db2 frame out he hm hg
  have hself : caller.Address = contract.self := UseGas_self contract gas
  have hcan2 : env.CanTransfer vm.StateDB caller.Address value = true := by
    rw [hself]; exact hcan
  have h := Create_after_run env body vm caller input gas value hrec hdepth hcan2
  simp only [hself] at h
  have hle : out.ret.length * env.CreateDataGas ≤ env.MaxCodeSize * env.CreateDataGas :=
    Nat.mul_le_mul_right _ hm
  have hmod : (out.ret.length * env.CreateDataGas) % 2 ^ 64
      = out.ret.length * env.CreateDataGas := Nat.mod_eq_of_lt (by omega)
  have hm2 : ¬ (out.ret.length > env.MaxCodeSize ∨
      (out.err ≠ none ∧ out.err ≠ some VMError.ErrCodeStoreOutOfGas)) := by
    simp [he]; omega
  have h3 : ¬ (out.err = some VMError.ErrCodeStoreOutOfGas) := by simp [he]
  have h4 : out.contract.Gas < (out.ret.length * env.CreateDataGas) % 2 ^ 64 := by
    rw [hmod]; exact hg
  have hr : Create env body vm caller input gas value
      = ⟨[], contractAddr, out.contract.Gas, some .ErrCodeStoreOutOfGas, out.vm⟩ := by
    rw [h, if_neg hm2, if_neg h3, if_pos h4]
  refine ⟨by rw [hr], by rw [hr], ?_⟩
  have hr2 : Create env body vm (ContractRef.contract
      (contract.UseGas (contract.Gas - contract.Gas / 64)).2)
      (mem.Get memory (Int64 offset) (Int64 size)) (contract.Gas - contract.Gas / 64) value
      = ⟨[], contractAddr, out.contract.Gas, some .ErrCodeStoreOutOfGas, out.vm⟩ := hr
  simp only [opCreate, Stack.pop, Stack.push, Option.bind_eq_bind, Option.some_bind, hr2,
    if_true, Option.pure_def]

/-- C11 over `memDB0`: the frame at address 7 with 5000 gas creates with value 3, and the
init code spends 4500 of the 4922 gas it gets and returns 4 bytes, whose storage would
cost 800. -/
theorem opCreate_code_store_out_of_gas_witness :
    (¬ (memEnv.NoRecursion = true ∧ memVM0.depth > 0) ∧ ¬ memVM0.depth > 1024
      ∧ memEnv.CanTransfer memVM0.StateDB memFrame.self (3 : Int) = true
      ∧ memEnv.MaxCodeSize * memEnv.CreateDataGas < 2 ^ 64)
    ∧ (let gas := memFrame.Gas - memFrame.Gas / 64
    let caller := ContractRef.contract (memFrame.UseGas gas).2
    let input := listMem.Get ([] : List UInt8) (Int64 (0 : Int)) (Int64 (0 : Int))
    let n := memEnv.db.GetNonce memVM0.StateDB memFrame.self
    let snap := memEnv.db.Snapshot (memEnv.db.SetNonce memVM0.StateDB memFrame.self ((n + 1) % 2 ^ 64))
    let contractAddr := memEnv.CreateAddress memFrame.self n
    let db1 := memEnv.db.SetNonce (memEnv.db.CreateAccount snap.2 contractAddr) contractAddr 1
    let db2 := memEnv.Transfer db1 memFrame.self contractAddr (3 : Int)
    let frame := (NewContract caller contractAddr (some (3 : Int)) gas).SetCallCode
      contractAddr (memEnv.Keccak256Hash input) input
    let out := Interpreter.Run (constBody [1, 2, 3, 4] none 4500) ⟨db2, memVM0.depth⟩ frame []
    out.err = none → out.ret.length ≤ memEnv.MaxCodeSize →
    out.contract.Gas < out.ret.length * memEnv.CreateDataGas →
      (Create memEnv (constBody [1, 2, 3, 4] none 4500) memVM0 caller input gas (3 : Int)).err = some .ErrCodeStoreOutOfGas
      ∧ (Create memEnv (constBody [1, 2, 3, 4] none 4500) memVM0 caller input gas (3 : Int)).contractAddr = contractAddr
      ∧ opCreate memEnv listMem (constBody [1, 2, 3, 4] none 4500) memVM0 memFrame ([] : List UInt8) ⟨(3 : Int) :: (0 : Int) :: (0 : Int) :: ([42] : List Int)⟩
        = some ⟨⟨0 :: ([42] : List Int)⟩, ([] : List UInt8),
            { (memFrame.UseGas gas).2 with
              Gas := ((memFrame.UseGas gas).2.Gas + out.contract.Gas) % 2 ^ 64 },
            out.vm⟩) :=
  ⟨⟨by decide, by decide, by decide, by decide⟩,
    opCreate_code_store_out_of_gas memEnv listMem (constBody [1, 2, 3, 4] none 4500) memVM0
      memFrame [] 3 0 0 [42] (by decide) (by decide) (by decide) (by decide)⟩

/-- C11 fails as stated: over `memDB0` the frame at address 7 with 5000 gas creates with
value 3 over the stack `[3, 0, 0, 42]`; the init code spends 4500 of its 4922 gas and
returns 4 bytes, whose storage would cost 800.  `Create` reports `ErrCodeStoreOutOfGas`
for the new address 8005, and `opCreate` leaves `0` on the stack, not 8005; the calling
frame gets the 422 gas left back, and the new account has no code. -/
theorem opCreate_pushes_zero_on_code_store_out_of_gas :
    (Create memEnv (constBody [1, 2, 3, 4] none 4500) memVM0
        (.contract (memFrame.UseGas 4922).2) [] 4922 3).err = some .ErrCodeStoreOutOfGas
    ∧ (Create memEnv (constBody [1, 2, 3, 4] none 4500) memVM0
        (.contract (memFrame.UseGas 4922).2) [] 4922 3).contractAddr = 8005
    ∧ (opCreate memEnv listMem (constBody [1, 2, 3, 4] none 4500) memVM0 memFrame []
        ⟨[3, 0, 0, 42]⟩).map (fun o => o.stack) = some ⟨[0, 42]⟩
    ∧ (opCreate memEnv listMem (constBody [1, 2, 3, 4] none 4500) memVM0 memFrame []
        ⟨[3, 0, 0, 42]⟩).map (fun o => o.stack) ≠ some ⟨[8005, 42]⟩
    ∧ (opCreate memEnv listMem (constBody [1, 2, 3, 4] none 4500) memVM0 memFrame []
        ⟨[3, 0, 0, 42]⟩).map (fun o => o.contract.Gas) = some 500
    ∧ (opCreate memEnv listMem (constBody [1, 2, 3, 4] none 4500) memVM0 memFrame []
        ⟨[3, 0, 0, 42]⟩).map (fun o => memOps.GetCode o.vm.StateDB 8005) = some [] := by
  decide

/-- C12: in one iteration of the loop of `Interpreter.Run`, an opcode that is not valid
ends the run with invalid-opcode, a failed stack validation with the validation error,
and, with gas metering, an error of the gas-cost function or a cost above the frame's
remaining gas with `ErrOutOfGas`.  In each case the state is the one before the step (the
memory is not resized, the frame's gas is what it was) and the result does not depend on
the execute functions of the table, which are not run. -/
theorem step_fails_before_execute {σ μ : Type} (I : Interpreter σ μ) (mem : MemoryOps μ)
    (s : RunState σ μ) :
    ((I.JumpTable (s.contract.GetOp s.pc)).valid = false →
      I.step mem s = .done [] (some (.invalidOpcode (s.contract.GetOp s.pc))) s)
    ∧ ((I.JumpTable (s.contract.GetOp s.pc)).valid = true →
      ∀ e, (I.JumpTable (s.contract.GetOp s.pc)).validateStack s.stack = some e →
      I.step mem s = .done [] (some e) s)
    ∧ ((I.JumpTable (s.contract.GetOp s.pc)).valid = true →
      (I.JumpTable (s.contract.GetOp s.pc)).validateStack s.stack = none →
      I.DisableGasMetering = false →
      ∀ m, Interpreter.memorySize (I.JumpTable (s.contract.GetOp s.pc)) s.stack = .ok m →
      (((I.JumpTable (s.contract.GetOp s.pc)).gasCost s.vm s.contract s.stack s.mem m).2
          ≠ none
        ∨ s.contract.Gas
          < ((I.JumpTable (s.contract.GetOp s.pc)).gasCost s.vm s.contract s.stack s.mem
              m).1) →
      I.step mem s = .done [] (some .ErrOutOfGas) s)
    ∧ (∀ exec : Nat → Nat → TiltVM σ → Contract → μ → Stack → ExecOut σ μ,
      ((I.JumpTable (s.contract.GetOp s.pc)).valid = false
        ∨ (I.JumpTable (s.contract.GetOp s.pc)).validateStack s.stack ≠ none
        ∨ (I.DisableGasMetering = false
          ∧ ∃ m, Interpreter.memorySize (I.JumpTable (s.contract.GetOp s.pc)) s.stack = .ok m
            ∧ (((I.JumpTable (s.contract.GetOp s.pc)).gasCost s.vm s.contract s.stack s.mem
                  m).2 ≠ none
              ∨ s.contract.Gas
                < ((I.JumpTable (s.contract.GetOp s.pc)).gasCost s.vm s.contract s.stack
                    s.mem m).1))) →
      Interpreter.step
          { I with JumpTable := fun op => { I.JumpTable op with execute := exec op } } mem s
        = I.step mem s) := by
  refine ⟨step_invalid I mem s, fun h e hv => step_validation I mem s e h hv,
    fun h hv hmeter m hm hgas => step_out_of_gas I mem s m h hv hm hmeter hgas, ?_⟩
  intro exec hfail
  by_cases h : (I.JumpTable (s.contract.GetOp s.pc)).valid = false
  · rw [step_invalid I mem s h]
    exact step_invalid _ mem s h
  · have hvalid : (I.JumpTable (s.contract.GetOp s.pc)).valid = true := by simpa using h
    cases hv : (I.JumpTable (s.contract.GetOp s.pc)).validateStack s.stack with
    | some e =>
      rw [step_validation I mem s e hvalid hv]
      exact step_validation _ mem s e hvalid hv
    | none =>
      rcases hfail with h1 | h2 | ⟨hmeter, m, hm, hgas⟩
      · exact absurd h1 h
      · exact absurd hv h2
      · rw [step_out_of_gas I mem s m hvalid hv hm hmeter hgas]
        exact step_out_of_gas _ mem s m hvalid hv hm hmeter hgas

/-- C12 over `demoTable`: the opcode 239 is not valid, the opcode 1 on an empty stack
fails its validation, and the opcode 1 costs 3 gas where the frame has 2. -/
theorem step_fails_before_execute_witness :
    demoInterp.step listMem (demoState [239] [] 10)
        = .done [] (some (.invalidOpcode 239)) (demoState [239] [] 10)
    ∧ demoInterp.step listMem (demoState [1] [] 10)
        = .done [] (some .stackUnderflow) (demoState [1] [] 10)
    ∧ demoInterp.step listMem (demoState [1] [4, 5] 2)
        = .done [] (some .ErrOutOfGas) (demoState [1] [4, 5] 2) :=
  ⟨(step_fails_before_execute demoInterp listMem (demoState [239] [] 10)).1 (by decide),
    (step_fails_before_execute demoInterp listMem (demoState [1] [] 10)).2.1 (by decide)
      .stackUnderflow (by decide),
    (step_fails_before_execute demoInterp listMem (demoState [1] [4, 5] 2)).2.2.1
      (by decide) (by decide) (by decide) 0 rfl (Or.inr (by decide))⟩

/-- C13: `toWordSize(s)` is `ceil(s / 32)` for every `uint64` `s`.  For a required size
`s ≥ 0` of an operation's memory-size function: if `s > 2^64 - 32` the memory size is
`errGasUintOverflow`, and the step of a valid operation whose stack validation passes ends
the run with that error in the state before the step (no gas is charged); otherwise the
memory size is `32 * ceil(s / 32)`, the least multiple of 32 that is at least `s`. -/
theorem memory_size_rounds_up_or_overflows :
    (∀ s : Nat, s < 2 ^ 64 →
      toWordSize s = (s + 31) / 32
      ∧ 32 * toWordSize s < s + 32 ∧ s ≤ 32 * toWordSize s)
    ∧ (∀ (σ μ : Type) (operation : operation σ μ) (stack : Stack) (f : Stack → Int),
      operation.memorySize = some f → 0 ≤ f stack →
      (f stack > 2 ^ 64 - 32 →
        Interpreter.memorySize operation stack = .error .errGasUintOverflow)
      ∧ (f stack ≤ 2 ^ 64 - 32 →
        Interpreter.memorySize operation stack = .ok (32 * (((f stack).toNat + 31) / 32))
        ∧ 32 ∣ 32 * (((f stack).toNat + 31) / 32)
        ∧ f stack ≤ ((32 * (((f stack).toNat + 31) / 32) : Nat) : Int)
        ∧ ∀ m : Nat, 32 ∣ m → f stack ≤ (m : Int) →
            32 * (((f stack).toNat + 31) / 32) ≤ m))
    ∧ (∀ (σ μ : Type) (I : Interpreter σ μ) (mem : MemoryOps μ) (s : RunState σ μ)
        (f : Stack → Int),
      (I.JumpTable (s.contract.GetOp s.pc)).valid = true →
      (I.JumpTable (s.contract.GetOp s.pc)).validateStack s.stack = none →
      (I.JumpTable (s.contract.GetOp s.pc)).memorySize = some f →
      f s.stack > 2 ^ 64 - 32 →
      I.step mem s = .done [] (some .errGasUintOverflow) s) := by
  refine ⟨fun s hs => ?_, fun σ μ operation stack f hf h0 => ?_,
    fun σ μ I mem s f hvalid hv hf hgt => ?_⟩
  · rw [toWordSize_eq s hs]
    omega
  · obtain ⟨hover, hok⟩ := memorySize_spec operation stack f hf h0
    refine ⟨hover, fun hle => ⟨hok hle, Dvd.intro _ rfl, by omega, ?_⟩⟩
    intro m hm hfm
    obtain ⟨c, rfl⟩ := hm
    omega
  · exact step_memory_overflow I mem s _ hvalid hv
      ((memorySize_spec _ s.stack f hf (by omega)).1 hgt)

/-- C13 over `demoTable`, whose opcode 82 requires the top word plus 32 bytes: a top word
of 1 gives 64 bytes, a top word of `2^64 - 63` overflows. -/
theorem memory_size_rounds_up_or_overflows_witness :
    toWordSize 33 = 2
    ∧ Interpreter.memorySize (demoTable 82) ⟨[1, 0]⟩ = .ok 64
    ∧ Interpreter.memorySize (demoTable 82) ⟨[2 ^ 64 - 63, 0]⟩
        = .error .errGasUintOverflow := by
  have h := memory_size_rounds_up_or_overflows
  have h1 := (h.2.1 MemDB (List UInt8) (demoTable 82) ⟨[1, 0]⟩
    (fun stack => stack.data.headD 0 + 32) rfl (by decide)).2 (by decide)
  have h2 := (h.2.1 MemDB (List UInt8) (demoTable 82) ⟨[2 ^ 64 - 63, 0]⟩
    (fun stack => stack.data.headD 0 + 32) rfl (by decide)).1 (by decide)
  exact ⟨by rw [(h.1 33 (by norm_num)).1], h1.1, h2⟩

/-- C14: when the abort flag is set as `Interpreter.Run` reaches its main loop (the frame
is not precompiled and has code), `Run` returns `(nil, nil)`; the frame's gas, the state
and the depth are what they were, and the result does not depend on the jump table: no
opcode is fetched or executed.  And when an operation has completed and the loop goes on,
with the flag set at the next test of the loop condition, `Run` returns `(nil, nil)` in
the state that operation left, without another step. -/
theorem abort_returns_nil {σ μ : Type} (I : Interpreter σ μ) (env : Env σ)
    (mem : MemoryOps μ) (abort : Nat → Int) (fuel : Nat) :
    (∀ (vm : TiltVM σ) (contract : Contract) (input : Bytes),
      abort 0 ≠ 0 →
      (∀ a, contract.CodeAddr = some a → env.isPrecompiled a = false) →
      contract.Code.length ≠ 0 →
      Interpreter.RunFuel I env mem abort (fuel + 1) vm contract input
        = some ⟨[], none, { contract with Input := input }, vm⟩)
    ∧ (∀ (k : Nat) (s s1 : RunState σ μ),
      abort k = 0 → I.step mem s = .next s1 → abort (k + 1) ≠ 0 →
      Interpreter.loop I mem abort (fuel + 2) k s = some ([], none, s1)) := by
  constructor
  · intro vm contract input ha hpre hcode
    have hp : contract.CodeAddr.filter env.isPrecompiled = none := by
      cases hc : contract.CodeAddr with
      | none => rfl
      | some a => simp [Option.filter, hpre a hc]
    simp only [Interpreter.RunFuel, Interpreter.body, hp, if_neg hcode,
      loop_abort _ _ _ _ _ _ ha, Option.map_some', add_sub_cancel_right]
  · intro k s s1 h0 hstep h1
    simp only [Interpreter.loop, if_pos h0, hstep, if_neg h1]

set_option maxRecDepth 100000 in
/-- C14 over `demoTable` and `memDB0`: with the flag set from the start the run of the code
`[1, 0]` returns `(nil, nil)` with the 10 gas of the frame; with the flag set after the
first operation the loop returns `(nil, nil)` once the addition is done, 3 gas spent. -/
theorem abort_returns_nil_witness :
    Interpreter.RunFuel demoInterp memEnv listMem (fun _ => 1) 1 memVM0
        { memFrame with Code := [1, 0], Gas := 10 } []
      = some ⟨[], none, { memFrame with Code := [1, 0], Gas := 10, Input := [] }, memVM0⟩
    ∧ (Interpreter.loop demoInterp listMem (fun k => if k = 0 then 0 else 1) 2 0
        (demoState [1, 0] [4, 5] 10)).map (fun r => (r.1, r.2.1, r.2.2.stack, r.2.2.contract.Gas))
      = some ([], none, ⟨[9]⟩, 7) := by
  refine ⟨(abort_returns_nil demoInterp memEnv listMem (fun _ => 1) 0).1 memVM0
      { memFrame with Code := [1, 0], Gas := 10 } [] (by decide) (by decide) (by decide), ?_⟩
  rw [(abort_returns_nil demoInterp memEnv listMem (fun k => if k = 0 then 0 else 1) 0).2 0
    (demoState [1, 0] [4, 5] 10)
    ⟨1, [], ⟨[9]⟩, { memFrame with Code := [1, 0], Gas := 7 }, memVM0⟩
    (by decide) (by rfl) (by decide)]
  rfl

/-- C15: for JUMP with target `pos`, and for JUMPI with target `pos` and a non-zero
condition: when `jumpdests.has` is false for `pos`, the operation returns an
invalid-jump-destination error and leaves `pc` as it was; otherwise it returns no error
and sets `pc` to `pos`.  (`has` holds of positions inside the code only, and the code is
shorter than `2^64` bytes.) -/
theorem jump_checks_destination (has : Hash → Bytes → Int → Bool) (pc : Nat)
    (contract : Contract) (pos cond : Int) (rest : List Int)
    (hhas : ∀ (h : Hash) (code : Bytes) (p : Int),
      has h code p = true → 0 ≤ p ∧ p < (code.length : Int))
    (hlen : contract.Code.length < 2 ^ 64) :
    (has contract.CodeHash contract.Code pos = false →
        opJump has pc contract ⟨pos :: rest⟩
          = some ⟨[], some (.invalidJumpdest pos), pc, ⟨rest⟩⟩
      ∧ (cond ≠ 0 → opJumpi has pc contract ⟨pos :: cond :: rest⟩
          = some ⟨[], some (.invalidJumpdest pos), pc, ⟨rest⟩⟩))
    ∧ (has contract.CodeHash contract.Code pos = true →
        opJump has pc contract ⟨pos :: rest⟩ = some ⟨[], none, pos.toNat, ⟨rest⟩⟩
      ∧ (cond ≠ 0 → opJumpi has pc contract ⟨pos :: cond :: rest⟩
          = some ⟨[], none, pos.toNat, ⟨rest⟩⟩)
      ∧ ((pos.toNat : Nat) : Int) = pos) := by
  constructor
  · intro h
    refine ⟨by simp [opJump, Stack.pop, h], fun hc => ?_⟩
    simp [opJumpi, Stack.pop, h, hc]
  · intro h
    obtain ⟨h0, h1⟩ := hhas _ _ _ h
    have hu : Uint64 pos = pos.toNat := Uint64_toNat_of_lt pos h0 (by omega)
    refine ⟨by simp [opJump, Stack.pop, h, hu], fun hc => ?_, by omega⟩
    simp [opJumpi, Stack.pop, h, hc, hu]

/-- C15 over the code `[0x60, 0x5b]`, whose position 1 holds a JUMPDEST and whose position
0 does not. -/
theorem jump_checks_destination_witness :
    (opJump demoHas 7 { memFrame with Code := [0x60, 0x5b] } ⟨[0, 42]⟩
        = some ⟨[], some (.invalidJumpdest 0), 7, ⟨[42]⟩⟩
      ∧ opJumpi demoHas 7 { memFrame with Code := [0x60, 0x5b] } ⟨[0, 1, 42]⟩
        = some ⟨[], some (.invalidJumpdest 0), 7, ⟨[42]⟩⟩)
    ∧ (opJump demoHas 7 { memFrame with Code := [0x60, 0x5b] } ⟨[1, 42]⟩
        = some ⟨[], none, 1, ⟨[42]⟩⟩
      ∧ opJumpi demoHas 7 { memFrame with Code := [0x60, 0x5b] } ⟨[1, 1, 42]⟩
        = some ⟨[], none, 1, ⟨[42]⟩⟩) :=
  ⟨⟨((jump_checks_destination demoHas 7 { memFrame with Code := [0x60, 0x5b] } 0 1 [42]
        demoHas_inside (by decide)).1 (by decide)).1,
      ((jump_checks_destination demoHas 7 { memFrame with Code := [0x60, 0x5b] } 0 1 [42]
        demoHas_inside (by decide)).1 (by decide)).2 (by decide)⟩,
    ⟨((jump_checks_destination demoHas 7 { memFrame with Code := [0x60, 0x5b] } 1 1 [42]
        demoHas_inside (by decide)).2 (by decide)).1,
      ((jump_checks_destination demoHas 7 { memFrame with Code := [0x60, 0x5b] } 1 1 [42]
        demoHas_inside (by decide)).2 (by decide)).2.1 (by decide)⟩⟩

/-- C16: for a popped block number `n ≥ 0` and the current block number `B` (a `uint64`
block number, `B ≤ 2^64`), `opBlockhash` pushes `GetHash(n)` when `B - 257 < n < B` and
`0` otherwise. -/
theorem blockhash_window (BlockNumber : Int) (GetHash : Nat → Hash) (num : Int)
    (rest : List Int) (h0 : 0 ≤ num) (hB : BlockNumber ≤ 2 ^ 64) :
    opBlockhash BlockNumber GetHash ⟨num :: rest⟩
      = some ⟨(if BlockNumber - 257 < num ∧ num < BlockNumber
          then ((GetHash num.toNat : Nat) : Int) else 0) :: rest⟩ := by
  by_cases h : BlockNumber - 257 < num ∧ num < BlockNumber
  · have hu : Uint64 num = num.toNat := Uint64_toNat_of_lt num h0 (by omega)
    have h2 : num > BlockNumber - 257 ∧ num < BlockNumber := h
    simp only [opBlockhash, Stack.pop, Stack.push, Option.bind_eq_bind, Option.some_bind,
      if_pos h, if_pos h2, hu, Option.pure_def]
  · have h2 : ¬ (num > BlockNumber - 257 ∧ num < BlockNumber) := h
    simp only [opBlockhash, Stack.pop, Stack.push, Option.bind_eq_bind, Option.some_bind,
      if_neg h, if_neg h2, Option.pure_def]

/-- C16 at `B = 1000`, with `GetHash(n) = n + 1`: 999 and 744 are in the window, 743 and
1000 are not. -/
theorem blockhash_window_witness :
    ((0 : Int) ≤ 999 ∧ (1000 : Int) ≤ 2 ^ 64)
    ∧ opBlockhash 1000 (fun n => n + 1) ⟨[999, 42]⟩ = some ⟨[1000, 42]⟩
    ∧ opBlockhash 1000 (fun n => n + 1) ⟨[744, 42]⟩ = some ⟨[745, 42]⟩
    ∧ opBlockhash 1000 (fun n => n + 1) ⟨[743, 42]⟩ = some ⟨[0, 42]⟩
    ∧ opBlockhash 1000 (fun n => n + 1) ⟨[1000, 42]⟩ = some ⟨[0, 42]⟩ :=
  ⟨⟨by decide, by norm_num⟩,
    (blockhash_window 1000 (fun n => n + 1) 999 [42] (by decide) (by norm_num)).trans
      (by decide),
    (blockhash_window 1000 (fun n => n + 1) 744 [42] (by decide) (by norm_num)).trans
      (by decide),
    (blockhash_window 1000 (fun n => n + 1) 743 [42] (by decide) (by norm_num)).trans
      (by decide),
    (blockhash_window 1000 (fun n => n + 1) 1000 [42] (by decide) (by norm_num)).trans
      (by decide)⟩

/-- C17: for a byte index `k ≥ 31`, `opSignExtend` pops `k` only and leaves `x` on top of
the stack as it was; pushing `k` and executing it any number of times leaves the same
stack. -/
theorem signextend_noop_from_31 (k x : Int) (rest : List Int) (hk : 31 ≤ k) :
    opSignExtend ⟨k :: x :: rest⟩ = some ⟨x :: rest⟩
    ∧ ∀ n : Nat,
        Nat.iterate (fun st : Option Stack => st.bind (fun s => opSignExtend (s.push k))) n
          (some ⟨x :: rest⟩) = some ⟨x :: rest⟩ := by
  have h1 : ∀ (y : Int) (r : List Int), opSignExtend ⟨k :: y :: r⟩ = some ⟨y :: r⟩ := by
    intro y r
    have hk2 : ¬ k < 31 := by omega
    simp [opSignExtend, Stack.pop, hk2]
  refine ⟨h1 x rest, fun n => ?_⟩
  induction n with
  | zero => rfl
  | succ m ih =>
    rw [Function.iterate_succ_apply', ih]
    exact h1 x rest

/-- C17 at `k = 31` and `x = 2^255 + 5`, over the stack `[k, x, 42]`. -/
theorem signextend_noop_from_31_witness :
    ((31 : Int) ≤ 31)
    ∧ opSignExtend ⟨31 :: (2 ^ 255 + 5) :: [42]⟩ = some ⟨(2 ^ 255 + 5) :: [42]⟩
    ∧ ∀ n : Nat,
        Nat.iterate (fun st : Option Stack => st.bind (fun s => opSignExtend (s.push 31))) n
          (some ⟨(2 ^ 255 + 5) :: [42]⟩) = some ⟨(2 ^ 255 + 5) :: [42]⟩ :=
  ⟨le_refl _, signextend_noop_from_31 31 (2 ^ 255 + 5) [42] (le_refl _)⟩

/-- C18: for every byte slice `data` (whose length is a Go `int`) and all non-negative
`start` and `size` with `size < 2^63`, `getData` does not panic and returns exactly `size`
bytes, whose `i`-th byte is `data[start + i]` when `start + i < len(data)` and `0`
otherwise. -/
theorem getData_zero_padded (data : Bytes) (start size : Int)
    (h0 : 0 ≤ start) (hs0 : 0 ≤ size) (hs : size < 2 ^ 63) (hlen : data.length < 2 ^ 63) :
    ∃ out, getData data start size = some out
      ∧ (out.length : Int) = size
      ∧ ∀ i : Nat, (i : Int) < size → out.getD i 0 = data.getD (start.toNat + i) 0 := by
  obtain ⟨st, rfl⟩ : ∃ n : Nat, start = (n : Int) := ⟨start.toNat, by omega⟩
  obtain ⟨sz, rfl⟩ : ∃ n : Nat, size = (n : Int) := ⟨size.toNat, by omega⟩
  have hsz : sz < 2 ^ 63 := by exact_mod_cast hs
  refine ⟨_, getData_nat data st sz hsz hlen, ?_, ?_⟩
  · rw [List.length_append, List.length_take, List.length_drop, List.length_replicate]
    omega
  · intro i hi
    have hi2 : i < sz := by exact_mod_cast hi
    simp only [Int.toNat_ofNat, List.getD_eq_getElem?_getD]
    by_cases hin : i < min (min st data.length + sz) data.length - min st data.length
    · rw [List.getElem?_append_left (by
        rw [List.length_take, List.length_drop]; omega)]
      rw [List.getElem?_take_of_lt hin, List.getElem?_drop]
      have : min st data.length + i = st + i := by omega
      rw [this]
    · rw [List.getElem?_append_right (by
        rw [List.length_take, List.length_drop]; omega)]
      have hout : data.length ≤ st + i := by omega
      rw [List.getElem?_eq_none_iff.mpr hout]
      rw [List.getElem?_replicate]
      split_ifs <;> rfl

/-- C18 at `data = [1, 2, 3]`: from `start = 1` four bytes are `[2, 3, 0, 0]`, and from
`start = 2^64 + 1`, past the end and past a `uint64`, two bytes are zeros. -/
theorem getData_zero_padded_witness :
    ((0 : Int) ≤ 1 ∧ (0 : Int) ≤ 4 ∧ (4 : Int) < 2 ^ 63 ∧ ([1, 2, 3] : Bytes).length < 2 ^ 63)
    ∧ getData [1, 2, 3] 1 4 = some [2, 3, 0, 0]
    ∧ getData [1, 2, 3] (2 ^ 64 + 1) 2 = some [0, 0]
    ∧ ∃ out, getData [1, 2, 3] 1 4 = some out
      ∧ (out.length : Int) = 4
      ∧ ∀ i : Nat, (i : Int) < 4 →
          out.getD i 0 = ([1, 2, 3] : Bytes).getD ((1 : Int).toNat + i) 0 :=
  ⟨⟨by decide, by decide, by norm_num, by norm_num⟩, by decide, by decide,
    getData_zero_padded [1, 2, 3] 1 4 (by decide) (by decide) (by norm_num) (by norm_num)⟩

/-- C19: for a header with difficulty `d > 0` and a start nonce `seed` (a `uint64`), when
no abort occurs: if `k` is the first index for which the nonce `(seed + k) mod 2^64` has
a result whose big-endian value is at most `floor(2^256 / d)`, then `mine`, given more
than `k` iterations, delivers the block whose header carries that nonce and the digest
`hashimotoFull` returned for it, every other header field and the rest of the block being
the input block's.  And whatever `mine` returns within any number of iterations is that
block, for such a first index. -/
theorem mine_delivers_first_nonce {ρ β D : Type} (M : Miner ρ D) (block : Block ρ β)
    (seed fuel : Nat) (hd : 0 < block.header.Difficulty) (hseed : seed < 2 ^ 64) :
    (∀ k : Nat,
      (∀ i, i < k →
        ¬ SetBytes (M.hashimotoFull (M.dataset (Uint64 block.header.Number))
            (M.HashNoNonce block.header) ((seed + i) % 2 ^ 64)).2
          ≤ 2 ^ 256 / block.header.Difficulty) →
      SetBytes (M.hashimotoFull (M.dataset (Uint64 block.header.Number))
          (M.HashNoNonce block.header) ((seed + k) % 2 ^ 64)).2
        ≤ 2 ^ 256 / block.header.Difficulty →
      k < fuel →
      (mine M block seed (fun _ => false) false fuel).map (fun o => o.ending)
        = some (.found { block with header :=
            { block.header with
              Nonce := (seed + k) % 2 ^ 64
              MixDigest := M.BytesToHash
                (M.hashimotoFull (M.dataset (Uint64 block.header.Number))
                  (M.HashNoNonce block.header) ((seed + k) % 2 ^ 64)).1 } }))
    ∧ (∀ out, mine M block seed (fun _ => false) false fuel = some out →
      ∃ k, k < fuel
        ∧ (∀ i, i < k →
          ¬ SetBytes (M.hashimotoFull (M.dataset (Uint64 block.header.Number))
              (M.HashNoNonce block.header) ((seed + i) % 2 ^ 64)).2
            ≤ 2 ^ 256 / block.header.Difficulty)
        ∧ SetBytes (M.hashimotoFull (M.dataset (Uint64 block.header.Number))
            (M.HashNoNonce block.header) ((seed + k) % 2 ^ 64)).2
          ≤ 2 ^ 256 / block.header.Difficulty
        ∧ out.ending = .found { block with header :=
            { block.header with
              Nonce := (seed + k) % 2 ^ 64
              MixDigest := M.BytesToHash
                (M.hashimotoFull (M.dataset (Uint64 block.header.Number))
                  (M.HashNoNonce block.header) ((seed + k) % 2 ^ 64)).1 } }) := by
  have hmax : maxUint256 = 2 ^ 256 := by
    have e : (256 : Int).toNat = 256 := rfl
    norm_num [maxUint256, bigExp, e]
  have ht : mineTarget block.header.Difficulty = some (2 ^ 256 / block.header.Difficulty) := by
    have hne : block.header.Difficulty ≠ 0 := by omega
    simp only [mineTarget, if_neg hne, hmax]
  constructor
  · intro k hnot hhit hk
    simp only [mine, ht]
    exact mineLoop_finds M block block.header _ _ _ k fuel 0 0 seed [] hseed hnot hhit hk
  · intro out hout
    simp only [mine, ht] at hout
    exact mineLoop_found_is_first M block block.header _ _ _ fuel 0 0 seed [] out hseed hout

set_option maxRecDepth 100000 in
/-- C19 over `demoMiner` and `demoBlock` (target 64) from the start nonce 10: the results
of the nonces 10 to 13 are 120, 157, 194 and 231, that of 14 is 12, and `mine` delivers
the block with the nonce 14 and its digest. -/
theorem mine_delivers_first_nonce_witness :
    ((0 : Int) < demoBlock.header.Difficulty ∧ 10 < 2 ^ 64)
    ∧ (mine demoMiner demoBlock 10 (fun _ => false) false 5).map (fun o => o.ending)
        = some (.found ⟨⟨2 ^ 250, 5, 14, 14, 9⟩, "body"⟩) :=
  ⟨⟨by decide, by norm_num⟩,
    ((mine_delivers_first_nonce demoMiner demoBlock 10 5 (by decide) (by norm_num)).1 4
      (by decide) (by decide) (by decide)).trans (by decide)⟩

/-- C20, what the code does: `maxUint256` is `Exp(2, 256, 0)`, which is `2^256` (a zero
modulus means no reduction), not `2^256 - 1`; the search target `mine` computes for
difficulty 1 is `2^256`. -/
theorem maxUint256_is_two_pow_256 :
    maxUint256 = 2 ^ 256
    ∧ maxUint256 ≠ 2 ^ 256 - 1
    ∧ mineTarget 1 = some (2 ^ 256)
    ∧ mineTarget 1 ≠ some (2 ^ 256 - 1) := by
  have h : maxUint256 = 2 ^ 256 := by
    have e : (256 : Int).toNat = 256 := rfl
    norm_num [maxUint256, bigExp, e]
  refine ⟨h, by rw [h]; norm_num, ?_, ?_⟩
  · simp [mineTarget, h]
  · simp [mineTarget, h]

/-- C21: for an engine built by `New`, which replaces a `cachesinmem` that is not
positive by 1 and keeps any other, or by `NewTester`, after every call `cache(block)` of
every sequence of calls the map `caches` holds at most `cachesinmem` entries and has an
entry for the epoch `block / epochLength`; and the calls do return on a tester and on an
engine that keeps its caches in memory only. -/
theorem caches_within_limit (A : Algorithm) (H : Host)
    (order : List (Nat × cache) → List (Nat × cache)) (fuel : Nat) (t : List FsEvent)
    (cachedir : String) (cachesinmem cachesondisk : Int) (dagdir : String)
    (dagsinmem dagsondisk : Int) (calls : List Lookup) (call : Lookup)
    (horder : ∀ m, (order m).Perm m) (hfuel : max cachesinmem 1 ≤ (fuel : Int)) :
    (New cachedir cachesinmem cachesondisk dagdir dagsinmem dagsondisk).cachesinmem
        = (if cachesinmem ≤ 0 then 1 else cachesinmem)
    ∧ (∀ r, Tilthash.cacheCalls A H order fuel t
          (New cachedir cachesinmem cachesondisk dagdir dagsinmem dagsondisk)
          (calls ++ [call]) = some r →
        r.2.cachesinmem = (if cachesinmem ≤ 0 then 1 else cachesinmem)
        ∧ (r.2.caches.length : Int) ≤ r.2.cachesinmem
        ∧ (mapGet r.2.caches (call.block / A.epochLength)).isSome = true)
    ∧ (∀ r, Tilthash.cacheCalls A H order fuel t NewTester (calls ++ [call]) = some r →
        r.2.cachesinmem = 1
        ∧ (r.2.caches.length : Int) ≤ r.2.cachesinmem
        ∧ (mapGet r.2.caches (call.block / A.epochLength)).isSome = true)
    ∧ (cachedir = "" → ∃ r, Tilthash.cacheCalls A H order fuel t
        (New cachedir cachesinmem cachesondisk dagdir dagsinmem dagsondisk)
        (calls ++ [call]) = some r)
    ∧ (∃ r, Tilthash.cacheCalls A H order fuel t NewTester (calls ++ [call]) = some r) := by
  have key : ∀ e : Tilthash, e.caches = [] → 1 ≤ e.cachesinmem →
      ∀ r, Tilthash.cacheCalls A H order fuel t e (calls ++ [call]) = some r →
        r.2.cachesinmem = e.cachesinmem
        ∧ (r.2.caches.length : Int) ≤ r.2.cachesinmem
        ∧ (mapGet r.2.caches (call.block / A.epochLength)).isSome = true := by
    intro e he h1 r h
    rw [cacheCalls_append] at h
    split at h
    · cases h
    · rename_i r1 hr1
      have hkey : ∀ kv ∈ e.caches, kv.2.epoch = kv.1 := by
        rw [he]
        intro kv hkv
        cases hkv
      have hlen : (e.caches.length : Int) ≤ max e.cachesinmem 1 := by
        rw [he]
        exact le_trans (Int.le_of_lt Int.one_pos) (le_max_right _ _)
      obtain ⟨hcfg, hk, hb⟩ := cacheCalls_inv A H order fuel calls t e r1 hkey hlen hr1
      split at h
      · cases h
      · rename_i out hout
        have hb1 : (r1.2.caches.length : Int) ≤ max r1.2.cachesinmem 1 := by
          rw [hcfg.1]
          exact hb
        obtain ⟨hcfg2, _, hb2, hin⟩ := cache_inv A H order fuel r1.1 r1.2 _ _ _ out hk hb1
          hout
        simp only [Option.some.injEq] at h
        subst h
        simp only
        refine ⟨hcfg2.1.trans hcfg.1, ?_, hin⟩
        rw [hcfg2.1]
        rw [max_eq_left (by rw [hcfg.1]; exact h1)] at hb2
        exact hb2
  have hnew : 1 ≤ (New cachedir cachesinmem cachesondisk dagdir dagsinmem
      dagsondisk).cachesinmem := by
    simp only [New]
    split_ifs <;> omega
  have hempty : ∀ kv ∈ ([] : List (Nat × cache)), kv.2.epoch = kv.1 := by
    intro kv hkv
    cases hkv
  refine ⟨rfl, ?_, ?_, ?_, ?_⟩
  · intro r h
    exact key _ rfl hnew r h
  · intro r h
    exact key NewTester rfl (by decide) r h
  · intro hdir
    apply cacheCalls_total A H order fuel _ t _ horder hempty
    · exact le_trans (Int.le_of_lt Int.one_pos) (le_max_right _ _)
    · simp only [New]
      split_ifs with hc
      · rw [max_eq_right (le_refl _)]
        exact le_trans (le_max_right _ _) hfuel
      · exact hfuel
    · exact Or.inr hdir
  · apply cacheCalls_total A H order fuel _ t _ horder hempty
    · exact le_trans (Int.le_of_lt Int.one_pos) (le_max_right _ _)
    · exact le_trans (by simp [NewTester]) (le_trans (le_max_right cachesinmem 1) hfuel)
    · exact Or.inl rfl

/-- C21 on an engine `New("", 0, ...)`, whose `cachesinmem` becomes 1, asked for the
blocks 5 and 15 in epochs of ten blocks: the calls return, one cache stays, and it is the
one of the epoch 1. -/
theorem caches_within_limit_witness :
    ((∀ m : List (Nat × cache), (id m).Perm m) ∧ max (0 : Int) 1 ≤ ((1 : Nat) : Int))
    ∧ ∃ r, Tilthash.cacheCalls demoAlgorithm diskHost id 1 [] (New "" 0 0 "" 0 0)
          ([⟨5, 1, 2⟩] ++ [⟨15, 3, 4⟩]) = some r
        ∧ r.2.cachesinmem = 1
        ∧ (r.2.caches.length : Int) ≤ r.2.cachesinmem
        ∧ (mapGet r.2.caches (15 / 10)).isSome = true := by
  have T := caches_within_limit demoAlgorithm diskHost id 1 [] "" 0 0 "" 0 0 [⟨5, 1, 2⟩]
    ⟨15, 3, 4⟩ (fun m => List.Perm.refl m) (by decide)
  obtain ⟨r, hr⟩ := T.2.2.2.1 rfl
  exact ⟨⟨fun m => List.Perm.refl m, by decide⟩, r, hr, T.2.1 r hr⟩

/-- C22 (amended): for an engine built by `New` with any `dagsinmem`, or by `NewTester`,
whose `dagsinmem` is 0, after every call `dataset(block)` of every sequence of calls the
map `datasets` holds at most `max dagsinmem 1` entries, one of them for the epoch
`block / epochLength`; and on a tester the calls do return. -/
theorem datasets_within_limit_or_one (A : Algorithm) (H : Host)
    (order : List (Nat × dataset) → List (Nat × dataset)) (fuel : Nat) (t : List FsEvent)
    (cachedir : String) (cachesinmem cachesondisk : Int) (dagdir : String)
    (dagsinmem dagsondisk : Int) (calls : List Lookup) (call : Lookup)
    (horder : ∀ m, (order m).Perm m) (hfuel : 1 ≤ fuel) :
    (∀ r, Tilthash.datasetCalls A H order fuel t
          (New cachedir cachesinmem cachesondisk dagdir dagsinmem dagsondisk)
          (calls ++ [call]) = some r →
        r.2.dagsinmem = dagsinmem
        ∧ (r.2.datasets.length : Int) ≤ max dagsinmem 1
        ∧ (mapGet r.2.datasets (call.block / A.epochLength)).isSome = true)
    ∧ (∀ r, Tilthash.datasetCalls A H order fuel t NewTester (calls ++ [call]) = some r →
        r.2.dagsinmem = 0
        ∧ r.2.datasets.length = 1
        ∧ (mapGet r.2.datasets (call.block / A.epochLength)).isSome = true)
    ∧ (∃ r, Tilthash.datasetCalls A H order fuel t NewTester (calls ++ [call]) = some r) := by
  have key : ∀ e : Tilthash, e.datasets = [] →
      ∀ r, Tilthash.datasetCalls A H order fuel t e (calls ++ [call]) = some r →
        r.2.dagsinmem = e.dagsinmem
        ∧ (r.2.datasets.length : Int) ≤ max e.dagsinmem 1
        ∧ (mapGet r.2.datasets (call.block / A.epochLength)).isSome = true := by
    intro e he r h
    rw [datasetCalls_append] at h
    split at h
    · cases h
    · rename_i r1 hr1
      have hkey : ∀ kv ∈ e.datasets, kv.2.epoch = kv.1 := by
        rw [he]
        intro kv hkv
        cases hkv
      have hlen : (e.datasets.length : Int) ≤ max e.dagsinmem 1 := by
        rw [he]
        exact le_trans (Int.le_of_lt Int.one_pos) (le_max_right _ _)
      obtain ⟨hcfg, hk, hb⟩ := datasetCalls_inv A H order fuel calls t e r1 hkey hlen hr1
      split at h
      · cases h
      · rename_i out hout
        have hb1 : (r1.2.datasets.length : Int) ≤ max r1.2.dagsinmem 1 := by
          rw [hcfg.1]
          exact hb
        obtain ⟨hcfg2, _, hb2, hin⟩ := dataset_inv A H order fuel r1.1 r1.2 _ _ _ out hk
          hb1 hout
        simp only [Option.some.injEq] at h
        subst h
        simp only
        refine ⟨hcfg2.1.trans hcfg.1, ?_, hin⟩
        rw [← hcfg.1]
        exact hb2
  have hempty : ∀ kv ∈ ([] : List (Nat × dataset)), kv.2.epoch = kv.1 := by
    intro kv hkv
    cases hkv
  refine ⟨?_, ?_, ?_⟩
  · intro r h
    exact key _ rfl r h
  · intro r h
    obtain ⟨h1, h2, h3⟩ := key NewTester rfl r h
    refine ⟨h1, ?_, h3⟩
    have hpos : 0 < r.2.datasets.length := by
      rcases hl : r.2.datasets with _ | ⟨kv, rest⟩
      · rw [hl] at h3
        simp [mapGet] at h3
      · simp
    have h4 : (r.2.datasets.length : Int) ≤ 1 := h2
    omega
  · apply datasetCalls_total A H order fuel _ t _ horder hempty
    · exact le_trans (Int.le_of_lt Int.one_pos) (le_max_right _ _)
    · have : max NewTester.dagsinmem 1 = 1 := by decide
      rw [this]
      exact_mod_cast hfuel
    · rfl

/-- C22 (amended) on a tester, whose `dagsinmem` is 0, asked for the blocks 5 and 15 in
epochs of ten blocks: the calls return and one dataset stays. -/
theorem datasets_within_limit_or_one_witness :
    ((∀ m : List (Nat × dataset), (id m).Perm m) ∧ 1 ≤ 1)
    ∧ ∃ r, Tilthash.datasetCalls demoAlgorithm diskHost id 1 [] NewTester
          ([⟨5, 1, 2⟩] ++ [⟨15, 3, 4⟩]) = some r
        ∧ r.2.dagsinmem = 0
        ∧ r.2.datasets.length = 1
        ∧ (mapGet r.2.datasets (15 / 10)).isSome = true := by
  have T := datasets_within_limit_or_one demoAlgorithm diskHost id 1 [] "" 0 0 "" 0 0
    [⟨5, 1, 2⟩] ⟨15, 3, 4⟩ (fun m => List.Perm.refl m) (le_refl 1)
  obtain ⟨r, hr⟩ := T.2.2
  exact ⟨⟨fun m => List.Perm.refl m, le_refl 1⟩, r, hr, T.2.1 r hr⟩

/-- C22 fails as stated: on a tester, whose `dagsinmem` is 0, the call `dataset(5)` leaves
one dataset in the map, more than `dagsinmem`. -/
theorem tester_keeps_one_dataset :
    (Tilthash.dataset demoAlgorithm diskHost id 1 [] NewTester 5 1 2).map
        (fun out => (out.tilthash.dagsinmem, out.tilthash.datasets.length,
          out.tilthash.datasets.map Prod.fst))
      = some (0, 1, [0])
    ∧ ¬ ((1 : Int) ≤ NewTester.dagsinmem) :=
  ⟨by decide, by decide⟩

/-- C23: with an empty directory and `test = false`, `cache.generate` builds its content in
memory, makes no call into the file system and leaves `dump` and `mmap` as they were.
`dataset.generate` does not stop there: whenever it returns, the first thing it has done
after the events `t` is to open the dump file of its epoch, whose path has no directory. -/
theorem generate_empty_directory (A : Algorithm) (H : Host) (t : List FsEvent) (c : cache)
    (d : dataset) (limit : Int) (hc : c.once = false) (hd : d.once = false) :
    cache.generate A H t c "" limit false
        = some (t, { c with
            once := true,
            cache := fill (make (A.cacheSize ((c.epoch * A.epochLength + 1) % 2 ^ 64) / 4))
              (A.generateCache (A.cacheSize ((c.epoch * A.epochLength + 1) % 2 ^ 64) / 4)
                c.epoch (A.seedHash ((c.epoch * A.epochLength + 1) % 2 ^ 64))) })
    ∧ ∀ out, dataset.generate A H t d "" limit false = some out →
        ∃ evs, out.1 = t ++ FsEvent.OpenFile (dumpPath A H "full" "" d.epoch) :: evs := by
  constructor
  · simp [cache.generate, hc]
  · intro out h
    simp only [dataset.generate, hd, Bool.false_eq_true, if_false, if_true] at h
    cases h1 : memoryMap H t (dumpPath A H "full" "" d.epoch) with
    | none => rw [h1] at h; cases h
    | some r1 =>
      obtain ⟨evs1, ht1, _⟩ := memoryMap_trace H t _ r1 h1
      rw [h1] at h
      simp only at h
      by_cases he1 : r1.err = none
      · rw [if_pos he1] at h
        cases h
        exact ⟨evs1, ht1⟩
      · rw [if_neg he1] at h
        split at h
        · cases h
        · rename_i r2 h2
          obtain ⟨evs2, ht2, _⟩ := memoryMapAndGenerate_trace H _ _ _ _ r2 h2
          cases h
          refine ⟨evs1 ++ evs2 ++ removeOld A H "full" "" d.epoch limit, ?_⟩
          by_cases he2 : r2.err = none <;> simp [he2, ht2, ht1]

/-- C23 for the epoch 3 on a host with an empty disk: `cache.generate` makes no call, and
`dataset.generate` begins by opening `full-R23-0303030303030303`. -/
theorem generate_empty_directory_witness :
    ((({ epoch := 3 } : cache).once = false) ∧ (({ epoch := 3 } : dataset).once = false))
    ∧ cache.generate demoAlgorithm diskHost [] { epoch := 3 } "" 0 false
      = some ([], { epoch := 3, cache := [3, 4], once := true })
    ∧ ∃ out, dataset.generate demoAlgorithm diskHost [] { epoch := 3 } "" 0 false = some out
        ∧ ∃ evs, out.1 = [] ++ FsEvent.OpenFile "full-R23-0303030303030303" :: evs :=
  ⟨⟨rfl, rfl⟩,
    (generate_empty_directory demoAlgorithm diskHost [] { epoch := 3 } { epoch := 3 } 0
      rfl rfl).1,
    _, rfl,
    (generate_empty_directory demoAlgorithm diskHost [] { epoch := 3 } { epoch := 3 } 0
      rfl rfl).2 _ rfl⟩

/-- C24: when the dump cannot be loaded and `memoryMapAndGenerate` returns an error,
`dataset.generate` (test = false) falls back to a dataset generated in memory, and that
dataset has `datasetSize / 2` words, not `datasetSize / 4`. -/
theorem dataset_fallback_half_size (A : Algorithm) (H : Host) (t : List FsEvent)
    (d : dataset) (dir : String) (limit : Int) (r1 r2 : MapOut) (hd : d.once = false)
    (h1 : memoryMap H t (dumpPath A H "full" dir d.epoch) = some r1) (he1 : r1.err ≠ none)
    (h2 : memoryMapAndGenerate H r1.trace (dumpPath A H "full" dir d.epoch)
        (A.datasetSize ((d.epoch * A.epochLength + 1) % 2 ^ 64))
        (fun buffer => fill buffer (A.generateDataset buffer.length d.epoch
          (fill (make (A.cacheSize ((d.epoch * A.epochLength + 1) % 2 ^ 64) / 4))
            (A.generateCache (A.cacheSize ((d.epoch * A.epochLength + 1) % 2 ^ 64) / 4)
              d.epoch (A.seedHash ((d.epoch * A.epochLength + 1) % 2 ^ 64)))))) = some r2)
    (he2 : r2.err ≠ none) :
    ∃ out, dataset.generate A H t d dir limit false = some out
      ∧ out.2.dataset
        = fill (make (A.datasetSize ((d.epoch * A.epochLength + 1) % 2 ^ 64) / 2))
            (A.generateDataset (A.datasetSize ((d.epoch * A.epochLength + 1) % 2 ^ 64) / 2)
              d.epoch
              (fill (make (A.cacheSize ((d.epoch * A.epochLength + 1) % 2 ^ 64) / 4))
                (A.generateCache (A.cacheSize ((d.epoch * A.epochLength + 1) % 2 ^ 64) / 4)
                  d.epoch (A.seedHash ((d.epoch * A.epochLength + 1) % 2 ^ 64)))))
      ∧ out.2.dataset.length = A.datasetSize ((d.epoch * A.epochLength + 1) % 2 ^ 64) / 2 := by
  refine ⟨_, dataset_generate_disk A H t d dir limit r1 r2 hd h1 he1 h2, ?_, ?_⟩
  · simp only [if_pos he2]
  · simp only [if_pos he2, fill_length, make_length]

/-- C24 for the epoch 3 in the directory `d` of a disk that cannot be written: the dataset
size is 16 bytes, and the fallback dataset has 8 words where `16 / 4` is 4. -/
theorem dataset_fallback_half_size_witness :
    (({ epoch := 3 } : dataset).once = false
      ∧ memoryMap (readOnlyHost []) [] (dumpPath demoAlgorithm (readOnlyHost []) "full" "d" 3)
        = some ⟨[.OpenFile "d/full-R23-0303030303030303"], none, none, [], some (.os 2)⟩
      ∧ demoAlgorithm.datasetSize ((3 * demoAlgorithm.epochLength + 1) % 2 ^ 64) / 4 = 4)
    ∧ ∃ out, dataset.generate demoAlgorithm (readOnlyHost []) [] { epoch := 3 } "d" 1 false
        = some out ∧ out.2.dataset.length = 8 := by
  obtain ⟨out, h, _, hl⟩ := dataset_fallback_half_size demoAlgorithm (readOnlyHost []) []
    { epoch := 3 } "d" 1
    ⟨[.OpenFile "d/full-R23-0303030303030303"], none, none, [], some (.os 2)⟩
    ⟨[.OpenFile "d/full-R23-0303030303030303", .MkdirAll "."], none, none, [], some (.os 30)⟩
    rfl rfl (by decide) rfl (by decide)
  exact ⟨⟨rfl, rfl, rfl⟩, out, h, hl⟩

/-- C25: once the file is open and mapped, `memoryMap` returns the file, the mapping and
the words after the two words of the header when the mapped words begin with `0xBADDCAFE,
0xFEE1DEAD`; it unmaps, closes and fails with `ErrInvalidDumpMagic` when the first word,
or the second after a good first, is another; and on a mapping of no word, or of the one
word `0xBADDCAFE`, it indexes the buffer out of range: a Go panic, and not
`ErrInvalidDumpMagic`. -/
theorem memoryMap_checks_magic (H : Host) (t : List FsEvent) (path : String) (file : File)
    (mem : MMap) (hopen : H.OpenFile t path = .ok file)
    (hmap : H.Map (t ++ [.OpenFile path]) file false = .ok mem) :
    (∀ rest, wordsOf H.isLittleEndian mem.data = 0xbaddcafe :: 0xfee1dead :: rest →
      memoryMap H t path
        = some ⟨t ++ [.OpenFile path, .Map file false], some file, some mem, rest, none⟩)
    ∧ (∀ w rest, wordsOf H.isLittleEndian mem.data = w :: rest → w ≠ 0xbaddcafe →
      memoryMap H t path
        = some ⟨t ++ [.OpenFile path, .Map file false] ++ [.Unmap mem, .Close file],
            none, none, [], some .ErrInvalidDumpMagic⟩)
    ∧ (∀ w rest, wordsOf H.isLittleEndian mem.data = 0xbaddcafe :: w :: rest →
      w ≠ 0xfee1dead →
      memoryMap H t path
        = some ⟨t ++ [.OpenFile path, .Map file false] ++ [.Unmap mem, .Close file],
            none, none, [], some .ErrInvalidDumpMagic⟩)
    ∧ (wordsOf H.isLittleEndian mem.data = []
        ∨ wordsOf H.isLittleEndian mem.data = [0xbaddcafe] → memoryMap H t path = none) := by
  rw [memoryMap_mapped H t path file mem hopen hmap]
  refine ⟨?_, ?_, ?_, ?_⟩
  · intro rest h
    rw [h]
    simp [magicLoop, dumpMagic]
  · intro w rest h hw
    rw [h]
    simp [magicLoop, dumpMagic, hw]
  · intro w rest h hw
    rw [h]
    simp [magicLoop, dumpMagic, hw]
  · rintro (h | h) <;> rw [h] <;> simp [magicLoop, dumpMagic]

/-- C25 on a file of three bytes, which is open and mapped as no word at all: `memoryMap`
ends in the panic. -/
theorem memoryMap_checks_magic_witness :
    ((readOnlyHost [("cache", [1, 2, 3])]).OpenFile [] "cache" = .ok 0
      ∧ (readOnlyHost [("cache", [1, 2, 3])]).Map ([] ++ [.OpenFile "cache"]) 0 false
        = .ok ⟨0, [1, 2, 3]⟩)
    ∧ wordsOf true [1, 2, 3] = []
    ∧ memoryMap (readOnlyHost [("cache", [1, 2, 3])]) [] "cache" = none :=
  ⟨⟨rfl, rfl⟩, rfl,
    (memoryMap_checks_magic (readOnlyHost [("cache", [1, 2, 3])]) [] "cache" 0 ⟨0, [1, 2, 3]⟩
      rfl rfl).2.2.2 (Or.inl rfl)⟩

/-- C26 (amended): after `cache.generate` or `dataset.generate` has gone through
`memoryMapAndGenerate` for the epoch `E` with the limit `0 <= L`, the dump files it removes
are exactly those of the epochs `ep` with `0 <= ep <= E - L`, from `E - L` down to `0`,
none when `L > E`: the dump of the epoch `E - L` is removed too, those of newer epochs are
not. -/
theorem generate_removes_through_limit (A : Algorithm) (H : Host) (t : List FsEvent)
    (dir : String) (limit : Int) (hL0 : 0 ≤ limit) (hL : limit < 2 ^ 63) :
    (∀ (c : cache) (r1 r2 : MapOut), c.once = false → dir ≠ "" → c.epoch < 2 ^ 63 →
      memoryMap H t (dumpPath A H "cache" dir c.epoch) = some r1 → r1.err ≠ none →
      memoryMapAndGenerate H r1.trace (dumpPath A H "cache" dir c.epoch)
        (A.cacheSize ((c.epoch * A.epochLength + 1) % 2 ^ 64))
        (fun buffer => fill buffer (A.generateCache buffer.length c.epoch
          (A.seedHash ((c.epoch * A.epochLength + 1) % 2 ^ 64)))) = some r2 →
      ∃ out, cache.generate A H t c dir limit false = some out
        ∧ removed out.1 = removed t
          ++ (List.range ((c.epoch : Int) - limit + 1).toNat).reverse.map
              (dumpPath A H "cache" dir))
    ∧ (∀ (d : dataset) (r1 r2 : MapOut), d.once = false → d.epoch < 2 ^ 63 →
      memoryMap H t (dumpPath A H "full" dir d.epoch) = some r1 → r1.err ≠ none →
      memoryMapAndGenerate H r1.trace (dumpPath A H "full" dir d.epoch)
        (A.datasetSize ((d.epoch * A.epochLength + 1) % 2 ^ 64))
        (fun buffer => fill buffer (A.generateDataset buffer.length d.epoch
          (fill (make (A.cacheSize ((d.epoch * A.epochLength + 1) % 2 ^ 64) / 4))
            (A.generateCache (A.cacheSize ((d.epoch * A.epochLength + 1) % 2 ^ 64) / 4)
              d.epoch (A.seedHash ((d.epoch * A.epochLength + 1) % 2 ^ 64)))))) = some r2 →
      ∃ out, dataset.generate A H t d dir limit false = some out
        ∧ removed out.1 = removed t
          ++ (List.range ((d.epoch : Int) - limit + 1).toNat).reverse.map
              (dumpPath A H "full" dir)) :=
  ⟨fun c r1 r2 hc hdir hE h1 he1 h2 =>
      cache_generate_removed A H t c dir limit r1 r2 hc hdir h1 he1 h2 hE hL0 hL,
    fun d r1 r2 hd hE h1 he1 h2 =>
      dataset_generate_removed A H t d dir limit r1 r2 hd h1 he1 h2 hE hL0 hL⟩

/-- C26 (amended) for the epoch 3 with the limit 1 in the directory `d` of an empty disk:
the dump of the epoch 3 is created, and those of the epochs 2, 1 and 0 are removed. -/
theorem generate_removes_through_limit_witness :
    ((0 : Int) ≤ 1 ∧ (1 : Int) < 2 ^ 63)
    ∧ ∃ out, cache.generate demoAlgorithm diskHost [] { epoch := 3 } "d" 1 false = some out
      ∧ removed out.1
        = ["d/cache-R23-0202020202020202", "d/cache-R23-0101010101010101",
            "d/cache-R23-0000000000000000"] :=
  ⟨⟨by decide, by decide⟩,
    (generate_removes_through_limit demoAlgorithm diskHost [] "d" 1 (by decide)
      (by decide)).1 { epoch := 3 }
      ⟨[.OpenFile "d/cache-R23-0303030303030303"], none, none, [], some (.os 2)⟩
      ⟨[.OpenFile "d/cache-R23-0303030303030303", .MkdirAll ".",
          .Create "d/cache-R23-0303030303030303.7", .Truncate 4 16, .Map 4 true,
          .Store ⟨4096, List.replicate 16 0⟩ [0xbaddcafe, 0xfee1dead, 3, 4],
          .Unmap ⟨4096, List.replicate 16 0⟩, .Close 4,
          .Rename "d/cache-R23-0303030303030303.7" "d/cache-R23-0303030303030303",
          .OpenFile "d/cache-R23-0303030303030303", .Map 3 false],
        some 3, some ⟨8192, bytesOf [0xbaddcafe, 0xfee1dead, 3, 4]⟩, [3, 4], none⟩
      rfl (by decide) (by decide) rfl (by decide) rfl⟩

/-- C26 fails as stated: for the epoch `E = 3` with the limit `L = 1` in the directory `d`
of an empty disk, `cache.generate` creates the dump of the epoch 3 and then removes the
dump of the epoch `E - L = 2` along with those of the epochs 1 and 0. -/
theorem generate_removes_limit_epoch :
    (cache.generate demoAlgorithm diskHost [] { epoch := 3 } "d" 1 false).map
        (fun out => (out.2.dump, out.2.cache, removed out.1))
      = some (some 3, [3, 4], [dumpPath demoAlgorithm diskHost "cache" "d" 2,
          dumpPath demoAlgorithm diskHost "cache" "d" 1,
          dumpPath demoAlgorithm diskHost "cache" "d" 0])
    ∧ dumpPath demoAlgorithm diskHost "cache" "d" 2
      ∉ [dumpPath demoAlgorithm diskHost "cache" "d" 1,
          dumpPath demoAlgorithm diskHost "cache" "d" 0] :=
  ⟨rfl, by decide⟩

/-- C27: in test mode, for every epoch and every directory, `cache.generate` yields the
256 words that `generateCache` writes for the seed `seedHash(epoch*epochLength+1)`, and
`dataset.generate` yields the 8192 words that `generateDataset` writes from such a cache of
256 words; neither makes a call into the file system nor sets `dump` or `mmap`. -/
theorem generate_test_mode (A : Algorithm) (H : Host) (t : List FsEvent) (c : cache)
    (d : dataset) (dir : String) (limit : Int) (hc : c.once = false) (hd : d.once = false) :
    (cache.generate A H t c dir limit true
        = some (t, { c with
            once := true,
            cache := fill (make 256) (A.generateCache 256 c.epoch
              (A.seedHash ((c.epoch * A.epochLength + 1) % 2 ^ 64))) })
      ∧ (fill (make 256) (A.generateCache 256 c.epoch
          (A.seedHash ((c.epoch * A.epochLength + 1) % 2 ^ 64)))).length = 256)
    ∧ (dataset.generate A H t d dir limit true
        = some (t, { d with
            once := true,
            dataset := fill (make 8192) (A.generateDataset 8192 d.epoch
              (fill (make 256) (A.generateCache 256 d.epoch
                (A.seedHash ((d.epoch * A.epochLength + 1) % 2 ^ 64))))) })
      ∧ (fill (make 8192) (A.generateDataset 8192 d.epoch
          (fill (make 256) (A.generateCache 256 d.epoch
            (A.seedHash ((d.epoch * A.epochLength + 1) % 2 ^ 64)))))).length = 8192
      ∧ (fill (make 256) (A.generateCache 256 d.epoch
          (A.seedHash ((d.epoch * A.epochLength + 1) % 2 ^ 64)))).length = 256) := by
  refine ⟨⟨?_, ?_⟩, ?_, ?_, ?_⟩
  · simp [cache.generate, hc]
  · rw [fill_length, make_length]
  · simp [dataset.generate, hd]
  · rw [fill_length, make_length]
  · rw [fill_length, make_length]

/-- C27 for the epoch 3 and the directory `d` on a host with a disk: no event, 256 and
8192 words. -/
theorem generate_test_mode_witness :
    ((({ epoch := 3 } : cache).once = false) ∧ (({ epoch := 3 } : dataset).once = false))
    ∧ (cache.generate demoAlgorithm diskHost [] { epoch := 3 } "d" 1 true).map
        (fun out => (out.1, out.2.dump, out.2.mmap, out.2.cache.length))
      = some ([], none, none, 256)
    ∧ (dataset.generate demoAlgorithm diskHost [] { epoch := 3 } "d" 1 true).map
        (fun out => (out.1, out.2.dump, out.2.mmap, out.2.dataset.length))
      = some ([], none, none, 8192) := by
  have h := generate_test_mode demoAlgorithm diskHost [] { epoch := 3 } { epoch := 3 } "d" 1
    rfl rfl
  refine ⟨⟨rfl, rfl⟩, ?_, ?_⟩
  · rw [h.1.1]
    simp only [Option.map_some', h.1.2]
  · rw [h.2.1]
    simp only [Option.map_some', h.2.2.1]

/-- C28: `release()` on a cache or a dataset unmaps the memory map, if there is one, then
closes the file, if it is open, and clears both handles, leaving the other fields; a second
`release()` makes no call at all and changes nothing. -/
theorem release_unmaps_then_closes_once (t : List FsEvent) (c : cache) (d : dataset) :
    ((c.release t).1 = t ++ c.mmap.toList.map FsEvent.Unmap ++ c.dump.toList.map FsEvent.Close
      ∧ (c.release t).2 = { c with mmap := none, dump := none }
      ∧ cache.release (c.release t).1 (c.release t).2 = c.release t)
    ∧ ((d.release t).1
        = t ++ d.mmap.toList.map FsEvent.Unmap ++ d.dump.toList.map FsEvent.Close
      ∧ (d.release t).2 = { d with mmap := none, dump := none }
      ∧ dataset.release (d.release t).1 (d.release t).2 = d.release t) := by
  refine ⟨⟨?_, ?_, ?_⟩, ⟨?_, ?_, ?_⟩⟩
  · rw [cache_release_eq]
  · rw [cache_release_eq]
  · rw [cache_release_eq t c, cache_release_eq]; simp
  · rw [dataset_release_eq]
  · rw [dataset_release_eq]
  · rw [dataset_release_eq t d, dataset_release_eq]; simp

/-- C29: on an engine that is not shared, `Threads()` after `SetThreads(n)` returns `n`.
On an engine made by `NewShared`, whose shared engine is not shared itself, `SetThreads(n)`
sets the threads of the shared engine and `Threads()` on the engine itself still returns
what it returned before, not `n`. -/
theorem threads_after_set_threads (heap : Nat → Tilthash) (p : Nat) (n : Int) (fuel : Nat) :
    ((heap p).shared = none →
      ∃ heap2, Tilthash.SetThreads heap n (fuel + 1) p = some heap2
        ∧ Tilthash.Threads heap2 p = n)
    ∧ (∀ s, (heap p).shared = some s → (heap s).shared = none → s ≠ p →
      ∃ heap2, Tilthash.SetThreads heap n (fuel + 2) p = some heap2
        ∧ Tilthash.Threads heap2 p = Tilthash.Threads heap p
        ∧ Tilthash.Threads heap2 s = n) := by
  constructor
  · intro h
    refine ⟨_, by simp only [Tilthash.SetThreads, h]; rfl, ?_⟩
    simp [Tilthash.Threads]
  · intro s h hs hne
    refine ⟨_, by simp only [Tilthash.SetThreads, h, hs]; rfl, ?_, ?_⟩
    · simp [Tilthash.Threads, Function.update, Ne.symm hne]
    · simp [Tilthash.Threads]

/-- C29 on an engine made by `NewShared`: after `SetThreads(5)` its `Threads()` returns 0,
and 5 is the thread count of the shared engine. -/
theorem threads_after_set_threads_witness :
    (Tilthash.SetThreads sharedHeap 5 2 1).map
        (fun heap => (Tilthash.Threads heap 1, Tilthash.Threads heap 0))
      = some (0, 5)
    ∧ sharedHeap 1 = NewShared 0 ∧ sharedHeap 0 = sharedTilthash := by
  refine ⟨?_, rfl, rfl⟩
  obtain ⟨heap2, h, h1, h2⟩ := (threads_after_set_threads sharedHeap 1 5 0).2 0 rfl rfl
    (by decide)
  rw [h]
  simp only [Option.map_some', h1, h2]
  rfl

/-- C30: for words `x` (top of stack) and `y`, `opSlt` pushes `1` exactly when the signed
reading of `x` is strictly below the signed reading of `y` and `0` otherwise, and `opSgt`
pushes `1` exactly when signed `x` is strictly above signed `y`; the signed reading of a
word is the integer of `[-2^255, 2^255)` congruent to it modulo `2^256`. -/
theorem slt_sgt_signed_compare (x y : Int) (rest : List Int)
    (hx0 : 0 ≤ x) (hx : x < 2 ^ 256) (hy0 : 0 ≤ y) (hy : y < 2 ^ 256) :
    opSlt ⟨x :: y :: rest⟩ = some ⟨(if S256 x < S256 y then 1 else 0) :: rest⟩
    ∧ opSgt ⟨x :: y :: rest⟩ = some ⟨(if S256 x > S256 y then 1 else 0) :: rest⟩
    ∧ (-2 ^ 255 ≤ S256 x ∧ S256 x < 2 ^ 255 ∧ (S256 x - x) % 2 ^ 256 = 0)
    ∧ (-2 ^ 255 ≤ S256 y ∧ S256 y < 2 ^ 255 ∧ (S256 y - y) % 2 ^ 256 = 0) := by
  refine ⟨?_, ?_, S256_range x hx0 hx, S256_range y hy0 hy⟩
  · simp only [opSlt, Stack.pop, Stack.push, Option.bind_eq_bind, Option.some_bind,
      S256_idem y hy, Option.pure_def]
    split_ifs <;> rfl
  · simp only [opSgt, Stack.pop, Stack.push, Option.bind_eq_bind, Option.some_bind,
      Option.pure_def]
    split_ifs <;> rfl

set_option maxRecDepth 100000 in
/-- C30 at `x = 2^256 - 1` (that is `-1`) and `y = 1`. -/
theorem slt_sgt_signed_compare_witness :
    ((0 : Int) ≤ 2 ^ 256 - 1 ∧ (2 ^ 256 - 1 : Int) < 2 ^ 256 ∧ (0 : Int) ≤ 1
      ∧ (1 : Int) < 2 ^ 256)
    ∧ opSlt ⟨(2 ^ 256 - 1) :: 1 :: [5]⟩ = some ⟨1 :: [5]⟩
    ∧ opSgt ⟨(2 ^ 256 - 1) :: 1 :: [5]⟩ = some ⟨0 :: [5]⟩ :=
  ⟨⟨by norm_num, by norm_num, by norm_num, by norm_num⟩,
   by
    have h := slt_sgt_signed_compare (2 ^ 256 - 1) 1 [5] (by norm_num) (by norm_num)
      (by norm_num) (by norm_num)
    have e1 : S256 (2 ^ 256 - 1) = -1 := by norm_num [S256]
    have e2 : S256 1 = 1 := by norm_num [S256]
    rw [e1, e2] at h
    exact ⟨h.1, h.2.1⟩⟩

/-- C31: for integers `x` (top of stack) and `y` that are not negative, words among them,
and a word `z`, `opAddmod` pushes `(x + y) mod z` and `opMulmod` pushes `(x * y) mod z`,
the sum and the product taken over the integers with no reduction modulo `2^256` before
the remainder, and both push `0` when `z = 0`; the three operands are replaced by the one
result. -/
theorem addmod_mulmod_unbounded (x y z : Nat) (rest : List Int)
    (hz : z < 2 ^ 256) :
    opAddmod ⟨(x : Int) :: (y : Int) :: (z : Int) :: rest⟩
        = some ⟨((if z = 0 then 0 else (x + y) % z : Nat) : Int) :: rest⟩
    ∧ opMulmod ⟨(x : Int) :: (y : Int) :: (z : Int) :: rest⟩
        = some ⟨((if z = 0 then 0 else (x * y) % z : Nat) : Int) :: rest⟩ := by
  have hu : ∀ w : Nat, w % z < 2 ^ 256 ∨ z = 0 := by
    intro w
    by_cases h : z = 0
    · exact Or.inr h
    · exact Or.inl (lt_trans (Nat.mod_lt _ (Nat.pos_of_ne_zero h)) hz)
  by_cases h : z = 0
  · subst h
    simp [opAddmod, opMulmod, Stack.pop, Stack.push]
  · have hz0 : (z : Int) > 0 := by exact_mod_cast Nat.pos_of_ne_zero h
    have h1 : U256 (((x : Int) + (y : Int)) % (z : Int)) = (((x + y) % z : Nat) : Int) := by
      have : ((x : Int) + (y : Int)) % (z : Int) = (((x + y) % z : Nat) : Int) := by
        push_cast
        rfl
      rw [this]
      apply U256_of_word
      · exact Int.natCast_nonneg _
      · rcases hu (x + y) with hl | hl
        · exact_mod_cast hl
        · exact absurd hl h
    have h2 : U256 (((x : Int) * (y : Int)) % (z : Int)) = (((x * y) % z : Nat) : Int) := by
      have : ((x : Int) * (y : Int)) % (z : Int) = (((x * y) % z : Nat) : Int) := by
        push_cast
        rfl
      rw [this]
      apply U256_of_word
      · exact Int.natCast_nonneg _
      · rcases hu (x * y) with hl | hl
        · exact_mod_cast hl
        · exact absurd hl h
    simp only [opAddmod, opMulmod, Stack.pop, Stack.push, Option.bind_eq_bind,
      Option.some_bind, if_pos hz0, if_neg h, h1, h2, Option.pure_def, and_self]

set_option maxRecDepth 100000 in
/-- C31 at `x = y = 2^256 - 1` and `z = 7`: the sum `2^257 - 2` leaves 2 and the product
`(2^256 - 1)^2` leaves 1, where the sum and the product reduced modulo `2^256` first would
leave 0 and 1. -/
theorem addmod_mulmod_unbounded_witness :
    ((7 : Nat) < 2 ^ 256)
    ∧ opAddmod ⟨((2 ^ 256 - 1 : Nat) : Int) :: ((2 ^ 256 - 1 : Nat) : Int)
        :: ((7 : Nat) : Int) :: [5]⟩ = some ⟨2 :: [5]⟩
    ∧ opMulmod ⟨((2 ^ 256 - 1 : Nat) : Int) :: ((2 ^ 256 - 1 : Nat) : Int)
        :: ((7 : Nat) : Int) :: [5]⟩ = some ⟨1 :: [5]⟩
    ∧ ((2 ^ 256 - 1 + (2 ^ 256 - 1)) % 2 ^ 256) % 7 = 0 := by
  have h := addmod_mulmod_unbounded (2 ^ 256 - 1) (2 ^ 256 - 1) 7 [5] (by norm_num)
  refine ⟨by norm_num, ?_, ?_, by norm_num⟩
  · rw [h.1]
    norm_num
  · rw [h.2]
    norm_num

/-- C32: for `n` in 1..32, a PUSHn entry of the jump table (its `execute` is
`makePush(n, n)`, it is valid, neither `halts` nor `jumps`, and has no memory-size
function) executed at a position `pc` inside the code, on a stack that passes the
validation and with the cost covered: the interpreter pushes the big-endian value of the
`n` bytes `code[pc+1 .. pc+n]`, which are the bytes the code has there followed by zero
bytes on the right, and goes on at `pc + n + 1`. -/
theorem push_reads_immediate {σ μ : Type} (I : Interpreter σ μ) (mem : MemoryOps μ)
    (s : RunState σ μ) (n cost : Nat) (hn : n ≤ 32)
    (hpc : s.pc < s.contract.Code.length) (hlen : s.contract.Code.length < 2 ^ 63)
    (h : (I.JumpTable (s.contract.GetOp s.pc)).valid = true)
    (hv : (I.JumpTable (s.contract.GetOp s.pc)).validateStack s.stack = none)
    (hm : (I.JumpTable (s.contract.GetOp s.pc)).memorySize = none)
    (hcost : (I.JumpTable (s.contract.GetOp s.pc)).gasCost s.vm s.contract s.stack s.mem 0
      = (cost, none))
    (hle : cost ≤ s.contract.Gas)
    (hhalts : (I.JumpTable (s.contract.GetOp s.pc)).halts = false)
    (hjumps : (I.JumpTable (s.contract.GetOp s.pc)).jumps = false)
    (hexec : ∀ vm contract memory stack j,
      makePush n (n : Int) s.pc contract stack = some j →
      (I.JumpTable (s.contract.GetOp s.pc)).execute s.pc vm contract memory stack
        = ⟨j.ret, j.err, j.pc, vm, contract, memory, j.stack⟩) :
    I.step mem s
      = .next ⟨s.pc + n + 1, s.mem,
          s.stack.push
            (SetBytes ((List.range n).map fun i => s.contract.Code.getD (s.pc + 1 + i) 0)),
          if I.DisableGasMetering = false
            then { s.contract with Gas := s.contract.Gas - cost } else s.contract,
          s.vm⟩
    ∧ ((List.range n).map fun i => s.contract.Code.getD (s.pc + 1 + i) 0)
      = (s.contract.Code.drop (s.pc + 1)).take n
        ++ List.replicate (n - ((s.contract.Code.drop (s.pc + 1)).take n).length) 0 := by
  refine ⟨?_, immediate_right_padded _ _ _⟩
  have hnext : (s.pc + n + 1) % 2 ^ 64 = s.pc + n + 1 := Nat.mod_eq_of_lt (by omega)
  rw [step_execute I mem s cost h hv hm hcost hle]
  cases hd : I.DisableGasMetering
  · have hp := makePush_immediate n s.pc { s.contract with Gas := s.contract.Gas - cost }
      s.stack hn hpc hlen
    simp only [hexec _ _ _ _ _ hp, hhalts, hjumps, hnext, if_true, Bool.false_eq_true,
      if_false, ne_eq, not_true_eq_false]
  · have hp := makePush_immediate n s.pc s.contract s.stack hn hpc hlen
    simp only [Bool.true_eq_false, if_false, hexec _ _ _ _ _ hp, hhalts, hjumps, hnext,
      if_true, Bool.false_eq_true, ne_eq, not_true_eq_false]

/-- C32 on the code `61 ab`, a PUSH2 with one byte left in the code: `0xab00` is pushed,
the missing byte being a zero on the right, and the loop goes on at position 3. -/
theorem push_reads_immediate_witness :
    ((2 : Nat) ≤ 32
      ∧ (demoState [0x61, 0xab] [5] 100).pc < (demoState [0x61, 0xab] [5] 100).contract.Code.length
      ∧ (demoState [0x61, 0xab] [5] 100).contract.GetOp 0 = 0x61)
    ∧ (pushInterp demoHas).step listMem (demoState [0x61, 0xab] [5] 100)
      = .next ⟨3, [], ⟨[0xab00, 5]⟩, { memFrame with Code := [0x61, 0xab], Gas := 97 },
          memVM0⟩ :=
  ⟨⟨by decide, by decide, rfl⟩,
    (push_reads_immediate (pushInterp demoHas) listMem (demoState [0x61, 0xab] [5] 100) 2 3
      (by decide) (by decide) (by decide) rfl rfl rfl rfl (by decide) rfl rfl
      (fun vm contract memory stack j hj => by
        show (match makePush 2 2 0 contract stack with
          | some j => (⟨j.ret, j.err, j.pc, vm, contract, memory, j.stack⟩ :
              ExecOut MemDB (List UInt8))
          | none => ⟨[], none, 0, vm, contract, memory, stack⟩) = _
        have hj2 : makePush 2 2 0 contract stack = some j := hj
        rw [hj2])).1⟩

/-- C33: for a byte index `k < 31` and a word `x`, `opSignExtend` pops `k` and `x` and
pushes the sign extension of the low `8(k+1)` bits of `x`: with `b = 8k + 7`, the word
`x OR (2^256 - 2^b)` when bit `b` of `x` is 1, and `x AND (2^b - 1)` when it is 0.  The
result is below `2^256`, and extending it once more gives it back. -/
theorem signextend_low_bytes (k x : Nat) (rest : List Int) (hk : k < 31)
    (hx : x < 2 ^ 256) :
    opSignExtend ⟨(k : Int) :: (x : Int) :: rest⟩
      = some ⟨((if x.testBit (8 * k + 7) then x ||| (2 ^ 256 - 2 ^ (8 * k + 7))
          else x &&& (2 ^ (8 * k + 7) - 1) : Nat) : Int) :: rest⟩
    ∧ (if x.testBit (8 * k + 7) then x ||| (2 ^ 256 - 2 ^ (8 * k + 7))
          else x &&& (2 ^ (8 * k + 7) - 1)) < 2 ^ 256
    ∧ opSignExtend ⟨(k : Int)
        :: ((if x.testBit (8 * k + 7) then x ||| (2 ^ 256 - 2 ^ (8 * k + 7))
          else x &&& (2 ^ (8 * k + 7) - 1) : Nat) : Int) :: rest⟩
      = some ⟨((if x.testBit (8 * k + 7) then x ||| (2 ^ 256 - 2 ^ (8 * k + 7))
          else x &&& (2 ^ (8 * k + 7) - 1) : Nat) : Int) :: rest⟩ := by
  have hc : 8 * k + 7 = k * 8 + 7 := by omega
  rw [hc]
  have hM : 2 ^ 256 - 2 ^ (k * 8 + 7) < 2 ^ 256 :=
    Nat.sub_lt (Nat.two_pow_pos _) (Nat.two_pow_pos _)
  have hr : (if x.testBit (k * 8 + 7) then x ||| (2 ^ 256 - 2 ^ (k * 8 + 7))
      else x &&& (2 ^ (k * 8 + 7) - 1)) < 2 ^ 256 := by
    split_ifs
    · exact Nat.or_lt_two_pow hx hM
    · exact lt_of_le_of_lt Nat.and_le_left hx
  refine ⟨opSignExtend_word k x rest hk hx, hr, ?_⟩
  rw [opSignExtend_word k _ rest hk hr]
  by_cases h : x.testBit (k * 8 + 7) = true
  · simp only [h, if_true]
    have hb : (x ||| (2 ^ 256 - 2 ^ (k * 8 + 7))).testBit (k * 8 + 7) = true := by
      rw [Nat.testBit_or, h, Bool.true_or]
    rw [if_pos hb, Nat.lor_assoc, Nat.or_self]
  · have h0 : x.testBit (k * 8 + 7) = false := by simpa using h
    simp only [h0, Bool.false_eq_true, if_false]
    have hb : (x &&& (2 ^ (k * 8 + 7) - 1)).testBit (k * 8 + 7) = false := by
      rw [Nat.testBit_and, h0, Bool.false_and]
    rw [hb]
    simp only [Bool.false_eq_true, if_false]
    rw [Nat.land_assoc, Nat.and_self]

set_option maxRecDepth 100000 in
/-- C33 at `k = 0` on the words `0x17f` and `0x180`: the low byte `0x7f` is extended to
`0x7f`, the low byte `0x80` to `2^256 - 0x80`. -/
theorem signextend_low_bytes_witness :
    ((0 : Nat) < 31 ∧ (0x17f : Nat) < 2 ^ 256 ∧ (0x180 : Nat) < 2 ^ 256)
    ∧ opSignExtend ⟨((0 : Nat) : Int) :: ((0x17f : Nat) : Int) :: [5]⟩
      = some ⟨0x7f :: [5]⟩
    ∧ opSignExtend ⟨((0 : Nat) : Int) :: ((0x180 : Nat) : Int) :: [5]⟩
      = some ⟨(2 ^ 256 - 0x80) :: [5]⟩ := by
  have h1 := (signextend_low_bytes 0 0x17f [5] (by decide) (by norm_num)).1
  have h2 := (signextend_low_bytes 0 0x180 [5] (by decide) (by norm_num)).1
  refine ⟨⟨by decide, by norm_num, by norm_num⟩, ?_, ?_⟩
  · rw [h1]
    decide
  · rw [h2]
    decide

/-- C34: for every target `pos` and every jump-destination analysis `has`, JUMPI with the
condition zero returns no error, asks nothing of `has`, pops both operands and moves the
program counter by one (in `uint64`); and for a JUMPI entry of the jump table (its
`execute` is `opJumpi`, it is valid, flagged `jumps`, does not halt and has no memory-size
function) the interpreter goes on at that program counter, without adding one more. -/
theorem jumpi_zero_condition {σ μ : Type} (I : Interpreter σ μ) (mem : MemoryOps μ)
    (s : RunState σ μ) (has : Hash → Bytes → Int → Bool) (pos : Int) (rest : List Int)
    (cost : Nat) (hstack : s.stack = ⟨pos :: 0 :: rest⟩)
    (h : (I.JumpTable (s.contract.GetOp s.pc)).valid = true)
    (hv : (I.JumpTable (s.contract.GetOp s.pc)).validateStack s.stack = none)
    (hm : (I.JumpTable (s.contract.GetOp s.pc)).memorySize = none)
    (hcost : (I.JumpTable (s.contract.GetOp s.pc)).gasCost s.vm s.contract s.stack s.mem 0
      = (cost, none))
    (hle : cost ≤ s.contract.Gas)
    (hhalts : (I.JumpTable (s.contract.GetOp s.pc)).halts = false)
    (hjumps : (I.JumpTable (s.contract.GetOp s.pc)).jumps = true)
    (hexec : ∀ vm contract memory stack j,
      opJumpi has s.pc contract stack = some j →
      (I.JumpTable (s.contract.GetOp s.pc)).execute s.pc vm contract memory stack
        = ⟨j.ret, j.err, j.pc, vm, contract, memory, j.stack⟩) :
    (∀ contract, opJumpi has s.pc contract ⟨pos :: 0 :: rest⟩
      = some ⟨[], none, (s.pc + 1) % 2 ^ 64, ⟨rest⟩⟩)
    ∧ I.step mem s
      = .next ⟨(s.pc + 1) % 2 ^ 64, s.mem, ⟨rest⟩,
          if I.DisableGasMetering = false
            then { s.contract with Gas := s.contract.Gas - cost } else s.contract,
          s.vm⟩ := by
  have hop : ∀ contract, opJumpi has s.pc contract ⟨pos :: 0 :: rest⟩
      = some ⟨[], none, (s.pc + 1) % 2 ^ 64, ⟨rest⟩⟩ := by
    intro contract
    simp [opJumpi, Stack.pop]
  refine ⟨hop, ?_⟩
  rw [step_execute I mem s cost h hv hm hcost hle]
  have hj : (true = false) = False := by simp
  cases hd : I.DisableGasMetering
  · have hp := hop { s.contract with Gas := s.contract.Gas - cost }
    rw [← hstack] at hp
    simp only [hexec _ _ _ _ _ hp, hhalts, hjumps, if_true, Bool.false_eq_true, if_false,
      ne_eq, not_true_eq_false, hj]
  · have hp := hop s.contract
    rw [← hstack] at hp
    simp only [Bool.true_eq_false, if_false, hexec _ _ _ _ _ hp, hhalts, hjumps, if_true,
      Bool.false_eq_true, ne_eq, not_true_eq_false]

/-- C34 on the code `57` with the target 99, which is no jump destination, and the
condition 0: the loop goes on at position 1 with both operands gone. -/
theorem jumpi_zero_condition_witness :
    ((demoState [0x57] [99, 0, 5] 100).stack = ⟨99 :: 0 :: [5]⟩
      ∧ (demoState [0x57] [99, 0, 5] 100).contract.GetOp 0 = 0x57
      ∧ demoHas 0 [0x57] 99 = false)
    ∧ (pushInterp demoHas).step listMem (demoState [0x57] [99, 0, 5] 100)
      = .next ⟨1, [], ⟨[5]⟩, { memFrame with Code := [0x57], Gas := 90 }, memVM0⟩ :=
  ⟨⟨rfl, rfl, by decide⟩,
    (jumpi_zero_condition (pushInterp demoHas) listMem (demoState [0x57] [99, 0, 5] 100)
      demoHas 99 [5] 10 rfl rfl rfl rfl rfl (by decide) rfl rfl
      (fun vm contract memory stack j hj => by
        show (match opJumpi demoHas 0 contract stack with
          | some j => (⟨j.ret, j.err, j.pc, vm, contract, memory, j.stack⟩ :
              ExecOut MemDB (List UInt8))
          | none => ⟨[], none, 0, vm, contract, memory, stack⟩) = _
        have hj2 : opJumpi demoHas 0 contract stack = some j := hj
        rw [hj2])).2⟩

/-- C35: for an engine whose `cachesinmem` is at least 1, as `New` and `NewTester` make
it, and whose map holds every cache under the key of its epoch: a call `cache(block)`
that misses removes the entries it logs as evicted one at a time, each of them an entry
with no later time stamp than any entry present at that moment, and stops as soon as
fewer than `cachesinmem` remain (when it has removed any, `cachesinmem - 1` remain); the
map then holds what remains and the entry of the epoch asked for.  A call that hits
removes nothing and leaves the keys of the map as they are. -/
theorem cache_evicts_least_recently_used (A : Algorithm) (H : Host)
    (order : List (Nat × cache) → List (Nat × cache)) (fuel : Nat) (t : List FsEvent)
    (e : Tilthash) (block : Nat) (now1 now2 : Int) (out : LookupOut)
    (horder : ∀ m, (order m).Perm m)
    (hkey : ∀ kv ∈ e.caches, kv.2.epoch = kv.1)
    (hnodup : (e.caches.map Prod.fst).Nodup)
    (hlim : 1 ≤ e.cachesinmem)
    (h : Tilthash.cache A H order fuel t e block now1 now2 = some out) :
    (mapGet e.caches (block / A.epochLength) = none →
      ∃ rest, evictsLeastRecentlyUsed (fun c => c.used) e.caches out.evicted rest
        ∧ (rest.length : Int) < e.cachesinmem
        ∧ (out.evicted ≠ [] → (rest.length : Int) = e.cachesinmem - 1)
        ∧ out.tilthash.caches.map Prod.fst
          = rest.map Prod.fst ++ [block / A.epochLength])
    ∧ (mapGet e.caches (block / A.epochLength) ≠ none →
      out.evicted = []
        ∧ out.tilthash.caches.map Prod.fst = e.caches.map Prod.fst) := by
  obtain ⟨l, c, hl, hev, hmap⟩ := cache_evicted A H order fuel t e block now1 now2 out h
  obtain ⟨hhit, hmiss⟩ := cacheLocked_evicts order fuel t e _ now1 l hl
  constructor
  · intro hg
    obtain ⟨s, hs, hse, hsm⟩ := hmiss hg
    obtain ⟨hsub, hexit⟩ := evictLoop_spec _ _ _ _ _ _ _ _ hs
    obtain ⟨log, hlog, hlru, hstop⟩ := evictLoop_lru order (fun c => c.epoch)
      (fun c => c.used) (fun t c => c.release t) e.cachesinmem horder
      (fun t c => by simp only [cache_release_eq, and_self]) fuel _ s hkey hnodup hs
    simp only [List.nil_append] at hlog hlru hsub
    have hlt : (s.entries.length : Int) < e.cachesinmem := by
      rcases hexit with h0 | h1
      · rw [h0]
        exact lt_of_lt_of_le Int.one_pos hlim
      · exact h1
    have habs : mapGet s.entries (block / A.epochLength) = none := by
      rw [mapGet_eq_none_iff] at hg ⊢
      exact fun kv hkv => hg kv (hsub.subset hkv)
    refine ⟨s.entries, ?_, hlt, ?_, ?_⟩
    · rw [hev, hse, hlog]
      exact hlru
    · intro hne
      rw [hev, hse, hlog] at hne
      have := hstop hne
      omega
    · rw [hmap, mapSet_keys, hsm, mapGet_mapSet, mapSet_keys, habs]
      rfl
  · intro hg
    obtain ⟨h1, h2⟩ := hhit hg
    refine ⟨by rw [hev, h1], ?_⟩
    rw [hmap, mapSet_keys, h2]
    cases hx : mapGet e.caches (block / A.epochLength) with
    | none => exact absurd hx hg
    | some x => rfl

/-- C35 on a tester engine that keeps two caches and holds those of the epochs 0 (used at
5) and 1 (used at 3): asked for the block 25, of the epoch 2, it evicts the cache of the
epoch 1 and no other, and is left with the keys 0 and 2; asked for the block 5, of the
epoch 0, it evicts nothing. -/
theorem cache_evicts_least_recently_used_witness :
    ((∀ m : List (Nat × cache), (id m).Perm m)
      ∧ (∀ kv ∈ lruEngine.caches, kv.2.epoch = kv.1)
      ∧ (lruEngine.caches.map Prod.fst).Nodup ∧ 1 ≤ lruEngine.cachesinmem)
    ∧ (Tilthash.cache demoAlgorithm diskHost id 2 [] lruEngine 25 7 8).map
        (fun o => (o.evicted, o.tilthash.caches.map Prod.fst)) = some ([(1, 3)], [0, 2])
    ∧ (Tilthash.cache demoAlgorithm diskHost id 2 [] lruEngine 5 7 8).map
        (fun o => (o.evicted, o.tilthash.caches.map Prod.fst)) = some ([], [0, 1])
    ∧ (∃ out, Tilthash.cache demoAlgorithm diskHost id 2 [] lruEngine 25 7 8 = some out
        ∧ ∃ rest, evictsLeastRecentlyUsed (fun c => c.used) lruEngine.caches out.evicted rest
          ∧ (rest.length : Int) < lruEngine.cachesinmem
          ∧ (out.evicted ≠ [] → (rest.length : Int) = lruEngine.cachesinmem - 1)
          ∧ out.tilthash.caches.map Prod.fst
            = rest.map Prod.fst ++ [25 / demoAlgorithm.epochLength]) := by
  obtain ⟨out, hout⟩ : ∃ out,
      Tilthash.cache demoAlgorithm diskHost id 2 [] lruEngine 25 7 8 = some out := ⟨_, rfl⟩
  have T := cache_evicts_least_recently_used demoAlgorithm diskHost id 2 [] lruEngine 25 7 8
    out (fun m => List.Perm.refl m) (by decide) (by decide) (by decide) hout
  exact ⟨⟨fun m => List.Perm.refl m, by decide, by decide, by decide⟩, rfl, rfl,
    out, hout, T.1 rfl⟩

/-- C36 fails as stated: a `Create` by the account 7 (nonce 5) whose init code runs out of
gas reverts to its snapshot and leaves the nonce of 7 at 6, and every other trace of the
attempt is gone: the state the snapshot restores has the increment in it. -/
theorem create_revert_keeps_nonce :
    memOps.GetNonce memVM0.StateDB 7 = 5
    ∧ (Create memEnv (constBody [] (some .ErrOutOfGas) 10) memVM0 (.account 7) [] 1000 3).err
        = some .ErrOutOfGas
    ∧ memOps.GetNonce
        (Create memEnv (constBody [] (some .ErrOutOfGas) 10) memVM0 (.account 7) [] 1000 3
          ).vm.StateDB 7 = 6
    ∧ (Create memEnv (constBody [] (some .ErrOutOfGas) 10) memVM0 (.account 7) [] 1000 3
          ).vm.StateDB.accounts = [(7, ⟨6, 100, []⟩)] := by
  decide

/-- C36, amended: in `Create` the caller's nonce is incremented first and the snapshot is
taken of the state that results (order: increment the caller's nonce, snapshot, create the
account), so a `Create` that fails with a reverting outcome leaves the state that
`RevertToSnapshot` makes of that snapshot; for a `StateDB` in which reverting restores the
caller's nonce as it was when the snapshot was taken, and `SetNonce` sets it, the caller's
nonce after the failed `Create` is the old one plus one (in `uint64`). -/
theorem create_snapshot_after_nonce {σ : Type} (env : Env σ) (body : RunBody σ)
    (vm : TiltVM σ) (caller : ContractRef) (code : Bytes) (gas : Nat) (value : Int)
    (hrec : ¬ (env.NoRecursion = true ∧ vm.depth > 0))
    (hdepth : ¬ vm.depth > 1024)
    (hcan : env.CanTransfer vm.StateDB caller.Address value = true) :
    let nonce := env.db.GetNonce vm.StateDB caller.Address
    let bumped := env.db.SetNonce vm.StateDB caller.Address ((nonce + 1) % 2 ^ 64)
    let snap := env.db.Snapshot bumped
    let contractAddr := env.CreateAddress caller.Address nonce
    let db1 := env.db.SetNonce (env.db.CreateAccount snap.2 contractAddr) contractAddr 1
    let db2 := env.Transfer db1 caller.Address contractAddr value
    let frame := (NewContract caller contractAddr (some value) gas).SetCallCode
      contractAddr (env.Keccak256Hash code) code
    let out := Interpreter.Run body ⟨db2, vm.depth⟩ frame []
    let r := Create env body vm caller code gas value
    (out.ret.length > env.MaxCodeSize
        ∨ (out.err ≠ none ∧ out.err ≠ some .ErrCodeStoreOutOfGas)) →
      r.vm.StateDB = env.db.RevertToSnapshot out.vm.StateDB snap.1
      ∧ r.err = out.err
      ∧ ((∀ db n, env.db.GetNonce (env.db.SetNonce db caller.Address n) caller.Address = n) →
          env.db.GetNonce (env.db.RevertToSnapshot out.vm.StateDB snap.1) caller.Address
            = env.db.GetNonce bumped caller.Address →
          env.db.GetNonce r.vm.StateDB caller.Address = (nonce + 1) % 2 ^ 64) := by
  intro nonce bumped snap contractAddr db1 db2 frame out r hfail
  have hr : r = ⟨[], contractAddr, 0, out.err,
      { out.vm with StateDB := env.db.RevertToSnapshot out.vm.StateDB snap.1 }⟩ := by
    have h := Create_after_run env body vm caller code gas value hrec hdepth hcan
    simp only at h
    simp only [r, h]
    exact if_pos hfail
  rw [hr]
  refine ⟨rfl, rfl, ?_⟩
  intro hset hrev
  show env.db.GetNonce (env.db.RevertToSnapshot out.vm.StateDB snap.1) caller.Address = _
  rw [hrev]
  exact hset _ _

/-- C36, amended, on the `Create` of the counterexample: the state left is the snapshot
taken after the increment, where the nonce of 7 is 6. -/
theorem create_snapshot_after_nonce_witness :
    (¬ (memEnv.NoRecursion = true ∧ memVM0.depth > 0) ∧ ¬ memVM0.depth > 1024
      ∧ memEnv.CanTransfer memVM0.StateDB (ContractRef.account 7).Address 3 = true)
    ∧ (Create memEnv (constBody [] (some .ErrOutOfGas) 10) memVM0 (.account 7) [] 1000 3
        ).vm.StateDB
      = memOps.RevertToSnapshot
          (memEnv.Transfer
            (memOps.SetNonce
              (memOps.CreateAccount (memOps.Snapshot (memOps.SetNonce memDB0 7 6)).2 8005)
              8005 1)
            7 8005 3)
          (memOps.Snapshot (memOps.SetNonce memDB0 7 6)).1
    ∧ memOps.GetNonce
        (Create memEnv (constBody [] (some .ErrOutOfGas) 10) memVM0 (.account 7) [] 1000 3
          ).vm.StateDB 7 = 6 :=
  have T := create_snapshot_after_nonce memEnv (constBody [] (some .ErrOutOfGas) 10) memVM0
    (.account 7) [] 1000 3 (by decide) (by decide) (by decide) (Or.inr (by decide))
  ⟨⟨by decide, by decide, by decide⟩, T.1,
    T.2.2 (fun db n => by simp [memEnv, memOps, MemDB.get, MemDB.put, ContractRef.Address])
      (by decide)⟩

/-- C37, amended: when `dataset(block)` misses and the future slot holds a dataset `fd` of
the epoch asked for, the current entry is a new, empty dataset of that epoch (not yet
generated, so that `generate` loads or computes it), the slot is cleared and refilled with
a new dataset of the next epoch, and `fd` is neither kept nor released; `cache(block)` in
the same position adopts the future cache `fc` itself, with what it holds. -/
theorem dataset_future_reloaded (orderC : List (Nat × cache) → List (Nat × cache))
    (orderD : List (Nat × dataset) → List (Nat × dataset)) (fuel : Nat) (t : List FsEvent)
    (e : Tilthash) (epoch : Nat) (now : Int) (fc : cache) (fd : dataset)
    (sc : EvictOut cache) (sd : EvictOut dataset)
    (hmc : mapGet e.caches epoch = none) (hmd : mapGet e.datasets epoch = none)
    (hfc : e.fcache = some fc) (hfd : e.fdataset = some fd)
    (hec : fc.epoch = epoch) (hed : fd.epoch = epoch)
    (hsc : evictLoop orderC (fun c => c.epoch) (fun c => c.used) (fun t c => c.release t)
      e.cachesinmem fuel ⟨t, e.caches, []⟩ = some sc)
    (hsd : evictLoop orderD (fun d => d.epoch) (fun d => d.used) (fun t d => d.release t)
      e.dagsinmem fuel ⟨t, e.datasets, []⟩ = some sd) :
    Tilthash.datasetLocked orderD fuel t e epoch now
      = some ⟨sd.trace,
          { e with
            datasets := mapSet sd.entries epoch { epoch := epoch, used := now },
            fdataset := some { epoch := (epoch + 1) % 2 ^ 64 } },
          sd.evicted, { epoch := epoch, used := now },
          some { epoch := (epoch + 1) % 2 ^ 64 }⟩
    ∧ Tilthash.cacheLocked orderC fuel t e epoch now
      = some ⟨sc.trace,
          { e with
            caches := mapSet sc.entries epoch { fc with used := now },
            fcache := some { epoch := (epoch + 1) % 2 ^ 64 } },
          sc.evicted, { fc with used := now },
          some { epoch := (epoch + 1) % 2 ^ 64 }⟩ := by
  constructor
  · simp only [Tilthash.datasetLocked, hmd, hsd, hfd, hed, if_true]
  · simp only [Tilthash.cacheLocked, hmc, hsc, hfc, hec, if_true]

/-- C37, amended, on an engine with empty maps whose future slots hold a cache and a
dataset of the epoch 2: the dataset entry is new and empty, the cache entry is the future
cache. -/
theorem dataset_future_reloaded_witness :
    (mapGet futureEngine.caches 2 = none ∧ mapGet futureEngine.datasets 2 = none)
    ∧ (Tilthash.datasetLocked id 1 [] futureEngine 2 9).map (fun l => l.current)
      = some { epoch := 2, used := 9 }
    ∧ (Tilthash.cacheLocked id 1 [] futureEngine 2 9).map (fun l => l.current)
      = some ⟨2, some 3, some ⟨4096, []⟩, [7, 8], 9, true⟩ :=
  have T := dataset_future_reloaded id id 1 [] futureEngine 2 9
    ⟨2, some 3, some ⟨4096, []⟩, [7, 8], 0, true⟩
    ⟨2, some 5, some ⟨8192, []⟩, [7, 8, 9, 10], 0, true⟩ ⟨[], [], []⟩ ⟨[], [], []⟩
    rfl rfl rfl rfl rfl rfl rfl rfl
  ⟨⟨rfl, rfl⟩, by rw [T.1]; rfl, by rw [T.2]; rfl⟩

/-- C37 fails as stated: on an engine whose future slots hold a generated cache (words
`[7, 8]`) and a generated dataset (words `[7, 8, 9, 10]`) of the epoch 2, `cache(25)`
returns the words of the future cache and makes no call for the epoch 2, while
`dataset(25)` goes to the disk for the dump of the epoch 2, generates the dataset again
and returns the new words; the entry it leaves holds neither the file nor the mapping of
the future dataset. -/
theorem dataset_generated_again :
    (Tilthash.cache demoAlgorithm (readOnlyHost []) id 1 [] futureEngine 25 1 2).map
        (fun o => (o.ret, o.trace, o.tilthash.caches))
      = some ([7, 8],
          [.OpenFile "d/cache-R23-0303030303030303", .MkdirAll "."],
          [(2, ⟨2, some 3, some ⟨4096, []⟩, [7, 8], 2, true⟩)])
    ∧ (Tilthash.dataset demoAlgorithm (readOnlyHost []) id 1 [] futureEngine 25 1 2).map
        (fun o => (o.ret, o.trace, o.tilthash.datasets))
      = some ([4, 5, 6, 7, 8, 9, 10, 11],
          [.OpenFile "d/full-R23-0202020202020202", .MkdirAll ".",
            .OpenFile "d/full-R23-0303030303030303", .MkdirAll "."],
          [(2, ⟨2, none, none, [4, 5, 6, 7, 8, 9, 10, 11], 2, true⟩)]) :=
  ⟨rfl, rfl⟩

/-- C38: for an engine that starts with empty maps and nil future slots, block numbers
that are `uint64` and epochs of two blocks or more: after every call `cache(block)` of
every sequence of calls (`calls ++ [call]`), the future cache is not nil and its epoch is
greater than every key of the map `caches`, which is the epoch of its entry; after any
further calls (`more`) the future cache has the same or a later epoch; and a next call
that hits finds the future cache ahead of the epoch asked for, so that the refresh
condition `fcache.epoch <= epoch` fails, and leaves the slot as it is.  The same holds of
`dataset(block)`, the map `datasets` and the future dataset. -/
theorem future_slot_stays_ahead (A : Algorithm) (H : Host)
    (orderC : List (Nat × cache) → List (Nat × cache))
    (orderD : List (Nat × dataset) → List (Nat × dataset)) (fuel : Nat) (t : List FsEvent)
    (e : Tilthash) (calls : List Lookup) (call : Lookup) (more : List Lookup)
    (hlen : 2 ≤ A.epochLength)
    (hblocks : ∀ c ∈ calls ++ [call] ++ more, c.block < 2 ^ 64)
    (hstart : e.caches = [] ∧ e.fcache = none ∧ e.datasets = [] ∧ e.fdataset = none) :
    (∀ r, Tilthash.cacheCalls A H orderC fuel t e (calls ++ [call]) = some r →
      ∃ f, r.2.fcache = some f
        ∧ (∀ kv ∈ r.2.caches, kv.2.epoch = kv.1 ∧ kv.1 < f.epoch)
        ∧ (∀ r2, Tilthash.cacheCalls A H orderC fuel r.1 r.2 more = some r2 →
            ∃ f2, r2.2.fcache = some f2 ∧ f.epoch ≤ f2.epoch)
        ∧ (∀ block now1 now2 out, block < 2 ^ 64 →
            mapGet r.2.caches (block / A.epochLength) ≠ none →
            Tilthash.cache A H orderC fuel r.1 r.2 block now1 now2 = some out →
            ¬ f.epoch ≤ block / A.epochLength ∧ out.tilthash.fcache = some f))
    ∧ (∀ r, Tilthash.datasetCalls A H orderD fuel t e (calls ++ [call]) = some r →
      ∃ f, r.2.fdataset = some f
        ∧ (∀ kv ∈ r.2.datasets, kv.2.epoch = kv.1 ∧ kv.1 < f.epoch)
        ∧ (∀ r2, Tilthash.datasetCalls A H orderD fuel r.1 r.2 more = some r2 →
            ∃ f2, r2.2.fdataset = some f2 ∧ f.epoch ≤ f2.epoch)
        ∧ (∀ block now1 now2 out, block < 2 ^ 64 →
            mapGet r.2.datasets (block / A.epochLength) ≠ none →
            Tilthash.dataset A H orderD fuel r.1 r.2 block now1 now2 = some out →
            ¬ f.epoch ≤ block / A.epochLength ∧ out.tilthash.fdataset = some f)) := by
  obtain ⟨hc, hfc, hd, hfd⟩ := hstart
  have hb1 : ∀ c ∈ calls ++ [call], c.block / A.epochLength + 1 < 2 ^ 64 :=
    fun c hc => epoch_succ_lt A c.block
      (hblocks c (List.mem_append_left _ hc)) hlen
  have hb2 : ∀ c ∈ more, c.block / A.epochLength + 1 < 2 ^ 64 :=
    fun c hc => epoch_succ_lt A c.block (hblocks c (List.mem_append_right _ hc)) hlen
  have hne : calls ++ [call] ≠ [] := by simp
  constructor
  · intro r hr
    have hkey : ∀ kv ∈ e.caches, kv.2.epoch = kv.1 := by
      rw [hc]
      intro kv hkv
      cases hkv
    have hl : (e.caches.length : Int) ≤ max e.cachesinmem 1 := by
      rw [hc]
      exact le_trans (Int.le_of_lt Int.one_pos) (le_max_right _ _)
    obtain ⟨-, hk, -⟩ := cacheCalls_inv A H orderC fuel _ t e r hkey hl hr
    obtain ⟨hinv, -, hah⟩ := cacheCalls_future A H orderC fuel _ t e r hb1
      (Or.inl ⟨hc, hfc⟩) hr
    obtain ⟨f, hf, hlt⟩ := hah hne
    refine ⟨f, hf, fun kv hkv => ⟨hk kv hkv, hlt kv hkv⟩, ?_, ?_⟩
    · intro r2 hr2
      exact (cacheCalls_future A H orderC fuel more r.1 r.2 r2 hb2 hinv hr2).2.1 f hf
    · intro block now1 now2 out hblock hhit hout
      obtain ⟨f2, hf2, -, -, hsame⟩ := cache_future A H orderC fuel r.1 r.2 block now1 now2
        out (epoch_succ_lt A block hblock hlen) hinv hout
      refine ⟨?_, by rw [hsame hhit, hf]⟩
      cases hg : mapGet r.2.caches (block / A.epochLength) with
      | none => exact absurd hg hhit
      | some c =>
        have := hlt _ (mapGet_mem _ _ _ hg)
        simp only at this
        omega
  · intro r hr
    have hkey : ∀ kv ∈ e.datasets, kv.2.epoch = kv.1 := by
      rw [hd]
      intro kv hkv
      cases hkv
    have hl : (e.datasets.length : Int) ≤ max e.dagsinmem 1 := by
      rw [hd]
      exact le_trans (Int.le_of_lt Int.one_pos) (le_max_right _ _)
    obtain ⟨-, hk, -⟩ := datasetCalls_inv A H orderD fuel _ t e r hkey hl hr
    obtain ⟨hinv, -, hah⟩ := datasetCalls_future A H orderD fuel _ t e r hb1
      (Or.inl ⟨hd, hfd⟩) hr
    obtain ⟨f, hf, hlt⟩ := hah hne
    refine ⟨f, hf, fun kv hkv => ⟨hk kv hkv, hlt kv hkv⟩, ?_, ?_⟩
    · intro r2 hr2
      exact (datasetCalls_future A H orderD fuel more r.1 r.2 r2 hb2 hinv hr2).2.1 f hf
    · intro block now1 now2 out hblock hhit hout
      obtain ⟨f2, hf2, -, -, hsame⟩ := dataset_future A H orderD fuel r.1 r.2 block now1
        now2 out (epoch_succ_lt A block hblock hlen) hinv hout
      refine ⟨?_, by rw [hsame hhit, hf]⟩
      cases hg : mapGet r.2.datasets (block / A.epochLength) with
      | none => exact absurd hg hhit
      | some c =>
        have := hlt _ (mapGet_mem _ _ _ hg)
        simp only at this
        omega

/-- C38 on the engine made by `NewTester`, asked for the blocks 5 and 15 in epochs of ten
blocks: the calls return and leave a future cache ahead of every key of the map; after
the first call the map has the key 0 and the future cache is of the epoch 1. -/
theorem future_slot_stays_ahead_witness :
    (2 ≤ demoAlgorithm.epochLength
      ∧ (∀ c ∈ [(⟨5, 1, 2⟩ : Lookup)] ++ [⟨15, 3, 4⟩] ++ [⟨25, 5, 6⟩], c.block < 2 ^ 64)
      ∧ (NewTester.caches = [] ∧ NewTester.fcache = none ∧ NewTester.datasets = []
          ∧ NewTester.fdataset = none))
    ∧ (∃ r, Tilthash.cacheCalls demoAlgorithm diskHost id 1 [] NewTester
          ([⟨5, 1, 2⟩] ++ [⟨15, 3, 4⟩]) = some r
        ∧ ∃ f, r.2.fcache = some f
          ∧ ∀ kv ∈ r.2.caches, kv.2.epoch = kv.1 ∧ kv.1 < f.epoch)
    ∧ (Tilthash.cacheCalls demoAlgorithm diskHost id 1 [] NewTester [⟨5, 1, 2⟩]).map
        (fun r => (r.2.caches.map Prod.fst, r.2.fcache.map fun f => f.epoch))
      = some ([0], some 1) := by
  have hb : ∀ c ∈ [(⟨5, 1, 2⟩ : Lookup)] ++ [⟨15, 3, 4⟩] ++ [⟨25, 5, 6⟩],
      c.block < 2 ^ 64 := by
    decide
  have T := future_slot_stays_ahead demoAlgorithm diskHost id id 1 [] NewTester
    [⟨5, 1, 2⟩] ⟨15, 3, 4⟩ [⟨25, 5, 6⟩] (by decide) hb ⟨rfl, rfl, rfl, rfl⟩
  obtain ⟨r, hr⟩ := cacheCalls_total demoAlgorithm diskHost id 1
    ([⟨5, 1, 2⟩] ++ [⟨15, 3, 4⟩]) [] NewTester (fun m => List.Perm.refl m)
    (fun kv hkv => by cases hkv) (by decide) (by decide) (Or.inl rfl)
  obtain ⟨f, hf, hk, -⟩ := T.1 r hr
  exact ⟨⟨by decide, hb, rfl, rfl, rfl, rfl⟩, ⟨r, hr, f, hf, hk⟩, rfl⟩

/-- C39: on a stack that holds their operands, `opCall`, `opCallCode` and
`opDelegateCall` return `(nil, nil)` whatever the sub-call returns: with `r` the result of
`Call`, `CallCode` or `DelegateCall` on the popped operands, they push 0 when `r.err` is
an error and 1 when it is nil, leave the memory as it is in the first case and write
`r.ret` at the return offset in the second, and in both cases add `r.leftOverGas` to the
gas of the calling frame (`uint64` addition). -/
theorem call_opcodes_absorb_failure {σ μ : Type} (env : Env σ) (mem : MemoryOps μ)
    (body : RunBody σ) (vm : TiltVM σ) (contract : Contract) (memory : μ)
    (gas addr value inOffset inSize retOffset retSize : Int) (rest : List Int) :
    (let g := if (U256 value).sign ≠ 0 then (Uint64 gas + env.CallStipend) % 2 ^ 64
        else Uint64 gas
     let r := Call env body vm (.contract contract) (BigToAddress addr)
        (mem.Get memory (Int64 inOffset) (Int64 inSize)) g (U256 value)
     opCall env mem body vm contract memory
          ⟨gas :: addr :: value :: inOffset :: inSize :: retOffset :: retSize :: rest⟩
        = some ⟨⟨(if r.err = none then 1 else 0) :: rest⟩,
            if r.err = none then mem.Set memory (Uint64 retOffset) (Uint64 retSize) r.ret
              else memory,
            { contract with Gas := (contract.Gas + r.leftOverGas) % 2 ^ 64 }, r.vm⟩)
    ∧ (let g := if (U256 value).sign ≠ 0 then (Uint64 gas + env.CallStipend) % 2 ^ 64
        else Uint64 gas
       let r := CallCode env body vm (.contract contract) (BigToAddress addr)
        (mem.Get memory (Int64 inOffset) (Int64 inSize)) g (U256 value)
       opCallCode env mem body vm contract memory
          ⟨gas :: addr :: value :: inOffset :: inSize :: retOffset :: retSize :: rest⟩
        = some ⟨⟨(if r.err = none then 1 else 0) :: rest⟩,
            if r.err = none then mem.Set memory (Uint64 retOffset) (Uint64 retSize) r.ret
              else memory,
            { contract with Gas := (contract.Gas + r.leftOverGas) % 2 ^ 64 }, r.vm⟩)
    ∧ (∃ r, DelegateCall env body vm (.contract contract) (BigToAddress addr)
          (mem.Get memory (Int64 inOffset) (Int64 inSize)) (Uint64 gas) = some r
        ∧ opDelegateCall env mem body vm contract memory
            ⟨gas :: addr :: inOffset :: inSize :: retOffset :: retSize :: rest⟩
          = some ⟨⟨(if r.err = none then 1 else 0) :: rest⟩,
              if r.err = none then mem.Set memory (Uint64 retOffset) (Uint64 retSize) r.ret
                else memory,
              { contract with Gas := (contract.Gas + r.leftOverGas) % 2 ^ 64 }, r.vm⟩) := by
  refine ⟨?_, ?_, ?_⟩
  · intro g r
    simp only [opCall, Stack.pop, Stack.push, Option.bind_eq_bind, Option.some_bind,
      Option.pure_def]
    by_cases h : r.err = none
    · have h2 : (Call env body vm (.contract contract) (BigToAddress addr)
          (mem.Get memory (Int64 inOffset) (Int64 inSize)) g (U256 value)).err = none := h
      simp only [g] at h2
      simp only [r, g, h2, ne_eq, not_true_eq_false, if_false, if_true]
    · have h2 : ¬ (Call env body vm (.contract contract) (BigToAddress addr)
          (mem.Get memory (Int64 inOffset) (Int64 inSize)) g (U256 value)).err = none := h
      simp only [g] at h2
      simp only [r, g, h2, ne_eq, not_false_eq_true, if_false, if_true]
  · intro g r
    simp only [opCallCode, Stack.pop, Stack.push, Option.bind_eq_bind, Option.some_bind,
      Option.pure_def]
    by_cases h : r.err = none
    · have h2 : (CallCode env body vm (.contract contract) (BigToAddress addr)
          (mem.Get memory (Int64 inOffset) (Int64 inSize)) g (U256 value)).err = none := h
      simp only [g] at h2
      simp only [r, g, h2, ne_eq, not_true_eq_false, if_false, if_true]
    · have h2 : ¬ (CallCode env body vm (.contract contract) (BigToAddress addr)
          (mem.Get memory (Int64 inOffset) (Int64 inSize)) g (U256 value)).err = none := h
      simp only [g] at h2
      simp only [r, g, h2, ne_eq, not_false_eq_true, if_false, if_true]
  · obtain ⟨r, hr⟩ := DelegateCall_frame env body vm contract (BigToAddress addr)
      (mem.Get memory (Int64 inOffset) (Int64 inSize)) (Uint64 gas)
    refine ⟨r, hr, ?_⟩
    simp only [opDelegateCall, Stack.pop, Stack.push, Option.bind_eq_bind, Option.some_bind,
      Option.pure_def, hr]
    by_cases h : r.err = none
    · simp only [h, ne_eq, not_true_eq_false, if_false, if_true]
    · simp only [h, ne_eq, not_false_eq_true, if_false, if_true]

/-- C40: for every block number `b` (a `uint64`) and an epoch length of two or more,
`MakeCache(b, dir)` and `MakeDataset(b, dir)` run `generate`
and `release` on a cache and a dataset of the epoch `b / epochLength + 1`: where they
return, the first call they make opens the dump of that epoch (`MakeCache` for a
directory, `MakeDataset` always).  `Tilthash.cache(b)` and `Tilthash.dataset(b)` leave
under the key `b / epochLength` an entry of the epoch `b / epochLength`, one epoch
earlier, and return its words. -/
theorem make_generates_next_epoch (A : Algorithm) (H : Host) (t : List FsEvent)
    (block : Nat) (dir : String) (hb : block < 2 ^ 64) (hlen : 2 ≤ A.epochLength) :
    (MakeCache A H t block dir
        = (cache.generate A H t { epoch := block / A.epochLength + 1 } dir
            (2 ^ 31 - 1) false).map fun g => (g.2.release g.1).1)
    ∧ (MakeDataset A H t block dir
        = (dataset.generate A H t { epoch := block / A.epochLength + 1 } dir
            (2 ^ 31 - 1) false).map fun g => (g.2.release g.1).1)
    ∧ (dir ≠ "" → ∀ t2, MakeCache A H t block dir = some t2 →
        ∃ evs, t2 = t ++ FsEvent.OpenFile
          (dumpPath A H "cache" dir (block / A.epochLength + 1)) :: evs)
    ∧ (∀ t2, MakeDataset A H t block dir = some t2 →
        ∃ evs, t2 = t ++ FsEvent.OpenFile
          (dumpPath A H "full" dir (block / A.epochLength + 1)) :: evs)
    ∧ (∀ order fuel (e : Tilthash) now1 now2 out,
        (∀ kv ∈ e.caches, kv.2.epoch = kv.1) →
        Tilthash.cache A H order fuel t e block now1 now2 = some out →
        ∃ c, mapGet out.tilthash.caches (block / A.epochLength) = some c
          ∧ c.epoch = block / A.epochLength ∧ out.ret = c.cache)
    ∧ (∀ order fuel (e : Tilthash) now1 now2 out,
        (∀ kv ∈ e.datasets, kv.2.epoch = kv.1) →
        Tilthash.dataset A H order fuel t e block now1 now2 = some out →
        ∃ d, mapGet out.tilthash.datasets (block / A.epochLength) = some d
          ∧ d.epoch = block / A.epochLength ∧ out.ret = d.dataset) := by
  have hm : (block / A.epochLength + 1) % 2 ^ 64 = block / A.epochLength + 1 := by
    have h2 : block / A.epochLength ≤ block / 2 := Nat.div_le_div_left hlen (by decide)
    exact Nat.mod_eq_of_lt (by omega)
  have hc : MakeCache A H t block dir
      = (cache.generate A H t { epoch := block / A.epochLength + 1 } dir
          (2 ^ 31 - 1) false).map fun g => (g.2.release g.1).1 := by
    unfold MakeCache
    simp only [hm]
    cases cache.generate A H t { epoch := block / A.epochLength + 1 } dir (2 ^ 31 - 1) false
      <;> rfl
  have hd : MakeDataset A H t block dir
      = (dataset.generate A H t { epoch := block / A.epochLength + 1 } dir
          (2 ^ 31 - 1) false).map fun g => (g.2.release g.1).1 := by
    unfold MakeDataset
    simp only [hm]
    cases dataset.generate A H t { epoch := block / A.epochLength + 1 } dir (2 ^ 31 - 1)
      false <;> rfl
  refine ⟨hc, hd, ?_, ?_, ?_, ?_⟩
  · intro hdir t2 h
    rw [hc] at h
    cases hg : cache.generate A H t { epoch := block / A.epochLength + 1 } dir
        (2 ^ 31 - 1) false with
    | none => rw [hg] at h; cases h
    | some g =>
      rw [hg] at h
      simp only [Option.map_some', Option.some.injEq] at h
      obtain ⟨evs, he⟩ := (cache_generate_opens A H t _ dir _ false g hg).2 rfl rfl hdir
      rw [← h, cache_release_eq, he]
      exact ⟨_, by simp only [List.append_assoc, List.cons_append]; rfl⟩
  · intro t2 h
    rw [hd] at h
    cases hg : dataset.generate A H t { epoch := block / A.epochLength + 1 } dir
        (2 ^ 31 - 1) false with
    | none => rw [hg] at h; cases h
    | some g =>
      rw [hg] at h
      simp only [Option.map_some', Option.some.injEq] at h
      obtain ⟨evs, he⟩ := (dataset_generate_opens A H t _ dir _ false g hg).2 rfl rfl
      rw [← h, dataset_release_eq, he]
      exact ⟨_, by simp only [List.append_assoc, List.cons_append]; rfl⟩
  · intro order fuel e now1 now2 out hkey h
    exact cache_entry A H order fuel t e block now1 now2 out hkey h
  · intro order fuel e now1 now2 out hkey h
    exact dataset_entry A H order fuel t e block now1 now2 out hkey h

/-- C40 for the block 25 with epochs of ten blocks, in the directory `d` of a disk that is
empty and cannot be written: `MakeCache` and `MakeDataset` look for the dumps of the
epoch 3, and the engine made by `NewTester` keeps a cache of the epoch 2 for the block. -/
theorem make_generates_next_epoch_witness :
    (25 < 2 ^ 64 ∧ 2 ≤ demoAlgorithm.epochLength)
    ∧ MakeCache demoAlgorithm (readOnlyHost []) [] 25 "d"
      = some [.OpenFile "d/cache-R23-0303030303030303", .MkdirAll "."]
    ∧ MakeDataset demoAlgorithm (readOnlyHost []) [] 25 "d"
      = some [.OpenFile "d/full-R23-0303030303030303", .MkdirAll "."]
    ∧ (∃ out, Tilthash.cache demoAlgorithm (readOnlyHost []) id 1 [] NewTester 25 1 2
          = some out
        ∧ ∃ c, mapGet out.tilthash.caches 2 = some c ∧ c.epoch = 2 ∧ out.ret = c.cache) :=
  have T := make_generates_next_epoch demoAlgorithm (readOnlyHost []) [] 25 "d"
    (by decide) (by decide)
  ⟨⟨by decide, by decide⟩, T.1.trans rfl, T.2.1.trans rfl,
    _, rfl, T.2.2.2.2.1 id 1 NewTester 1 2 _ (fun _ hkv => by cases hkv) rfl⟩

end GoTilt
